import Mathlib

/-! # OSRA: verification of the graph-reconstruction core (`src/src/osra.cpp`)

Shallow embedding of the functions of `osra.cpp` that the specification makes
claims about, followed by the theorems that settle those claims.

Modelling conventions

* `std::vector<T>` is a `List T`.  A read `v[i]` is `nth v i`, which yields the
  default element when `i` is out of range (the C++ read is undefined there); a
  write `v[i].f = e` is `modify v i ...`, which leaves the list alone when `i`
  is out of range.
* `double` is an arbitrary linearly ordered field `K`; `sqrt` of `<math.h>` is a
  parameter `sqrt : K → K`.  Theorems state what they need of `sqrt`.  The
  definitions are executable at `K = ℚ` with `qsqrt`.
* A `for` loop over a fixed index range is a `List.foldl` over `List.range`; a
  loop with `break` is a recursive function over the list of remaining indices;
  a `while` loop whose trip count depends on the data takes a fuel argument.
* The field `exists` of `atom_t` / `bond_t` is spelled `exists_`.
* Constants of `osra.h` (`MAX_ATOMS`, `D_T_TOLERANCE`, `MAX_BOND_THICKNESS`,
  `FLT_MAX`) are parameters.
-/

set_option autoImplicit false

namespace Osra

/-! ## Vectors -/

/-- Read `v[i]`; the default element stands for an out-of-range read. -/
def nth {α : Type} [Inhabited α] (v : List α) (i : Nat) : α :=
  (v[i]?).getD default

/-- Write `v[i] = f (v[i])`; no effect when `i` is out of range. -/
def modify {α : Type} [Inhabited α] (v : List α) (i : Nat) (f : α → α) : List α :=
  v.set i (f (nth v i))

/-- Newton iteration for the integer square root of `n`, at most `fuel` steps. -/
def isqrt_iter (n : Nat) : Nat → Nat → Nat
  | 0, x => x
  | fuel + 1, x => if (x + n / x) / 2 < x then isqrt_iter n fuel ((x + n / x) / 2) else x

/-- Integer square root (rounded down). -/
def isqrt (n : Nat) : Nat := if n ≤ 1 then n else isqrt_iter n n n

/-- Square root on `ℚ`, exact on squares of rationals (used to run the
definitions on concrete inputs). -/
def qsqrt (q : ℚ) : ℚ := (isqrt q.num.toNat : ℚ) / (isqrt q.den : ℚ)

/-! ## Data model (`osra.h`, fields as used by `osra.cpp`) -/

/-- The type `atom_t`: the `curve` pointer is an opaque identifier. -/
structure Atom (K : Type) where
  x : K
  y : K
  label : String
  n : Int
  anum : Int
  curve : Nat
  exists_ : Bool
  corner : Bool
  terminal : Bool
  charge : Int
deriving DecidableEq

/-- The type `bond_t`. -/
structure Bond where
  a : Nat
  b : Nat
  type : Int
  curve : Nat
  exists_ : Bool
  hash : Bool
  wedge : Bool
  up : Bool
  down : Bool
  Small : Bool
  arom : Bool
  conjoined : Bool
deriving DecidableEq

instance {K : Type} [Zero K] : Inhabited (Atom K) :=
  ⟨⟨0, 0, "", 0, 0, 0, false, false, false, 0⟩⟩

instance : Inhabited Bond :=
  ⟨⟨0, 0, 0, 0, false, false, false, false, false, false, false, false⟩⟩

/-! ## Assignments to single fields -/

/-- The assignment `atom[i].exists = false`. -/
def delete_atom {K : Type} [Zero K] (atom : List (Atom K)) (i : Nat) : List (Atom K) :=
  modify atom i (fun a => { a with exists_ := false })

/-- The assignment `atom[i].x = v`. -/
def set_x {K : Type} [Zero K] (atom : List (Atom K)) (i : Nat) (v : K) : List (Atom K) :=
  modify atom i (fun a => { a with x := v })

/-- The assignment `atom[i].y = v`. -/
def set_y {K : Type} [Zero K] (atom : List (Atom K)) (i : Nat) (v : K) : List (Atom K) :=
  modify atom i (fun a => { a with y := v })

/-- The assignment `atom[i].label = l`. -/
def set_label {K : Type} [Zero K] (atom : List (Atom K)) (i : Nat) (l : String) :
    List (Atom K) :=
  modify atom i (fun a => { a with label := l })

/-- The two assignments `atom[i].x = (atom[i].x + atom[j].x) / 2;
atom[i].y = (atom[i].y + atom[j].y) / 2;`. -/
def average_into {K : Type} [LinearOrderedField K] (atom : List (Atom K)) (i j : Nat) :
    List (Atom K) :=
  set_y (set_x atom i (((nth atom i).x + (nth atom j).x) / 2)) i
    (((nth (set_x atom i (((nth atom i).x + (nth atom j).x) / 2)) i).y +
      (nth (set_x atom i (((nth atom i).x + (nth atom j).x) / 2)) j).y) / 2)

/-! ## `remove_zero_bonds` and `collapse_doubleup_bonds` (osra.cpp 225-252) -/

/-- The test `(bond[i].a == bond[j].a && bond[i].b == bond[j].b) ||
(bond[i].a == bond[j].b && bond[i].b == bond[j].a)`. -/
def same_ends (bi bj : Bond) : Prop :=
  (bi.a = bj.a ∧ bi.b = bj.b) ∨ (bi.a = bj.b ∧ bi.b = bj.a)

instance (bi bj : Bond) : Decidable (same_ends bi bj) := by
  unfold same_ends; infer_instance

/-- The assignment `bond[i].exists = false`. -/
def delete_bond (bond : List Bond) (i : Nat) : List Bond :=
  modify bond i (fun b => { b with exists_ := false })

/-- Body of the inner `j` loop of `remove_zero_bonds`. -/
def rzb_inner (i : Nat) (bond : List Bond) (j : Nat) : List Bond :=
  if (nth bond j).exists_ = true ∧ j ≠ i ∧ same_ends (nth bond i) (nth bond j) then
    delete_bond bond j
  else bond

/-- The last statement of the body of `remove_zero_bonds`:
`if (!atom[bond[i].a].exists || !atom[bond[i].b].exists) bond[i].exists = false`. -/
def rzb_atoms {K : Type} [Zero K] (atom : List (Atom K)) (bond : List Bond) (i : Nat) :
    List Bond :=
  if (nth atom (nth bond i).a).exists_ = false ∨ (nth atom (nth bond i).b).exists_ = false then
    delete_bond bond i
  else bond

/-- The statement `if (bond[i].a == bond[i].b) bond[i].exists = false`. -/
def rzb_loop_bond (bond : List Bond) (i : Nat) : List Bond :=
  if (nth bond i).a = (nth bond i).b then delete_bond bond i else bond

/-- Body of the outer `i` loop of `remove_zero_bonds`. -/
def rzb_outer {K : Type} [Zero K] (n_bond : Nat) (atom : List (Atom K))
    (bond : List Bond) (i : Nat) : List Bond :=
  if (nth bond i).exists_ = true then
    rzb_atoms atom (rzb_loop_bond ((List.range n_bond).foldl (rzb_inner i) bond) i) i
  else bond

/-- `remove_zero_bonds(bond, n_bond, atom)`: returns the bond vector afterwards. -/
def remove_zero_bonds {K : Type} [Zero K] (bond : List Bond) (n_bond : Nat)
    (atom : List (Atom K)) : List Bond :=
  (List.range n_bond).foldl (rzb_outer n_bond atom) bond

/-- The assignment `bond[i].type++`. -/
def bump_type (bond : List Bond) (i : Nat) : List Bond :=
  modify bond i (fun b => { b with type := b.type + 1 })

/-- Body of the inner `j` loop of `collapse_doubleup_bonds`. -/
def cdb_inner (i : Nat) (bond : List Bond) (j : Nat) : List Bond :=
  if (nth bond j).exists_ = true ∧ j ≠ i ∧ same_ends (nth bond i) (nth bond j) then
    bump_type (delete_bond bond j) i
  else bond

/-- Body of the outer `i` loop of `collapse_doubleup_bonds`. -/
def cdb_outer (n_bond : Nat) (bond : List Bond) (i : Nat) : List Bond :=
  if (nth bond i).exists_ = true then (List.range n_bond).foldl (cdb_inner i) bond else bond

/-- `collapse_doubleup_bonds(bond, n_bond)`: returns the bond vector afterwards. -/
def collapse_doubleup_bonds (bond : List Bond) (n_bond : Nat) : List Bond :=
  (List.range n_bond).foldl (cdb_outer n_bond) bond

/-- The bond vector `b2` differs from `b1` at most by bonds deleted (`exists`
set to false) and by bond orders: endpoints are the same. -/
def shrinks (b2 b1 : List Bond) : Prop :=
  ∀ k, (nth b2 k).a = (nth b1 k).a ∧ (nth b2 k).b = (nth b1 k).b ∧
    ((nth b2 k).exists_ = true → (nth b1 k).exists_ = true)

/-! ## `find_fragments` (osra.cpp 4174-4234) -/

/-- The test of line 4181: bond `i` exists and so do both of its endpoint atoms. -/
def surviving {K : Type} [Zero K] (bond : List Bond) (atom : List (Atom K)) (i : Nat) : Prop :=
  (nth bond i).exists_ = true ∧ (nth atom (nth bond i).a).exists_ = true ∧
    (nth atom (nth bond i).b).exists_ = true

instance {K : Type} [Zero K] (bond : List Bond) (atom : List (Atom K)) (i : Nat) :
    Decidable (surviving bond atom i) := by
  unfold surviving; infer_instance

/-- The `k` loop of lines 4201-4207: `(found_a, found_b)` for endpoints `a`, `b`
against the atoms collected in `frag` (note the `else if`). -/
def found_flags (frag : List Nat) (a b : Nat) : Bool × Bool :=
  frag.foldl
    (fun fl v => if v = a then (true, fl.2) else if v = b then (fl.1, true) else fl)
    (false, false)

/-- One pass `i = 0; while (i < pool.size()) ...` (lines 4195-4229) over the
part of the pool not yet visited: returns the fragment, the bonds left in the
pool and whether `found` was set.  `pool.erase(pool.begin() + i)` drops the
bond and stays at the same position, `i++` keeps it. -/
def scan (bond : List Bond) : List Nat → List Nat → List Nat × List Nat × Bool
  | frag, [] => (frag, [], false)
  | frag, p :: rest =>
    if (found_flags frag (nth bond p).a (nth bond p).b).1 = true ∧
        (found_flags frag (nth bond p).a (nth bond p).b).2 = false then
      ((scan bond (frag ++ [(nth bond p).b]) rest).1,
        (scan bond (frag ++ [(nth bond p).b]) rest).2.1, true)
    else if (found_flags frag (nth bond p).a (nth bond p).b).1 = false ∧
        (found_flags frag (nth bond p).a (nth bond p).b).2 = true then
      ((scan bond (frag ++ [(nth bond p).a]) rest).1,
        (scan bond (frag ++ [(nth bond p).a]) rest).2.1, true)
    else if (found_flags frag (nth bond p).a (nth bond p).b).1 = true ∧
        (found_flags frag (nth bond p).a (nth bond p).b).2 = true then
      scan bond frag rest
    else
      ((scan bond frag rest).1, p :: (scan bond frag rest).2.1, (scan bond frag rest).2.2)

/-- The loop `while (found)` of lines 4192-4230; `none` when the fuel runs out. -/
def grow (bond : List Bond) : Nat → List Nat → List Nat → Option (List Nat × List Nat)
  | 0, _, _ => none
  | fuel + 1, frag, pool =>
    if (scan bond frag pool).2.2 = true then
      grow bond fuel (scan bond frag pool).1 (scan bond frag pool).2.1
    else some ((scan bond frag pool).1, (scan bond frag pool).2.1)

/-- The loop `while (!pool.empty())` of lines 4184-4232; `none` when the fuel
runs out.  The seed is `pool.back()`, removed by `pool.pop_back()`. -/
def frag_loop (bond : List Bond) : Nat → List Nat → List (List Nat) → Option (List (List Nat))
  | 0, pool, frags => if pool = [] then some frags else none
  | fuel + 1, pool, frags =>
    match pool.getLast? with
    | none => some frags
    | some p =>
      match grow bond pool.length [(nth bond p).a, (nth bond p).b] pool.dropLast with
      | none => none
      | some r => frag_loop bond fuel r.2 (frags ++ [r.1])

/-- `find_fragments(bond, n_bond, atom)`.  The fuel is the size of the pool:
every round of the outer loop removes the seed bond from it. -/
def find_fragments {K : Type} [Zero K] (bond : List Bond) (n_bond : Nat)
    (atom : List (Atom K)) : Option (List (List Nat)) :=
  frag_loop bond ((List.range n_bond).filter (fun i => surviving bond atom i)).length
    ((List.range n_bond).filter (fun i => surviving bond atom i)) []

/-- Atoms `u` and `v` are the two endpoints of a surviving bond below `n_bond`. -/
def joined {K : Type} [Zero K] (bond : List Bond) (n_bond : Nat) (atom : List (Atom K))
    (u v : Nat) : Prop :=
  ∃ k, k < n_bond ∧ surviving bond atom k ∧
    (((nth bond k).a = u ∧ (nth bond k).b = v) ∨ ((nth bond k).a = v ∧ (nth bond k).b = u))

/-- Atoms `u` and `v` are the two endpoints of a bond of the list `pool`. -/
def adj (bond : List Bond) (pool : List Nat) (u v : Nat) : Prop :=
  ∃ k, k ∈ pool ∧
    (((nth bond k).a = u ∧ (nth bond k).b = v) ∨ ((nth bond k).a = v ∧ (nth bond k).b = u))

/-! ## Geometric kernel (osra.cpp 186-205, 312-400) -/

/-- `distance(x1, y1, x2, y2)`. -/
def distance {K : Type} [LinearOrderedField K] (sqrt : K → K) (x1 y1 x2 y2 : K) : K :=
  sqrt ((x1 - x2) * (x1 - x2) + (y1 - y2) * (y1 - y2))

/-- `atom_distance(atom, a, b)`. -/
def atom_distance {K : Type} [LinearOrderedField K] (sqrt : K → K) (atom : List (Atom K))
    (a b : Nat) : K :=
  distance sqrt (nth atom a).x (nth atom a).y (nth atom b).x (nth atom b).y

/-- `angle4(x1, y1, x2, y2, x3, y3, x4, y4)`: the cosine of the angle. -/
def angle4 {K : Type} [LinearOrderedField K] (sqrt : K → K)
    (x1 y1 x2 y2 x3 y3 x4 y4 : K) : K :=
  ((x1 - x2) * (x3 - x4) + (y1 - y2) * (y3 - y4)) /
    (distance sqrt x1 y1 x2 y2 * distance sqrt x4 y4 x3 y3)

/-- `angle_between_bonds(bond, i, j, atom)`. -/
def angle_between_bonds {K : Type} [LinearOrderedField K] (sqrt : K → K) (bond : List Bond)
    (i j : Nat) (atom : List (Atom K)) : K :=
  angle4 sqrt (nth atom (nth bond i).a).x (nth atom (nth bond i).a).y
    (nth atom (nth bond i).b).x (nth atom (nth bond i).b).y
    (nth atom (nth bond j).a).x (nth atom (nth bond j).a).y
    (nth atom (nth bond j).b).x (nth atom (nth bond j).b).y

/-- `bond_length(bond, i, atom)`. -/
def bond_length {K : Type} [LinearOrderedField K] (sqrt : K → K) (bond : List Bond)
    (i : Nat) (atom : List (Atom K)) : K :=
  distance sqrt (nth atom (nth bond i).a).x (nth atom (nth bond i).a).y
    (nth atom (nth bond i).b).x (nth atom (nth bond i).b).y

/-- `distance_from_bond_y(x0, y0, x1, y1, x, y)`: signed offset of `(x, y)` from
the line through `(x0, y0)` and `(x1, y1)`. -/
def distance_from_bond_y {K : Type} [LinearOrderedField K] (sqrt : K → K)
    (x0 y0 x1 y1 x y : K) : K :=
  -(x - x0) * (-(y1 - y0) / distance sqrt x0 y0 x1 y1) -
    (y - y0) * ((x1 - x0) / distance sqrt x0 y0 x1 y1)

/-- `distance_from_bond_x_a(x0, y0, x1, y1, x, y)`: position of the projection of
`(x, y)` along the bond, measured from `(x0, y0)`. -/
def distance_from_bond_x_a {K : Type} [LinearOrderedField K] (sqrt : K → K)
    (x0 y0 x1 y1 x y : K) : K :=
  (x - x0) * ((x1 - x0) / distance sqrt x0 y0 x1 y1) -
    (y - y0) * (-(y1 - y0) / distance sqrt x0 y0 x1 y1)

/-- `distance_from_bond_x_b(x0, y0, x1, y1, x, y)`: the same, measured from
`(x1, y1)`. -/
def distance_from_bond_x_b {K : Type} [LinearOrderedField K] (sqrt : K → K)
    (x0 y0 x1 y1 x y : K) : K :=
  (x - x0) * ((x1 - x0) / distance sqrt x0 y0 x1 y1) -
    (y - y0) * (-(y1 - y0) / distance sqrt x0 y0 x1 y1) - distance sqrt x0 y0 x1 y1

/-- `distance_between_bonds(bond, i, j, atom)`: the larger offset of the two ends
of bond `j` from the line of bond `i`, or `FLT_MAX` when the offsets differ by
4 or more. -/
def distance_between_bonds {K : Type} [LinearOrderedField K] (sqrt : K → K) (FLT_MAX : K)
    (bond : List Bond) (i j : Nat) (atom : List (Atom K)) : K :=
  if |distance_from_bond_y sqrt (nth atom (nth bond i).a).x (nth atom (nth bond i).a).y
        (nth atom (nth bond i).b).x (nth atom (nth bond i).b).y
        (nth atom (nth bond j).a).x (nth atom (nth bond j).a).y -
      distance_from_bond_y sqrt (nth atom (nth bond i).a).x (nth atom (nth bond i).a).y
        (nth atom (nth bond i).b).x (nth atom (nth bond i).b).y
        (nth atom (nth bond j).b).x (nth atom (nth bond j).b).y| ≥ 4 then FLT_MAX
  else
    max |distance_from_bond_y sqrt (nth atom (nth bond i).a).x (nth atom (nth bond i).a).y
        (nth atom (nth bond i).b).x (nth atom (nth bond i).b).y
        (nth atom (nth bond j).a).x (nth atom (nth bond j).a).y|
      |distance_from_bond_y sqrt (nth atom (nth bond i).a).x (nth atom (nth bond i).a).y
        (nth atom (nth bond i).b).x (nth atom (nth bond i).b).y
        (nth atom (nth bond j).b).x (nth atom (nth bond j).b).y|

/-- The test at the end of `bonds_within_each_other` with `i` the reference
bond and `j` the other one: the midpoint of `j` projects inside the span of `i`. -/
def midpoint_within {K : Type} [LinearOrderedField K] (sqrt : K → K) (bond : List Bond)
    (i j : Nat) (atom : List (Atom K)) : Prop :=
  (distance_from_bond_x_a sqrt (nth atom (nth bond i).a).x (nth atom (nth bond i).a).y
      (nth atom (nth bond i).b).x (nth atom (nth bond i).b).y
      (nth atom (nth bond j).a).x (nth atom (nth bond j).a).y +
    distance_from_bond_x_a sqrt (nth atom (nth bond i).a).x (nth atom (nth bond i).a).y
      (nth atom (nth bond i).b).x (nth atom (nth bond i).b).y
      (nth atom (nth bond j).b).x (nth atom (nth bond j).b).y) / 2 > 0 ∧
  (distance_from_bond_x_a sqrt (nth atom (nth bond i).a).x (nth atom (nth bond i).a).y
      (nth atom (nth bond i).b).x (nth atom (nth bond i).b).y
      (nth atom (nth bond j).a).x (nth atom (nth bond j).a).y +
    distance_from_bond_x_a sqrt (nth atom (nth bond i).a).x (nth atom (nth bond i).a).y
      (nth atom (nth bond i).b).x (nth atom (nth bond i).b).y
      (nth atom (nth bond j).b).x (nth atom (nth bond j).b).y) / 2 < bond_length sqrt bond i atom

instance {K : Type} [LinearOrderedField K] (sqrt : K → K) (bond : List Bond)
    (i j : Nat) (atom : List (Atom K)) : Decidable (midpoint_within sqrt bond i j atom) := by
  unfold midpoint_within; infer_instance

/-- `bonds_within_each_other(bond, ii, jj, atom)`: the longer bond (`jj` on a
tie) is the reference. -/
def bonds_within_each_other {K : Type} [LinearOrderedField K] (sqrt : K → K)
    (bond : List Bond) (ii jj : Nat) (atom : List (Atom K)) : Prop :=
  if bond_length sqrt bond ii atom > bond_length sqrt bond jj atom then
    midpoint_within sqrt bond ii jj atom
  else midpoint_within sqrt bond jj ii atom

instance {K : Type} [LinearOrderedField K] (sqrt : K → K) (bond : List Bond)
    (ii jj : Nat) (atom : List (Atom K)) :
    Decidable (bonds_within_each_other sqrt bond ii jj atom) := by
  unfold bonds_within_each_other; infer_instance

/-! ## `skeletize` (osra.cpp 525-661) -/

/-- The four assignments `atom[p].x = (atom[p].x + atom[q].x) / 2; atom[p].y = ...;
atom[q].x = (atom[p].x + atom[q].x) / 2; atom[q].y = ...` that pull two atoms
together. -/
def pull_together {K : Type} [LinearOrderedField K] (atom : List (Atom K)) (p q : Nat) :
    List (Atom K) :=
  let a1 := set_x atom p (((nth atom p).x + (nth atom q).x) / 2)
  let a2 := set_y a1 p (((nth a1 p).y + (nth a1 q).y) / 2)
  let a3 := set_x a2 q (((nth a2 p).x + (nth a2 q).x) / 2)
  set_y a3 q (((nth a3 p).y + (nth a3 q).y) / 2)

/-- The assignment `bond[i].type = t`. -/
def set_type (bond : List Bond) (i : Nat) (t : Int) : List Bond :=
  modify bond i (fun b => { b with type := t })

/-- The statement `if (bond[from].arom) bond[to].arom = true`. -/
def copy_arom (bond : List Bond) (src dst : Nat) : List Bond :=
  if (nth bond src).arom = true then modify bond dst (fun b => { b with arom := true })
  else bond

/-- Lines 549-552 (with `drop = i`, `keep = j`) and 602-605 (with `drop = j`,
`keep = i`): `bond[drop].exists = false; bond[keep].type = 1;
if (bond[drop].arom) bond[keep].arom = true`. -/
def skel_bonds (bond : List Bond) (drop keep : Nat) : List Bond :=
  copy_arom (set_type (delete_bond bond drop) keep 1) drop keep

/-- `|distance_from_bond_y|` of atom `p` from the line of bond `k`. -/
def off_y {K : Type} [LinearOrderedField K] (sqrt : K → K) (bond : List Bond)
    (atom : List (Atom K)) (k p : Nat) : K :=
  |distance_from_bond_y sqrt (nth atom (nth bond k).a).x (nth atom (nth bond k).a).y
    (nth atom (nth bond k).b).x (nth atom (nth bond k).b).y (nth atom p).x (nth atom p).y|

/-- `|distance_from_bond_x_a|` of atom `p` along bond `k`. -/
def off_xa {K : Type} [LinearOrderedField K] (sqrt : K → K) (bond : List Bond)
    (atom : List (Atom K)) (k p : Nat) : K :=
  |distance_from_bond_x_a sqrt (nth atom (nth bond k).a).x (nth atom (nth bond k).a).y
    (nth atom (nth bond k).b).x (nth atom (nth bond k).b).y (nth atom p).x (nth atom p).y|

/-- `|distance_from_bond_x_b|` of atom `p` along bond `k`. -/
def off_xb {K : Type} [LinearOrderedField K] (sqrt : K → K) (bond : List Bond)
    (atom : List (Atom K)) (k p : Nat) : K :=
  |distance_from_bond_x_b sqrt (nth atom (nth bond k).a).x (nth atom (nth bond k).a).y
    (nth atom (nth bond k).b).x (nth atom (nth bond k).b).y (nth atom p).x (nth atom p).y|

/-- Lines 555-596: end-point averaging when bond `i` is dropped in favour of
`j` (the offsets are measured from bond `j`). -/
def skel_adjust_i {K : Type} [LinearOrderedField K] (sqrt : K → K) (bond : List Bond)
    (tang : K) (i j : Nat) (atom : List (Atom K)) : List (Atom K) :=
  let a1 :=
    if tang > 0 ∧ off_y sqrt bond atom j (nth bond i).a > off_xa sqrt bond atom j (nth bond i).a
    then pull_together atom (nth bond i).a (nth bond j).a else atom
  let a2 :=
    if tang < 0 ∧ off_y sqrt bond atom j (nth bond i).a > off_xb sqrt bond atom j (nth bond i).a
    then pull_together a1 (nth bond i).a (nth bond j).b else a1
  let a3 :=
    if tang > 0 ∧ off_y sqrt bond a2 j (nth bond i).b > off_xb sqrt bond a2 j (nth bond i).b
    then pull_together a2 (nth bond i).b (nth bond j).b else a2
  if tang < 0 ∧ off_y sqrt bond a2 j (nth bond i).b > off_xa sqrt bond a2 j (nth bond i).b
  then pull_together a3 (nth bond i).b (nth bond j).a else a3

/-- Lines 608-649: end-point averaging when bond `j` is dropped in favour of
`i` (the offsets are measured from bond `i`). -/
def skel_adjust_j {K : Type} [LinearOrderedField K] (sqrt : K → K) (bond : List Bond)
    (tang : K) (i j : Nat) (atom : List (Atom K)) : List (Atom K) :=
  let a1 :=
    if tang > 0 ∧ off_y sqrt bond atom i (nth bond j).a > off_xa sqrt bond atom i (nth bond j).a
    then pull_together atom (nth bond i).a (nth bond j).a else atom
  let a2 :=
    if tang < 0 ∧ off_y sqrt bond atom i (nth bond j).a > off_xb sqrt bond atom i (nth bond j).a
    then pull_together a1 (nth bond j).a (nth bond i).b else a1
  let a3 :=
    if tang > 0 ∧ off_y sqrt bond a2 i (nth bond j).b > off_xb sqrt bond a2 i (nth bond j).b
    then pull_together a2 (nth bond i).b (nth bond j).b else a2
  if tang < 0 ∧ off_y sqrt bond a2 i (nth bond j).b > off_xa sqrt bond a2 i (nth bond j).b
  then pull_together a3 (nth bond j).b (nth bond i).a else a3

/-- State of `skeletize`: the vectors and the list `a` of measured separations. -/
structure SkState (K : Type) where
  atom : List (Atom K)
  bond : List Bond
  a : List K

/-- The test of line 537 on the pair `(i, j)`. -/
def skel_candidate {K : Type} [LinearOrderedField K] (sqrt : K → K) (i j : Nat)
    (s : SkState K) : Prop :=
  i ≠ j ∧ (nth s.bond j).exists_ = true ∧ bonds_within_each_other sqrt s.bond i j s.atom ∧
    (nth s.bond j).Small = false

instance {K : Type} [LinearOrderedField K] (sqrt : K → K) (i j : Nat) (s : SkState K) :
    Decidable (skel_candidate sqrt i j s) := by
  unfold skel_candidate; infer_instance

/-- The test of lines 541-542: the strokes belong to the same line.  `nws` is
the value of `no_white_space(...)`, which reads the image. -/
def skel_same_line {K : Type} [LinearOrderedField K] (sqrt : K → K)
    (D_T_TOLERANCE MAX_BOND_THICKNESS FLT_MAX : K)
    (nws : Nat → Nat → Nat → Nat → List (Atom K) → Bool) (dist : K) (i j : Nat)
    (s : SkState K) : Prop :=
  (|angle_between_bonds sqrt s.bond i j s.atom| > D_T_TOLERANCE ∧
    nws (nth s.bond i).a (nth s.bond i).b (nth s.bond j).a (nth s.bond j).b s.atom = true ∧
    distance_between_bonds sqrt FLT_MAX s.bond i j s.atom < MAX_BOND_THICKNESS) ∨
  distance_between_bonds sqrt FLT_MAX s.bond i j s.atom < dist

instance {K : Type} [LinearOrderedField K] (sqrt : K → K)
    (D_T_TOLERANCE MAX_BOND_THICKNESS FLT_MAX : K)
    (nws : Nat → Nat → Nat → Nat → List (Atom K) → Bool) (dist : K) (i j : Nat)
    (s : SkState K) :
    Decidable (skel_same_line sqrt D_T_TOLERANCE MAX_BOND_THICKNESS FLT_MAX nws dist i j s) := by
  unfold skel_same_line; infer_instance

/-- Lines 544-598, the branch `l1 < l2`: bond `i` is dropped. -/
def skel_drop_i {K : Type} [LinearOrderedField K] (sqrt : K → K) (FLT_MAX avg l1 : K)
    (i j : Nat) (s : SkState K) : SkState K :=
  ⟨if l1 > avg / 2 then
      skel_adjust_i sqrt (skel_bonds s.bond i j) (angle_between_bonds sqrt s.bond i j s.atom)
        i j s.atom
    else s.atom,
    skel_bonds s.bond i j,
    s.a ++ [distance_between_bonds sqrt FLT_MAX s.bond i j s.atom]⟩

/-- Lines 544-546 and 600-651, the branch `!(l1 < l2)`: bond `j` is dropped. -/
def skel_drop_j {K : Type} [LinearOrderedField K] (sqrt : K → K) (FLT_MAX avg : K)
    (i j : Nat) (s : SkState K) : SkState K :=
  ⟨if bond_length sqrt s.bond j s.atom > avg / 2 then
      skel_adjust_j sqrt (skel_bonds s.bond j i) (angle_between_bonds sqrt s.bond i j s.atom)
        i j s.atom
    else s.atom,
    skel_bonds s.bond j i,
    s.a ++ [distance_between_bonds sqrt FLT_MAX s.bond i j s.atom]⟩

/-- The `j` loop of `skeletize` (lines 536-653) over the indices still to visit;
`l1` is the length of bond `i` measured before the loop.  The branch `l1 < l2`
ends the loop (`break`). -/
def skel_jloop {K : Type} [LinearOrderedField K] (sqrt : K → K)
    (D_T_TOLERANCE MAX_BOND_THICKNESS FLT_MAX : K)
    (nws : Nat → Nat → Nat → Nat → List (Atom K) → Bool) (dist avg : K) (i : Nat) (l1 : K) :
    List Nat → SkState K → SkState K
  | [], s => s
  | j :: js, s =>
    if skel_candidate sqrt i j s ∧
        skel_same_line sqrt D_T_TOLERANCE MAX_BOND_THICKNESS FLT_MAX nws dist i j s then
      if l1 < bond_length sqrt s.bond j s.atom then skel_drop_i sqrt FLT_MAX avg l1 i j s
      else
        skel_jloop sqrt D_T_TOLERANCE MAX_BOND_THICKNESS FLT_MAX nws dist avg i l1 js
          (skel_drop_j sqrt FLT_MAX avg i j s)
    else skel_jloop sqrt D_T_TOLERANCE MAX_BOND_THICKNESS FLT_MAX nws dist avg i l1 js s

/-- Body of the `i` loop of `skeletize` (lines 532-654). -/
def skel_outer {K : Type} [LinearOrderedField K] (sqrt : K → K)
    (D_T_TOLERANCE MAX_BOND_THICKNESS FLT_MAX : K)
    (nws : Nat → Nat → Nat → Nat → List (Atom K) → Bool) (dist avg : K) (n_bond : Nat)
    (s : SkState K) (i : Nat) : SkState K :=
  if (nth s.bond i).exists_ = true ∧ (nth s.bond i).Small = false then
    skel_jloop sqrt D_T_TOLERANCE MAX_BOND_THICKNESS FLT_MAX nws dist avg i
      (bond_length sqrt s.bond i s.atom) (List.range n_bond) s
  else s

/-- The loops of `skeletize`: the state after line 654. -/
def skel_loops {K : Type} [LinearOrderedField K] (sqrt : K → K)
    (D_T_TOLERANCE MAX_BOND_THICKNESS FLT_MAX : K)
    (nws : Nat → Nat → Nat → Nat → List (Atom K) → Bool)
    (atom : List (Atom K)) (bond : List Bond) (n_bond : Nat) (dist avg : K) : SkState K :=
  (List.range n_bond).foldl
    (skel_outer sqrt D_T_TOLERANCE MAX_BOND_THICKNESS FLT_MAX nws dist avg n_bond)
    ⟨atom, bond, []⟩

/-- `skeletize(atom, bond, n_bond, image, threshold, bgColor, dist, avg)`: the atom
and bond vectors afterwards and the returned thickness (the median of the
measured separations, or `dist` when there is none). -/
def skeletize {K : Type} [LinearOrderedField K] (sqrt : K → K)
    (D_T_TOLERANCE MAX_BOND_THICKNESS FLT_MAX : K)
    (nws : Nat → Nat → Nat → Nat → List (Atom K) → Bool)
    (atom : List (Atom K)) (bond : List Bond) (n_bond : Nat) (dist avg : K) :
    List (Atom K) × List Bond × K :=
  ((skel_loops sqrt D_T_TOLERANCE MAX_BOND_THICKNESS FLT_MAX nws atom bond n_bond dist avg).atom,
   (skel_loops sqrt D_T_TOLERANCE MAX_BOND_THICKNESS FLT_MAX nws atom bond n_bond dist avg).bond,
   if (skel_loops sqrt D_T_TOLERANCE MAX_BOND_THICKNESS FLT_MAX nws atom bond n_bond dist avg).a.length
      > 0 then
     ((skel_loops sqrt D_T_TOLERANCE MAX_BOND_THICKNESS FLT_MAX nws atom bond n_bond
        dist avg).a.insertionSort (fun x y => x ≤ y)).getD
       (((skel_loops sqrt D_T_TOLERANCE MAX_BOND_THICKNESS FLT_MAX nws atom bond n_bond
        dist avg).a.length - 1) / 2) 0
   else dist)

/-! ## `double_triple_bonds` (osra.cpp 705-902) -/

/-- State of `double_triple_bonds`: the vectors and the counters `n_bond`
(returned) and `n_atom` (passed by reference). -/
structure DtState (K : Type) where
  atom : List (Atom K)
  bond : List Bond
  n_bond : Nat
  n_atom : Nat

/-- The statements `n++; if (n >= MAX_ATOMS) n--;`. -/
def bump (MAX_ATOMS n : Nat) : Nat :=
  if n + 1 ≥ MAX_ATOMS then n else n + 1

/-- The assignment `bond[dst].type += bond[src].type`. -/
def add_type (bond : List Bond) (dst src : Nat) : List Bond :=
  modify bond dst (fun b => { b with type := b.type + (nth bond src).type })

/-- The statement `if (bond[a].curve == bond[b].curve) bond[dst].conjoined = true`. -/
def mark_conjoined (bond : List Bond) (a b dst : Nat) : List Bond :=
  if (nth bond a).curve = (nth bond b).curve then
    modify bond dst (fun x => { x with conjoined := true })
  else bond

/-- Lines 730-738 (`gone = k`, `stay = j`), 742-750 (`gone = j`, `stay = k`),
874-882 (`gone = j`, `stay = i`) and 886-894 (`gone = i`, `stay = j`): bond
`gone` is deleted; when `accumulate` holds its order is added to bond `stay`
and `conjoined` is set on equal curves; `arom` is inherited. -/
def dt_absorb (bond : List Bond) (gone stay : Nat) (accumulate : Prop) [Decidable accumulate] :
    List Bond :=
  copy_arom
    (if accumulate then
      mark_conjoined (add_type (delete_bond bond gone) stay gone) gone stay stay
    else delete_bond bond gone)
    gone stay

/-- The test `l > avg && l > 1.5 * m && m > 0.5 * avg` of lines 763 and 765. -/
def dt_is_extended {K : Type} [LinearOrderedField K] (avg l m : K) : Prop :=
  l > avg ∧ l > 3 / 2 * m ∧ m > 1 / 2 * avg

instance {K : Type} [LinearOrderedField K] (avg l m : K) : Decidable (dt_is_extended avg l m) := by
  unfold dt_is_extended; infer_instance

/-- The test of lines 731 and 743 with `l_stay` the length of the bond that
stays and `l_gone` the length of the bond that is deleted:
`(l_gone > l_stay / 2) || (l_stay > avg && l_stay > 1.5 * l_gone && l_gone > 0.5 * avg)`. -/
def dt_accumulates {K : Type} [LinearOrderedField K] (avg l_stay l_gone : K) : Prop :=
  l_gone > l_stay / 2 ∨ dt_is_extended avg l_stay l_gone

instance {K : Type} [LinearOrderedField K] (avg l_stay l_gone : K) :
    Decidable (dt_accumulates avg l_stay l_gone) := by
  unfold dt_accumulates; infer_instance

/-- One round of the triple bond search (lines 721-753) for the third bond `k`;
the flag tells whether the loop is left by `break`. -/
def dt_triple_step {K : Type} [LinearOrderedField K] (sqrt : K → K)
    (D_T_TOLERANCE FLT_MAX avg max_dist_double_bond : K) (i j : Nat) (l2 dij : K)
    (s : DtState K) (k : Nat) : DtState K × Bool :=
  if (nth s.bond k).exists_ = true ∧
      |angle_between_bonds sqrt s.bond k j s.atom| > D_T_TOLERANCE then
    if distance_between_bonds sqrt FLT_MAX s.bond k j s.atom ≤ max_dist_double_bond ∧
        bonds_within_each_other sqrt s.bond k j s.atom then
      if distance_between_bonds sqrt FLT_MAX s.bond k i s.atom > dij then
        (⟨s.atom, dt_absorb s.bond k j
            (dt_accumulates avg l2 (bond_length sqrt s.bond k s.atom)), s.n_bond, s.n_atom⟩,
          false)
      else
        (⟨s.atom, dt_absorb s.bond j k
            (dt_accumulates avg (bond_length sqrt s.bond k s.atom) l2), s.n_bond, s.n_atom⟩,
          true)
    else (s, false)
  else (s, false)

/-- The triple bond search `for (int k = j + 1; k < n_bond; k++)` over the
indices still to visit. -/
def dt_triple_loop {K : Type} [LinearOrderedField K] (sqrt : K → K)
    (D_T_TOLERANCE FLT_MAX avg max_dist_double_bond : K) (i j : Nat) (l2 dij : K) :
    List Nat → DtState K → DtState K
  | [], s => s
  | k :: ks, s =>
    if (dt_triple_step sqrt D_T_TOLERANCE FLT_MAX avg max_dist_double_bond i j l2 dij s k).2
        = true then
      (dt_triple_step sqrt D_T_TOLERANCE FLT_MAX avg max_dist_double_bond i j l2 dij s k).1
    else
      dt_triple_loop sqrt D_T_TOLERANCE FLT_MAX avg max_dist_double_bond i j l2 dij ks
        (dt_triple_step sqrt D_T_TOLERANCE FLT_MAX avg max_dist_double_bond i j l2 dij s k).1

/-- Lines 785-822: the long bond `ii` is cut at distance `da` from its end `a`;
a new atom is put there, a new single bond runs from the old end to the new
atom, and bond `ii` now starts at the new atom. -/
def dt_split_a {K : Type} [LinearOrderedField K] (MAX_ATOMS : Nat) (ii : Nat) (da l11 : K)
    (s : DtState K) : DtState K :=
  ⟨(s.atom ++ [default]).set s.n_atom
      ⟨(nth s.atom (nth s.bond ii).a).x +
          ((nth s.atom (nth s.bond ii).b).x - (nth s.atom (nth s.bond ii).a).x) * da / l11,
        (nth s.atom (nth s.bond ii).a).y +
          ((nth s.atom (nth s.bond ii).b).y - (nth s.atom (nth s.bond ii).a).y) * da / l11,
        " ", 0, 0, (nth s.bond ii).curve, true, false, false, 0⟩,
    modify ((s.bond ++ [default]).set s.n_bond
        ⟨(nth s.bond ii).a, s.n_atom, 1, (nth s.bond ii).curve, true,
          false, false, false, false, false, false, false⟩)
      ii (fun b => { b with a := s.n_atom }),
    bump MAX_ATOMS s.n_bond, bump MAX_ATOMS s.n_atom⟩

/-- Lines 823-860: the same cut at distance `db` from the end `b`. -/
def dt_split_b {K : Type} [LinearOrderedField K] (MAX_ATOMS : Nat) (ii : Nat) (db l11 : K)
    (s : DtState K) : DtState K :=
  ⟨(s.atom ++ [default]).set s.n_atom
      ⟨(nth s.atom (nth s.bond ii).b).x +
          ((nth s.atom (nth s.bond ii).a).x - (nth s.atom (nth s.bond ii).b).x) * db / l11,
        (nth s.atom (nth s.bond ii).b).y +
          ((nth s.atom (nth s.bond ii).a).y - (nth s.atom (nth s.bond ii).b).y) * db / l11,
        " ", 0, 0, (nth s.bond ii).curve, true, false, false, 0⟩,
    modify ((s.bond ++ [default]).set s.n_bond
        ⟨(nth s.bond ii).b, s.n_atom, 1, (nth s.bond ii).curve, true,
          false, false, false, false, false, false, false⟩)
      ii (fun b => { b with b := s.n_atom }),
    bump MAX_ATOMS s.n_bond, bump MAX_ATOMS s.n_atom⟩

/-- Lines 773-869, the extended triple bond: the long bond `ii` (length `l11`)
is cut where the short bond `jj` (length `l22`) ends, then `jj` is merged into
`ii` with its order added. -/
def dt_extended {K : Type} [LinearOrderedField K] (sqrt : K → K) (MAX_ATOMS : Nat)
    (ii jj : Nat) (l11 l22 : K) (s : DtState K) : DtState K :=
  let da := min (off_xa sqrt s.bond s.atom ii (nth s.bond jj).a)
    (off_xa sqrt s.bond s.atom ii (nth s.bond jj).b)
  let db := min (off_xb sqrt s.bond s.atom ii (nth s.bond jj).a)
    (off_xb sqrt s.bond s.atom ii (nth s.bond jj).b)
  let s1 := if da > 1 / 2 * l22 then dt_split_a MAX_ATOMS ii da l11 s else s
  let s2 := if db > 1 / 2 * l22 then dt_split_b MAX_ATOMS ii db l11 s1 else s1
  ⟨s2.atom, dt_absorb s2.bond jj ii True, s2.n_bond, s2.n_atom⟩

/-- Lines 760-897: the merge of the pair `(i, j)` with lengths `l1`, `l2`; the
flag tells whether the `j` loop is left by `break`. -/
def dt_merge {K : Type} [LinearOrderedField K] (sqrt : K → K) (MAX_ATOMS : Nat) (avg : K)
    (i j : Nat) (l1 l2 : K) (s : DtState K) : DtState K × Bool :=
  if dt_is_extended avg l1 l2 then (dt_extended sqrt MAX_ATOMS i j l1 l2 s, false)
  else if dt_is_extended avg l2 l1 then (dt_extended sqrt MAX_ATOMS j i l2 l1 s, true)
  else if l1 > l2 then
    (⟨s.atom, dt_absorb s.bond j i (l2 > l1 / 2), s.n_bond, s.n_atom⟩, false)
  else (⟨s.atom, dt_absorb s.bond i j (l1 > l2 / 2), s.n_bond, s.n_atom⟩, true)

/-- Body of the `j` loop (lines 713-899); the flag tells whether the loop is
left by `break`. -/
def dt_body {K : Type} [LinearOrderedField K] (sqrt : K → K) (D_T_TOLERANCE FLT_MAX : K)
    (MAX_ATOMS : Nat) (avg max_dist_double_bond : K) (i : Nat) (l1 : K) (j : Nat)
    (s : DtState K) : DtState K × Bool :=
  if (nth s.bond j).exists_ = true ∧
      |angle_between_bonds sqrt s.bond i j s.atom| > D_T_TOLERANCE then
    if distance_between_bonds sqrt FLT_MAX s.bond i j s.atom ≤ max_dist_double_bond ∧
        bonds_within_each_other sqrt s.bond i j s.atom then
      if (nth (dt_triple_loop sqrt D_T_TOLERANCE FLT_MAX avg max_dist_double_bond i j
            (bond_length sqrt s.bond j s.atom)
            (distance_between_bonds sqrt FLT_MAX s.bond i j s.atom)
            (List.range' (j + 1) (s.n_bond - (j + 1))) s).bond j).exists_ = false then
        (dt_triple_loop sqrt D_T_TOLERANCE FLT_MAX avg max_dist_double_bond i j
            (bond_length sqrt s.bond j s.atom)
            (distance_between_bonds sqrt FLT_MAX s.bond i j s.atom)
            (List.range' (j + 1) (s.n_bond - (j + 1))) s, false)
      else
        dt_merge sqrt MAX_ATOMS avg i j l1 (bond_length sqrt s.bond j s.atom)
          (dt_triple_loop sqrt D_T_TOLERANCE FLT_MAX avg max_dist_double_bond i j
            (bond_length sqrt s.bond j s.atom)
            (distance_between_bonds sqrt FLT_MAX s.bond i j s.atom)
            (List.range' (j + 1) (s.n_bond - (j + 1))) s)
    else (s, false)
  else (s, false)

/-- The loop `for (int j = ...; j < n_bond; j++)` from index `j` on; `n_bond`
may grow inside, so the loop takes fuel and yields `none` when it runs out. -/
def dt_jloop {K : Type} [LinearOrderedField K] (sqrt : K → K) (D_T_TOLERANCE FLT_MAX : K)
    (MAX_ATOMS : Nat) (avg max_dist_double_bond : K) (i : Nat) (l1 : K) :
    Nat → Nat → DtState K → Option (DtState K)
  | 0, _, _ => none
  | fuel + 1, j, s =>
    if j < s.n_bond then
      if (dt_body sqrt D_T_TOLERANCE FLT_MAX MAX_ATOMS avg max_dist_double_bond i l1 j s).2
          = true then
        some (dt_body sqrt D_T_TOLERANCE FLT_MAX MAX_ATOMS avg max_dist_double_bond i l1 j s).1
      else
        dt_jloop sqrt D_T_TOLERANCE FLT_MAX MAX_ATOMS avg max_dist_double_bond i l1 fuel (j + 1)
          (dt_body sqrt D_T_TOLERANCE FLT_MAX MAX_ATOMS avg max_dist_double_bond i l1 j s).1
    else some s

/-- The loop `for (int i = ...; i < n_bond; i++)` from index `i` on; every `j`
loop gets the fuel `jfuel`. -/
def dt_iloop {K : Type} [LinearOrderedField K] (sqrt : K → K) (D_T_TOLERANCE FLT_MAX : K)
    (MAX_ATOMS : Nat) (avg max_dist_double_bond : K) (jfuel : Nat) :
    Nat → Nat → DtState K → Option (DtState K)
  | 0, _, _ => none
  | fuel + 1, i, s =>
    if i < s.n_bond then
      if (nth s.bond i).exists_ = true then
        match dt_jloop sqrt D_T_TOLERANCE FLT_MAX MAX_ATOMS avg max_dist_double_bond i
            (bond_length sqrt s.bond i s.atom) jfuel (i + 1) s with
        | none => none
        | some s1 =>
          dt_iloop sqrt D_T_TOLERANCE FLT_MAX MAX_ATOMS avg max_dist_double_bond jfuel fuel
            (i + 1) s1
      else
        dt_iloop sqrt D_T_TOLERANCE FLT_MAX MAX_ATOMS avg max_dist_double_bond jfuel fuel
          (i + 1) s
    else some s

/-- `double_triple_bonds(atom, bond, n_bond, avg, n_atom, max_dist_double_bond)`
run with `fuel` rounds at most for each loop: the vectors, the returned
`n_bond` and the updated `n_atom`. -/
def double_triple_bonds {K : Type} [LinearOrderedField K] (sqrt : K → K)
    (D_T_TOLERANCE FLT_MAX : K) (MAX_ATOMS : Nat) (fuel : Nat)
    (atom : List (Atom K)) (bond : List Bond) (n_bond : Nat) (avg : K) (n_atom : Nat)
    (max_dist_double_bond : K) : Option (DtState K) :=
  dt_iloop sqrt D_T_TOLERANCE FLT_MAX MAX_ATOMS avg max_dist_double_bond fuel fuel 0
    ⟨atom, bond, n_bond, n_atom⟩

/-! ## `assemble_labels` (osra.cpp 956-1210) -/

/-- The type `letters_t`. -/
structure Letter (K : Type) where
  x : K
  y : K
  r : K
  a : Char
  free : Bool
deriving DecidableEq

/-- The type `label_t`; the string `a` is a list of characters. -/
structure Label (K : Type) where
  x1 : K
  y1 : K
  r1 : K
  x2 : K
  y2 : K
  r2 : K
  a : List Char
  n : List Nat
deriving DecidableEq

/-- The type `lbond_t`. -/
structure Lbond (K : Type) where
  a : Nat
  b : Nat
  x : K
  exists_ : Bool
deriving DecidableEq

instance {K : Type} [Zero K] : Inhabited (Letter K) := ⟨⟨0, 0, 0, ' ', false⟩⟩

instance {K : Type} [Zero K] : Inhabited (Label K) := ⟨⟨0, 0, 0, 0, 0, 0, [], []⟩⟩

instance {K : Type} [Zero K] : Inhabited (Lbond K) := ⟨⟨0, 0, 0, false⟩⟩

/-- `comp_letters(left, right)`. -/
def comp_letters {K : Type} [LinearOrderedField K] (left right : Letter K) : Bool :=
  if left.x < right.x then true else if left.x > right.x then false else false

/-- `comp_lbonds(left, right)`. -/
def comp_lbonds {K : Type} [LinearOrderedField K] (left right : Lbond K) : Bool :=
  if left.x < right.x then true else if left.x > right.x then false else false

/-- What `std::sort(first, last, comp)` guarantees of its result `sort v` for
every vector `v`: a permutation of `v` in which no element compares less than
an earlier one. -/
def sorts_by {α : Type} (comp : α → α → Bool) (sort : List α → List α) : Prop :=
  ∀ v, (sort v).Perm v ∧ (sort v).Pairwise (fun p q => comp q p = false)

/-- The test of lines 996-1002: letters `li` and `lj` belong to one label. -/
def lb_close {K : Type} [LinearOrderedField K] (sqrt : K → K) (li lj : Letter K) : Prop :=
  (distance sqrt li.x li.y lj.x lj.y < 2 * max li.r lj.r ∧
    (|li.y - lj.y| < min li.r lj.r ∨
      (|li.y - lj.y| < li.r + lj.r ∧
        ((li.y < lj.y ∧ lj.a.isDigit = true) ∨ (lj.y < li.y ∧ li.a.isDigit = true))))) ∨
  (distance sqrt li.x li.y lj.x lj.y < 3 / 2 * (li.r + lj.r) ∧
    (li.a = '-' ∨ li.a = '+' ∨ lj.a = '-' ∨ lj.a = '+'))

instance {K : Type} [LinearOrderedField K] (sqrt : K → K) (li lj : Letter K) :
    Decidable (lb_close sqrt li lj) := by
  unfold lb_close; infer_instance

/-- State of the pairing loop (lines 993-1018). -/
structure PairState (K : Type) where
  letters : List (Letter K)
  lbond : List (Lbond K)
  n_lbond : Nat

/-- The assignment `letters[i].free = false`. -/
def mark_used {K : Type} [Zero K] (letters : List (Letter K)) (i : Nat) : List (Letter K) :=
  modify letters i (fun l => { l with free := false })

/-- The `j` loop of lines 995-1017 over the indices still to visit: the first
letter `j` close to letter `i` is paired with it and the loop is left. -/
def lp_inner {K : Type} [LinearOrderedField K] (sqrt : K → K) (MAX_ATOMS : Nat) (i : Nat) :
    List Nat → PairState K → PairState K
  | [], s => s
  | j :: js, s =>
    if lb_close sqrt (nth s.letters i) (nth s.letters j) then
      ⟨mark_used (mark_used s.letters i) j,
        (s.lbond ++ [default]).set s.n_lbond ⟨i, j, (nth s.letters i).x, true⟩,
        bump MAX_ATOMS s.n_lbond⟩
    else lp_inner sqrt MAX_ATOMS i js s

/-- Body of the `i` loop of lines 993-1018. -/
def lp_outer {K : Type} [LinearOrderedField K] (sqrt : K → K) (MAX_ATOMS n_letters : Nat)
    (s : PairState K) (i : Nat) : PairState K :=
  lp_inner sqrt MAX_ATOMS i (List.range' (i + 1) (n_letters - (i + 1))) s

/-- The test `!isdigit(c) && c != '-' && c != '+'`. -/
def is_anchor (c : Char) : Prop := c.isDigit = false ∧ c ≠ '-' ∧ c ≠ '+'

instance (c : Char) : Decidable (is_anchor c) := by
  unfold is_anchor; infer_instance

/-- Lines 1038-1045: letter `p` becomes the first anchor unless one was found. -/
def anchor_left {K : Type} [Zero K] (letters : List (Letter K)) (p : Nat)
    (s : Label K × Bool) : Label K × Bool :=
  if is_anchor (nth letters p).a ∧ s.2 = false then
    ({ s.1 with x1 := (nth letters p).x, y1 := (nth letters p).y, r1 := (nth letters p).r }, true)
  else s

/-- Lines 1054-1059: letter `p` becomes the last anchor. -/
def anchor_right {K : Type} [Zero K] (letters : List (Letter K)) (p : Nat) (L : Label K) :
    Label K :=
  if is_anchor (nth letters p).a then
    { L with x2 := (nth letters p).x, y2 := (nth letters p).y, r2 := (nth letters p).r }
  else L

/-- The four anchor statements for the pair `(pa, pb)` (lines 1038-1065 and
1073-1100). -/
def anchors {K : Type} [Zero K] (letters : List (Letter K)) (pa pb : Nat)
    (s : Label K × Bool) : Label K × Bool :=
  (anchor_right letters pb (anchor_right letters pa
      (anchor_left letters pb (anchor_left letters pa s)).1),
    (anchor_left letters pb (anchor_left letters pa s)).2)

/-- The assignment `lbond[i].exists = false`. -/
def use_up {K : Type} [Zero K] (lbond : List (Lbond K)) (i : Nat) : List (Lbond K) :=
  modify lbond i (fun b => { b with exists_ := false })

/-- State of the chaining loop (lines 1068-1103): the label under construction,
`found_left`, `last` and the pairs. -/
structure ChainState (K : Type) where
  lab : Label K
  found_left : Bool
  last : Nat
  lbond : List (Lbond K)

/-- Body of the `j` loop of lines 1068-1103. -/
def chain_step {K : Type} [Zero K] (letters : List (Letter K)) (s : ChainState K) (j : Nat) :
    ChainState K :=
  if (nth s.lbond j).exists_ = true ∧ (nth s.lbond j).a = s.last then
    ⟨(anchors letters (nth s.lbond j).a (nth s.lbond j).b
        ({ s.lab with a := s.lab.a ++ [(nth letters (nth s.lbond j).b).a],
                      n := s.lab.n ++ [(nth s.lbond j).b] }, s.found_left)).1,
      (anchors letters (nth s.lbond j).a (nth s.lbond j).b
        ({ s.lab with a := s.lab.a ++ [(nth letters (nth s.lbond j).b).a],
                      n := s.lab.n ++ [(nth s.lbond j).b] }, s.found_left)).2,
      (nth s.lbond j).b,
      use_up s.lbond j⟩
  else s

/-- Lines 1028-1065: the label started from the pair `lb`, written over the
slot `cur` (`push_back` leaves the vector `n` of the slot as it is). -/
def start_label {K : Type} [Zero K] (FLT_MAX : K) (letters : List (Letter K))
    (lb : Lbond K) (cur : Label K) : Label K × Bool :=
  anchors letters lb.a lb.b
    (⟨FLT_MAX, FLT_MAX, 0, FLT_MAX, FLT_MAX, 0,
      [(nth letters lb.a).a, (nth letters lb.b).a], cur.n ++ [lb.a, lb.b]⟩, false)

/-- State of the label building loop (lines 1022-1108). -/
structure AsmState (K : Type) where
  label : List (Label K)
  n_label : Nat
  lbond : List (Lbond K)

/-- The chaining loop run for the pair `i`: the state it ends in. -/
def chain {K : Type} [Zero K] (FLT_MAX : K) (letters : List (Letter K)) (n_lbond : Nat)
    (s : AsmState K) (i : Nat) : ChainState K :=
  (List.range' (i + 1) (n_lbond - (i + 1))).foldl (chain_step letters)
    ⟨(start_label FLT_MAX letters (nth s.lbond i) (nth (s.label ++ [default]) s.n_label)).1,
      (start_label FLT_MAX letters (nth s.lbond i) (nth (s.label ++ [default]) s.n_label)).2,
      (nth s.lbond i).b,
      use_up s.lbond i⟩

/-- Body of the `i` loop of lines 1022-1108. -/
def asm_outer {K : Type} [Zero K] (FLT_MAX : K) (MAX_ATOMS : Nat) (letters : List (Letter K))
    (n_lbond : Nat) (s : AsmState K) (i : Nat) : AsmState K :=
  if (nth s.lbond i).exists_ = true then
    ⟨(s.label ++ [default]).set s.n_label (chain FLT_MAX letters n_lbond s i).lab,
      bump MAX_ATOMS s.n_label, (chain FLT_MAX letters n_lbond s i).lbond⟩
  else s

/-- Lines 1113-1122: the mean `cy` of the `y` of the alphabetic letters of a
label (the sum divided by their number).  For a label without alphabetic
letters the C++ quotient is `0 / 0`; it is then never read, as lines 1123-1128
compare `cy` for alphabetic letters only. -/
def alpha_mean {K : Type} [LinearOrderedField K] (letters : List (Letter K)) (ns : List Nat) :
    K :=
  (ns.foldl (fun acc k => if (nth letters k).a.isAlpha = true then
      (acc.1 + (nth letters k).y, acc.2 + 1) else acc) ((0 : K), (0 : Nat))).1 /
  ((ns.foldl (fun acc k => if (nth letters k).a.isAlpha = true then
      (acc.1 + (nth letters k).y, acc.2 + 1) else acc) ((0 : K), (0 : Nat))).2 : K)

/-- Lines 1123-1126: the number of alphabetic letters lying more than half a
radius below `cy`. -/
def low_count {K : Type} [LinearOrderedField K] (letters : List (Letter K)) (cy : K)
    (ns : List Nat) : Nat :=
  ns.foldl (fun c k =>
    if (nth letters k).a.isAlpha = true ∧ (nth letters k).y - cy > (nth letters k).r / 2
    then c + 1 else c) 0

/-- Lines 1143-1158 (and 1162-1177): letter `k` is appended to a label and,
when alphabetic, widens its anchors. -/
def put_letter {K : Type} [LinearOrderedField K] (letters : List (Letter K)) (k : Nat)
    (L : Label K) : Label K :=
  if (nth letters k).a.isAlpha = true then
    (fun L2 : Label K =>
      if (nth letters k).x > L2.x2 then
        { L2 with x2 := (nth letters k).x, y2 := (nth letters k).y, r2 := (nth letters k).r }
      else L2)
    (if (nth letters k).x < L.x1 then
      { L with a := L.a ++ [(nth letters k).a], x1 := (nth letters k).x,
               y1 := (nth letters k).y, r1 := (nth letters k).r }
    else { L with a := L.a ++ [(nth letters k).a] })
  else { L with a := L.a ++ [(nth letters k).a] }

/-- Lines 1130-1137: both halves start with an empty string and reset anchors. -/
def reset_label {K : Type} [Zero K] (FLT_MAX : K) (L : Label K) : Label K :=
  { L with a := [], x1 := FLT_MAX, x2 := 0 }

/-- Body of the `i` loop of lines 1111-1182: a label with more than one low
alphabetic letter is split into two stacked labels. -/
def split_outer {K : Type} [LinearOrderedField K] (FLT_MAX : K) (letters : List (Letter K))
    (s : List (Label K) × Nat) (i : Nat) : List (Label K) × Nat :=
  if low_count letters (alpha_mean letters (nth s.1 i).n) (nth s.1 i).n > 1 then
    ((nth s.1 i).n.foldl
      (fun label k =>
        if (nth letters k).y > alpha_mean letters (nth s.1 i).n then
          modify label i (put_letter letters k)
        else modify label s.2 (put_letter letters k))
      (modify (modify s.1 i (reset_label FLT_MAX) ++ [default]) s.2 (reset_label FLT_MAX)),
     s.2 + 1)
  else s

/-- One round of the loop of lines 1188-1205 on the string `s` with the
collected `charges`: the first `-` and then the first `+` are erased
(`find_first_of` followed by `erase(pos, 1)` is `List.erase`); the flag is
`cont`. -/
def strip_round (s charges : List Char) : List Char × List Char × Bool :=
  if '+' ∈ (if '-' ∈ s then s.erase '-' else s) then
    ((if '-' ∈ s then s.erase '-' else s).erase '+',
      (if '-' ∈ s then charges ++ ['-'] else charges) ++ ['+'], true)
  else
    (if '-' ∈ s then s.erase '-' else s, if '-' ∈ s then charges ++ ['-'] else charges,
      if '-' ∈ s then true else false)

/-- The loop `while (cont)` of lines 1188-1205; `none` when the fuel runs out. -/
def strip_loop : Nat → List Char → List Char → Option (List Char × List Char)
  | 0, _, _ => none
  | fuel + 1, s, charges =>
    if (strip_round s charges).2.2 = true then
      strip_loop fuel (strip_round s charges).1 (strip_round s charges).2.1
    else some ((strip_round s charges).1, (strip_round s charges).2.1)

/-- Lines 1186-1206 for one label string: the signs are stripped and appended.
The fuel is the length of the string plus one: every round but the last erases
a character. -/
def strip_charges (s : List Char) : Option (List Char) :=
  (strip_loop (s.length + 1) s []).map (fun r => r.1 ++ r.2)

/-- The assignment `label[i].a = t`. -/
def set_text {K : Type} [Zero K] (label : List (Label K)) (i : Nat) (t : List Char) :
    List (Label K) :=
  modify label i (fun L => { L with a := t })

/-- Body of the loop of lines 1184-1207; `none` is handed on. -/
def strip_at {K : Type} [Zero K] (acc : Option (List (Label K))) (i : Nat) :
    Option (List (Label K)) :=
  acc.bind (fun label => (strip_charges (nth label i).a).map (set_text label i))

/-- The loop of lines 1184-1207 over the labels `0 .. n_label - 1`. -/
def strip_all {K : Type} [Zero K] (n_label : Nat) (label : List (Label K)) :
    Option (List (Label K)) :=
  (List.range n_label).foldl strip_at (some label)

/-- What `assemble_labels` returns and leaves in its reference arguments. -/
structure Assembled (K : Type) where
  letters : List (Letter K)
  label : List (Label K)
  n_label : Nat

/-- Lines 987-1018: the letters are sorted and paired. -/
def pair_letters {K : Type} [LinearOrderedField K] (sqrt : K → K) (MAX_ATOMS : Nat)
    (sort_letters : List (Letter K) → List (Letter K))
    (letters : List (Letter K)) (n_letters : Nat) : PairState K :=
  (List.range n_letters).foldl (lp_outer sqrt MAX_ATOMS n_letters)
    ⟨sort_letters letters, [], 0⟩

/-- Lines 1020-1108: the pairs are sorted and chained into labels. -/
def build_labels {K : Type} [LinearOrderedField K] (FLT_MAX : K) (MAX_ATOMS : Nat)
    (sort_lbonds : List (Lbond K) → List (Lbond K))
    (p : PairState K) (label : List (Label K)) : AsmState K :=
  (List.range p.n_lbond).foldl (asm_outer FLT_MAX MAX_ATOMS p.letters p.n_lbond)
    ⟨label, 0, sort_lbonds p.lbond⟩

/-- `assemble_labels` up to line 1182, before the charges are stripped: the
labels and `n_label`. -/
def assemble_pre {K : Type} [LinearOrderedField K] (sqrt : K → K) (FLT_MAX : K)
    (MAX_ATOMS : Nat) (sort_letters : List (Letter K) → List (Letter K))
    (sort_lbonds : List (Lbond K) → List (Lbond K))
    (letters : List (Letter K)) (n_letters : Nat) (label : List (Label K)) :
    List (Label K) × Nat :=
  (List.range (build_labels FLT_MAX MAX_ATOMS sort_lbonds
      (pair_letters sqrt MAX_ATOMS sort_letters letters n_letters) label).n_label).foldl
    (split_outer FLT_MAX (pair_letters sqrt MAX_ATOMS sort_letters letters n_letters).letters)
    ((build_labels FLT_MAX MAX_ATOMS sort_lbonds
      (pair_letters sqrt MAX_ATOMS sort_letters letters n_letters) label).label,
     (build_labels FLT_MAX MAX_ATOMS sort_lbonds
      (pair_letters sqrt MAX_ATOMS sort_letters letters n_letters) label).n_label)

/-- `assemble_labels(letters, n_letters, label)`; the two calls of `std::sort`
are the parameters `sort_letters` and `sort_lbonds`. -/
def assemble_labels {K : Type} [LinearOrderedField K] (sqrt : K → K) (FLT_MAX : K)
    (MAX_ATOMS : Nat) (sort_letters : List (Letter K) → List (Letter K))
    (sort_lbonds : List (Lbond K) → List (Lbond K))
    (letters : List (Letter K)) (n_letters : Nat) (label : List (Label K)) :
    Option (Assembled K) :=
  (strip_all
    (assemble_pre sqrt FLT_MAX MAX_ATOMS sort_letters sort_lbonds letters n_letters label).2
    (assemble_pre sqrt FLT_MAX MAX_ATOMS sort_letters sort_lbonds letters n_letters label).1).map
    (fun lab => ⟨(pair_letters sqrt MAX_ATOMS sort_letters letters n_letters).letters, lab,
      (assemble_pre sqrt FLT_MAX MAX_ATOMS sort_letters sort_lbonds letters n_letters label).2⟩)

/-- The fields of a letter that `assemble_labels` reads (all but `free`). -/
def glyph {K : Type} (l : Letter K) : K × K × K × Char := (l.x, l.y, l.r, l.a)

/-- The pairs `(k, k + 1)` for `k < m`, as the pairing loop stores them. -/
def consecutive_pairs {K : Type} [Zero K] (letters : List (Letter K)) (m : Nat) :
    List (Lbond K) :=
  (List.range m).map (fun k => ⟨k, k + 1, (nth letters k).x, true⟩)

/-- Insertion sort by the `x` coordinate, a function that `std::sort` with
`comp_letters` may compute. -/
def sort_letters_by_x {K : Type} [LinearOrderedField K] (v : List (Letter K)) :
    List (Letter K) :=
  v.insertionSort (fun p q => p.x ≤ q.x)

/-- Insertion sort by the `x` field, a function that `std::sort` with
`comp_lbonds` may compute. -/
def sort_lbonds_by_x {K : Type} [LinearOrderedField K] (v : List (Lbond K)) :
    List (Lbond K) :=
  v.insertionSort (fun p q => p.x ≤ q.x)

/-- The letters `C`, `H`, `3` on one line. -/
def ch3_letters : List (Letter ℚ) :=
  [⟨0, 0, 3, 'C', true⟩, ⟨5, 0, 3, 'H', true⟩, ⟨9, 0, 2, '3', true⟩]

/-- The characters `+` and `-`. -/
def is_sign (c : Char) : Bool := c == '+' || c == '-'

/-- Atoms `p` and `q` have the same coordinates. -/
def at_same_place {K : Type} [Zero K] (atom : List (Atom K)) (p q : Nat) : Prop :=
  (nth atom p).x = (nth atom q).x ∧ (nth atom p).y = (nth atom q).y

/-- Bonds `i` and `j` are drawn on the same segment: their end points coincide,
in the same or in the opposite order. -/
def same_segment {K : Type} [Zero K] (atom : List (Atom K)) (bond : List Bond) (i j : Nat) :
    Prop :=
  (at_same_place atom (nth bond j).a (nth bond i).a ∧
    at_same_place atom (nth bond j).b (nth bond i).b) ∨
  (at_same_place atom (nth bond j).a (nth bond i).b ∧
    at_same_place atom (nth bond j).b (nth bond i).a)

/-- The square of the length of bond `i`, without the square root. -/
def bond_length_sq {K : Type} [LinearOrderedField K] (bond : List Bond) (i : Nat)
    (atom : List (Atom K)) : K :=
  ((nth atom (nth bond i).a).x - (nth atom (nth bond i).b).x) *
      ((nth atom (nth bond i).a).x - (nth atom (nth bond i).b).x) +
    ((nth atom (nth bond i).a).y - (nth atom (nth bond i).b).y) *
      ((nth atom (nth bond i).a).y - (nth atom (nth bond i).b).y)

/-! ## `count_atoms` and `collapse_atoms` (osra.cpp 2129-2136, 2861-2893) -/

/-- `count_atoms(atom, n_atom)`. -/
def count_atoms {K : Type} [Zero K] (atom : List (Atom K)) (n_atom : Nat) : Nat :=
  (List.range n_atom).foldl (fun r i => if (nth atom i).exists_ = true then r + 1 else r) 0

/-- Lines 2876-2877: `if (atom[j].label != " " && atom[i].label == " ")
atom[i].label = atom[j].label`. -/
def take_label {K : Type} [Zero K] (atom : List (Atom K)) (i j : Nat) : List (Atom K) :=
  if (nth atom j).label ≠ " " ∧ (nth atom i).label = " " then
    set_label atom i (nth atom j).label
  else atom

/-- Lines 2873-2877: atom `j` is deleted and atom `i` moves to the midpoint and
inherits the label of `j` when it has none. -/
def ca_merge_atoms {K : Type} [LinearOrderedField K] (atom : List (Atom K)) (i j : Nat) :
    List (Atom K) :=
  take_label (average_into (delete_atom atom j) i j) i j

/-- Body of the `k` loop of lines 2878-2889: bond ends at `j` are moved to `i`. -/
def ca_rewire (i j : Nat) (bond : List Bond) (k : Nat) : List Bond :=
  if (nth bond k).exists_ = true then
    if (nth bond k).a = j then modify bond k (fun b => { b with a := i })
    else if (nth bond k).b = j then modify bond k (fun b => { b with b := i })
    else bond
  else bond

/-- State of one pass of `collapse_atoms`: the vectors and the flag `found`. -/
structure CAState (K : Type) where
  atom : List (Atom K)
  bond : List Bond
  found : Bool

/-- Body of the `j` loop of `collapse_atoms` (lines 2871-2891). -/
def ca_inner {K : Type} [LinearOrderedField K] (sqrt : K → K) (n_bond : Nat) (dist : K)
    (i : Nat) (s : CAState K) (j : Nat) : CAState K :=
  if (nth s.atom j).exists_ = true ∧ j ≠ i ∧
      distance sqrt (nth s.atom i).x (nth s.atom i).y (nth s.atom j).x (nth s.atom j).y < dist then
    ⟨ca_merge_atoms s.atom i j, (List.range n_bond).foldl (ca_rewire i j) s.bond, true⟩
  else s

/-- Body of the `i` loop of `collapse_atoms` (lines 2868-2891). -/
def ca_outer {K : Type} [LinearOrderedField K] (sqrt : K → K) (n_atom n_bond : Nat) (dist : K)
    (s : CAState K) (i : Nat) : CAState K :=
  if (nth s.atom i).exists_ = true then
    (List.range n_atom).foldl (ca_inner sqrt n_bond dist i) s
  else s

/-- One round of `while (found)`: `found = false` followed by the `i` loop. -/
def ca_pass {K : Type} [LinearOrderedField K] (sqrt : K → K) (n_atom n_bond : Nat) (dist : K)
    (atom : List (Atom K)) (bond : List Bond) : CAState K :=
  (List.range n_atom).foldl (ca_outer sqrt n_atom n_bond dist) ⟨atom, bond, false⟩

/-- The loop `while (found)`; `none` when the fuel runs out. -/
def ca_loop {K : Type} [LinearOrderedField K] (sqrt : K → K) (n_atom n_bond : Nat) (dist : K) :
    Nat → List (Atom K) → List Bond → Option (List (Atom K) × List Bond)
  | 0, _, _ => none
  | fuel + 1, atom, bond =>
    if (ca_pass sqrt n_atom n_bond dist atom bond).found = true then
      ca_loop sqrt n_atom n_bond dist fuel (ca_pass sqrt n_atom n_bond dist atom bond).atom
        (ca_pass sqrt n_atom n_bond dist atom bond).bond
    else
      some ((ca_pass sqrt n_atom n_bond dist atom bond).atom,
        (ca_pass sqrt n_atom n_bond dist atom bond).bond)

/-- `collapse_atoms(atom, bond, n_atom, n_bond, dist)` run with `fuel` rounds of
the `while` loop at most: the atom and bond vectors afterwards. -/
def collapse_atoms {K : Type} [LinearOrderedField K] (sqrt : K → K) (fuel : Nat)
    (atom : List (Atom K)) (bond : List Bond) (n_atom n_bond : Nat) (dist : K) :
    Option (List (Atom K) × List Bond) :=
  ca_loop sqrt n_atom n_bond dist fuel atom bond

/-- Invariant of one pass of `collapse_atoms` started from `atom0`: no atom came
into existence, and once `found` is set the count of existing atoms below
`n_atom` has dropped. -/
def PassInv {K : Type} [Zero K] (atom0 : List (Atom K)) (n_atom : Nat) (s : CAState K) : Prop :=
  (∀ k, (nth s.atom k).exists_ = true → (nth atom0 k).exists_ = true) ∧
  (s.found = true → count_atoms s.atom n_atom < count_atoms atom0 n_atom)

/-- Invariant of the outer loop of `find_fragments`: `pool0` is the pool built
at entry, `pool` the bonds still in it, `frags` the fragments finished so far. -/
structure FragInv (bond : List Bond) (pool0 pool : List Nat) (frags : List (List Nat)) :
    Prop where
  sub : ∀ k ∈ pool, k ∈ pool0
  covered : ∀ k ∈ pool0, k ∈ pool ∨ ∃ F ∈ frags, (nth bond k).a ∈ F ∧ (nth bond k).b ∈ F
  apart : ∀ k ∈ pool, ∀ F ∈ frags, (nth bond k).a ∉ F ∧ (nth bond k).b ∉ F
  connected : ∀ F ∈ frags, ∀ u ∈ F, ∀ v ∈ F, Relation.ReflTransGen (adj bond pool0) u v
  ends : ∀ F ∈ frags, ∀ v ∈ F, ∃ k ∈ pool0, v = (nth bond k).a ∨ v = (nth bond k).b
  disjoint : frags.Pairwise List.Disjoint
  nodup : (∀ k ∈ pool0, (nth bond k).a ≠ (nth bond k).b) → ∀ F ∈ frags, F.Nodup

/-- A bond between atoms `a` and `b` of order `type`, all style flags off. -/
def mkBond (a b : Nat) (type : Int) : Bond :=
  ⟨a, b, type, 0, true, false, false, false, false, false, false, false⟩

/-- An unlabeled existing atom at `(x, y)`. -/
def mkAtom {K : Type} (x y : K) : Atom K :=
  ⟨x, y, " ", 0, 0, 0, true, false, false, 0⟩

/-- A state with a single bond whose two endpoints are the same atom 0. -/
def loop_bond : List Bond := [mkBond 0 0 1]

/-- The atom vector of the state `loop_bond`. -/
def loop_atom : List (Atom ℚ) := [mkAtom 0 0]

/-- A chain 0-1-2 and a separate bond 3-4, entered out of order. -/
def two_chains : List Bond := [mkBond 1 2 1, mkBond 3 4 1, mkBond 0 1 1]

/-- Five existing atoms for `two_chains`. -/
def five_atoms : List (Atom ℚ) :=
  [mkAtom 0 0, mkAtom 10 0, mkAtom 20 0, mkAtom 0 30, mkAtom 10 30]

/-- Two strokes on the segment from `(0, 0)` to `(3, 4)`, drawn in opposite
directions with atoms of their own. -/
def coincident_atoms : List (Atom ℚ) := [mkAtom 0 0, mkAtom 3 4, mkAtom 3 4, mkAtom 0 0]

/-- The two bonds of `coincident_atoms`. -/
def coincident_bonds : List Bond := [mkBond 0 1 1, mkBond 2 3 1]

/-- A stroke from `(0, 0)` to `(10, 0)` and a shorter parallel stroke one unit
above it, from `(2, 1)` to `(8, 1)`. -/
def parallel_atoms : List (Atom ℚ) := [mkAtom 0 0, mkAtom 10 0, mkAtom 2 1, mkAtom 8 1]

/-- The two bonds of `parallel_atoms`, both of order 1. -/
def parallel_bonds : List Bond := [mkBond 0 1 1, mkBond 2 3 1]

/-- An image in which `no_white_space` always answers `false`. -/
def nws_never : Nat → Nat → Nat → Nat → List (Atom ℚ) → Bool := fun _ _ _ _ _ => false

/-- A stroke from `(0, 0)` to `(10, 0)` and a parallel stroke two units above
it, from `(1, 2)` to `(9, 2)`. -/
def double_atoms : List (Atom ℚ) := [mkAtom 0 0, mkAtom 10 0, mkAtom 1 2, mkAtom 9 2]

/-- A stroke from `(0, 0)` to `(10, 0)` and a short parallel stroke two units
above it, from `(3, 2)` to `(7, 2)`. -/
def short_double_atoms : List (Atom ℚ) := [mkAtom 0 0, mkAtom 10 0, mkAtom 3 2, mkAtom 7 2]

/-- Two bonds between atoms 0 and 1: a single bond followed by a double bond. -/
def doubled_up : List Bond := [mkBond 0 1 1, mkBond 0 1 2]

/-- The test of line 2871 on the atoms `i` (existing, line 2869) and `j`: both
exist, they are distinct and closer than `dist`. -/
def ca_close {K : Type} [LinearOrderedField K] (sqrt : K → K) (dist : K)
    (atom : List (Atom K)) (i j : Nat) : Prop :=
  (nth atom i).exists_ = true ∧ (nth atom j).exists_ = true ∧ j ≠ i ∧
    distance sqrt (nth atom i).x (nth atom i).y (nth atom j).x (nth atom j).y < dist

/-- Invariant of a pass of `collapse_atoms` started from `(atom, bond)` that has
reached the pair `(i, j)`: while `found` is unset the vectors are untouched and
no pair visited so far was close. -/
def QuietInv {K : Type} [LinearOrderedField K] (sqrt : K → K) (dist : K) (n_atom : Nat)
    (atom : List (Atom K)) (bond : List Bond) (i j : Nat) (s : CAState K) : Prop :=
  s.found = false →
    s.atom = atom ∧ s.bond = bond ∧
    (∀ p q, p < i → q < n_atom → ¬ ca_close sqrt dist atom p q) ∧
    (∀ q, q < j → ¬ ca_close sqrt dist atom i q)

/-! ## `resolve_bridge_bonds` (osra.cpp 974-983, 2754-2859) -/

/-- `terminal_bond(a, b, bond, n_bond)`: no existing bond other than `b` touches
atom `a`. -/
def terminal_bond (a b : Nat) (bond : List Bond) (n_bond : Nat) : Bool :=
  (List.range n_bond).foldl
    (fun terminal l =>
      if l ≠ b ∧ (nth bond l).exists_ = true ∧ ((nth bond l).a = a ∨ (nth bond l).b = a)
      then false else terminal)
    true

/-- The fields of `molecule_statistics_t` that `resolve_bridge_bonds` reads. -/
structure MolStats where
  fragments : Int
  rotors : Int
  rings56 : Int
deriving DecidableEq

/-- The list `con` of lines 2762-2765: the existing bonds below `n_bond` that
touch atom `i`, in index order. -/
def rbb_con (bond : List Bond) (n_bond i : Nat) : List Nat :=
  (List.range n_bond).filter
    (fun j => (nth bond j).exists_ = true ∧ ((nth bond j).a = i ∨ (nth bond j).b = i))

/-- The test of line 2780: an endpoint of bond `b` lies more than `thickness`
off the line of bond `a`. -/
def rbb_off {K : Type} [LinearOrderedField K] (sqrt : K → K) (atom : List (Atom K))
    (bond : List Bond) (thickness : K) (a b : Nat) : Prop :=
  off_y sqrt bond atom a (nth bond b).a > thickness ∨
    off_y sqrt bond atom a (nth bond b).b > thickness

instance {K : Type} [LinearOrderedField K] (sqrt : K → K) (atom : List (Atom K))
    (bond : List Bond) (thickness : K) (a b : Nat) :
    Decidable (rbb_off sqrt atom bond thickness a b) := by
  unfold rbb_off; infer_instance

/-- The loop `while ((con.size() > 2) && (e++ < 3))` of lines 2772-2782 with
the number of rounds that `e` still allows: the front bond is taken off the
list and put back at its end unless it lies on the line of bond `a`.  Returns
the list and the last bond taken (`b`). -/
def rbb_rotate {K : Type} [LinearOrderedField K] (sqrt : K → K) (atom : List (Atom K))
    (bond : List Bond) (thickness : K) (a : Nat) : Nat → List Nat → Nat → List Nat × Nat
  | 0, con, b => (con, b)
  | e + 1, con, b =>
    if con.length > 2 then
      if rbb_off sqrt atom bond thickness a (con.headD 0) then
        rbb_rotate sqrt atom bond thickness a e (con.tail ++ [con.headD 0]) (con.headD 0)
      else rbb_rotate sqrt atom bond thickness a e con.tail (con.headD 0)
    else (con, b)

/-- Lines 2794-2801: one of the four bonds has an end that no other bond touches. -/
def rbb_terminal (bond : List Bond) (n_bond : Nat) (term : List Nat) : Bool :=
  term.foldl
    (fun terminal k =>
      if terminal_bond (nth bond k).a k bond n_bond = true ∨
          terminal_bond (nth bond k).b k bond n_bond = true
      then true else terminal)
    false

/-- The test of lines 2806-2807: four single bonds, `d` on the line of `c`,
none of them terminal. -/
def rbb_accept {K : Type} [LinearOrderedField K] (sqrt : K → K) (atom : List (Atom K))
    (bond : List Bond) (n_bond : Nat) (thickness : K) (a b c d : Nat) : Prop :=
  (nth bond a).type = 1 ∧ (nth bond b).type = 1 ∧ (nth bond c).type = 1 ∧
    (nth bond d).type = 1 ∧ off_y sqrt bond atom c (nth bond d).a < thickness ∧
    off_y sqrt bond atom c (nth bond d).b < thickness ∧
    rbb_terminal bond n_bond [a, b, c, d] = false

instance {K : Type} [LinearOrderedField K] (sqrt : K → K) (atom : List (Atom K))
    (bond : List Bond) (n_bond : Nat) (thickness : K) (a b c d : Nat) :
    Decidable (rbb_accept sqrt atom bond n_bond thickness a b c d) := by
  unfold rbb_accept; infer_instance

/-- Lines 2768-2782 for atom `i`: the list `con` after the loop and the bond `b`. -/
def rbb_pick {K : Type} [LinearOrderedField K] (sqrt : K → K) (atom : List (Atom K))
    (bond : List Bond) (n_bond : Nat) (thickness : K) (i : Nat) : List Nat × Nat :=
  rbb_rotate sqrt atom bond thickness ((rbb_con bond n_bond i).headD 0) 3
    (rbb_con bond n_bond i).tail 0

/-- Lines 2759-2807 for atom `i`: the bonds `(a, b, c, d)` of the split that is
to be tried, or `none` when one of the guards fails. -/
def rbb_plan {K : Type} [LinearOrderedField K] (sqrt : K → K) (atom : List (Atom K))
    (bond : List Bond) (n_bond : Nat) (thickness : K) (i : Nat) :
    Option (Nat × Nat × Nat × Nat) :=
  if (nth atom i).exists_ = true ∧ (nth atom i).label = " " then
    if (rbb_con bond n_bond i).length = 4 then
      if (rbb_pick sqrt atom bond n_bond thickness i).1.length = 2 then
        if rbb_accept sqrt atom bond n_bond thickness ((rbb_con bond n_bond i).headD 0)
            (rbb_pick sqrt atom bond n_bond thickness i).2
            ((rbb_pick sqrt atom bond n_bond thickness i).1.headD 0)
            ((rbb_pick sqrt atom bond n_bond thickness i).1.tail.headD 0) then
          some ((rbb_con bond n_bond i).headD 0,
            (rbb_pick sqrt atom bond n_bond thickness i).2,
            (rbb_pick sqrt atom bond n_bond thickness i).1.headD 0,
            (rbb_pick sqrt atom bond n_bond thickness i).1.tail.headD 0)
        else none
      else none
    else none
  else none

/-- The assignment `bond[i].exists = true`. -/
def restore_bond (bond : List Bond) (i : Nat) : List Bond :=
  modify bond i (fun b => { b with exists_ := true })

/-- The assignment `atom[i].exists = true`. -/
def restore_atom {K : Type} [Zero K] (atom : List (Atom K)) (i : Nat) : List (Atom K) :=
  modify atom i (fun a => { a with exists_ := true })

/-- The bond `x` after the chain `if (x.a == y.a) x.a = y.b; else if (x.a == y.b)
x.a = y.a; else if (x.b == y.a) x.b = y.b; else if (x.b == y.b) x.b = y.a`. -/
def rejoined (x y : Bond) : Bond :=
  if x.a = y.a then { x with a := y.b }
  else if x.a = y.b then { x with a := y.a }
  else if x.b = y.a then { x with b := y.b }
  else if x.b = y.b then { x with b := y.a }
  else x

/-- Lines 2812-2819 (and 2821-2828, 2837-2852): the end of bond `a` that it
shares with bond `b` is moved to the other end of `b`. -/
def rbb_rejoin (bond : List Bond) (a b : Nat) : List Bond :=
  modify bond a (fun x => rejoined x (nth bond b))

/-- Lines 2809-2828: the provisional split at atom `i`. -/
def rbb_split {K : Type} [Zero K] (s : List (Atom K) × List Bond) (i a b c d : Nat) :
    List (Atom K) × List Bond :=
  (delete_atom s.1 i, rbb_rejoin (rbb_rejoin (delete_bond (delete_bond s.2 b) d) a b) c d)

/-- Lines 2834-2852: the statements that take the split back. -/
def rbb_undo {K : Type} [Zero K] (s : List (Atom K) × List Bond) (i a b c d : Nat) :
    List (Atom K) × List Bond :=
  (restore_atom s.1 i, rbb_rejoin (rbb_rejoin (restore_bond (restore_bond s.2 b) d) a b) c d)

/-- The test of lines 2830-2832 on the statistics at entry and after the split. -/
def rbb_changed (st1 st2 : MolStats) : Prop :=
  st1.fragments ≠ st2.fragments ∨ st1.rotors ≠ st2.rotors ∨ st1.rings56 - st2.rings56 = 2

instance (st1 st2 : MolStats) : Decidable (rbb_changed st1 st2) := by
  unfold rbb_changed; infer_instance

/-- Lines 2809-2853: the split is made, the statistics are computed again
(`stats` stands for `caclulate_molecule_statistics`, whose definition is not
part of the sources; `avg_bond_length` and `superatom` are the same in every
call) and the split is taken back when they changed. -/
def rbb_resolve {K : Type} [Zero K] (stats : List (Atom K) → List Bond → Nat → MolStats)
    (st1 : MolStats) (n_bond : Nat) (s : List (Atom K) × List Bond) (i a b c d : Nat) :
    List (Atom K) × List Bond :=
  if rbb_changed st1 (stats (rbb_split s i a b c d).1 (rbb_split s i a b c d).2 n_bond) then
    rbb_undo (rbb_split s i a b c d) i a b c d
  else rbb_split s i a b c d

/-- Body of the loop of `resolve_bridge_bonds` (lines 2759-2856). -/
def rbb_body {K : Type} [LinearOrderedField K] (sqrt : K → K)
    (stats : List (Atom K) → List Bond → Nat → MolStats) (st1 : MolStats) (n_bond : Nat)
    (thickness : K) (s : List (Atom K) × List Bond) (i : Nat) : List (Atom K) × List Bond :=
  match rbb_plan sqrt s.1 s.2 n_bond thickness i with
  | none => s
  | some q => rbb_resolve stats st1 n_bond s i q.1 q.2.1 q.2.2.1 q.2.2.2

/-- `resolve_bridge_bonds(atom, n_atom, bond, n_bond, thickness, avg_bond_length,
superatom)`: the atom and bond vectors afterwards and the returned fragment
count. -/
def resolve_bridge_bonds {K : Type} [LinearOrderedField K] (sqrt : K → K)
    (stats : List (Atom K) → List Bond → Nat → MolStats)
    (atom : List (Atom K)) (n_atom : Nat) (bond : List Bond) (n_bond : Nat) (thickness : K) :
    List (Atom K) × List Bond × Int :=
  (((List.range n_atom).foldl
      (rbb_body sqrt stats (stats atom bond n_bond) n_bond thickness) (atom, bond)).1,
   ((List.range n_atom).foldl
      (rbb_body sqrt stats (stats atom bond n_bond) n_bond thickness) (atom, bond)).2,
   (stats atom bond n_bond).fragments)

/-- A crossing of two straight lines at atom 0, closed by a ring through the
four outer atoms. -/
def cross_atoms : List (Atom ℚ) :=
  [mkAtom 0 0, mkAtom 10 0, mkAtom (-10) 0, mkAtom 0 10, mkAtom 0 (-10)]

/-- The bonds of `cross_atoms`: four arms at atom 0 and the ring 1-3-2-4-1. -/
def cross_bonds : List Bond :=
  [mkBond 0 1 1, mkBond 0 3 1, mkBond 0 2 1, mkBond 0 4 1,
   mkBond 1 3 1, mkBond 3 2 1, mkBond 2 4 1, mkBond 4 1 1]

/-- Statistics in which only the number of existing atoms among the first five
is looked at. -/
def stats_atoms : List (Atom ℚ) → List Bond → Nat → MolStats :=
  fun atom _ _ => ⟨count_atoms atom 5, 0, 0⟩

/-- Four arms at atom 0 no two of which lie on one line. -/
def star_atoms : List (Atom ℚ) :=
  [mkAtom 0 0, mkAtom 10 0, mkAtom 0 10, mkAtom 6 8, mkAtom (-8) (-6)]

/-- The bonds of `star_atoms`. -/
def star_bonds : List Bond := [mkBond 0 1 1, mkBond 0 2 1, mkBond 0 3 1, mkBond 0 4 1]

/-! ## `extend_dashed_bond` and the end of `find_dashed_bonds`
(osra.cpp 265-282, 2296-2336, 2555-2637) -/

/-- The type `dash_t`; the `curve` pointer is an identifier. -/
structure Dash (K : Type) where
  x : K
  y : K
  free : Bool
  curve : Nat
  area : Int
deriving DecidableEq

instance {K : Type} [Zero K] : Inhabited (Dash K) := ⟨⟨0, 0, false, 0, 0⟩⟩

/-- `comp_dashes_x(a, b)`. -/
def comp_dashes_x {K : Type} [LinearOrderedField K] (aa bb : Dash K) : Int :=
  if aa.x < bb.x then -1 else if aa.x = bb.x then 0 else if aa.x > bb.x then 1 else 0

/-- `comp_dashes_y(a, b)`. -/
def comp_dashes_y {K : Type} [LinearOrderedField K] (aa bb : Dash K) : Int :=
  if aa.y < bb.y then -1 else if aa.y = bb.y then 0 else if aa.y > bb.y then 1 else 0

/-- What `qsort(base, n, size, comp)` guarantees of its result `sort v` for every
array `v`: a permutation of `v` in which `comp` is never positive on an element
and a later one. -/
def qsorts_by {α : Type} (comp : α → α → Int) (sort : List α → List α) : Prop :=
  ∀ v, (sort v).Perm v ∧ (sort v).Pairwise (fun p q => comp p q ≤ 0)

/-- `extend_dashed_bond(a, b, n, atom)`: all four coordinates are read before the
first assignment. -/
def extend_dashed_bond {K : Type} [LinearOrderedField K] (sqrt : K → K) (a b : Nat) (n : Int)
    (atom : List (Atom K)) : List (Atom K) :=
  set_y (set_x (set_y (set_x atom a
    (((nth atom b).x - (nth atom a).x) /
        distance sqrt (nth atom a).x (nth atom a).y (nth atom b).x (nth atom b).y *
      (-1 * distance sqrt (nth atom a).x (nth atom a).y (nth atom b).x (nth atom b).y /
        ((n - 1 : Int) : K)) + (nth atom a).x)) a
    (((nth atom b).y - (nth atom a).y) /
        distance sqrt (nth atom a).x (nth atom a).y (nth atom b).x (nth atom b).y *
      (-1 * distance sqrt (nth atom a).x (nth atom a).y (nth atom b).x (nth atom b).y /
        ((n - 1 : Int) : K)) + (nth atom a).y)) b
    (((nth atom b).x - (nth atom a).x) /
        distance sqrt (nth atom a).x (nth atom a).y (nth atom b).x (nth atom b).y *
      distance sqrt (nth atom a).x (nth atom a).y (nth atom b).x (nth atom b).y /
        ((n - 1 : Int) : K) + (nth atom b).x)) b
    (((nth atom b).y - (nth atom a).y) /
        distance sqrt (nth atom a).x (nth atom a).y (nth atom b).x (nth atom b).y *
      distance sqrt (nth atom a).x (nth atom a).y (nth atom b).x (nth atom b).y /
        ((n - 1 : Int) : K) + (nth atom b).y)

/-- Body of the first loop of `delete_curve`. -/
def dc_atom {K : Type} [Zero K] (curve : Nat) (atom : List (Atom K)) (i : Nat) :
    List (Atom K) :=
  if (nth atom i).curve = curve then delete_atom atom i else atom

/-- Body of the second loop of `delete_curve`. -/
def dc_bond (curve : Nat) (bond : List Bond) (i : Nat) : List Bond :=
  if (nth bond i).curve = curve then delete_bond bond i else bond

/-- `delete_curve(atom, bond, n_atom, n_bond, curve)`. -/
def delete_curve {K : Type} [Zero K] (atom : List (Atom K)) (bond : List Bond)
    (n_atom n_bond : Nat) (curve : Nat) : List (Atom K) × List Bond :=
  ((List.range n_atom).foldl (dc_atom curve) atom,
   (List.range n_bond).foldl (dc_bond curve) bond)

/-- `bond_end_swap(bond, i)`. -/
def bond_end_swap (bond : List Bond) (i : Nat) : List Bond :=
  modify bond i (fun x => { x with a := x.b, b := x.a })

/-- The statements `atom_t a1; atom.push_back(a1); atom[n_atom].x = x; ...` that
write a fresh unlabeled atom of curve `curve` into the slot `n_atom`. -/
def push_atom {K : Type} [Zero K] (atom : List (Atom K)) (n_atom : Nat) (x y : K)
    (curve : Nat) : List (Atom K) :=
  (atom ++ [default]).set n_atom ⟨x, y, " ", 0, 0, curve, true, false, false, 0⟩

/-- Lines 2563-2582: the flag `one_line` for the sorted dashes `ds`. -/
def fdb_one_line {K : Type} [LinearOrderedField K] (V_DISPLACEMENT : K) (ds : List (Dash K))
    (n : Nat) : Bool :=
  (List.range' 1 (n - 1 - 1)).foldl
    (fun one_line j =>
      if |(if |(nth ds (n - 1)).x - (nth ds 0).x| > |(nth ds (n - 1)).y - (nth ds 0).y| then
            ((nth ds (n - 1)).y - (nth ds 0).y) / ((nth ds (n - 1)).x - (nth ds 0).x) *
              ((nth ds j).x - (nth ds 0).x) - ((nth ds j).y - (nth ds 0).y)
          else
            ((nth ds (n - 1)).x - (nth ds 0).x) / ((nth ds (n - 1)).y - (nth ds 0).y) *
              ((nth ds j).y - (nth ds 0).y) - ((nth ds j).x - (nth ds 0).x))| > V_DISPLACEMENT
      then false else one_line)
    true

/-- Lines 2584-2585: the curves of the dashes `0 .. n - 1` are deleted. -/
def fdb_delete {K : Type} [Zero K] (ds : List (Dash K)) (n : Nat) (s : DtState K) :
    List (Atom K) × List Bond :=
  (List.range n).foldl
    (fun st j => delete_curve st.1 st.2 s.n_atom s.n_bond (nth ds j).curve) (s.atom, s.bond)

/-- Lines 2586-2613: an atom is put at the first dash and one at the last dash. -/
def fdb_atoms {K : Type} [Zero K] (MAX_ATOMS : Nat) (ds : List (Dash K)) (n : Nat)
    (atom : List (Atom K)) (n_atom : Nat) : List (Atom K) :=
  push_atom (push_atom atom n_atom (nth ds 0).x (nth ds 0).y (nth ds 0).curve)
    (bump MAX_ATOMS n_atom) (nth ds (n - 1)).x (nth ds (n - 1)).y (nth ds (n - 1)).curve

/-- Lines 2614-2629: the hash bond between the two new atoms (`n_atom` is the
counter after both atoms were added), its ends swapped when the first dash has
the larger area.  The seven flags assigned after the swap are written with the
record. -/
def fdb_bond {K : Type} [Zero K] (ds : List (Dash K)) (n : Nat) (bond : List Bond)
    (n_bond n_atom : Nat) : List Bond :=
  if (nth ds 0).area > (nth ds (n - 1)).area then
    bond_end_swap
      ((bond ++ [default]).set n_bond
        ⟨n_atom - 2, n_atom - 1, 1, (nth ds 0).curve, true, true, false, false, false, false,
          false, false⟩) n_bond
  else
    (bond ++ [default]).set n_bond
      ⟨n_atom - 2, n_atom - 1, 1, (nth ds 0).curve, true, true, false, false, false, false,
        false, false⟩

/-- Lines 2584-2636 for the sorted dashes `ds`: the hash bond is built and
extended by `extend_dashed_bond`. -/
def fdb_hash_bond {K : Type} [LinearOrderedField K] (sqrt : K → K) (MAX_ATOMS : Nat)
    (ds : List (Dash K)) (n : Nat) (s : DtState K) : DtState K :=
  ⟨extend_dashed_bond sqrt
      (nth (fdb_bond ds n (fdb_delete ds n s).2 s.n_bond
        (bump MAX_ATOMS (bump MAX_ATOMS s.n_atom))) s.n_bond).a
      (nth (fdb_bond ds n (fdb_delete ds n s).2 s.n_bond
        (bump MAX_ATOMS (bump MAX_ATOMS s.n_atom))) s.n_bond).b
      (n : Int) (fdb_atoms MAX_ATOMS ds n (fdb_delete ds n s).1 s.n_atom),
    fdb_bond ds n (fdb_delete ds n s).2 s.n_bond (bump MAX_ATOMS (bump MAX_ATOMS s.n_atom)),
    bump MAX_ATOMS s.n_bond,
    bump MAX_ATOMS (bump MAX_ATOMS s.n_atom)⟩

/-- Lines 2555-2637 of `find_dashed_bonds`: the `n` dashes collected in `dash`,
with bounding box `l`, `r`, `t`, `b`, are sorted along the longer side of the
box (`sort_x`, `sort_y` stand for `qsort` with `comp_dashes_x`, `comp_dashes_y`)
and turned into a hash bond when there are more than two on one line. -/
def fdb_finish {K : Type} [LinearOrderedField K] (sqrt : K → K) (V_DISPLACEMENT : K)
    (MAX_ATOMS : Nat) (sort_x sort_y : List (Dash K) → List (Dash K))
    (dash : List (Dash K)) (n : Nat) (l r t b : K) (s : DtState K) : DtState K :=
  if n > 2 then
    if fdb_one_line V_DISPLACEMENT
        (if r - l > b - t then sort_x (dash.take n) else sort_y (dash.take n)) n = true then
      fdb_hash_bond sqrt MAX_ATOMS
        (if r - l > b - t then sort_x (dash.take n) else sort_y (dash.take n)) n s
    else s
  else s

/-- Four dash marks starting at `(px, py)`, each `(gx, gy)` after the one before. -/
def even_marks {K : Type} [LinearOrderedField K] (px py gx gy : K) (c0 c1 c2 c3 : Nat)
    (a0 a1 a2 a3 : Int) : List (Dash K) :=
  [⟨px, py, false, c0, a0⟩, ⟨px + gx, py + gy, false, c1, a1⟩,
   ⟨px + 2 * gx, py + 2 * gy, false, c2, a2⟩, ⟨px + 3 * gx, py + 3 * gy, false, c3, a3⟩]

/-- Insertion sort by `x`, a function that `qsort` with `comp_dashes_x` may compute. -/
def sort_dashes_by_x {K : Type} [LinearOrderedField K] (v : List (Dash K)) : List (Dash K) :=
  v.insertionSort (fun p q => p.x ≤ q.x)

/-- Insertion sort by `y`, a function that `qsort` with `comp_dashes_y` may compute. -/
def sort_dashes_by_y {K : Type} [LinearOrderedField K] (v : List (Dash K)) : List (Dash K) :=
  v.insertionSort (fun p q => p.y ≤ q.y)

/-- Atoms at `(0, 0)` and `(3, 4)` and a third one elsewhere. -/
def gap_atoms : List (Atom ℚ) := [mkAtom 0 0, mkAtom 3 4, mkAtom 1 1]

/-- The marks `(2, 1)`, `(5, 5)`, `(8, 9)`, `(11, 13)` listed out of order, with
the curves 7, 8, 9, 10. -/
def four_dashes : List (Dash ℚ) :=
  [⟨8, 9, false, 9, 5⟩, ⟨2, 1, false, 7, 5⟩, ⟨11, 13, false, 10, 6⟩, ⟨5, 5, false, 8, 5⟩]

/-- A state with two atoms and one bond, the first atom and the bond on curve 7. -/
def dash_state : DtState ℚ :=
  ⟨[⟨2, 1, " ", 0, 0, 7, true, false, false, 0⟩, mkAtom 5 5],
    [⟨0, 1, 1, 7, true, false, false, false, false, false, false, false⟩], 1, 2⟩

/-! ## `find_wedge_bonds` (osra.cpp 3278-3447) -/

/-- The conversion `int(q)` of a rational number (truncation towards zero),
used to run the definitions on concrete inputs. -/
def qtrunc (q : ℚ) : Int := Int.tdiv q.num q.den

/-- What the two sampling loops of a bond carry: the regression samples
`x_reg`, `y_reg`, their sums `avg_x`, `avg_y`, the largest thickness `w` and the
last thickness `old`. -/
structure WScan (K : Type) where
  x_reg : List Int
  y_reg : List Int
  avg_x : K
  avg_y : K
  w : Int
  old : Int

/-- Lines 3315-3323 (also 3332-3340, 3356-3364, 3373-3381): the sample `t` at
position `j` is recorded when it is a plausible thickness; `old = t` follows. -/
def fwb_take {K : Type} [LinearOrderedField K] (MAX_BOND_THICKNESS avg : K) (s : WScan K)
    (j t : Int) : WScan K :=
  if (t : K) < 2 * MAX_BOND_THICKNESS ∧ (t : K) < avg / 3 ∧ t > 0 then
    ⟨s.x_reg ++ [j], s.y_reg ++ [t], s.avg_x + (j : K), s.avg_y + (t : K), max s.w t, t⟩
  else ⟨s.x_reg, s.y_reg, s.avg_x, s.avg_y, s.w, t⟩

/-- One sampling loop over the positions still to visit; `sample j` is the
thickness read at position `j`.  A jump of more than 2 ends the loop (`break`). -/
def fwb_scan {K : Type} [LinearOrderedField K] (MAX_BOND_THICKNESS avg : K)
    (sample : Int → Int) : List Int → WScan K → WScan K
  | [], s => s
  | j :: js, s =>
    if |sample j - s.old| > 2 then s
    else fwb_scan MAX_BOND_THICKNESS avg sample js
      (fwb_take MAX_BOND_THICKNESS avg s j (sample j))

/-- What distinguishes the branch of lines 3303-3343 (sampling along `x`) from
the branch of lines 3344-3384 (sampling along `y`): the thickness `w3` at the
middle, the middle coordinate, `max_c`, `min_c`, `sign` and the sample read at
position `j`. -/
structure WAxis where
  w3 : Int
  mid : Int
  max_c : Int
  min_c : Int
  sign : Int
  sample : Int → Int

/-- Lines 3305-3312 and 3329-3331: sampling along `x` with `thickness_ver` (`tv`). -/
def fwb_ver {K : Type} [LinearOrderedField K] (trunc : K → Int) (tv : Int → Int → Int)
    (dist : Int) (p q : Atom K) : WAxis :=
  ⟨tv (trunc ((p.x + q.x) / 2)) (trunc ((p.y + q.y) / 2)),
    trunc ((p.x + q.x) / 2),
    trunc (max p.x q.x) - dist,
    trunc (min p.x q.x) + dist,
    if q.x < p.x then -1 else 1,
    fun j => tv j (trunc (p.y + (q.y - p.y) * ((j : K) - p.x) / (q.x - p.x)))⟩

/-- Lines 3346-3353 and 3370-3372: sampling along `y` with `thickness_hor` (`th`). -/
def fwb_hor {K : Type} [LinearOrderedField K] (trunc : K → Int) (th : Int → Int → Int)
    (dist : Int) (p q : Atom K) : WAxis :=
  ⟨th (trunc ((p.x + q.x) / 2)) (trunc ((p.y + q.y) / 2)),
    trunc ((p.y + q.y) / 2),
    trunc (max p.y q.y) - dist,
    trunc (min p.y q.y) + dist,
    if q.y < p.y then -1 else 1,
    fun j => th (trunc (p.x + (q.x - p.x) * ((j : K) - p.y) / (q.y - p.y))) j⟩

/-- The test of line 3303 and the branch it selects, for a bond from atom `p`
to atom `q`. -/
def fwb_axis {K : Type} [LinearOrderedField K] (trunc : K → Int) (tv th : Int → Int → Int)
    (dist : Int) (p q : Atom K) : WAxis :=
  if ((fwb_ver trunc tv dist p q).w3 < (fwb_hor trunc th dist p q).w3 ∧
      (fwb_ver trunc tv dist p q).w3 > 0) ∨ (fwb_hor trunc th dist p q).w3 = 0 then
    fwb_ver trunc tv dist p q
  else fwb_hor trunc th dist p q

/-- The two sampling loops of a branch: upwards from `mid + 1` to `max_c`, then,
with `old` reset to `w3`, downwards from `mid - 1` to `min_c`. -/
def fwb_sample {K : Type} [LinearOrderedField K] (MAX_BOND_THICKNESS avg : K) (ax : WAxis) :
    WScan K :=
  (fun up : WScan K =>
    fwb_scan MAX_BOND_THICKNESS avg ax.sample
      ((List.range (ax.mid - ax.min_c).toNat).map (fun k : Nat => ax.mid - 1 - (k : Int)))
      ⟨up.x_reg, up.y_reg, up.avg_x, up.avg_y, up.w, ax.w3⟩)
  (fwb_scan MAX_BOND_THICKNESS avg ax.sample
    ((List.range (ax.max_c - ax.mid).toNat).map (fun k : Nat => ax.mid + 1 + (k : Int)))
    ⟨[], [], 0, 0, ax.w3, ax.w3⟩)

/-- Lines 3385-3391: the sum `numerator` of the regression, with `avg_x` and
`avg_y` divided by the number of samples (lines 3385-3386). -/
def fwb_numerator {K : Type} [LinearOrderedField K] (sc : WScan K) : K :=
  (List.range sc.x_reg.length).foldl
    (fun acc j => acc + 1 * (((nth sc.x_reg j : Int) : K) - sc.avg_x / (sc.x_reg.length : K)) *
      (((nth sc.y_reg j : Int) : K) - sc.avg_y / (sc.y_reg.length : K))) 0

/-- Lines 3385-3392: the sum `denominator` of the regression. -/
def fwb_denominator {K : Type} [LinearOrderedField K] (sc : WScan K) : K :=
  (List.range sc.x_reg.length).foldl
    (fun acc j => acc + 1 * (((nth sc.x_reg j : Int) : K) - sc.avg_x / (sc.x_reg.length : K)) *
      (((nth sc.x_reg j : Int) : K) - sc.avg_x / (sc.x_reg.length : K))) 0

/-- Lines 3393-3395: the slope `beta` of the least-squares line through the
samples (0 when the denominator vanishes). -/
def fwb_beta {K : Type} [LinearOrderedField K] (sc : WScan K) : K :=
  if fwb_denominator sc ≠ 0 then fwb_numerator sc / fwb_denominator sc else 0

/-- State of `find_wedge_bonds`: the vectors, the list `a` of thicknesses of
plain bonds and their number `n`. -/
structure WState (K : Type) where
  atom : List (Atom K)
  bond : List Bond
  a : List K
  n : Nat

/-- The assignment `bond[i].wedge = true`. -/
def set_wedge (bond : List Bond) (i : Nat) : List Bond :=
  modify bond i (fun b => { b with wedge := true })

/-- Lines 3397-3402: the bond is marked as a wedge when the fitted slope times
the sampled span exceeds `limit`, and its ends are swapped when the slope and
`sign` disagree. -/
def fwb_mark {K : Type} [LinearOrderedField K] (limit : Int) (beta : K) (ax : WAxis)
    (bond : List Bond) (i : Nat) : List Bond :=
  if |beta| * ((ax.max_c - ax.min_c : Int) : K) > (limit : K) then
    if beta * (ax.sign : K) < 0 then bond_end_swap (set_wedge bond i) i else set_wedge bond i
  else bond

/-- Body of the loop of lines 3405-3423: an existing atom `j` within `w` of the
end `b` of the wedge is merged into that end. -/
def fwb_merge {K : Type} [LinearOrderedField K] (sqrt : K → K) (n_bond : Nat) (w : Int)
    (i : Nat) (s : List (Atom K) × List Bond) (j : Nat) : List (Atom K) × List Bond :=
  if (nth s.1 j).exists_ = true ∧ j ≠ (nth s.2 i).b ∧
      distance sqrt (nth s.1 (nth s.2 i).b).x (nth s.1 (nth s.2 i).b).y
        (nth s.1 j).x (nth s.1 j).y ≤ (w : K) then
    (average_into (delete_atom s.1 j) (nth s.2 i).b j,
      (List.range n_bond).foldl (fun bond k => ca_rewire (nth bond i).b j bond k) s.2)
  else s

/-- Lines 3403-3424: the atoms around the wide end of a wedge are merged. -/
def fwb_settle {K : Type} [LinearOrderedField K] (sqrt : K → K) (n_atom n_bond : Nat)
    (w : Int) (i : Nat) (s : List (Atom K) × List Bond) : List (Atom K) × List Bond :=
  if (nth s.2 i).wedge = true then (List.range n_atom).foldl (fwb_merge sqrt n_bond w i) s
  else s

/-- Lines 3303-3430 for bond `i` and the branch `ax`: sampling, regression,
marking, merging, and the record of the mean thickness of a plain bond. -/
def fwb_wedge {K : Type} [LinearOrderedField K] (sqrt : K → K) (trunc : K → Int)
    (MAX_BOND_THICKNESS avg : K) (limit : Int) (n_atom n_bond : Nat) (ax : WAxis)
    (s : WState K) (i : Nat) : WState K :=
  if (nth (fwb_settle sqrt n_atom n_bond (fwb_sample MAX_BOND_THICKNESS avg ax).w i
      (s.atom, fwb_mark limit (fwb_beta (fwb_sample MAX_BOND_THICKNESS avg ax)) ax s.bond i)).2
      i).wedge = false then
    ⟨(fwb_settle sqrt n_atom n_bond (fwb_sample MAX_BOND_THICKNESS avg ax).w i
        (s.atom, fwb_mark limit (fwb_beta (fwb_sample MAX_BOND_THICKNESS avg ax)) ax s.bond i)).1,
      (fwb_settle sqrt n_atom n_bond (fwb_sample MAX_BOND_THICKNESS avg ax).w i
        (s.atom, fwb_mark limit (fwb_beta (fwb_sample MAX_BOND_THICKNESS avg ax)) ax s.bond i)).2,
      s.a ++ [((trunc ((fwb_sample MAX_BOND_THICKNESS avg ax).avg_y /
        ((fwb_sample MAX_BOND_THICKNESS avg ax).y_reg.length : K)) : Int) : K)],
      s.n + 1⟩
  else
    ⟨(fwb_settle sqrt n_atom n_bond (fwb_sample MAX_BOND_THICKNESS avg ax).w i
        (s.atom, fwb_mark limit (fwb_beta (fwb_sample MAX_BOND_THICKNESS avg ax)) ax s.bond i)).1,
      (fwb_settle sqrt n_atom n_bond (fwb_sample MAX_BOND_THICKNESS avg ax).w i
        (s.atom, fwb_mark limit (fwb_beta (fwb_sample MAX_BOND_THICKNESS avg ax)) ax s.bond i)).2,
      s.a, s.n⟩

/-- The test of lines 3289-3290: bond `i` exists, is no hash bond, has order 1
and is longer than `max_dist_double_bond`. -/
def fwb_guard {K : Type} [LinearOrderedField K] (sqrt : K → K) (max_dist_double_bond : K)
    (atom : List (Atom K)) (bond : List Bond) (i : Nat) : Prop :=
  (nth bond i).exists_ = true ∧ (nth bond i).hash = false ∧ (nth bond i).type = 1 ∧
    bond_length sqrt bond i atom > max_dist_double_bond

instance {K : Type} [LinearOrderedField K] (sqrt : K → K) (max_dist_double_bond : K)
    (atom : List (Atom K)) (bond : List Bond) (i : Nat) :
    Decidable (fwb_guard sqrt max_dist_double_bond atom bond i) := by
  unfold fwb_guard; infer_instance

/-- The branch taken for bond `i`, from its end `a` to its end `b`. -/
def bond_axis {K : Type} [LinearOrderedField K] (trunc : K → Int) (tv th : Int → Int → Int)
    (dist : Int) (atom : List (Atom K)) (bond : List Bond) (i : Nat) : WAxis :=
  fwb_axis trunc tv th dist (nth atom (nth bond i).a) (nth atom (nth bond i).b)

/-- Body of the loop of `find_wedge_bonds` (lines 3288-3431); `tv` and `th` are
the values of `thickness_ver` and `thickness_hor`, which read the image. -/
def fwb_body {K : Type} [LinearOrderedField K] (sqrt : K → K) (trunc : K → Int)
    (tv th : Int → Int → Int) (MAX_BOND_THICKNESS max_dist_double_bond avg : K)
    (limit dist : Int) (n_atom n_bond : Nat) (s : WState K) (i : Nat) : WState K :=
  if fwb_guard sqrt max_dist_double_bond s.atom s.bond i then
    if (fwb_ver trunc tv dist (nth s.atom (nth s.bond i).a) (nth s.atom (nth s.bond i).b)).w3
          = 0 ∧
        (fwb_hor trunc th dist (nth s.atom (nth s.bond i).a) (nth s.atom (nth s.bond i).b)).w3
          = 0 then s
    else
      fwb_wedge sqrt trunc MAX_BOND_THICKNESS avg limit n_atom n_bond
        (bond_axis trunc tv th dist s.atom s.bond i) s i
  else s

/-- `find_wedge_bonds(image, atom, n_atom, bond, n_bond, bgColor, THRESHOLD_BOND,
max_dist_double_bond, avg, limit, dist)`: the atom and bond vectors afterwards
and the returned thickness. -/
def find_wedge_bonds {K : Type} [LinearOrderedField K] (sqrt : K → K) (trunc : K → Int)
    (tv th : Int → Int → Int) (MAX_BOND_THICKNESS : K) (atom : List (Atom K)) (n_atom : Nat)
    (bond : List Bond) (n_bond : Nat) (max_dist_double_bond avg : K) (limit dist : Int) :
    List (Atom K) × List Bond × K :=
  (fun r : WState K =>
    (r.atom, r.bond,
      if r.n > 0 then (r.a.insertionSort (fun x y => x ≤ y)).getD ((r.n - 1) / 2) 0
      else 3 / 2))
  ((List.range n_bond).foldl
    (fwb_body sqrt trunc tv th MAX_BOND_THICKNESS max_dist_double_bond avg limit dist
      n_atom n_bond)
    ⟨atom, bond, [3 / 2], 0⟩)

/-- The thickness 1 + d / 4 of a wedge `d` pixels from its narrow end: 1 at
`d = 0`, 6 at `d = 20`. -/
def wedge_profile (d : Int) : Int := 1 + d / 4

/-- End `a` of a bond is its narrow end: the thickness rises with the sampling
coordinate and `a` is not the end with the larger coordinate (`sign = 1`), or
it falls and `a` is the end with the larger coordinate (`sign = -1`). -/
def narrow_is_a (rising : Bool) (ax : WAxis) : Prop :=
  (rising = true ∧ ax.sign = 1) ∨ (rising = false ∧ ax.sign = -1)

instance (rising : Bool) (ax : WAxis) : Decidable (narrow_is_a rising ax) := by
  unfold narrow_is_a; infer_instance

/-- Horizontal thickness 20 everywhere. -/
def th_long : Int → Int → Int := fun _ _ => 20

/-! ## `find_bonds` (osra.cpp 1604-1697) -/

/-- `next_atom(cur, begin, total)`. -/
def next_atom (cur begin total : Nat) : Nat :=
  if cur + 1 > total - 1 then begin else cur + 1

/-- The loop `while (distance(atom[m], atom[n]) < V_DISPLACEMENT && m != n)
m = next_atom(m, begin, total)` of `dir_change`; `none` when the fuel runs out. -/
def dc_seek {K : Type} [LinearOrderedField K] (sqrt : K → K) (V_DISPLACEMENT : K)
    (atom : List (Atom K)) (n begin total : Nat) : Nat → Nat → Option Nat
  | 0, _ => none
  | fuel + 1, m =>
    if distance sqrt (nth atom m).x (nth atom m).y (nth atom n).x (nth atom n).y
        < V_DISPLACEMENT ∧ m ≠ n then
      dc_seek sqrt V_DISPLACEMENT atom n begin total fuel (next_atom m begin total)
    else some m

/-- `dir_change(n, last, begin, total, atom)`.  The fuel of the loop is `total`:
the loop ends at the latest when `m` has gone once around the path. -/
def dir_change {K : Type} [LinearOrderedField K] (sqrt : K → K) (V_DISPLACEMENT DIR_CHANGE : K)
    (n last begin total : Nat) (atom : List (Atom K)) : Option Bool :=
  (dc_seek sqrt V_DISPLACEMENT atom n begin total total (next_atom n begin total)).map
    (fun m =>
      if m = n then false
      else if |distance_from_bond_y sqrt (nth atom n).x (nth atom n).y (nth atom last).x
          (nth atom last).y (nth atom m).x (nth atom m).y| > DIR_CHANGE then true
      else false)

/-- `smaller_distance(n, last, begin, total, atom)`. -/
def smaller_distance {K : Type} [LinearOrderedField K] (sqrt : K → K)
    (n last begin total : Nat) (atom : List (Atom K)) : Bool :=
  if distance sqrt (nth atom n).x (nth atom n).y (nth atom last).x (nth atom last).y >
      distance sqrt (nth atom (next_atom n begin total)).x (nth atom (next_atom n begin total)).y
        (nth atom last).x (nth atom last).y then true
  else false

/-- Body of the loop of lines 1645-1669 for the point `i`: the atom vector and
`last` afterwards (`i++` happens in every branch); `none` is handed on. -/
def fb_decide {K : Type} [LinearOrderedField K] (sqrt : K → K) (V_DISPLACEMENT DIR_CHANGE : K)
    (b_atom n_atom : Nat) (s : Option (List (Atom K) × Nat)) (i : Nat) :
    Option (List (Atom K) × Nat) :=
  s.bind (fun st =>
    if (nth st.1 i).corner = true then some (restore_atom st.1 i, i)
    else
      (dir_change sqrt V_DISPLACEMENT DIR_CHANGE i st.2 b_atom n_atom st.1).map
        (fun dc =>
          if dc = true then (restore_atom st.1 i, i)
          else if smaller_distance sqrt i st.2 b_atom n_atom st.1 = true then
            (restore_atom st.1 i, i)
          else st))

/-- The loop `while (!atom[j].exists) j = next_atom(j, b_atom, n_atom)` of lines
1678-1681; `none` when the fuel runs out. -/
def fb_seek {K : Type} [Zero K] (atom : List (Atom K)) (b_atom n_atom : Nat) :
    Nat → Nat → Option Nat
  | 0, _ => none
  | fuel + 1, j =>
    if (nth atom j).exists_ = false then fb_seek atom b_atom n_atom fuel (next_atom j b_atom n_atom)
    else some j

/-- The bond written by lines 1673-1690: from `i` to `j`, of order 1, on curve `p`. -/
def path_bond (p i j : Nat) : Bond :=
  ⟨i, j, 1, p, true, false, false, false, false, false, false, false⟩

/-- Body of the loop of lines 1670-1695 for the atom `i`: the bond vector and
`n_bond` afterwards; `none` is handed on.  The search for `j` gets the fuel
`n_atom`. -/
def fb_link {K : Type} [Zero K] (MAX_ATOMS p : Nat) (atom : List (Atom K))
    (b_atom n_atom : Nat) (s : Option (List Bond × Nat)) (i : Nat) : Option (List Bond × Nat) :=
  s.bind (fun st =>
    if (nth atom i).exists_ = true then
      (fb_seek atom b_atom n_atom n_atom (next_atom i b_atom n_atom)).map
        (fun j => ((st.1 ++ [default]).set st.2 (path_bond p i j), bump MAX_ATOMS st.2))
    else some st)

/-- The first loop of `find_bonds` (lines 1642-1669): the decimation of the
points `b_atom + 1 .. n_atom - 1`. -/
def fb_decimate {K : Type} [LinearOrderedField K] (sqrt : K → K)
    (V_DISPLACEMENT DIR_CHANGE : K) (atom : List (Atom K)) (b_atom n_atom : Nat) :
    Option (List (Atom K) × Nat) :=
  (List.range' (b_atom + 1) (n_atom - (b_atom + 1))).foldl
    (fb_decide sqrt V_DISPLACEMENT DIR_CHANGE b_atom n_atom) (some (atom, b_atom))

/-- `find_bonds(atom, bond, b_atom, n_atom, n_bond, p)`: the atom vector, the
bond vector and the returned `n_bond`. -/
def find_bonds {K : Type} [LinearOrderedField K] (sqrt : K → K)
    (V_DISPLACEMENT DIR_CHANGE : K) (MAX_ATOMS : Nat) (atom : List (Atom K)) (bond : List Bond)
    (b_atom n_atom n_bond p : Nat) : Option (List (Atom K) × List Bond × Nat) :=
  (fb_decimate sqrt V_DISPLACEMENT DIR_CHANGE atom b_atom n_atom).bind (fun st =>
    ((List.range' b_atom (n_atom - b_atom)).foldl
      (fb_link MAX_ATOMS p st.1 b_atom n_atom) (some (bond, n_bond))).map
      (fun r => (st.1, r.1, r.2)))

/-- The atoms of the segment `[b_atom, n_atom)` that exist, in path order. -/
def kept_atoms {K : Type} [Zero K] (atom : List (Atom K)) (b_atom n_atom : Nat) : List Nat :=
  (List.range' b_atom (n_atom - b_atom)).filter (fun i => (nth atom i).exists_)

/-- A path point at `(x, y)` as `find_atoms` leaves it: not existing, no corner. -/
def path_point {K : Type} (x y : K) : Atom K :=
  ⟨x, y, " ", 0, 0, 0, false, false, false, 0⟩

/-- Points of a path that runs straight from `(0, 0)` to `(3, 0)` and comes back
through `(2, 1)` and `(1, 1)`. -/
def loop_path : List (Atom ℚ) :=
  [path_point 0 0, path_point 1 0, path_point 2 0, path_point 3 0, path_point 2 1,
   path_point 1 1]

/-- The points of `loop_path` with corners at the points 1 and 5. -/
def corner_path : List (Atom ℚ) :=
  [path_point 0 0, ⟨1, 0, " ", 0, 0, 0, false, true, false, 0⟩, path_point 2 0, path_point 3 0,
   path_point 2 1, ⟨1, 1, " ", 0, 0, 0, false, true, false, 0⟩]

/-! ## `flatten_bonds` (osra.cpp 3862-4009) -/

/-- The statement `if (bond[src].hash) bond[dst].hash = true`. -/
def copy_hash (bond : List Bond) (src dst : Nat) : List Bond :=
  if (nth bond src).hash = true then modify bond dst (fun b => { b with hash := true })
  else bond

/-- The statement `if (bond[src].wedge) bond[dst].wedge = true`. -/
def copy_wedge (bond : List Bond) (src dst : Nat) : List Bond :=
  if (nth bond src).wedge = true then modify bond dst (fun b => { b with wedge := true })
  else bond

/-- The statements `if (lf > li) bond[i].type = bond[f].type; if (bond[f].arom)
bond[i].arom = true; if (bond[f].hash) bond[i].hash = true; if (bond[f].wedge)
bond[i].wedge = true` that end each of the four merges. -/
def fl_inherit {K : Type} [LinearOrderedField K] (bond : List Bond) (i f : Nat) (lf li : K) :
    List Bond :=
  copy_wedge
    (copy_hash
      (copy_arom (if lf > li then set_type bond i (nth bond f).type else bond) f i) f i) f i

/-- The assignment `bond[i].a = v`. -/
def set_a (bond : List Bond) (i v : Nat) : List Bond :=
  modify bond i (fun b => { b with a := v })

/-- The assignment `bond[i].b = v`. -/
def set_b (bond : List Bond) (i v : Nat) : List Bond :=
  modify bond i (fun b => { b with b := v })

/-- The four places where `flatten_bonds` merges bond `f` into bond `i`:
at end `a` of `i` with `bond[i].a == bond[f].b` (lines 3888-3903) or not
(3905-3929), at end `b` of `i` with `bond[i].b == bond[f].b` (3946-3968) or not
(3970-3988). -/
inductive FlCase where
  | a_fb
  | a_fa
  | b_fb
  | b_fa
deriving DecidableEq

/-- The atom that a merge deletes: `atom[bond[f].b]` or `atom[bond[f].a]`. -/
def fl_gone (c : FlCase) (bond : List Bond) (f : Nat) : Nat :=
  match c with
  | FlCase.a_fb => (nth bond f).b
  | FlCase.a_fa => (nth bond f).a
  | FlCase.b_fb => (nth bond f).b
  | FlCase.b_fa => (nth bond f).a

/-- The new ends of bond `i` in a merge (lines 3894, 3912-3918, 3953-3959, 3977);
bond `f` is turned round with the merged bond when it is a hash or wedge bond. -/
def fl_ends (c : FlCase) (bond : List Bond) (i f : Nat) : List Bond :=
  match c with
  | FlCase.a_fb => set_a bond i (nth bond f).a
  | FlCase.a_fa =>
    if (nth bond f).hash = true ∨ (nth bond f).wedge = true then
      set_b (set_a bond i (nth bond i).b) i (nth bond f).b
    else set_a bond i (nth bond f).b
  | FlCase.b_fb =>
    if (nth bond f).hash = true ∨ (nth bond f).wedge = true then
      set_a (set_b bond i (nth bond i).a) i (nth bond f).a
    else set_b bond i (nth bond f).a
  | FlCase.b_fa => set_b bond i (nth bond f).b

/-- State of a pass of `flatten_bonds`: the vectors and the flag `found`. -/
structure FlState (K : Type) where
  atom : List (Atom K)
  bond : List Bond
  found : Bool

/-- One merge of bond `f` into bond `i`: bond `f` and the shared atom are
deleted, bond `i` gets its new ends and inherits from `f`; `found = true`. -/
def fl_merge {K : Type} [LinearOrderedField K] (c : FlCase) (s : FlState K) (i f : Nat)
    (lf li : K) : FlState K :=
  ⟨delete_atom s.atom (fl_gone c (delete_bond s.bond f) f),
    fl_inherit (fl_ends c (delete_bond s.bond f) i f) i f lf li, true⟩

/-- The loop over `j` of lines 3874-3880 (`e` is the end `bond[i].a`) and of
lines 3935-3941 (`e` is `bond[i].b`): the number `n` of other existing bonds of
order below 3 at the atom `e` and the last of them, `f`. -/
def fl_count (bond : List Bond) (n_bond i e : Nat) : Nat × Nat :=
  (List.range n_bond).foldl
    (fun nf j =>
      if j ≠ i ∧ (nth bond j).exists_ = true ∧ (nth bond j).type < 3 ∧
          (e = (nth bond j).a ∨ e = (nth bond j).b) then (nf.1 + 1, j)
      else nf)
    (0, i)

/-- The offset `h` of lines 3889, 3911, 3957, 3985: `fabs(distance_from_bond_y(...))`
of atom `p` from the line of bond `i`. -/
def fl_h {K : Type} [LinearOrderedField K] (sqrt : K → K) (s : FlState K) (i p : Nat) : K :=
  |distance_from_bond_y sqrt (nth s.atom (nth s.bond i).a).x (nth s.atom (nth s.bond i).a).y
    (nth s.atom (nth s.bond i).b).x (nth s.atom (nth s.bond i).b).y
    (nth s.atom p).x (nth s.atom p).y|

/-- The position `d` of lines 3891 and 3913: `distance_from_bond_x_a` of atom `p`
along bond `i`. -/
def fl_d_a {K : Type} [LinearOrderedField K] (sqrt : K → K) (s : FlState K) (i p : Nat) : K :=
  distance_from_bond_x_a sqrt (nth s.atom (nth s.bond i).a).x (nth s.atom (nth s.bond i).a).y
    (nth s.atom (nth s.bond i).b).x (nth s.atom (nth s.bond i).b).y
    (nth s.atom p).x (nth s.atom p).y

/-- The position `d` of lines 3959 and 3987: `distance_from_bond_x_b` of atom `p`
along bond `i`. -/
def fl_d_b {K : Type} [LinearOrderedField K] (sqrt : K → K) (s : FlState K) (i p : Nat) : K :=
  distance_from_bond_x_b sqrt (nth s.atom (nth s.bond i).a).x (nth s.atom (nth s.bond i).a).y
    (nth s.atom (nth s.bond i).b).x (nth s.atom (nth s.bond i).b).y
    (nth s.atom p).x (nth s.atom p).y

/-- Lines 3875-3939: the end `a` of bond `i`; `li` is the length of bond `i`
taken at line 3874. -/
def fl_side_a {K : Type} [LinearOrderedField K] (sqrt : K → K) (n_bond : Nat) (maxh : K)
    (s : FlState K) (i : Nat) (li : K) : FlState K :=
  if (nth s.atom (nth s.bond i).a).label = " " then
    let nf := fl_count s.bond n_bond i (nth s.bond i).a
    let lf := bond_length sqrt s.bond nf.2 s.atom
    if nf.1 = 1 then
      if (nth s.bond i).a = (nth s.bond nf.2).b then
        if fl_h sqrt s i (nth s.bond nf.2).a ≤ maxh ∧ fl_d_a sqrt s i (nth s.bond nf.2).a < 0 then
          fl_merge FlCase.a_fb s i nf.2 lf li
        else s
      else
        if fl_h sqrt s i (nth s.bond nf.2).b ≤ maxh ∧ fl_d_a sqrt s i (nth s.bond nf.2).b < 0 then
          fl_merge FlCase.a_fa s i nf.2 lf li
        else s
    else s
  else s

/-- Lines 3941-4006: the end `b` of bond `i`, with the same `li`. -/
def fl_side_b {K : Type} [LinearOrderedField K] (sqrt : K → K) (n_bond : Nat) (maxh : K)
    (s : FlState K) (i : Nat) (li : K) : FlState K :=
  if (nth s.atom (nth s.bond i).b).label = " " then
    let nf := fl_count s.bond n_bond i (nth s.bond i).b
    let lf := bond_length sqrt s.bond nf.2 s.atom
    if nf.1 = 1 then
      if (nth s.bond i).b = (nth s.bond nf.2).b then
        if fl_h sqrt s i (nth s.bond nf.2).a ≤ maxh ∧ 0 < fl_d_b sqrt s i (nth s.bond nf.2).a then
          fl_merge FlCase.b_fb s i nf.2 lf li
        else s
      else
        if fl_h sqrt s i (nth s.bond nf.2).b ≤ maxh ∧ 0 < fl_d_b sqrt s i (nth s.bond nf.2).b then
          fl_merge FlCase.b_fa s i nf.2 lf li
        else s
    else s
  else s

/-- Body of the loop over `i` (lines 3870-4007). -/
def fl_body {K : Type} [LinearOrderedField K] (sqrt : K → K) (n_bond : Nat) (maxh : K)
    (s : FlState K) (i : Nat) : FlState K :=
  if (nth s.bond i).exists_ = true ∧ (nth s.bond i).type < 3 then
    fl_side_b sqrt n_bond maxh
      (fl_side_a sqrt n_bond maxh s i (bond_length sqrt s.bond i s.atom)) i
      (bond_length sqrt s.bond i s.atom)
  else s

/-- One round of the `while` loop: `found = false` and the loop over `i`. -/
def fl_pass {K : Type} [LinearOrderedField K] (sqrt : K → K) (n_bond : Nat) (maxh : K)
    (atom : List (Atom K)) (bond : List Bond) : FlState K :=
  (List.range n_bond).foldl (fl_body sqrt n_bond maxh) ⟨atom, bond, false⟩

/-- `flatten_bonds(bond, n_bond, atom, maxh)` run with `fuel` rounds of the
`while` loop at most: the bond and atom vectors afterwards. -/
def flatten_bonds {K : Type} [LinearOrderedField K] (sqrt : K → K) (n_bond : Nat) (maxh : K) :
    Nat → List Bond → List (Atom K) → Option (List Bond × List (Atom K))
  | 0, _, _ => none
  | fuel + 1, bond, atom =>
    if (fl_pass sqrt n_bond maxh atom bond).found = true then
      flatten_bonds sqrt n_bond maxh fuel (fl_pass sqrt n_bond maxh atom bond).bond
        (fl_pass sqrt n_bond maxh atom bond).atom
    else
      some ((fl_pass sqrt n_bond maxh atom bond).bond, (fl_pass sqrt n_bond maxh atom bond).atom)

/-- Three atoms on a line: a short bond from 0 to 1 and a long one from 1 to 2. -/
def chain_atoms : List (Atom ℚ) := [mkAtom 0 0, mkAtom 4 0, mkAtom 20 0]

/-- A double bond of length 4 followed by a single bond of length 16. -/
def chain_bonds : List Bond := [mkBond 0 1 2, mkBond 1 2 1]

/-- A single bond of length 4 followed by a double bond of length 16. -/
def chain_bonds_up : List Bond := [mkBond 0 1 1, mkBond 1 2 2]

/-- What a merge at the atom `e` of bond `i` leaves, from the state `s` to the
state `r`: a bond `f` counted by `fl_count` is gone together with the unlabeled
atom `e`, and bond `i` survives with the order of `f` when `f` is longer than
`li`, its own order otherwise, and with every flag that either bond had. -/
def FlMerged {K : Type} [LinearOrderedField K] (sqrt : K → K) (n_bond : Nat)
    (s r : FlState K) (i e : Nat) (li : K) : Prop :=
  ∃ f, f ≠ i ∧ f < n_bond ∧ (nth s.bond f).exists_ = true ∧ (nth s.bond f).type < 3 ∧
    (e = (nth s.bond f).a ∨ e = (nth s.bond f).b) ∧
    (nth s.atom e).label = " " ∧ (nth r.atom e).exists_ = false ∧
    (nth r.bond f).exists_ = false ∧ (nth r.bond i).exists_ = true ∧
    (nth r.bond i).type =
      (if bond_length sqrt s.bond f s.atom > li then (nth s.bond f).type
       else (nth s.bond i).type) ∧
    (nth r.bond i).hash = ((nth s.bond i).hash || (nth s.bond f).hash) ∧
    (nth r.bond i).wedge = ((nth s.bond i).wedge || (nth s.bond f).wedge) ∧
    (nth r.bond i).arom = ((nth s.bond i).arom || (nth s.bond f).arom) ∧
    (∀ k, k ≠ i → k ≠ f → nth r.bond k = nth s.bond k) ∧ r.found = true

/-! ## `find_up_down_bonds` (osra.cpp 3531-3586) -/

/-- The assignment `bond[j].up = v`. -/
def set_up (bond : List Bond) (j : Nat) (v : Bool) : List Bond :=
  modify bond j (fun b => { b with up := v })

/-- The assignment `bond[j].down = v`. -/
def set_down (bond : List Bond) (j : Nat) (v : Bool) : List Bond :=
  modify bond j (fun b => { b with down := v })

/-- Lines 3536-3539: the double bond `i` is turned so that its end `a` is the
left one, or the upper one of a vertical bond. -/
def fud_orient {K : Type} [LinearOrderedField K] (atom : List (Atom K)) (bond : List Bond)
    (i : Nat) : List Bond :=
  let b1 :=
    if (nth atom (nth bond i).a).x > (nth atom (nth bond i).b).x then bond_end_swap bond i
    else bond
  if (nth atom (nth b1 i).a).x = (nth atom (nth b1 i).b).x ∧
      (nth atom (nth b1 i).a).y > (nth atom (nth b1 i).b).y then bond_end_swap b1 i
  else b1

/-- The offset `h`: `distance_from_bond_y` of atom `p` from the line of bond `i`. -/
def fud_h {K : Type} [LinearOrderedField K] (sqrt : K → K) (atom : List (Atom K))
    (bond : List Bond) (i p : Nat) : K :=
  distance_from_bond_y sqrt (nth atom (nth bond i).a).x (nth atom (nth bond i).a).y
    (nth atom (nth bond i).b).x (nth atom (nth bond i).b).y (nth atom p).x (nth atom p).y

/-- Lines 3550-3553 and 3560-3563: `if (h > thickness) bond[j].down = true;
else if (h < -thickness) bond[j].up = true`. -/
def fud_down_up {K : Type} [LinearOrderedField K] (bond : List Bond) (j : Nat)
    (h thickness : K) : List Bond :=
  if h > thickness then set_down bond j true
  else if h < -thickness then set_up bond j true
  else bond

/-- Lines 3569-3572 and 3579-3582: `if (h > thickness) bond[j].up = true;
else if (h < -thickness) bond[j].down = true`. -/
def fud_up_down {K : Type} [LinearOrderedField K] (bond : List Bond) (j : Nat)
    (h thickness : K) : List Bond :=
  if h > thickness then set_up bond j true
  else if h < -thickness then set_down bond j true
  else bond

/-- Body of the loop over `j` (lines 3542-3584) for the double bond `i`. -/
def fud_inner {K : Type} [LinearOrderedField K] (sqrt : K → K) (atom : List (Atom K))
    (thickness : K) (i : Nat) (bond : List Bond) (j : Nat) : List Bond :=
  if (nth bond j).exists_ = true ∧ (nth bond j).type = 1 ∧ (nth bond j).wedge = false ∧
      (nth bond j).hash = false then
    let b1 := set_up (set_down bond j false) j false
    if (nth b1 j).b = (nth b1 i).a then
      fud_down_up b1 j (fud_h sqrt atom b1 i (nth b1 j).a) thickness
    else if (nth b1 j).a = (nth b1 i).a then
      let b2 := bond_end_swap b1 j
      fud_down_up b2 j (fud_h sqrt atom b2 i (nth b2 j).a) thickness
    else if (nth b1 j).a = (nth b1 i).b then
      fud_up_down b1 j (fud_h sqrt atom b1 i (nth b1 j).b) thickness
    else if (nth b1 j).b = (nth b1 i).b then
      let b2 := bond_end_swap b1 j
      fud_up_down b2 j (fud_h sqrt atom b2 i (nth b2 j).b) thickness
    else b1
  else bond

/-- Body of the loop over `i` (lines 3534-3585). -/
def fud_body {K : Type} [LinearOrderedField K] (sqrt : K → K) (atom : List (Atom K))
    (n_bond : Nat) (thickness : K) (bond : List Bond) (i : Nat) : List Bond :=
  if (nth bond i).exists_ = true ∧ (nth bond i).type = 2 then
    (List.range n_bond).foldl (fud_inner sqrt atom thickness i) (fud_orient atom bond i)
  else bond

/-- `find_up_down_bonds(bond, n_bond, atom, thickness)`: the bond vector
afterwards. -/
def find_up_down_bonds {K : Type} [LinearOrderedField K] (sqrt : K → K) (bond : List Bond)
    (n_bond : Nat) (atom : List (Atom K)) (thickness : K) : List Bond :=
  (List.range n_bond).foldl (fud_body sqrt atom n_bond thickness) bond

/-- A double bond from (0,0) to (10,0), an atom at (-5,5) off its left end, and
a second double bond from (30,0) to (40,0) far away. -/
def updown_atoms : List (Atom ℚ) :=
  [mkAtom 0 0, mkAtom 10 0, mkAtom (-5) 5, mkAtom 30 0, mkAtom 40 0]

/-- The double bond 0-1 and the single bond 2-0 at its left end. -/
def updown_one : List Bond := [mkBond 0 1 2, mkBond 2 0 1]

/-- The bonds of `updown_one` followed by the second double bond 3-4. -/
def updown_two : List Bond := [mkBond 0 1 2, mkBond 2 0 1, mkBond 3 4 2]

/-- The bond vector `r` holds the bonds of `l` up to the direction of a bond
and to the flags `up` and `down`. -/
def SameBonds (l r : List Bond) : Prop :=
  r.length = l.length ∧
  ∀ k, (nth r k).exists_ = (nth l k).exists_ ∧ (nth r k).type = (nth l k).type ∧
    (nth r k).wedge = (nth l k).wedge ∧ (nth r k).hash = (nth l k).hash ∧
    (((nth r k).a = (nth l k).a ∧ (nth r k).b = (nth l k).b) ∨
      ((nth r k).a = (nth l k).b ∧ (nth r k).b = (nth l k).a))

/-- Bond `j` has no end in common with bond `i`. -/
def apart (bond : List Bond) (i j : Nat) : Prop :=
  (nth bond j).a ≠ (nth bond i).a ∧ (nth bond j).a ≠ (nth bond i).b ∧
  (nth bond j).b ≠ (nth bond i).a ∧ (nth bond j).b ≠ (nth bond i).b

instance (bond : List Bond) (i j : Nat) : Decidable (apart bond i j) := by
  unfold apart; infer_instance

/-- The test of line 3542 on bond `j`. -/
def plain_single (bond : List Bond) (j : Nat) : Prop :=
  (nth bond j).exists_ = true ∧ (nth bond j).type = 1 ∧ (nth bond j).wedge = false ∧
    (nth bond j).hash = false

instance (bond : List Bond) (j : Nat) : Decidable (plain_single bond j) := by
  unfold plain_single; infer_instance

/-! ## Resolution selection in `osra_process_image` (osra.cpp 4643-4650, 4716-4719,
5085-5091, 5126-5153) -/

/-- What lines 5087-5089 push for one accepted fragment: the entries of
`array_of_structures`, `array_of_avg_bonds` and `array_of_ind_conf`. -/
structure Accepted (K : Type) where
  structure_ : String
  avg_bond : K
  confidence : K
deriving DecidableEq

/-- Lines 4718-4719 and 5090-5091 over the accepted fragments of one resolution in
the order they are found: `total_boxes++` and `total_confidence += confidence`,
from `total_boxes = 0`, `total_confidence = 0`. -/
def total_boxes_confidence {K : Type} [LinearOrderedField K] (found : List (Accepted K)) :
    Nat × K :=
  found.foldl (fun s f => (s.1 + 1, s.2 + f.confidence)) (0, 0)

/-- The entry `array_of_confidence[res_iter]` after the loop over the resolutions:
the initial value `-FLT_MAX` of line 4649 unless lines 5126-5127 assign
`total_confidence / total_boxes`; `accepted` holds, for each resolution, the
fragments accepted at line 5085. -/
def array_of_confidence {K : Type} [LinearOrderedField K] (FLT_MAX : K)
    (accepted : List (List (Accepted K))) (i : Nat) : K :=
  if (total_boxes_confidence (nth accepted i)).1 > 0 then
    (total_boxes_confidence (nth accepted i)).2 / ((total_boxes_confidence (nth accepted i)).1 : K)
  else -FLT_MAX

/-- Body of the loop of lines 5134-5141 on the pair `(max_conf, max_res)`;
`array_of_structures[i].size()` is the number of fragments accepted at
resolution `i`. -/
def select_step {K : Type} [LinearOrderedField K] (FLT_MAX : K)
    (accepted : List (List (Accepted K))) (s : K × Nat) (i : Nat) : K × Nat :=
  if array_of_confidence FLT_MAX accepted i > s.1 ∧ (nth accepted i).length > 0 then
    (array_of_confidence FLT_MAX accepted i, i)
  else s

/-- Lines 5132-5141: `(max_conf, max_res)` after the loop, with `num_resolutions`
the size of the vectors. -/
def select_resolution {K : Type} [LinearOrderedField K] (FLT_MAX : K)
    (accepted : List (List (Accepted K))) : K × Nat :=
  (List.range accepted.length).foldl (select_step FLT_MAX accepted) (-FLT_MAX, 0)

/-- The index `max_res`. -/
def max_res {K : Type} [LinearOrderedField K] (FLT_MAX : K)
    (accepted : List (List (Accepted K))) : Nat :=
  (select_resolution FLT_MAX accepted).2

/-- Lines 5144-5152: what is appended to `pages_of_structures[l]`,
`pages_of_avg_bonds[l]` and `pages_of_ind_conf[l]` for the page. -/
def page_output {K : Type} [LinearOrderedField K] (FLT_MAX : K)
    (accepted : List (List (Accepted K))) : List (Accepted K) :=
  nth accepted (max_res FLT_MAX accepted)

/-- The value of `FLT_MAX` (`float.h`). -/
def flt_max : ℚ := 340282346638528859811704183484516925440

/-- Three resolutions: none accepted at the first, two fragments of mean
confidence 2 at the second, one fragment of confidence 2 at the third. -/
def three_resolutions : List (List (Accepted ℚ)) :=
  [[], [⟨"CC", 20, 1⟩, ⟨"CO", 22, 3⟩], [⟨"CCO", 21, 2⟩]]

/-! ## `find_limits_on_avg_bond` (osra.cpp 4409-4445) and the output test (5156-5184) -/

/-- The entry `t[l][i]` of a table `vector<vector<double> >`. -/
def at2 {K : Type} [Zero K] (t : List (List K)) (l i : Nat) : K :=
  ((nth t l)[i]?).getD 0

/-- The variables `max_ind_conf`, `min_bond`, `max_bond` in the first loop. -/
structure Limits (K : Type) where
  max_ind_conf : K
  min_bond : K
  max_bond : K

/-- Body of the first loop (lines 4416-4421). -/
def flb_best {K : Type} [LinearOrderedField K] (bonds confs : List (List K)) (s : Limits K)
    (l i : Nat) : Limits K :=
  if s.max_ind_conf < at2 confs l i then ⟨at2 confs l i, at2 bonds l i, at2 bonds l i⟩ else s

/-- The first loop (lines 4412-4421), over the shape of `pages_of_ind_conf`;
`min0` and `max0` are the values of `min_bond` and `max_bond` at the call. -/
def flb_first {K : Type} [LinearOrderedField K] (FLT_MAX min0 max0 : K)
    (bonds confs : List (List K)) : Limits K :=
  (List.range confs.length).foldl
    (fun s l => (List.range (nth confs l).length).foldl (fun t i => flb_best bonds confs t l i) s)
    ⟨-FLT_MAX, min0, max0⟩

/-- The variables `min_bond`, `max_bond` and `flag` in the `while` loop. -/
structure Widen (K : Type) where
  min_bond : K
  max_bond : K
  flag : Bool

/-- Body of the loops of lines 4426-4441; `mc` is `max_ind_conf` and the
constant 0.1 is the exact tenth. -/
def flb_widen {K : Type} [LinearOrderedField K] (bonds confs : List (List K)) (mc : K)
    (s : Widen K) (l i : Nat) : Widen K :=
  let s1 : Widen K :=
    if at2 bonds l i > s.max_bond ∧
        (at2 bonds l i - s.max_bond < 5 ∨ at2 confs l i > mc - 1 / 10) then
      { s with max_bond := at2 bonds l i, flag := true }
    else s
  if at2 bonds l i < s1.min_bond ∧
      (s1.min_bond - at2 bonds l i < 5 ∨ at2 confs l i > mc - 1 / 10) then
    { s1 with min_bond := at2 bonds l i, flag := true }
  else s1

/-- One round of the `while` loop: `flag = false` and the loops over the shape of
`pages_of_avg_bonds`. -/
def flb_pass {K : Type} [LinearOrderedField K] (bonds confs : List (List K)) (mc min_bond
    max_bond : K) : Widen K :=
  (List.range bonds.length).foldl
    (fun s l => (List.range (nth bonds l).length).foldl
      (fun t i => flb_widen bonds confs mc t l i) s)
    ⟨min_bond, max_bond, false⟩

/-- The loop `while (flag)` followed by `min_bond--; max_bond++`; `none` when
the fuel runs out. -/
def flb_loop {K : Type} [LinearOrderedField K] (bonds confs : List (List K)) (mc : K) :
    Nat → K → K → Option (K × K)
  | 0, _, _ => none
  | fuel + 1, min_bond, max_bond =>
    if (flb_pass bonds confs mc min_bond max_bond).flag = true then
      flb_loop bonds confs mc fuel (flb_pass bonds confs mc min_bond max_bond).min_bond
        (flb_pass bonds confs mc min_bond max_bond).max_bond
    else
      some ((flb_pass bonds confs mc min_bond max_bond).min_bond - 1,
        (flb_pass bonds confs mc min_bond max_bond).max_bond + 1)

/-- `find_limits_on_avg_bond(min_bond, max_bond, pages_of_avg_bonds,
pages_of_ind_conf)` run with `fuel` rounds of the `while` loop at most: the pair
`(min_bond, max_bond)` afterwards. -/
def find_limits_on_avg_bond {K : Type} [LinearOrderedField K] (fuel : Nat)
    (FLT_MAX min0 max0 : K) (bonds confs : List (List K)) : Option (K × K) :=
  flb_loop bonds confs (flb_first FLT_MAX min0 max0 bonds confs).max_ind_conf fuel
    (flb_first FLT_MAX min0 max0 bonds confs).min_bond
    (flb_first FLT_MAX min0 max0 bonds confs).max_bond

/-- The output test of line 5183:
`pages_of_avg_bonds[l][i] > min_bond && pages_of_avg_bonds[l][i] < max_bond`. -/
def in_limits {K : Type} [LinearOrderedField K] (r : K × K) (b : K) : Prop :=
  b > r.1 ∧ b < r.2

instance {K : Type} [LinearOrderedField K] (r : K × K) (b : K) : Decidable (in_limits r b) := by
  unfold in_limits; infer_instance

/-- The number of entries of a table. -/
def table_size {K : Type} (t : List (List K)) : Nat :=
  (t.map List.length).sum

/-- Two pages of bond lengths: a cluster 20, 23, 27 and an outlier 40. -/
def page_bonds : List (List ℚ) := [[20, 40], [23, 27]]

/-- The confidences of the structures of `page_bonds`. -/
def page_confs : List (List ℚ) := [[3, 1], [2, 1]]

/-- The number of entries of the table above `max_bond` plus the number of
entries below `min_bond`: the measure that the `while` loop decreases. -/
def outside {K : Type} [LinearOrderedField K] (bonds : List (List K)) (min_bond max_bond : K) :
    Nat :=
  bonds.flatten.countP (fun b => decide (b > max_bond)) +
    bonds.flatten.countP (fun b => decide (b < min_bond))

/-! ## `linear_arrow_sort` and `sort_boxes_from_arrows` (osra_reaction.cpp 98-172) -/

/-- The type `point_t`. -/
structure Point (K : Type) where
  x : K
  y : K
deriving DecidableEq

/-- The type `arrow_t`, with the fields that `osra_reaction.cpp` reads. -/
structure Arrow (K : Type) where
  tail : Point K
  head : Point K
  agent : String
deriving DecidableEq

/-- The type `box_t`, with its four coordinates. -/
structure Box (K : Type) where
  x1 : K
  y1 : K
  x2 : K
  y2 : K
deriving DecidableEq

instance {K : Type} [Zero K] : Inhabited (Point K) := ⟨⟨0, 0⟩⟩

instance {K : Type} [Zero K] : Inhabited (Arrow K) := ⟨⟨⟨0, 0⟩, ⟨0, 0⟩, ""⟩⟩

instance {K : Type} [Zero K] : Inhabited (Box K) := ⟨⟨0, 0, 0, 0⟩⟩

/-- The search loop of lines 108-113, 135-140 and 157-162:
`for (i = 0; i < v.size(); i++) if (cost(v[i]) < d) { d = cost(v[i]); closest = i; }`
from `d = FLT_MAX` and `closest = 0`; the result is the pair `(d, closest)`. -/
def closest_fold {K α : Type} [LinearOrderedField K] [Inhabited α] (cost : α → K) (FLT_MAX : K)
    (v : List α) : K × Nat :=
  (List.range v.length).foldl
    (fun s i => if cost (nth v i) < s.1 then (cost (nth v i), i) else s) (FLT_MAX, 0)

/-- The loop `while (!v.empty())` of lines 104-117, 131-146 and 153-168: the
closest element is appended to the output, the walk moves on to `next` of it, and
it is erased from `v`; `none` when the fuel runs out. -/
def walk_loop {K α : Type} [LinearOrderedField K] [Inhabited α] (cost : Point K → α → K)
    (next : α → Point K) (FLT_MAX : K) : Nat → Point K → List α → List α → Option (List α)
  | _, _, [], out => some out
  | 0, _, _ :: _, _ => none
  | fuel + 1, p, a :: v, out =>
    walk_loop cost next FLT_MAX fuel
      (next (nth (a :: v) (closest_fold (cost p) FLT_MAX (a :: v)).2))
      ((a :: v).eraseIdx (closest_fold (cost p) FLT_MAX (a :: v)).2)
      (out ++ [nth (a :: v) (closest_fold (cost p) FLT_MAX (a :: v)).2])

/-- `linear_arrow_sort(arrows)` run with `fuel` rounds of the `while` loop at
most: the cost of an arrow is the distance from `start` to its tail, and the walk
moves on to its head. -/
def linear_arrow_sort {K : Type} [LinearOrderedField K] (sqrt : K → K) (FLT_MAX : K)
    (fuel : Nat) (arrows : List (Arrow K)) : Option (List (Arrow K)) :=
  walk_loop (fun start a => distance sqrt start.x start.y a.tail.x a.tail.y)
    (fun a => a.head) FLT_MAX fuel ⟨0, 0⟩ arrows []

/-- The point `((b.x1 + b.x2) / 2, (b.y1 + b.y2) / 2)`; `half` is the division
by 2 of the coordinate type of `box_t`, which `osra.h` declares. -/
def box_centre {K : Type} [LinearOrderedField K] (half : K → K) (b : Box K) : Point K :=
  ⟨half (b.x1 + b.x2), half (b.y1 + b.y2)⟩

/-- `distance_from_box(p, b)`. -/
def distance_from_box {K : Type} [LinearOrderedField K] (sqrt : K → K) (half : K → K)
    (p : Point K) (b : Box K) : K :=
  distance sqrt p.x p.y (half (b.x1 + b.x2)) (half (b.y1 + b.y2))

/-- The walk over one bucket (lines 131-146 and 153-168): the list `t`. -/
def sbfa_walk {K : Type} [LinearOrderedField K] (sqrt : K → K) (half : K → K) (FLT_MAX : K)
    (page_of_boxes : List (Box K)) (fuel : Nat) (p : Point K) (bucket : List Nat) :
    Option (List Nat) :=
  walk_loop (fun q jj => distance_from_box sqrt half q (nth page_of_boxes jj))
    (fun jj => box_centre half (nth page_of_boxes jj)) FLT_MAX fuel p bucket []

/-- Body of the loop of lines 150-171 for the bucket `i`. -/
def sbfa_bucket {K : Type} [LinearOrderedField K] (sqrt : K → K) (half : K → K) (FLT_MAX : K)
    (arrows : List (Arrow K)) (page_of_boxes : List (Box K)) (fuel : Nat)
    (before : Option (List (List Nat))) (i : Nat) : Option (List (List Nat)) :=
  before.bind (fun bf =>
    (sbfa_walk sqrt half FLT_MAX page_of_boxes fuel (nth arrows (i - 1)).head (nth bf i)).map
      (fun t => bf.set i t))

/-- `sort_boxes_from_arrows(arrows, before, page_of_boxes)`, each `while` loop
run with `fuel` rounds at most: the vector `before` afterwards. -/
def sort_boxes_from_arrows {K : Type} [LinearOrderedField K] (sqrt : K → K) (half : K → K)
    (FLT_MAX : K) (fuel : Nat) (arrows : List (Arrow K)) (before : List (List Nat))
    (page_of_boxes : List (Box K)) : Option (List (List Nat)) :=
  if before.isEmpty = true ∨ arrows.isEmpty = true ∨ page_of_boxes.isEmpty = true then
    some before
  else
    (List.range' 1 (before.length - 1)).foldl
      (sbfa_bucket sqrt half FLT_MAX arrows page_of_boxes fuel)
      ((sbfa_walk sqrt half FLT_MAX page_of_boxes fuel (nth arrows 0).tail (nth before 0)).map
        (fun t => before.set 0 t.reverse))

/-- In the words of the claims on the two sorts: `out` lists `v` by a walk that
starts at `p`; each element placed is, among the elements not yet placed, one of
least cost from the current point (the earliest such element), and the walk moves
on to `next` of it. -/
inductive NearestWalk {K α : Type} [LinearOrderedField K] [Inhabited α]
    (cost : Point K → α → K) (next : α → Point K) : Point K → List α → List α → Prop
  | done (p : Point K) : NearestWalk cost next p [] []
  | step (p : Point K) (v out : List α) (c : Nat) (hc : c < v.length)
      (hmin : ∀ j, j < v.length → cost p (nth v c) ≤ cost p (nth v j))
      (hfirst : ∀ j, j < c → cost p (nth v c) < cost p (nth v j))
      (hrest : NearestWalk cost next (next (nth v c)) (v.eraseIdx c) out) :
      NearestWalk cost next p v (nth v c :: out)

/-- Three arrows; from the origin the nearest tail is that of the last one. -/
def three_arrows : List (Arrow ℚ) :=
  [⟨⟨10, 0⟩, ⟨13, 4⟩, "a"⟩, ⟨⟨4, 3⟩, ⟨10, 3⟩, "b"⟩, ⟨⟨3, 0⟩, ⟨4, 0⟩, "c"⟩]

/-- Four boxes with centres (1,0), (5,0), (9,0) and (13,0). -/
def four_boxes : List (Box ℚ) := [⟨0, -1, 2, 1⟩, ⟨4, -1, 6, 1⟩, ⟨8, -1, 10, 1⟩, ⟨12, -1, 14, 1⟩]

/-- One arrow from (6,0) to (8,0). -/
def one_arrow : List (Arrow ℚ) := [⟨⟨6, 0⟩, ⟨8, 0⟩, ""⟩]

/-- Two buckets: the boxes before the arrow and the boxes after it. -/
def two_buckets : List (List Nat) := [[0, 1], [3, 2]]

/-- Division by 2 on `ℚ`. -/
def qhalf (q : ℚ) : ℚ := q / 2

/-! ## The divisions of the geometric kernel (osra.cpp 196-205, 317-363, 2323-2336) -/

/-- The division `a / b` of two doubles with the zero divisor made visible:
`none` stands for a division by zero. -/
def checked_div {K : Type} [LinearOrderedField K] (a b : K) : Option K :=
  if b = 0 then none else some (a / b)

/-- `angle4` with every division checked. -/
def angle4_checked {K : Type} [LinearOrderedField K] (sqrt : K → K)
    (x1 y1 x2 y2 x3 y3 x4 y4 : K) : Option K :=
  checked_div ((x1 - x2) * (x3 - x4) + (y1 - y2) * (y3 - y4))
    (distance sqrt x1 y1 x2 y2 * distance sqrt x4 y4 x3 y3)

/-- `distance_from_bond_y` with every division checked. -/
def distance_from_bond_y_checked {K : Type} [LinearOrderedField K] (sqrt : K → K)
    (x0 y0 x1 y1 x y : K) : Option K := do
  let cos ← checked_div (x1 - x0) (distance sqrt x0 y0 x1 y1)
  let sin ← checked_div (-(y1 - y0)) (distance sqrt x0 y0 x1 y1)
  pure (-(x - x0) * sin - (y - y0) * cos)

/-- `distance_from_bond_x_a` with every division checked. -/
def distance_from_bond_x_a_checked {K : Type} [LinearOrderedField K] (sqrt : K → K)
    (x0 y0 x1 y1 x y : K) : Option K := do
  let cos ← checked_div (x1 - x0) (distance sqrt x0 y0 x1 y1)
  let sin ← checked_div (-(y1 - y0)) (distance sqrt x0 y0 x1 y1)
  pure ((x - x0) * cos - (y - y0) * sin)

/-- `distance_from_bond_x_b` with every division checked. -/
def distance_from_bond_x_b_checked {K : Type} [LinearOrderedField K] (sqrt : K → K)
    (x0 y0 x1 y1 x y : K) : Option K := do
  let cos ← checked_div (x1 - x0) (distance sqrt x0 y0 x1 y1)
  let sin ← checked_div (-(y1 - y0)) (distance sqrt x0 y0 x1 y1)
  pure ((x - x0) * cos - (y - y0) * sin - distance sqrt x0 y0 x1 y1)

/-- `extend_dashed_bond` with every division checked, in the order of the
source: `kx`, `ky`, then the four assignments. -/
def extend_dashed_bond_checked {K : Type} [LinearOrderedField K] (sqrt : K → K) (a b : Nat)
    (n : Int) (atom : List (Atom K)) : Option (List (Atom K)) := do
  let x0 := (nth atom a).x
  let y0 := (nth atom a).y
  let x1 := (nth atom b).x
  let y1 := (nth atom b).y
  let l := distance sqrt x0 y0 x1 y1
  let kx ← checked_div (x1 - x0) l
  let ky ← checked_div (y1 - y0) l
  let ax ← checked_div (-1 * l) ((n - 1 : Int) : K)
  let ay ← checked_div (-1 * l) ((n - 1 : Int) : K)
  let bx ← checked_div (kx * l) ((n - 1 : Int) : K)
  let by_ ← checked_div (ky * l) ((n - 1 : Int) : K)
  pure (set_y (set_x (set_y (set_x atom a (kx * ax + x0)) a (ky * ay + y0)) b (bx + x1)) b
    (by_ + y1))

/-! ## `reconnect_fragments` (osra.cpp 4236-4287) -/

/-- The variables `l`, `atom1`, `atom2` of lines 4247-4259. -/
structure RfNear (K : Type) where
  l : K
  atom1 : Nat
  atom2 : Nat

/-- The loops over `ii` and `jj` (lines 4249-4259): the closest pair of atoms of
the fragments `fi` and `fj`. -/
def rf_nearest {K : Type} [LinearOrderedField K] (sqrt : K → K) (FLT_MAX : K)
    (atom : List (Atom K)) (fi fj : List Nat) : RfNear K :=
  fi.foldl
    (fun s a => fj.foldl
      (fun t b => if atom_distance sqrt atom a b < t.l then ⟨atom_distance sqrt atom a b, a, b⟩
        else t) s)
    ⟨FLT_MAX, 0, 0⟩

/-- The bond written by lines 4262-4274. -/
def rf_bond {K : Type} [Zero K] (atom : List (Atom K)) (atom1 atom2 : Nat) : Bond :=
  ⟨atom1, atom2, 1, (nth atom atom1).curve, true, false, false, false, false, false, false, false⟩

/-- The vectors and `n_bond` in `reconnect_fragments`. -/
structure RfState (K : Type) where
  bond : List Bond
  atom : List (Atom K)
  n_bond : Nat

/-- Body of the loop over `j` (lines 4245-4282) for the fragment `i`; the
constant 1.1 is the exact fraction. -/
def rf_pair {K : Type} [LinearOrderedField K] (sqrt : K → K) (FLT_MAX avg : K)
    (frags : List (List Nat)) (i : Nat) (s : RfState K) (j : Nat) : RfState K :=
  if (nth frags j).length > 2 then
    let r := rf_nearest sqrt FLT_MAX s.atom (nth frags i) (nth frags j)
    let s1 : RfState K :=
      if r.l < 11 / 10 * avg ∧ r.l > avg / 3 then
        ⟨(s.bond ++ [default]).set s.n_bond (rf_bond s.atom r.atom1 r.atom2), s.atom,
          s.n_bond + 1⟩
      else s
    if r.l < avg / 3 then
      let a1 := set_x s1.atom r.atom2 (nth s1.atom r.atom1).x
      ⟨s1.bond, set_y a1 r.atom2 (nth a1 r.atom1).y, s1.n_bond⟩
    else s1
  else s

/-- Body of the loop over `i` (lines 4242-4282). -/
def rf_outer {K : Type} [LinearOrderedField K] (sqrt : K → K) (FLT_MAX avg : K)
    (frags : List (List Nat)) (s : RfState K) (i : Nat) : RfState K :=
  if (nth frags i).length > 2 then
    (List.range' (i + 1) (frags.length - (i + 1))).foldl (rf_pair sqrt FLT_MAX avg frags i) s
  else s

/-- `reconnect_fragments(bond, n_bond, atom, avg)`: the vectors afterwards and
the returned `n_bond`; `none` only if `find_fragments` runs out of fuel. -/
def reconnect_fragments {K : Type} [LinearOrderedField K] (sqrt : K → K) (FLT_MAX : K)
    (bond : List Bond) (n_bond : Nat) (atom : List (Atom K)) (avg : K) :
    Option (RfState K) :=
  (find_fragments bond n_bond atom).map (fun frags =>
    if frags.length ≤ 3 then
      (List.range frags.length).foldl (rf_outer sqrt FLT_MAX avg frags) ⟨bond, atom, n_bond⟩
    else ⟨bond, atom, n_bond⟩)

/-- Two chains of three atoms on a line, 8 apart. -/
def two_chains_atoms : List (Atom ℚ) :=
  [mkAtom 0 0, mkAtom 10 0, mkAtom 20 0, mkAtom 28 0, mkAtom 38 0, mkAtom 48 0]

/-- The four bonds of `two_chains_atoms`. -/
def two_chains_bonds : List Bond := [mkBond 0 1 1, mkBond 1 2 1, mkBond 3 4 1, mkBond 4 5 1]

/-! ## `collapse_bonds` (osra.cpp 2895-2905) -/

/-- Body of the loop of `collapse_bonds`. -/
def cb_body {K : Type} [LinearOrderedField K] (sqrt : K → K) (bond : List Bond) (dist : K)
    (atom : List (Atom K)) (i : Nat) : List (Atom K) :=
  if (nth bond i).exists_ = true ∧ bond_length sqrt bond i atom < dist then
    pull_together atom (nth bond i).a (nth bond i).b
  else atom

/-- `collapse_bonds(atom, bond, n_bond, dist)`: the atom vector afterwards (the
bond vector is `const`). -/
def collapse_bonds {K : Type} [LinearOrderedField K] (sqrt : K → K) (atom : List (Atom K))
    (bond : List Bond) (n_bond : Nat) (dist : K) : List (Atom K) :=
  (List.range n_bond).foldl (cb_body sqrt bond dist) atom

/-- The atom vector when the turn of bond `i` comes. -/
def cb_before {K : Type} [LinearOrderedField K] (sqrt : K → K) (atom : List (Atom K))
    (bond : List Bond) (dist : K) (i : Nat) : List (Atom K) :=
  (List.range i).foldl (cb_body sqrt bond dist) atom

/-- Bond `i` passes the test of line 2898 when its turn comes: it exists and is
shorter than `dist` then. -/
def cb_short {K : Type} [LinearOrderedField K] (sqrt : K → K) (atom : List (Atom K))
    (bond : List Bond) (dist : K) (i : Nat) : Prop :=
  (nth bond i).exists_ = true ∧ bond_length sqrt bond i (cb_before sqrt atom bond dist i) < dist

/-! ## `comp_fragments` and `comp_boxes` (osra.cpp 3142-3153, 4395-4407) -/

/-- The type `fragment_t`: its box and its atoms. -/
structure Fragment (K : Type) where
  x1 : K
  y1 : K
  x2 : K
  y2 : K
  atom : List Nat

/-- `comp_fragments(aa, bb)`. -/
def comp_fragments {K : Type} [LinearOrder K] (aa bb : Fragment K) : Bool :=
  if aa.y2 < bb.y1 then true
  else if aa.y1 > bb.y2 then false
  else if aa.x1 > bb.x1 then false
  else if aa.x1 < bb.x1 then true
  else false

/-- `comp_boxes(aa, bb)`. -/
def comp_boxes {K : Type} [LinearOrder K] (aa bb : Box K) : Bool :=
  if aa.y2 < bb.y1 then true
  else if aa.y1 > bb.y2 then false
  else if aa.x1 > bb.x1 then false
  else if aa.x1 < bb.x1 then true
  else false

/-! ## `extend_terminal_bond_to_bonds` (osra.cpp 1358-1478) -/

/-- The variables `found`, `l` and `minb` of a search for a target atom. -/
structure EtSearch (K : Type) where
  found : Bool
  l : Int
  minb : K

/-- The values read at the top of the turn of bond `j` (lines 1369-1375). -/
structure EtCtx (K : Type) where
  not_corner_a : Bool
  not_corner_b : Bool
  xa : K
  ya : K
  xb : K
  yb : K
  bl : K

/-- Lines 1369-1375 for the bond `j`. -/
def et_ctx {K : Type} [LinearOrderedField K] (sqrt : K → K) (atom : List (Atom K))
    (bond : List Bond) (n_bond j : Nat) : EtCtx K :=
  ⟨terminal_bond (nth bond j).a j bond n_bond, terminal_bond (nth bond j).b j bond n_bond,
    (nth atom (nth bond j).a).x, (nth atom (nth bond j).a).y,
    (nth atom (nth bond j).b).x, (nth atom (nth bond j).b).y, bond_length sqrt bond j atom⟩

/-- The limits `y_dist` and `y_dist1`: `maxh`, plus `max_dist_double_bond` for a
bond of order above 1 that is not conjoined. -/
def et_y_dist {K : Type} [LinearOrderedField K] (maxh max_dist_double_bond : K) (b : Bond) : K :=
  if b.type > 1 ∧ b.conjoined = false then maxh + max_dist_double_bond else maxh

/-- The position `d` of the atom `q` along bond `j`: `distance_from_bond_x_a` in
the search at end `a`, `distance_from_bond_x_b` in the search at end `b`. -/
def et_d {K : Type} [LinearOrderedField K] (sqrt : K → K) (at_b : Bool) (c : EtCtx K)
    (atom : List (Atom K)) (q : Nat) : K :=
  if at_b = true then
    distance_from_bond_x_b sqrt c.xa c.ya c.xb c.yb (nth atom q).x (nth atom q).y
  else distance_from_bond_x_a sqrt c.xa c.ya c.xb c.yb (nth atom q).x (nth atom q).y

/-- The test of an end `q` of bond `i` (lines 1393-1403, 1405-1415 at end `a`;
1440-1450, 1452-1462 at end `b`). -/
def et_candidate {K : Type} [LinearOrderedField K] (sqrt : K → K) (at_b : Bool) (avg : K)
    (c : EtCtx K) (y_dist y_dist1 h1 : K) (atom : List (Atom K)) (bond : List Bond) (j : Nat)
    (s : EtSearch K) (q : Nat) : EtSearch K :=
  if q ≠ (nth bond j).a ∧ q ≠ (nth bond j).b then
    if |et_d sqrt at_b c atom q| ≤ avg / 2 ∧
        |distance_from_bond_y sqrt c.xa c.ya c.xb c.yb (nth atom q).x (nth atom q).y| ≤ y_dist ∧
        |et_d sqrt at_b c atom q| < s.minb ∧
        (if at_b = true then et_d sqrt at_b c atom q > -c.bl / 2
          else et_d sqrt at_b c atom q < c.bl / 2) ∧
        h1 < y_dist1 then
      ⟨true, (q : Int), |et_d sqrt at_b c atom q|⟩
    else s
  else s

/-- Body of the loop over `i` of a search (lines 1379-1416 and 1428-1463); the
end of bond `j` is terminal when `corner` is set, and `(x, y)` is that end as
read at the top of the turn (`xa, ya` or `xb, yb`). -/
def et_scan {K : Type} [LinearOrderedField K] (sqrt : K → K) (at_b : Bool)
    (avg maxh max_dist_double_bond : K) (c : EtCtx K) (atom : List (Atom K))
    (bond : List Bond) (j : Nat) (s : EtSearch K) (i : Nat) : EtSearch K :=
  if (nth bond i).exists_ = true ∧ i ≠ j then
    if (if at_b = true then c.not_corner_b else c.not_corner_a) = true then
      let h1 := |distance_from_bond_y sqrt (nth atom (nth bond i).a).x (nth atom (nth bond i).a).y
        (nth atom (nth bond i).b).x (nth atom (nth bond i).b).y
        (if at_b = true then c.xb else c.xa) (if at_b = true then c.yb else c.ya)|
      let y_dist := et_y_dist maxh max_dist_double_bond (nth bond j)
      let y_dist1 := et_y_dist maxh max_dist_double_bond (nth bond i)
      et_candidate sqrt at_b avg c y_dist y_dist1 h1 atom bond j
        (et_candidate sqrt at_b avg c y_dist y_dist1 h1 atom bond j s (nth bond i).a)
        (nth bond i).b
    else s
  else s

/-- A search: `found = false`, `l = -1`, `minb = FLT_MAX` and the loop over `i`. -/
def et_search {K : Type} [LinearOrderedField K] (sqrt : K → K) (at_b : Bool)
    (FLT_MAX avg maxh max_dist_double_bond : K) (c : EtCtx K) (atom : List (Atom K))
    (bond : List Bond) (n_bond j : Nat) : EtSearch K :=
  (List.range n_bond).foldl (et_scan sqrt at_b avg maxh max_dist_double_bond c atom bond j)
    ⟨false, -1, FLT_MAX⟩

/-- State of `extend_terminal_bond_to_bonds`: the vectors, the flag
`found_intersection`, and a counter of the retargetings made so far, which is
not a variable of the source. -/
structure EtState (K : Type) where
  atom : List (Atom K)
  bond : List Bond
  found_intersection : Bool
  retargets : Nat

/-- Lines 1418-1424 (end `a`) and 1465-1471 (end `b`): the atom `l` moves to the
midpoint of the end of bond `j` and itself, and the end of bond `j` becomes `l`. -/
def et_retarget {K : Type} [LinearOrderedField K] (at_b : Bool) (s : EtState K) (j l : Nat) :
    EtState K :=
  let e := if at_b = true then (nth s.bond j).b else (nth s.bond j).a
  let a1 := set_x s.atom l (((nth s.atom e).x + (nth s.atom l).x) / 2)
  let a2 := set_y a1 l (((nth a1 e).y + (nth a1 l).y) / 2)
  ⟨a2, if at_b = true then set_b s.bond j l else set_a s.bond j l, true, s.retargets + 1⟩

/-- The search at one end of bond `j` and the retargeting `if (found)`. -/
def et_end {K : Type} [LinearOrderedField K] (sqrt : K → K) (at_b : Bool)
    (FLT_MAX avg maxh max_dist_double_bond : K) (n_bond : Nat) (c : EtCtx K) (s : EtState K)
    (j : Nat) : EtState K :=
  if (et_search sqrt at_b FLT_MAX avg maxh max_dist_double_bond c s.atom s.bond n_bond j).found
      = true then
    et_retarget at_b s j
      (et_search sqrt at_b FLT_MAX avg maxh max_dist_double_bond c s.atom s.bond n_bond j).l.toNat
  else s

/-- Body of the loop over `j` (lines 1366-1472). -/
def et_body {K : Type} [LinearOrderedField K] (sqrt : K → K)
    (FLT_MAX avg maxh max_dist_double_bond : K) (n_bond : Nat) (s : EtState K) (j : Nat) :
    EtState K :=
  if (nth s.bond j).exists_ = true then
    et_end sqrt true FLT_MAX avg maxh max_dist_double_bond n_bond
      (et_ctx sqrt s.atom s.bond n_bond j)
      (et_end sqrt false FLT_MAX avg maxh max_dist_double_bond n_bond
        (et_ctx sqrt s.atom s.bond n_bond j) s j) j
  else s

/-- One round of the `while` loop: `found_intersection = false` and the loop
over `j`. -/
def et_pass {K : Type} [LinearOrderedField K] (sqrt : K → K)
    (FLT_MAX avg maxh max_dist_double_bond : K) (n_bond : Nat) (s : EtState K) : EtState K :=
  (List.range n_bond).foldl (et_body sqrt FLT_MAX avg maxh max_dist_double_bond n_bond)
    ⟨s.atom, s.bond, false, s.retargets⟩

/-- The loop `while (found_intersection)`; `none` when the fuel runs out. -/
def et_loop {K : Type} [LinearOrderedField K] (sqrt : K → K)
    (FLT_MAX avg maxh max_dist_double_bond : K) (n_bond : Nat) :
    Nat → EtState K → Option (EtState K)
  | 0, _ => none
  | fuel + 1, s =>
    if (et_pass sqrt FLT_MAX avg maxh max_dist_double_bond n_bond s).found_intersection = true
    then
      et_loop sqrt FLT_MAX avg maxh max_dist_double_bond n_bond fuel
        (et_pass sqrt FLT_MAX avg maxh max_dist_double_bond n_bond s)
    else some (et_pass sqrt FLT_MAX avg maxh max_dist_double_bond n_bond s)

/-- `extend_terminal_bond_to_bonds(atom, bond, n_bond, avg, maxh,
max_dist_double_bond)` run with `fuel` rounds of the `while` loop at most. -/
def extend_terminal_bond_to_bonds {K : Type} [LinearOrderedField K] (sqrt : K → K)
    (FLT_MAX : K) (fuel : Nat) (atom : List (Atom K)) (bond : List Bond) (n_bond : Nat)
    (avg maxh max_dist_double_bond : K) : Option (EtState K) :=
  et_loop sqrt FLT_MAX avg maxh max_dist_double_bond n_bond fuel ⟨atom, bond, true, 0⟩

/-- The number of terminal ends of existing bonds below `n_bond`. -/
def terminal_ends (bond : List Bond) (n_bond : Nat) : Nat :=
  (List.range n_bond).countP
      (fun k => (nth bond k).exists_ && terminal_bond (nth bond k).a k bond n_bond) +
    (List.range n_bond).countP
      (fun k => (nth bond k).exists_ && terminal_bond (nth bond k).b k bond n_bond)

/-- A bond from (0,0) to (10,0) whose right end stops just short of the corner at
(12,0) of two other bonds. -/
def stub_atoms : List (Atom ℚ) :=
  [mkAtom 0 0, mkAtom 10 0, mkAtom 12 0, mkAtom 20 8, mkAtom 20 (-8)]

/-- The bonds of `stub_atoms`. -/
def stub_bonds : List Bond := [mkBond 0 1 1, mkBond 2 3 1, mkBond 2 4 1]

/-- Atom 0 at the origin and two atoms close to each other, each just out of
the reach 3 of atom 0. -/
def collapse_loop_atoms : List (Atom ℚ) := [mkAtom 0 0, mkAtom (29 / 10) 1, mkAtom (29 / 10) (-1)]

/-- The bond between the atoms 1 and 2 of `collapse_loop_atoms`. -/
def collapse_loop_bonds : List Bond := [mkBond 1 2 1]

/-- The atoms `a` and `b` agree in every field but the coordinates. -/
def same_but_xy {K : Type} (a b : Atom K) : Prop :=
  a.label = b.label ∧ a.n = b.n ∧ a.anum = b.anum ∧ a.curve = b.curve ∧
    a.exists_ = b.exists_ ∧ a.corner = b.corner ∧ a.terminal = b.terminal ∧ a.charge = b.charge

/-- Atom `p` is an end of bond `k`. -/
def touches (bond : List Bond) (k p : Nat) : Prop :=
  p = (nth bond k).a ∨ p = (nth bond k).b

instance (bond : List Bond) (k p : Nat) : Decidable (touches bond k p) := by
  unfold touches; infer_instance

/-- A short bond 0-1 and a long bond 2-3 apart from it. -/
def short_long_atoms : List (Atom ℚ) := [mkAtom 0 0, mkAtom 4 0, mkAtom 10 0, mkAtom 30 0]

/-- The bonds of `short_long_atoms`. -/
def short_long_bonds : List Bond := [mkBond 0 1 1, mkBond 2 3 1]

instance {K : Type} [LinearOrderedField K] (sqrt : K → K) (atom : List (Atom K))
    (bond : List Bond) (dist : K) (i : Nat) : Decidable (cb_short sqrt atom bond dist i) := by
  unfold cb_short; infer_instance

/-- Every existing bond of order below 3 among the first `n_bond` has two
distinct ends, both at existing atoms. -/
def LowEnds {K : Type} [Zero K] (n_bond : Nat) (atom : List (Atom K)) (bond : List Bond) :
    Prop :=
  ∀ k, k < n_bond → (nth bond k).exists_ = true → (nth bond k).type < 3 →
    (nth atom (nth bond k).a).exists_ = true ∧ (nth atom (nth bond k).b).exists_ = true ∧
    (nth bond k).a ≠ (nth bond k).b

/-- The number of existing bonds among the first `n_bond`. -/
def live_bonds (bond : List Bond) (n_bond : Nat) : Nat :=
  (List.range n_bond).countP (fun k => (nth bond k).exists_)

/-- The end of bond `f` away from the atom shared with bond `i` in a merge. -/
def fl_far (c : FlCase) (bond : List Bond) (f : Nat) : Nat :=
  match c with
  | FlCase.a_fb => (nth bond f).a
  | FlCase.a_fa => (nth bond f).b
  | FlCase.b_fb => (nth bond f).a
  | FlCase.b_fa => (nth bond f).b

/-- The end of bond `i` that a merge keeps. -/
def fl_keep (c : FlCase) (bond : List Bond) (i : Nat) : Nat :=
  match c with
  | FlCase.a_fb => (nth bond i).b
  | FlCase.a_fa => (nth bond i).b
  | FlCase.b_fb => (nth bond i).a
  | FlCase.b_fa => (nth bond i).a

/-- Two single bonds in a line through atom 1, and a triple bond from atom 1
to atom 3. -/
def triple_atoms : List (Atom ℚ) := [mkAtom 0 0, mkAtom 10 0, mkAtom 20 0, mkAtom 10 10]

/-- The bonds of `triple_atoms`. -/
def triple_bonds : List Bond := [mkBond 0 1 1, mkBond 1 2 1, mkBond 1 3 3]

/-- The end of bond `i` at the atom shared with bond `f` in a merge. -/
def fl_near (c : FlCase) (bond : List Bond) (i : Nat) : Nat :=
  match c with
  | FlCase.a_fb => (nth bond i).a
  | FlCase.a_fa => (nth bond i).a
  | FlCase.b_fb => (nth bond i).b
  | FlCase.b_fa => (nth bond i).b

/-- What the steps of `flatten_bonds` from the state `s` to the state `r` keep:
the ends of the existing bonds of order below 3, every deleted bond and atom
deleted, every bond of order 3 or more as it is; and either nothing is found and
as many bonds exist as before, or `found` is set and fewer bonds exist. -/
def FlKeeps {K : Type} [Zero K] (n_bond : Nat) (s r : FlState K) : Prop :=
  (LowEnds n_bond s.atom s.bond → LowEnds n_bond r.atom r.bond) ∧
  (∀ k, (nth r.bond k).exists_ = true → (nth s.bond k).exists_ = true) ∧
  (∀ k, (nth r.atom k).exists_ = true → (nth s.atom k).exists_ = true) ∧
  (∀ k, ¬ (nth s.bond k).type < 3 → nth r.bond k = nth s.bond k) ∧
  ((r.found = s.found ∧ live_bonds r.bond n_bond = live_bonds s.bond n_bond) ∨
    (r.found = true ∧ live_bonds r.bond n_bond < live_bonds s.bond n_bond))

/-- The end of bond `j` that a search works on: `bond[j].b` at end `b`,
`bond[j].a` at end `a`. -/
def et_endpoint (at_b : Bool) (bond : List Bond) (j : Nat) : Nat :=
  if at_b = true then (nth bond j).b else (nth bond j).a

/-- What a retargeting of an end of bond `j` does, from the state `s` to the
state `r`: the end was terminal and is not terminal any more, no end of an
existing bond that was not terminal has become terminal, one retargeting more
is counted and `found_intersection` is set. -/
def EtRetargeted {K : Type} (n_bond : Nat) (at_b : Bool) (s r : EtState K) (j : Nat) : Prop :=
  terminal_bond (et_endpoint at_b s.bond j) j s.bond n_bond = true ∧
  terminal_bond (et_endpoint at_b r.bond j) j r.bond n_bond = false ∧
  (∀ (sd : Bool) (k : Nat), k < n_bond → (nth s.bond k).exists_ = true →
    terminal_bond (et_endpoint sd r.bond k) k r.bond n_bond = true →
    terminal_bond (et_endpoint sd s.bond k) k s.bond n_bond = true) ∧
  r.retargets = s.retargets + 1 ∧ r.found_intersection = true

/-- What the steps of `extend_terminal_bond_to_bonds` from the state `s` to the
state `r` keep: the `exists` flags and the bond orders; the number of terminal
ends goes down by at least the number of retargetings made; and either no
retargeting is made and the flag is as before, or the flag is set. -/
def EtKeeps {K : Type} [Zero K] (n_bond : Nat) (s r : EtState K) : Prop :=
  (∀ k, (nth r.bond k).exists_ = (nth s.bond k).exists_) ∧
  (∀ k, (nth r.bond k).type = (nth s.bond k).type) ∧
  (∀ k, (nth r.atom k).exists_ = (nth s.atom k).exists_) ∧
  terminal_ends r.bond n_bond + r.retargets ≤ terminal_ends s.bond n_bond + s.retargets ∧
  ((r.found_intersection = s.found_intersection ∧ r.retargets = s.retargets) ∨
    (r.found_intersection = true ∧ s.retargets < r.retargets))

/-- Two bonds that are apart in the weak sense: some endpoint of one of them lies
more than `thickness` off the line through the other. -/
def rbb_apart {K : Type} [LinearOrderedField K] (sqrt : K → K) (atom : List (Atom K))
    (bond : List Bond) (thickness : K) (p q : Nat) : Prop :=
  rbb_off sqrt atom bond thickness p q ∨ rbb_off sqrt atom bond thickness q p

instance {K : Type} [LinearOrderedField K] (sqrt : K → K) (atom : List (Atom K))
    (bond : List Bond) (thickness : K) (p q : Nat) :
    Decidable (rbb_apart sqrt atom bond thickness p q) := by
  unfold rbb_apart; infer_instance

/-- A crossing at atom 0 of two long arms, to `(40, 0)` and `(0, 40)`, and two
short arms, to `(-8, 6)` and `(-6, -8)`. -/
def skew_atoms : List (Atom ℚ) :=
  [mkAtom 0 0, mkAtom 40 0, mkAtom (-8) 6, mkAtom 0 40, mkAtom (-6) (-8)]

/-- The bonds of `skew_atoms`: the four arms at atom 0 and the ring 1-3-2-4-1
through the outer atoms. -/
def skew_bonds : List Bond :=
  [mkBond 0 1 1, mkBond 0 2 1, mkBond 0 3 1, mkBond 0 4 1,
   mkBond 1 3 1, mkBond 3 2 1, mkBond 2 4 1, mkBond 4 1 1]

/-- The statistics of a ring system that stays in one piece: one fragment, no
rotatable bond and no ring of five or six atoms, whatever bridge is resolved. -/
def stats_ring : List (Atom ℚ) → List Bond → Nat → MolStats :=
  fun _ _ _ => ⟨1, 0, 0⟩

/-- A bond of length 4 from `(10, 10)` to `(14, 10)` and a bond of length 5.9
from `(14, 10)` to `(8.1, 10)`. -/
def drift_atoms : List (Atom ℚ) := [mkAtom 10 10, mkAtom 14 10, mkAtom (81 / 10) 10]

/-- The bonds of `drift_atoms`. -/
def drift_bonds : List Bond := [mkBond 0 1 1, mkBond 1 2 1]

/-- Bond `k` after the marking of lines 3397-3402 in its own turn. -/
def fwb_marked {K : Type} [LinearOrderedField K] (trunc : K → Int) (tv th : Int → Int → Int)
    (MAX_BOND_THICKNESS avg : K) (limit dist : Int) (atom : List (Atom K)) (bond : List Bond)
    (k : Nat) : Bond :=
  nth (fwb_mark limit
    (fwb_beta (fwb_sample MAX_BOND_THICKNESS avg (bond_axis trunc tv th dist atom bond k)))
    (bond_axis trunc tv th dist atom bond k) bond k) k

/-- The merging loop of lines 3403-3424 finds no atom to merge in the turn of
bond `k`: when the bond is examined (it passes the test of lines 3289-3290 and
the thicknesses at its middle are not both 0) and is a wedge after its marking,
every other existing atom is farther than the largest sampled thickness `w` from
its end `b`. -/
def fwb_quiet {K : Type} [LinearOrderedField K] (sqrt : K → K) (trunc : K → Int)
    (tv th : Int → Int → Int) (MAX_BOND_THICKNESS max_dist_double_bond avg : K)
    (limit dist : Int) (n_atom : Nat) (atom : List (Atom K)) (bond : List Bond) (k : Nat) :
    Prop :=
  fwb_guard sqrt max_dist_double_bond atom bond k →
  ¬ ((fwb_ver trunc tv dist (nth atom (nth bond k).a) (nth atom (nth bond k).b)).w3 = 0 ∧
      (fwb_hor trunc th dist (nth atom (nth bond k).a) (nth atom (nth bond k).b)).w3 = 0) →
  (fwb_marked trunc tv th MAX_BOND_THICKNESS avg limit dist atom bond k).wedge = true →
  ∀ j, j < n_atom → (nth atom j).exists_ = true →
    j ≠ (fwb_marked trunc tv th MAX_BOND_THICKNESS avg limit dist atom bond k).b →
    (((fwb_sample MAX_BOND_THICKNESS avg (bond_axis trunc tv th dist atom bond k)).w : Int) : K) <
      distance sqrt
        (nth atom (fwb_marked trunc tv th MAX_BOND_THICKNESS avg limit dist atom bond k).b).x
        (nth atom (fwb_marked trunc tv th MAX_BOND_THICKNESS avg limit dist atom bond k).b).y
        (nth atom j).x (nth atom j).y

/-- A stroke from `(0, 0)` to `(20, 0)`, a stroke from `(0, 0)` down to
`(0, -12)` and a stroke from `(0, 50)` to `(20, 50)`. -/
def three_stroke_atoms : List (Atom ℚ) :=
  [mkAtom 0 0, mkAtom 20 0, mkAtom 0 (-12), mkAtom 0 50, mkAtom 20 50]

/-- The strokes of `three_stroke_atoms` as bonds: the first from atom 1 to
atom 0. -/
def three_stroke_bonds : List Bond := [mkBond 1 0 1, mkBond 0 2 1, mkBond 3 4 1]

/-- Vertical thickness that rises from 1 at `x = 0` to 6 at `x = 20` on the rows
`y = 0` and `y = 50` and is 30 elsewhere. -/
def tv_rows : Int → Int → Int := fun j y => if y = 0 ∨ y = 50 then wedge_profile j else 30

/-- Horizontal thickness 2 below the row `y = 0` and 20 from there on. -/
def th_rows : Int → Int → Int := fun _ y => if y < 0 then 2 else 20

/-- Two strokes on the row `y = 0`: from `(0, 0)` to `(20, 0)` and from
`(-24, 0)` to `(-4, 0)`. -/
def two_wedge_atoms : List (Atom ℚ) :=
  [mkAtom 0 0, mkAtom 20 0, mkAtom (-24) 0, mkAtom (-4) 0]

/-- The strokes of `two_wedge_atoms` as bonds. -/
def two_wedge_bonds : List Bond := [mkBond 0 1 1, mkBond 2 3 1]

/-- Vertical thickness that rises from 1 at `x = 0` to 6 at `x = 20` and from 1
at `x = -24` to 6 at `x = -4`. -/
def tv_two : Int → Int → Int :=
  fun j _ => if 0 ≤ j then wedge_profile j else wedge_profile (j + 24)

/-! # Theorems -/

/-! ## Generic facts about vectors and loops -/

theorem nth_of_lt {α : Type} [Inhabited α] (v : List α) (i : Nat) (h : i < v.length) :
    nth v i = v[i] := by
  simp [nth, List.getElem?_eq_getElem h]

theorem nth_of_le {α : Type} [Inhabited α] (v : List α) (i : Nat) (h : v.length ≤ i) :
    nth v i = default := by
  simp [nth, List.getElem?_eq_none h]

@[simp] theorem length_modify {α : Type} [Inhabited α] (v : List α) (i : Nat) (f : α → α) :
    (modify v i f).length = v.length := by
  simp [modify]

theorem nth_modify_ne {α : Type} [Inhabited α] (v : List α) (i j : Nat) (f : α → α)
    (h : i ≠ j) : nth (modify v i f) j = nth v j := by
  simp [nth, modify, List.getElem?_set_ne h]

theorem nth_modify_eq {α : Type} [Inhabited α] (v : List α) (i : Nat) (f : α → α)
    (h : i < v.length) : nth (modify v i f) i = f (nth v i) := by
  simp [nth, modify, List.getElem?_set_self, h]

theorem nth_modify_eq_of_le {α : Type} [Inhabited α] (v : List α) (i : Nat) (f : α → α)
    (h : v.length ≤ i) : nth (modify v i f) i = nth v i := by
  rw [nth_of_le _ _ (by simpa using h), nth_of_le _ _ h]

/-- Loop-invariant rule for a `for` loop over `0 .. n-1`. -/
theorem foldl_range_inv {σ : Type} (P : Nat → σ → Prop) (f : σ → Nat → σ) (n : Nat)
    (s0 : σ) (h0 : P 0 s0) (hstep : ∀ i s, i < n → P i s → P (i + 1) (f s i)) :
    P n ((List.range n).foldl f s0) := by
  induction n with
  | zero => simpa using h0
  | succ m ih =>
    rw [List.range_succ, List.foldl_append]
    simp only [List.foldl_cons, List.foldl_nil]
    exact hstep m _ (Nat.lt_succ_self m)
      (ih (fun i s hi hp => hstep i s (Nat.lt_succ_of_lt hi) hp))

/-! ## C1: `remove_zero_bonds` -/

theorem exists_lt_length (b : List Bond) (k : Nat) (h : (nth b k).exists_ = true) :
    k < b.length := by
  by_contra hk
  rw [nth_of_le _ _ (Nat.le_of_not_lt hk)] at h
  exact absurd h (by decide)

theorem shrinks_refl (b : List Bond) : shrinks b b := fun _ => ⟨rfl, rfl, id⟩

theorem shrinks_trans {b3 b2 b1 : List Bond} (h32 : shrinks b3 b2) (h21 : shrinks b2 b1) :
    shrinks b3 b1 := fun k =>
  ⟨(h32 k).1.trans (h21 k).1, (h32 k).2.1.trans (h21 k).2.1,
    fun h => (h21 k).2.2 ((h32 k).2.2 h)⟩

theorem shrinks_delete (b : List Bond) (i : Nat) : shrinks (delete_bond b i) b := by
  intro k
  unfold delete_bond
  by_cases hk : i = k
  · subst hk
    by_cases hl : i < b.length
    · rw [nth_modify_eq _ _ _ hl]; simp
    · rw [nth_modify_eq_of_le _ _ _ (Nat.le_of_not_lt hl)]; simp
  · rw [nth_modify_ne _ _ _ _ hk]; simp

theorem deleted_at (b : List Bond) (i : Nat) : (nth (delete_bond b i) i).exists_ = false := by
  unfold delete_bond
  by_cases hl : i < b.length
  · rw [nth_modify_eq _ _ _ hl]
  · rw [nth_of_le _ _ (by simpa using Nat.le_of_not_lt hl)]; rfl

theorem rzb_inner_shrinks (i : Nat) (bond : List Bond) (j : Nat) :
    shrinks (rzb_inner i bond j) bond := by
  unfold rzb_inner
  split
  · exact shrinks_delete bond j
  · exact shrinks_refl bond

theorem rzb_inner_loop_shrinks (i n : Nat) (bond : List Bond) :
    shrinks ((List.range n).foldl (rzb_inner i) bond) bond :=
  foldl_range_inv (fun _ s => shrinks s bond) (rzb_inner i) n bond (shrinks_refl bond)
    (fun j s _ hs => shrinks_trans (rzb_inner_shrinks i s j) hs)

theorem rzb_loop_bond_shrinks (bond : List Bond) (i : Nat) :
    shrinks (rzb_loop_bond bond i) bond := by
  unfold rzb_loop_bond
  split
  · exact shrinks_delete bond i
  · exact shrinks_refl bond

theorem rzb_atoms_shrinks {K : Type} [Zero K] (atom : List (Atom K)) (bond : List Bond)
    (i : Nat) : shrinks (rzb_atoms atom bond i) bond := by
  unfold rzb_atoms
  split
  · exact shrinks_delete bond i
  · exact shrinks_refl bond

theorem rzb_outer_shrinks {K : Type} [Zero K] (n : Nat) (atom : List (Atom K))
    (bond : List Bond) (i : Nat) : shrinks (rzb_outer n atom bond i) bond := by
  unfold rzb_outer
  split
  · exact shrinks_trans (rzb_atoms_shrinks atom _ i)
      (shrinks_trans (rzb_loop_bond_shrinks _ i) (rzb_inner_loop_shrinks i n bond))
  · exact shrinks_refl bond

/-- After the last statement of the body, bond `i` exists only if both of its
endpoint atoms exist. -/
theorem rzb_atoms_at {K : Type} [Zero K] (atom : List (Atom K)) (bond : List Bond) (i : Nat)
    (h : (nth (rzb_atoms atom bond i) i).exists_ = true) :
    (nth atom (nth (rzb_atoms atom bond i) i).a).exists_ = true ∧
    (nth atom (nth (rzb_atoms atom bond i) i).b).exists_ = true := by
  unfold rzb_atoms at h ⊢
  split at h
  · rw [deleted_at] at h; exact absurd h (by decide)
  · rename_i hc
    rw [if_neg hc]
    push_neg at hc
    simpa using hc

theorem rzb_outer_at {K : Type} [Zero K] (n : Nat) (atom : List (Atom K))
    (bond : List Bond) (i : Nat)
    (h : (nth (rzb_outer n atom bond i) i).exists_ = true) :
    (nth atom (nth (rzb_outer n atom bond i) i).a).exists_ = true ∧
    (nth atom (nth (rzb_outer n atom bond i) i).b).exists_ = true := by
  unfold rzb_outer at h ⊢
  split at h
  · rename_i hex
    rw [if_pos hex]
    exact rzb_atoms_at atom _ i h
  · rename_i hex
    exact absurd h hex

/-- C1. After `remove_zero_bonds(bond, n_bond, atom)` every bond of index below
`n_bond` that still has `exists = true` has both endpoint atoms with
`exists = true`.  (In the model this needs no range assumption: an endpoint
outside the atom vector reads as a non-existing atom, so the bond is deleted.) -/
theorem remove_zero_bonds_endpoints_exist {K : Type} [Zero K] (bond : List Bond)
    (n_bond : Nat) (atom : List (Atom K)) (i : Nat) (hi : i < n_bond)
    (hex : (nth (remove_zero_bonds bond n_bond atom) i).exists_ = true) :
    (nth atom (nth (remove_zero_bonds bond n_bond atom) i).a).exists_ = true ∧
    (nth atom (nth (remove_zero_bonds bond n_bond atom) i).b).exists_ = true := by
  have inv := foldl_range_inv
    (fun m s => ∀ k, k < m → (nth s k).exists_ = true →
      (nth atom (nth s k).a).exists_ = true ∧ (nth atom (nth s k).b).exists_ = true)
    (rzb_outer n_bond atom) n_bond bond
    (fun k hk => absurd hk (Nat.not_lt_zero k))
    (fun m s _ ih k hk hex => by
      rcases Nat.lt_succ_iff_lt_or_eq.mp hk with hlt | heq
      · have hs := rzb_outer_shrinks n_bond atom s m k
        rw [hs.1, hs.2.1]
        exact ih k hlt (hs.2.2 hex)
      · subst heq
        exact rzb_outer_at n_bond atom s k hex)
  exact inv i hi hex

/-- Witness for C1: a bond whose endpoint atom 1 does not exist next to a bond
between existing atoms. -/
theorem remove_zero_bonds_endpoints_exist_witness :
    (0 : Nat) < 2 ∧
    (nth (remove_zero_bonds
      [⟨0, 2, 1, 0, true, false, false, false, false, false, false, false⟩,
       ⟨0, 1, 1, 0, true, false, false, false, false, false, false, false⟩] 2
      ([⟨0, 0, " ", 0, 0, 0, true, false, false, 0⟩,
        ⟨1, 0, " ", 0, 0, 0, false, false, false, 0⟩,
        ⟨2, 0, " ", 0, 0, 0, true, false, false, 0⟩] : List (Atom ℚ))) 0).exists_ = true ∧
    ((nth ([⟨0, 0, " ", 0, 0, 0, true, false, false, 0⟩,
        ⟨1, 0, " ", 0, 0, 0, false, false, false, 0⟩,
        ⟨2, 0, " ", 0, 0, 0, true, false, false, 0⟩] : List (Atom ℚ))
      (nth (remove_zero_bonds
      [⟨0, 2, 1, 0, true, false, false, false, false, false, false, false⟩,
       ⟨0, 1, 1, 0, true, false, false, false, false, false, false, false⟩] 2
      ([⟨0, 0, " ", 0, 0, 0, true, false, false, 0⟩,
        ⟨1, 0, " ", 0, 0, 0, false, false, false, 0⟩,
        ⟨2, 0, " ", 0, 0, 0, true, false, false, 0⟩] : List (Atom ℚ))) 0).a).exists_ = true ∧
     (nth ([⟨0, 0, " ", 0, 0, 0, true, false, false, 0⟩,
        ⟨1, 0, " ", 0, 0, 0, false, false, false, 0⟩,
        ⟨2, 0, " ", 0, 0, 0, true, false, false, 0⟩] : List (Atom ℚ))
      (nth (remove_zero_bonds
      [⟨0, 2, 1, 0, true, false, false, false, false, false, false, false⟩,
       ⟨0, 1, 1, 0, true, false, false, false, false, false, false, false⟩] 2
      ([⟨0, 0, " ", 0, 0, 0, true, false, false, 0⟩,
        ⟨1, 0, " ", 0, 0, 0, false, false, false, 0⟩,
        ⟨2, 0, " ", 0, 0, 0, true, false, false, 0⟩] : List (Atom ℚ))) 0).b).exists_ = true) :=
  ⟨by decide, by decide, remove_zero_bonds_endpoints_exist _ 2 _ 0 (by decide) (by decide)⟩

/-! ## C7: `collapse_doubleup_bonds` -/

theorem shrinks_bump (b : List Bond) (i : Nat) : shrinks (bump_type b i) b := by
  intro k
  unfold bump_type
  by_cases hk : i = k
  · subst hk
    by_cases hl : i < b.length
    · rw [nth_modify_eq _ _ _ hl]; simp
    · rw [nth_modify_eq_of_le _ _ _ (Nat.le_of_not_lt hl)]; simp
  · rw [nth_modify_ne _ _ _ _ hk]; simp

theorem same_ends_of_shrinks {s bond : List Bond} (h : shrinks s bond) (k l : Nat) :
    same_ends (nth s k) (nth s l) ↔ same_ends (nth bond k) (nth bond l) := by
  unfold same_ends
  rw [(h k).1, (h k).2.1, (h l).1, (h l).2.1]

theorem same_ends_symm {x y : Bond} (h : same_ends x y) : same_ends y x := by
  unfold same_ends at h ⊢; omega

theorem same_ends_trans {x y z : Bond} (h : same_ends x y) (h2 : same_ends y z) :
    same_ends x z := by
  unfold same_ends at h h2 ⊢; omega

theorem cdb_inner_shrinks (i : Nat) (bond : List Bond) (j : Nat) :
    shrinks (cdb_inner i bond j) bond := by
  unfold cdb_inner
  split
  · exact shrinks_trans (shrinks_bump _ i) (shrinks_delete bond j)
  · exact shrinks_refl bond

theorem cdb_outer_shrinks (n : Nat) (bond : List Bond) (i : Nat) :
    shrinks (cdb_outer n bond i) bond := by
  unfold cdb_outer
  split
  · exact foldl_range_inv (fun _ s => shrinks s bond) (cdb_inner i) n bond (shrinks_refl bond)
      (fun j s _ hs => shrinks_trans (cdb_inner_shrinks i s j) hs)
  · exact shrinks_refl bond

/-- An outer iteration at an index `k` whose bond does not join the pair of
bond `i` leaves bonds `i` and `j` untouched. -/
theorem cdb_outer_other (n : Nat) (bond s : List Bond) (i j k : Nat) (hs : shrinks s bond)
    (hki : k ≠ i) (hkj : k ≠ j) (hij : same_ends (nth bond i) (nth bond j))
    (hk : (nth bond k).exists_ = true → ¬ same_ends (nth bond k) (nth bond i)) :
    nth (cdb_outer n s k) i = nth s i ∧ nth (cdb_outer n s k) j = nth s j := by
  unfold cdb_outer
  split
  · rename_i hex
    have hno := hk ((hs k).2.2 hex)
    have inv := foldl_range_inv
      (fun _ t => shrinks t bond ∧ nth t i = nth s i ∧ nth t j = nth s j)
      (cdb_inner k) n s ⟨hs, rfl, rfl⟩
      (fun l t _ ht => by
        refine ⟨shrinks_trans (cdb_inner_shrinks k t l) ht.1, ?_⟩
        unfold cdb_inner
        split
        · rename_i hc
          have hse := (same_ends_of_shrinks ht.1 k l).mp hc.2.2
          have hli : l ≠ i := fun h => hno (h ▸ hse)
          have hlj : l ≠ j := fun h =>
            hno (same_ends_trans (h ▸ hse) (same_ends_symm hij))
          unfold bump_type delete_bond
          rw [nth_modify_ne _ _ _ _ hki, nth_modify_ne _ _ _ _ hkj,
            nth_modify_ne _ _ _ _ hli, nth_modify_ne _ _ _ _ hlj]
          exact ht.2
        · exact ht.2)
    exact inv.2
  · exact ⟨rfl, rfl⟩

/-- The outer iteration at the first bond `i` of the pair deletes `j` and
raises the order of `i` by one. -/
theorem cdb_outer_first (n : Nat) (bond s : List Bond) (i j : Nat) (hs : shrinks s bond)
    (hlt : i < j) (hjn : j < n) (hsi : nth s i = nth bond i) (hsj : nth s j = nth bond j)
    (hei : (nth bond i).exists_ = true) (hej : (nth bond j).exists_ = true)
    (hij : same_ends (nth bond i) (nth bond j))
    (hk : ∀ k, k < n → k ≠ i → k ≠ j → (nth bond k).exists_ = true →
      ¬ same_ends (nth bond k) (nth bond i)) :
    (nth (cdb_outer n s i) i).exists_ = true ∧
    (nth (cdb_outer n s i) i).type = (nth bond i).type + 1 ∧
    (nth (cdb_outer n s i) j).exists_ = false := by
  unfold cdb_outer
  rw [if_pos (by rw [hsi]; exact hei)]
  have inv := foldl_range_inv
    (fun l t => shrinks t bond ∧ (nth t i).exists_ = true ∧
      (l ≤ j → nth t j = nth bond j ∧ (nth t i).type = (nth bond i).type) ∧
      (j < l → (nth t j).exists_ = false ∧ (nth t i).type = (nth bond i).type + 1))
    (cdb_inner i) n s
    ⟨hs, by rw [hsi]; exact hei, fun _ => ⟨hsj, by rw [hsi]⟩,
      fun h => absurd h (Nat.not_lt_zero j)⟩
    (fun l t hln ht => by
      obtain ⟨hsh, hti, hle, hgt⟩ := ht
      have hil : i < t.length := exists_lt_length t i hti
      refine ⟨shrinks_trans (cdb_inner_shrinks i t l) hsh, ?_⟩
      unfold cdb_inner
      split
      · rename_i hc
        have hse := (same_ends_of_shrinks hsh i l).mp hc.2.2
        have hlj : l = j := by
          by_contra hne
          exact hk l hln hc.2.1 hne ((hsh l).2.2 hc.1) (same_ends_symm hse)
        subst hlj
        have hji : l ≠ i := hc.2.1
        have hdl : i < (delete_bond t l).length := by simpa [delete_bond] using hil
        refine ⟨?_, fun h => absurd h (Nat.not_succ_le_self l), fun _ => ⟨?_, ?_⟩⟩
        · unfold bump_type
          rw [nth_modify_eq _ _ _ hdl]
          simp only [delete_bond]
          rw [nth_modify_ne _ _ _ _ hji]
          exact hti
        · unfold bump_type
          rw [nth_modify_ne _ _ _ _ (Ne.symm hji)]
          exact deleted_at t l
        · unfold bump_type
          rw [nth_modify_eq _ _ _ hdl]
          simp only [delete_bond]
          rw [nth_modify_ne _ _ _ _ hji]
          simp [(hle (Nat.le_refl l)).2]
      · rename_i hc
        refine ⟨hti, fun h => hle (Nat.le_of_succ_le h), fun h => ?_⟩
        rcases Nat.lt_succ_iff_lt_or_eq.mp h with h1 | h1
        · exact hgt h1
        · subst h1
          exfalso
          apply hc
          have hjb := (hle (Nat.le_refl j)).1
          refine ⟨by rw [hjb]; exact hej, Ne.symm (Nat.ne_of_lt hlt), ?_⟩
          exact (same_ends_of_shrinks hsh i j).mpr hij)
  obtain ⟨_, h1, _, h3⟩ := inv
  exact ⟨h1, (h3 hjn).2, (h3 hjn).1⟩

/-- C7 (amended). If exactly two existing bonds `i < j` below `n_bond` join the
same unordered pair of atoms, `collapse_doubleup_bonds` deletes the later bond
`j`, keeps bond `i`, and raises the order of `i` by one (`type++`): the order
of the deleted bond is not added. -/
theorem collapse_doubleup_bonds_pair (bond : List Bond) (n_bond i j : Nat)
    (hlt : i < j) (hjn : j < n_bond)
    (hei : (nth bond i).exists_ = true) (hej : (nth bond j).exists_ = true)
    (hij : same_ends (nth bond i) (nth bond j))
    (hk : ∀ k, k < n_bond → k ≠ i → k ≠ j → (nth bond k).exists_ = true →
      ¬ same_ends (nth bond k) (nth bond i)) :
    (nth (collapse_doubleup_bonds bond n_bond) i).exists_ = true ∧
    (nth (collapse_doubleup_bonds bond n_bond) j).exists_ = false ∧
    (nth (collapse_doubleup_bonds bond n_bond) i).type = (nth bond i).type + 1 := by
  have inv := foldl_range_inv
    (fun t s => shrinks s bond ∧
      (t ≤ i → nth s i = nth bond i ∧ nth s j = nth bond j) ∧
      (i < t → (nth s i).exists_ = true ∧ (nth s i).type = (nth bond i).type + 1 ∧
        (nth s j).exists_ = false))
    (cdb_outer n_bond) n_bond bond
    ⟨shrinks_refl bond, fun _ => ⟨rfl, rfl⟩, fun h => absurd h (Nat.not_lt_zero i)⟩
    (fun t s htn hs => by
      obtain ⟨hsh, hle, hgt⟩ := hs
      refine ⟨shrinks_trans (cdb_outer_shrinks n_bond s t) hsh, ?_, ?_⟩
      · intro hti
        have hlt2 : t < i := hti
        have h := cdb_outer_other n_bond bond s i j t hsh (Nat.ne_of_lt hlt2)
          (Nat.ne_of_lt (Nat.lt_trans hlt2 hlt)) hij
          (hk t htn (Nat.ne_of_lt hlt2) (Nat.ne_of_lt (Nat.lt_trans hlt2 hlt)))
        rw [h.1, h.2]
        exact hle (Nat.le_of_lt hlt2)
      · intro hit
        rcases Nat.lt_succ_iff_lt_or_eq.mp hit with h1 | h1
        · obtain ⟨g1, g2, g3⟩ := hgt h1
          by_cases htj : t = j
          · subst htj
            unfold cdb_outer
            rw [if_neg (by rw [g3]; decide)]
            exact ⟨g1, g2, g3⟩
          · have h := cdb_outer_other n_bond bond s i j t hsh (Ne.symm (Nat.ne_of_lt h1))
              htj hij (hk t htn (Ne.symm (Nat.ne_of_lt h1)) htj)
            rw [h.1, h.2]
            exact ⟨g1, g2, g3⟩
        · subst h1
          obtain ⟨g1, g2⟩ := hle (Nat.le_refl i)
          exact cdb_outer_first n_bond bond s i j hsh hlt hjn g1 g2 hei hej hij hk)
  obtain ⟨_, _, h3⟩ := inv
  obtain ⟨g1, g2, g3⟩ := h3 (Nat.lt_trans hlt hjn)
  exact ⟨g1, g3, g2⟩

/-- Witness for C7 (amended): a triple bond drawn as a single bond plus a
doubled-up double bond between atoms 0 and 1, next to an unrelated bond. -/
theorem collapse_doubleup_bonds_pair_witness :
    (nth (collapse_doubleup_bonds [mkBond 0 1 1, mkBond 1 2 1, mkBond 1 0 2] 3) 0).exists_ = true ∧
    (nth (collapse_doubleup_bonds [mkBond 0 1 1, mkBond 1 2 1, mkBond 1 0 2] 3) 2).exists_ = false ∧
    (nth (collapse_doubleup_bonds [mkBond 0 1 1, mkBond 1 2 1, mkBond 1 0 2] 3) 0).type
      = (nth [mkBond 0 1 1, mkBond 1 2 1, mkBond 1 0 2] 0).type + 1 :=
  collapse_doubleup_bonds_pair [mkBond 0 1 1, mkBond 1 2 1, mkBond 1 0 2] 3 0 2
    (by decide) (by decide) (by decide) (by decide) (by decide) (by decide)

/-- C7 (as stated) fails: a single bond and a double bond between the same two
atoms collapse to one bond of order 2, not 1 + 2. -/
theorem collapse_doubleup_bonds_order_counterexample :
    (nth doubled_up 0).exists_ = true ∧ (nth doubled_up 1).exists_ = true ∧
    same_ends (nth doubled_up 0) (nth doubled_up 1) ∧
    (nth (collapse_doubleup_bonds doubled_up 2) 0).exists_ = true ∧
    (nth (collapse_doubleup_bonds doubled_up 2) 1).exists_ = false ∧
    (nth (collapse_doubleup_bonds doubled_up 2) 0).type = 2 ∧
    (nth (collapse_doubleup_bonds doubled_up 2) 0).type
      ≠ (nth doubled_up 0).type + (nth doubled_up 1).type := by
  decide

/-! ## C2, C3: `find_fragments` -/

theorem found_flags_aux (frag : List Nat) (a b : Nat) (fa fb : Bool) :
    ((frag.foldl
      (fun fl v => if v = a then (true, fl.2) else if v = b then (fl.1, true) else fl)
      (fa, fb)).1 = true ↔ (fa = true ∨ a ∈ frag)) ∧
    ((frag.foldl
      (fun fl v => if v = a then (true, fl.2) else if v = b then (fl.1, true) else fl)
      (fa, fb)).2 = true ↔ (fb = true ∨ (b ∈ frag ∧ b ≠ a))) := by
  induction frag generalizing fa fb with
  | nil => simp
  | cons v vs ih =>
    simp only [List.foldl_cons, List.mem_cons]
    by_cases hva : v = a
    · subst hva
      simp only [if_true]
      rw [(ih true fb).1, (ih true fb).2]
      constructor
      · simp
      · constructor
        · rintro (h | h)
          · exact Or.inl h
          · exact Or.inr ⟨Or.inr h.1, h.2⟩
        · rintro (h | ⟨h1 | h1, h2⟩)
          · exact Or.inl h
          · exact absurd h1 h2
          · exact Or.inr ⟨h1, h2⟩
    · rw [if_neg hva]
      by_cases hvb : v = b
      · subst hvb
        simp only [if_true]
        rw [(ih fa true).1, (ih fa true).2]
        constructor
        · constructor
          · rintro (h | h)
            · exact Or.inl h
            · exact Or.inr (Or.inr h)
          · rintro (h | h | h)
            · exact Or.inl h
            · exact absurd h.symm hva
            · exact Or.inr h
        · simp [hva]
      · rw [if_neg hvb]
        rw [(ih fa fb).1, (ih fa fb).2]
        constructor
        · constructor
          · rintro (h | h)
            · exact Or.inl h
            · exact Or.inr (Or.inr h)
          · rintro (h | h | h)
            · exact Or.inl h
            · exact absurd h.symm hva
            · exact Or.inr h
        · constructor
          · rintro (h | h)
            · exact Or.inl h
            · exact Or.inr ⟨Or.inr h.1, h.2⟩
          · rintro (h | ⟨h1 | h1, h2⟩)
            · exact Or.inl h
            · exact absurd h1.symm hvb
            · exact Or.inr ⟨h1, h2⟩

theorem found_a_iff (frag : List Nat) (a b : Nat) :
    (found_flags frag a b).1 = true ↔ a ∈ frag := by
  unfold found_flags
  rw [(found_flags_aux frag a b false false).1]; simp

theorem found_b_iff (frag : List Nat) (a b : Nat) :
    (found_flags frag a b).2 = true ↔ (b ∈ frag ∧ b ≠ a) := by
  unfold found_flags
  rw [(found_flags_aux frag a b false false).2]; simp

theorem flags_cases (fl : Bool × Bool)
    (h1 : ¬ (fl.1 = true ∧ fl.2 = false)) (h2 : ¬ (fl.1 = false ∧ fl.2 = true))
    (h3 : ¬ (fl.1 = true ∧ fl.2 = true)) : fl.1 = false ∧ fl.2 = false := by
  rcases fl with ⟨x, y⟩
  cases x <;> cases y <;> simp_all

/-- What one pass over the pool does. -/
theorem scan_spec (bond : List Bond) (pool : List Nat) : ∀ frag : List Nat,
    (scan bond frag pool).2.1.Sublist pool ∧
    (∃ more, (scan bond frag pool).1 = frag ++ more) ∧
    (∀ k ∈ pool, k ∈ (scan bond frag pool).2.1 ∨
      ((nth bond k).a ∈ (scan bond frag pool).1 ∧ (nth bond k).b ∈ (scan bond frag pool).1)) ∧
    ((scan bond frag pool).2.2 = false → (scan bond frag pool).1 = frag ∧
      ∀ k ∈ (scan bond frag pool).2.1, (nth bond k).a ∉ frag ∧ (nth bond k).b ∉ frag) ∧
    ((scan bond frag pool).2.2 = true → (scan bond frag pool).2.1.length < pool.length) := by
  induction pool with
  | nil =>
    intro frag
    simp [scan]
  | cons p rest ih =>
    intro frag
    simp only [scan]
    split_ifs with h1 h2 h3
    · -- found_a, not found_b: push b
      obtain ⟨i1, ⟨more, i2⟩, i3, _, _⟩ := ih (frag ++ [(nth bond p).b])
      have ha : (nth bond p).a ∈ frag := (found_a_iff _ _ _).mp h1.1
      refine ⟨i1.cons p, ⟨[(nth bond p).b] ++ more, by rw [i2, List.append_assoc]⟩, ?_, ?_, ?_⟩
      · intro k hk
        rcases List.mem_cons.mp hk with h | h
        · subst h
          right
          rw [i2]
          exact ⟨by simp [ha], by simp⟩
        · exact i3 k h
      · intro h; exact absurd h (by decide)
      · intro _
        exact Nat.lt_succ_of_le i1.length_le
    · -- found_b, not found_a: push a
      obtain ⟨i1, ⟨more, i2⟩, i3, _, _⟩ := ih (frag ++ [(nth bond p).a])
      have hb : (nth bond p).b ∈ frag := ((found_b_iff _ _ _).mp h2.2).1
      refine ⟨i1.cons p, ⟨[(nth bond p).a] ++ more, by rw [i2, List.append_assoc]⟩, ?_, ?_, ?_⟩
      · intro k hk
        rcases List.mem_cons.mp hk with h | h
        · subst h
          right
          rw [i2]
          exact ⟨by simp, by simp [hb]⟩
        · exact i3 k h
      · intro h; exact absurd h (by decide)
      · intro _
        exact Nat.lt_succ_of_le i1.length_le
    · -- both found: drop the bond
      obtain ⟨i1, ⟨more, i2⟩, i3, i4, i5⟩ := ih frag
      have ha : (nth bond p).a ∈ frag := (found_a_iff _ _ _).mp h3.1
      have hb : (nth bond p).b ∈ frag := ((found_b_iff _ _ _).mp h3.2).1
      refine ⟨i1.cons p, ⟨more, i2⟩, ?_, i4, ?_⟩
      · intro k hk
        rcases List.mem_cons.mp hk with h | h
        · subst h
          right
          rw [i2]
          exact ⟨by simp [ha], by simp [hb]⟩
        · exact i3 k h
      · intro h
        exact Nat.lt_succ_of_lt (i5 h)
    · -- neither found: keep the bond
      obtain ⟨i1, ⟨more, i2⟩, i3, i4, i5⟩ := ih frag
      obtain ⟨f1, f2⟩ := flags_cases _ h1 h2 h3
      have ha : (nth bond p).a ∉ frag := fun h => by
        rw [(found_a_iff _ _ _).mpr h] at f1; exact absurd f1 (by decide)
      have hb : (nth bond p).b ∉ frag := fun h => by
        have hne : (nth bond p).b ≠ (nth bond p).a := fun e => ha (e ▸ h)
        rw [(found_b_iff _ _ _).mpr ⟨h, hne⟩] at f2; exact absurd f2 (by decide)
      refine ⟨i1.cons₂ p, ⟨more, i2⟩, ?_, ?_, ?_⟩
      · intro k hk
        rcases List.mem_cons.mp hk with h | h
        · subst h
          left; simp
        · rcases i3 k h with h' | h'
          · left; exact List.mem_cons_of_mem _ h'
          · right; exact h'
      · intro h
        refine ⟨(i4 h).1, ?_⟩
        intro k hk
        rcases List.mem_cons.mp hk with h' | h'
        · subst h'; exact ⟨ha, hb⟩
        · exact (i4 h).2 k h'
      · intro h
        simpa using i5 h

/-- A property of atoms that every bond of the pool carries from one endpoint
to the other holds on the whole fragment once it holds on its seed. -/
theorem scan_closed (bond : List Bond) (R : Nat → Prop) (pool : List Nat) :
    ∀ frag : List Nat, (∀ k ∈ pool, (R (nth bond k).a ↔ R (nth bond k).b)) →
    (∀ v ∈ frag, R v) → ∀ v ∈ (scan bond frag pool).1, R v := by
  induction pool with
  | nil =>
    intro frag _ hf
    simpa [scan] using hf
  | cons p rest ih =>
    intro frag hR hf
    have hR2 : ∀ k ∈ rest, (R (nth bond k).a ↔ R (nth bond k).b) :=
      fun k hk => hR k (List.mem_cons_of_mem _ hk)
    simp only [scan]
    split_ifs with h1 h2 h3
    · have ha : (nth bond p).a ∈ frag := (found_a_iff _ _ _).mp h1.1
      apply ih _ hR2
      intro v hv
      rcases List.mem_append.mp hv with h | h
      · exact hf v h
      · rw [List.mem_singleton.mp h]
        exact (hR p (List.mem_cons_self _ _)).mp (hf _ ha)
    · have hb : (nth bond p).b ∈ frag := ((found_b_iff _ _ _).mp h2.2).1
      apply ih _ hR2
      intro v hv
      rcases List.mem_append.mp hv with h | h
      · exact hf v h
      · rw [List.mem_singleton.mp h]
        exact (hR p (List.mem_cons_self _ _)).mpr (hf _ hb)
    · exact ih _ hR2 hf
    · exact ih _ hR2 hf

/-- When no bond of the pool is a loop, a pass adds no atom twice. -/
theorem scan_nodup (bond : List Bond) (pool : List Nat) :
    ∀ frag : List Nat, (∀ k ∈ pool, (nth bond k).a ≠ (nth bond k).b) →
    frag.Nodup → (scan bond frag pool).1.Nodup := by
  induction pool with
  | nil =>
    intro frag _ hf
    simpa [scan] using hf
  | cons p rest ih =>
    intro frag hd hf
    have hd2 : ∀ k ∈ rest, (nth bond k).a ≠ (nth bond k).b :=
      fun k hk => hd k (List.mem_cons_of_mem _ hk)
    have hp := hd p (List.mem_cons_self _ _)
    simp only [scan]
    split_ifs with h1 h2 h3
    · apply ih _ hd2
      have hb : (nth bond p).b ∉ frag := fun h => by
        have := (found_b_iff frag (nth bond p).a (nth bond p).b).mpr ⟨h, Ne.symm hp⟩
        rw [h1.2] at this; exact absurd this (by decide)
      exact List.nodup_append.mpr ⟨hf, List.nodup_singleton _, by
        intro x hx hx2
        rw [List.mem_singleton.mp hx2] at hx
        exact hb hx⟩
    · apply ih _ hd2
      have ha : (nth bond p).a ∉ frag := fun h => by
        have := (found_a_iff frag (nth bond p).a (nth bond p).b).mpr h
        rw [h2.1] at this; exact absurd this (by decide)
      exact List.nodup_append.mpr ⟨hf, List.nodup_singleton _, by
        intro x hx hx2
        rw [List.mem_singleton.mp hx2] at hx
        exact ha hx⟩
    · exact ih _ hd2 hf
    · exact ih _ hd2 hf

/-- The loop `while (found)` ends within `pool.length + 1` passes, and then the
fragment is closed under the bonds of the pool: every bond either stays in the
pool and touches no atom of the fragment, or left it with both endpoints in the
fragment. -/
theorem grow_spec (bond : List Bond) : ∀ (fuel : Nat) (frag pool : List Nat),
    pool.length < fuel →
    ∃ F P, grow bond fuel frag pool = some (F, P) ∧
      P.Sublist pool ∧ (∃ more, F = frag ++ more) ∧
      (∀ k ∈ pool, k ∈ P ∨ ((nth bond k).a ∈ F ∧ (nth bond k).b ∈ F)) ∧
      (∀ k ∈ P, (nth bond k).a ∉ F ∧ (nth bond k).b ∉ F) ∧
      (∀ R : Nat → Prop, (∀ k ∈ pool, (R (nth bond k).a ↔ R (nth bond k).b)) →
        (∀ v ∈ frag, R v) → ∀ v ∈ F, R v) ∧
      ((∀ k ∈ pool, (nth bond k).a ≠ (nth bond k).b) → frag.Nodup → F.Nodup) := by
  intro fuel
  induction fuel with
  | zero => intro frag pool h; exact absurd h (Nat.not_lt_zero _)
  | succ n ih =>
    intro frag pool hlen
    obtain ⟨s1, ⟨more, s2⟩, s3, s4, s5⟩ := scan_spec bond pool frag
    simp only [grow]
    by_cases hf : (scan bond frag pool).2.2 = true
    · rw [if_pos hf]
      have hlt : (scan bond frag pool).2.1.length < n :=
        Nat.lt_of_lt_of_le (s5 hf) (Nat.le_of_lt_succ hlen)
      obtain ⟨F, P, g0, g1, ⟨more2, g2⟩, g3, g4, g5, g6⟩ :=
        ih (scan bond frag pool).1 (scan bond frag pool).2.1 hlt
      refine ⟨F, P, g0, g1.trans s1, ⟨more ++ more2, by rw [g2, s2, List.append_assoc]⟩,
        ?_, g4, ?_, ?_⟩
      · intro k hk
        rcases s3 k hk with h | h
        · exact g3 k h
        · right
          rw [g2]
          exact ⟨List.mem_append_left _ h.1, List.mem_append_left _ h.2⟩
      · intro R hR hfr
        exact g5 R (fun k hk => hR k (s1.subset hk)) (scan_closed bond R pool frag hR hfr)
      · intro hd hn
        exact g6 (fun k hk => hd k (s1.subset hk)) (scan_nodup bond pool frag hd hn)
    · rw [if_neg hf]
      have hff : (scan bond frag pool).2.2 = false := by simpa using hf
      obtain ⟨e1, e2⟩ := s4 hff
      refine ⟨_, _, rfl, s1, ⟨more, s2⟩, s3, ?_, ?_, ?_⟩
      · rw [e1]; exact e2
      · intro R hR hfr
        exact scan_closed bond R pool frag hR hfr
      · intro hd hn
        exact scan_nodup bond pool frag hd hn

theorem adj_symm (bond : List Bond) (pool : List Nat) : Symmetric (adj bond pool) := by
  intro u v ⟨k, hk, h⟩
  exact ⟨k, hk, h.symm⟩

theorem adj_ends (bond : List Bond) (pool : List Nat) (k : Nat) (hk : k ∈ pool) :
    adj bond pool (nth bond k).a (nth bond k).b :=
  ⟨k, hk, Or.inl ⟨rfl, rfl⟩⟩

/-- The outer loop ends within `pool.length` rounds and keeps the invariant. -/
theorem frag_loop_spec (bond : List Bond) (pool0 : List Nat) :
    ∀ (fuel : Nat) (pool : List Nat) (frags : List (List Nat)), pool.length ≤ fuel →
    FragInv bond pool0 pool frags →
    ∃ out, frag_loop bond fuel pool frags = some out ∧ FragInv bond pool0 [] out := by
  intro fuel
  induction fuel with
  | zero =>
    intro pool frags hlen inv
    have hp : pool = [] := List.length_eq_zero.mp (Nat.le_zero.mp hlen)
    subst hp
    exact ⟨frags, by simp [frag_loop], inv⟩
  | succ n ih =>
    intro pool frags hlen inv
    simp only [frag_loop]
    cases hl : pool.getLast? with
    | none =>
      have hp : pool = [] := List.getLast?_eq_none_iff.mp hl
      subst hp
      exact ⟨frags, rfl, inv⟩
    | some p =>
      have hpool : pool.dropLast ++ [p] = pool := List.dropLast_append_getLast? p hl
      have hpm : p ∈ pool := by rw [← hpool]; simp
      have hne : pool ≠ [] := List.ne_nil_of_mem hpm
      have hdl : pool.dropLast.length < pool.length := by
        rw [List.length_dropLast]
        exact Nat.sub_lt (List.length_pos.mpr hne) Nat.one_pos
      have hsubd : ∀ k ∈ pool.dropLast, k ∈ pool := fun k hk => by
        rw [← hpool]; exact List.mem_append_left _ hk
      obtain ⟨F, P, g0, g1, ⟨more, g2⟩, g3, g4, g5, g6⟩ :=
        grow_spec bond pool.length [(nth bond p).a, (nth bond p).b] pool.dropLast hdl
      simp only [g0]
      have hPlen : P.length ≤ n :=
        Nat.le_trans g1.length_le (Nat.le_of_lt_succ (Nat.lt_of_lt_of_le hdl hlen))
      have haF : (nth bond p).a ∈ F := by rw [g2]; simp
      have hbF : (nth bond p).b ∈ F := by rw [g2]; simp
      apply ih P (frags ++ [F]) hPlen
      constructor
      · intro k hk
        exact inv.sub k (hsubd k (g1.subset hk))
      · intro k hk
        rcases inv.covered k hk with h | ⟨G, hG, h⟩
        · rw [← hpool] at h
          rcases List.mem_append.mp h with h1 | h1
          · rcases g3 k h1 with h2 | h2
            · exact Or.inl h2
            · exact Or.inr ⟨F, by simp, h2⟩
          · rw [List.mem_singleton.mp h1]
            exact Or.inr ⟨F, by simp, haF, hbF⟩
        · exact Or.inr ⟨G, List.mem_append_left _ hG, h⟩
      · intro k hk G hG
        rcases List.mem_append.mp hG with h | h
        · exact inv.apart k (hsubd k (g1.subset hk)) G h
        · rw [List.mem_singleton.mp h]
          exact g4 k hk
      · intro G hG u hu v hv
        rcases List.mem_append.mp hG with h | h
        · exact inv.connected G h u hu v hv
        · rw [List.mem_singleton.mp h] at hu hv
          have hreach : ∀ w ∈ F, Relation.ReflTransGen (adj bond pool0) (nth bond p).a w := by
            apply g5 (fun w => Relation.ReflTransGen (adj bond pool0) (nth bond p).a w)
            · intro k hk
              have hk0 : k ∈ pool0 := inv.sub k (hsubd k hk)
              constructor
              · intro h1
                exact h1.tail (adj_ends bond pool0 k hk0)
              · intro h1
                exact h1.tail (adj_symm bond pool0 (adj_ends bond pool0 k hk0))
            · intro w hw
              rcases List.mem_cons.mp hw with h1 | h1
              · rw [h1]
              · rw [List.mem_singleton.mp h1]
                exact Relation.ReflTransGen.single (adj_ends bond pool0 p (inv.sub p hpm))
          exact ((Relation.ReflTransGen.symmetric (adj_symm bond pool0)) (hreach u hu)).trans
            (hreach v hv)
      · intro G hG v hv
        rcases List.mem_append.mp hG with h | h
        · exact inv.ends G h v hv
        · rw [List.mem_singleton.mp h] at hv
          apply g5 (fun w => ∃ k ∈ pool0, w = (nth bond k).a ∨ w = (nth bond k).b) _ _ v hv
          · intro k hk
            have hk0 : k ∈ pool0 := inv.sub k (hsubd k hk)
            exact ⟨fun _ => ⟨k, hk0, Or.inr rfl⟩, fun _ => ⟨k, hk0, Or.inl rfl⟩⟩
          · intro w hw
            rcases List.mem_cons.mp hw with h1 | h1
            · exact ⟨p, inv.sub p hpm, Or.inl h1⟩
            · exact ⟨p, inv.sub p hpm, Or.inr (List.mem_singleton.mp h1)⟩
      · rw [List.pairwise_append]
        refine ⟨inv.disjoint, List.pairwise_singleton _ _, ?_⟩
        intro G hG F2 hF2
        rw [List.mem_singleton.mp hF2]
        intro v hvG hvF
        have hout : ∀ w ∈ F, ∀ G ∈ frags, w ∉ G := by
          apply g5 (fun w => ∀ G ∈ frags, w ∉ G)
          · intro k hk
            have hkp : k ∈ pool := hsubd k hk
            exact ⟨fun _ G hG => (inv.apart k hkp G hG).2, fun _ G hG => (inv.apart k hkp G hG).1⟩
          · intro w hw G hG
            rcases List.mem_cons.mp hw with h1 | h1
            · rw [h1]; exact (inv.apart p hpm G hG).1
            · rw [List.mem_singleton.mp h1]; exact (inv.apart p hpm G hG).2
        exact hout v hvF G hG hvG
      · intro hd G hG
        rcases List.mem_append.mp hG with h | h
        · exact inv.nodup hd G h
        · rw [List.mem_singleton.mp h]
          apply g6 (fun k hk => hd k (inv.sub k (hsubd k hk)))
          have := hd p (inv.sub p hpm)
          simp [this]

theorem mem_pool_iff {K : Type} [Zero K] (bond : List Bond) (n_bond : Nat)
    (atom : List (Atom K)) (k : Nat) :
    k ∈ (List.range n_bond).filter (fun i => surviving bond atom i) ↔
      k < n_bond ∧ surviving bond atom k := by
  simp [List.mem_filter]

theorem adj_pool_eq_joined {K : Type} [Zero K] (bond : List Bond) (n_bond : Nat)
    (atom : List (Atom K)) :
    adj bond ((List.range n_bond).filter (fun i => surviving bond atom i)) =
      joined bond n_bond atom := by
  funext u v
  apply propext
  unfold adj joined
  constructor
  · rintro ⟨k, hk, h⟩
    exact ⟨k, ((mem_pool_iff bond n_bond atom k).mp hk).1,
      ((mem_pool_iff bond n_bond atom k).mp hk).2, h⟩
  · rintro ⟨k, hk, hs, h⟩
    exact ⟨k, (mem_pool_iff bond n_bond atom k).mpr ⟨hk, hs⟩, h⟩

/-- The outer loop of `find_fragments` ends and its invariant holds for the
returned fragments with an empty pool. -/
theorem find_fragments_inv {K : Type} [Zero K] (bond : List Bond) (n_bond : Nat)
    (atom : List (Atom K)) :
    ∃ frags, find_fragments bond n_bond atom = some frags ∧
      FragInv bond ((List.range n_bond).filter (fun i => surviving bond atom i)) [] frags := by
  unfold find_fragments
  apply frag_loop_spec bond _ _ _ [] (Nat.le_refl _)
  constructor
  · exact fun k hk => hk
  · exact fun k hk => Or.inl hk
  · intro k _ F hF; exact absurd hF (List.not_mem_nil F)
  · intro F hF; exact absurd hF (List.not_mem_nil F)
  · intro F hF; exact absurd hF (List.not_mem_nil F)
  · exact List.Pairwise.nil
  · intro _ F hF; exact absurd hF (List.not_mem_nil F)

/-- C2. `find_fragments` returns (the fuel suffices) and its lists are the
connected components of the graph of surviving bonds: both endpoints of every
surviving bond lie in one returned list, and two atom indices lie in a common
returned list exactly when a path of surviving bonds joins them. -/
theorem find_fragments_components {K : Type} [Zero K] (bond : List Bond) (n_bond : Nat)
    (atom : List (Atom K)) :
    ∃ frags, find_fragments bond n_bond atom = some frags ∧
      (∀ k, k < n_bond → surviving bond atom k →
        ∃ F ∈ frags, (nth bond k).a ∈ F ∧ (nth bond k).b ∈ F) ∧
      (∀ u v, (∃ F ∈ frags, u ∈ F ∧ v ∈ F) ↔
        Relation.TransGen (joined bond n_bond atom) u v) := by
  obtain ⟨frags, hf, inv⟩ := find_fragments_inv bond n_bond atom
  have hcov : ∀ k, k < n_bond → surviving bond atom k →
      ∃ F ∈ frags, (nth bond k).a ∈ F ∧ (nth bond k).b ∈ F := by
    intro k hk hs
    rcases inv.covered k ((mem_pool_iff bond n_bond atom k).mpr ⟨hk, hs⟩) with h | h
    · exact absurd h (List.not_mem_nil k)
    · exact h
  have hjoin : ∀ u v, joined bond n_bond atom u v → ∃ F ∈ frags, u ∈ F ∧ v ∈ F := by
    rintro u v ⟨k, hk, hs, h⟩
    obtain ⟨F, hF, ha, hb⟩ := hcov k hk hs
    rcases h with ⟨h1, h2⟩ | ⟨h1, h2⟩
    · exact ⟨F, hF, h1 ▸ ha, h2 ▸ hb⟩
    · exact ⟨F, hF, h2 ▸ hb, h1 ▸ ha⟩
  refine ⟨frags, hf, hcov, ?_⟩
  intro u v
  constructor
  · rintro ⟨F, hF, hu, hv⟩
    have hr := inv.connected F hF u hu v hv
    rw [adj_pool_eq_joined] at hr
    rcases Relation.reflTransGen_iff_eq_or_transGen.mp hr with h | h
    · subst h
      obtain ⟨k, hk, hend⟩ := inv.ends F hF v hv
      have hkk := (mem_pool_iff bond n_bond atom k).mp hk
      rcases hend with h1 | h1
      · have j1 : joined bond n_bond atom v (nth bond k).b :=
          ⟨k, hkk.1, hkk.2, Or.inl ⟨h1.symm, rfl⟩⟩
        have j2 : joined bond n_bond atom (nth bond k).b v :=
          ⟨k, hkk.1, hkk.2, Or.inr ⟨h1.symm, rfl⟩⟩
        exact Relation.TransGen.tail (Relation.TransGen.single j1) j2
      · have j1 : joined bond n_bond atom v (nth bond k).a :=
          ⟨k, hkk.1, hkk.2, Or.inr ⟨rfl, h1.symm⟩⟩
        have j2 : joined bond n_bond atom (nth bond k).a v :=
          ⟨k, hkk.1, hkk.2, Or.inl ⟨rfl, h1.symm⟩⟩
        exact Relation.TransGen.tail (Relation.TransGen.single j1) j2
    · exact h
  · intro h
    induction h with
    | single h1 => exact hjoin _ _ h1
    | tail _ h2 ih =>
      rename_i w z
      obtain ⟨F1, hF1, hu1, hw1⟩ := ih
      obtain ⟨F2, hF2, hw2, hz2⟩ := hjoin _ _ h2
      by_cases hFF : F1 = F2
      · subst hFF
        exact ⟨F1, hF1, hu1, hz2⟩
      · exact absurd hw2
          (inv.disjoint.forall (fun _ _ hd => hd.symm) hF1 hF2 hFF hw1)

/-- C3 (amended). When no surviving bond is a loop (`a ≠ b`), `find_fragments`
returns lists without repeated atoms that are pairwise disjoint and whose
members are exactly the endpoints of the surviving bonds. -/
theorem find_fragments_partition {K : Type} [Zero K] (bond : List Bond) (n_bond : Nat)
    (atom : List (Atom K))
    (hd : ∀ k, k < n_bond → surviving bond atom k → (nth bond k).a ≠ (nth bond k).b) :
    ∃ frags, find_fragments bond n_bond atom = some frags ∧
      (∀ F ∈ frags, F.Nodup) ∧ frags.Pairwise List.Disjoint ∧
      (∀ v, (∃ F ∈ frags, v ∈ F) ↔
        ∃ k, k < n_bond ∧ surviving bond atom k ∧ (v = (nth bond k).a ∨ v = (nth bond k).b)) := by
  obtain ⟨frags, hf, inv⟩ := find_fragments_inv bond n_bond atom
  refine ⟨frags, hf, ?_, inv.disjoint, ?_⟩
  · apply inv.nodup
    intro k hk
    have hkk := (mem_pool_iff bond n_bond atom k).mp hk
    exact hd k hkk.1 hkk.2
  · intro v
    constructor
    · rintro ⟨F, hF, hv⟩
      obtain ⟨k, hk, hend⟩ := inv.ends F hF v hv
      have hkk := (mem_pool_iff bond n_bond atom k).mp hk
      exact ⟨k, hkk.1, hkk.2, hend⟩
    · rintro ⟨k, hk, hs, hend⟩
      rcases inv.covered k ((mem_pool_iff bond n_bond atom k).mpr ⟨hk, hs⟩) with h | h
      · exact absurd h (List.not_mem_nil k)
      · obtain ⟨F, hF, ha, hb⟩ := h
        rcases hend with h1 | h1
        · exact ⟨F, hF, h1 ▸ ha⟩
        · exact ⟨F, hF, h1 ▸ hb⟩

/-- Witness for C3 (amended): the chain 0-1-2 and the bond 3-4. -/
theorem find_fragments_partition_witness :
    (∀ k, k < 3 → surviving two_chains five_atoms k →
      (nth two_chains k).a ≠ (nth two_chains k).b) ∧
    ∃ frags, find_fragments two_chains 3 five_atoms = some frags ∧
      (∀ F ∈ frags, F.Nodup) ∧ frags.Pairwise List.Disjoint ∧
      (∀ v, (∃ F ∈ frags, v ∈ F) ↔
        ∃ k, k < 3 ∧ surviving two_chains five_atoms k ∧
          (v = (nth two_chains k).a ∨ v = (nth two_chains k).b)) :=
  ⟨by decide, find_fragments_partition two_chains 3 five_atoms (by decide)⟩

/-- C3 (as stated) fails: with in-range endpoints but a bond from atom 0 to
itself, the returned list holds atom 0 twice. -/
theorem find_fragments_distinct_counterexample :
    (∀ k, k < 1 → (nth loop_bond k).a < loop_atom.length ∧
      (nth loop_bond k).b < loop_atom.length) ∧
    find_fragments loop_bond 1 loop_atom = some [[0, 0]] ∧
    ¬ (∀ F ∈ [[0, 0]], List.Nodup F) := by
  decide

/-! ## C10: `collapse_atoms` -/

theorem count_atoms_eq {K : Type} [Zero K] (atom : List (Atom K)) (n : Nat) :
    count_atoms atom n = (List.range n).countP (fun i => (nth atom i).exists_) := by
  unfold count_atoms
  induction n with
  | zero => simp
  | succ m ih =>
    rw [List.range_succ, List.foldl_append, ih, List.countP_append]
    by_cases h : (nth atom m).exists_ = true <;> simp [h]

theorem countP_range_le (p q : Nat → Bool) (n : Nat) (h : ∀ k, p k = true → q k = true) :
    (List.range n).countP p ≤ (List.range n).countP q :=
  List.countP_mono_left (fun k _ hk => h k hk)

theorem countP_range_lt (p q : Nat → Bool) (h : ∀ k, p k = true → q k = true) (j : Nat)
    (hq : q j = true) (hp : p j = false) :
    ∀ n, j < n → (List.range n).countP p < (List.range n).countP q := by
  intro n
  induction n with
  | zero => intro hj; exact absurd hj (Nat.not_lt_zero j)
  | succ m ih =>
    intro hj
    rw [List.range_succ, List.countP_append, List.countP_append]
    rcases Nat.lt_succ_iff_lt_or_eq.mp hj with h1 | h1
    · have h2 : List.countP p [m] ≤ List.countP q [m] :=
        List.countP_mono_left (fun k _ hk => h k hk)
      have := ih h1
      omega
    · subst h1
      have h2 := countP_range_le p q j h
      simp [hq, hp]
      omega

theorem exists_modify_keep {K : Type} [Zero K] (v : List (Atom K)) (i : Nat)
    (f : Atom K → Atom K) (hf : ∀ a, (f a).exists_ = a.exists_) (k : Nat) :
    (nth (modify v i f) k).exists_ = (nth v k).exists_ := by
  by_cases hk : i = k
  · subst hk
    by_cases hl : i < v.length
    · rw [nth_modify_eq _ _ _ hl, hf]
    · rw [nth_modify_eq_of_le _ _ _ (Nat.le_of_not_lt hl)]
  · rw [nth_modify_ne _ _ _ _ hk]

theorem exists_set_x {K : Type} [Zero K] (atom : List (Atom K)) (i : Nat) (v : K) (k : Nat) :
    (nth (set_x atom i v) k).exists_ = (nth atom k).exists_ := by
  unfold set_x
  exact exists_modify_keep atom i (fun a => { a with x := v }) (fun _ => rfl) k

theorem exists_set_y {K : Type} [Zero K] (atom : List (Atom K)) (i : Nat) (v : K) (k : Nat) :
    (nth (set_y atom i v) k).exists_ = (nth atom k).exists_ := by
  unfold set_y
  exact exists_modify_keep atom i (fun a => { a with y := v }) (fun _ => rfl) k

theorem exists_set_label {K : Type} [Zero K] (atom : List (Atom K)) (i : Nat) (l : String)
    (k : Nat) : (nth (set_label atom i l) k).exists_ = (nth atom k).exists_ := by
  unfold set_label
  exact exists_modify_keep atom i (fun a => { a with label := l }) (fun _ => rfl) k

theorem exists_average_into {K : Type} [LinearOrderedField K] (atom : List (Atom K))
    (i j k : Nat) : (nth (average_into atom i j) k).exists_ = (nth atom k).exists_ := by
  unfold average_into
  rw [exists_set_y, exists_set_x]

theorem exists_take_label {K : Type} [Zero K] (atom : List (Atom K)) (i j k : Nat) :
    (nth (take_label atom i j) k).exists_ = (nth atom k).exists_ := by
  unfold take_label
  split
  · exact exists_set_label _ _ _ _
  · rfl

theorem exists_delete_atom {K : Type} [Zero K] (atom : List (Atom K)) (j : Nat) :
    (nth (delete_atom atom j) j).exists_ = false ∧
    ∀ k, k ≠ j → (nth (delete_atom atom j) k).exists_ = (nth atom k).exists_ := by
  unfold delete_atom
  constructor
  · by_cases hl : j < atom.length
    · rw [nth_modify_eq _ _ _ hl]
    · rw [nth_of_le _ _ (by simpa using Nat.le_of_not_lt hl)]; rfl
  · intro k hk
    rw [nth_modify_ne _ _ _ _ (Ne.symm hk)]

/-- The merge of lines 2873-2877 changes the `exists` flag of atom `j` only. -/
theorem ca_merge_atoms_exists {K : Type} [LinearOrderedField K] (atom : List (Atom K))
    (i j : Nat) :
    (nth (ca_merge_atoms atom i j) j).exists_ = false ∧
    ∀ k, k ≠ j → (nth (ca_merge_atoms atom i j) k).exists_ = (nth atom k).exists_ := by
  unfold ca_merge_atoms
  constructor
  · rw [exists_take_label, exists_average_into]
    exact (exists_delete_atom atom j).1
  · intro k hk
    rw [exists_take_label, exists_average_into]
    exact (exists_delete_atom atom j).2 k hk

theorem count_atoms_mono {K : Type} [Zero K] (atom2 atom1 : List (Atom K)) (n : Nat)
    (h : ∀ k, (nth atom2 k).exists_ = true → (nth atom1 k).exists_ = true) :
    count_atoms atom2 n ≤ count_atoms atom1 n := by
  rw [count_atoms_eq, count_atoms_eq]
  exact countP_range_le _ _ n h

theorem ca_inner_inv {K : Type} [LinearOrderedField K] (sqrt : K → K) (n_atom n_bond : Nat)
    (dist : K) (atom0 : List (Atom K)) (i j : Nat) (hj : j < n_atom) (s : CAState K)
    (hs : PassInv atom0 n_atom s) :
    PassInv atom0 n_atom (ca_inner sqrt n_bond dist i s j) := by
  unfold ca_inner
  split
  · rename_i hc
    obtain ⟨h1, h2⟩ := ca_merge_atoms_exists s.atom i j
    have hstep : ∀ k, (nth (ca_merge_atoms s.atom i j) k).exists_ = true →
        (nth s.atom k).exists_ = true := by
      intro k hk
      by_cases hkj : k = j
      · subst hkj; rw [h1] at hk; exact absurd hk (by decide)
      · rw [h2 k hkj] at hk; exact hk
    refine ⟨fun k hk => hs.1 k (hstep k hk), fun _ => ?_⟩
    have hlt : count_atoms (ca_merge_atoms s.atom i j) n_atom < count_atoms s.atom n_atom := by
      rw [count_atoms_eq, count_atoms_eq]
      exact countP_range_lt _ _ hstep j hc.1 h1 n_atom hj
    exact Nat.lt_of_lt_of_le hlt (count_atoms_mono _ _ _ hs.1)
  · exact hs

theorem ca_outer_inv {K : Type} [LinearOrderedField K] (sqrt : K → K) (n_atom n_bond : Nat)
    (dist : K) (atom0 : List (Atom K)) (i : Nat) (s : CAState K)
    (hs : PassInv atom0 n_atom s) :
    PassInv atom0 n_atom (ca_outer sqrt n_atom n_bond dist s i) := by
  unfold ca_outer
  split
  · exact foldl_range_inv (fun _ t => PassInv atom0 n_atom t) _ n_atom s hs
      (fun j t hj ht => ca_inner_inv sqrt n_atom n_bond dist atom0 i j hj t ht)
  · exact hs

theorem ca_pass_inv {K : Type} [LinearOrderedField K] (sqrt : K → K) (n_atom n_bond : Nat)
    (dist : K) (atom : List (Atom K)) (bond : List Bond) :
    PassInv atom n_atom (ca_pass sqrt n_atom n_bond dist atom bond) := by
  unfold ca_pass
  exact foldl_range_inv (fun _ t => PassInv atom n_atom t) _ n_atom ⟨atom, bond, false⟩
    ⟨fun _ h => h, fun h => absurd h (Bool.false_ne_true)⟩
    (fun i t _ ht => ca_outer_inv sqrt n_atom n_bond dist atom i t ht)

/-- The loop `while (found)` ends after at most `m + 1` rounds when at most `m`
atoms below `n_atom` exist, with a result that does not depend on the fuel. -/
theorem ca_loop_spec {K : Type} [LinearOrderedField K] (sqrt : K → K) (n_atom n_bond : Nat)
    (dist : K) : ∀ (m : Nat) (atom : List (Atom K)) (bond : List Bond),
    count_atoms atom n_atom ≤ m →
    ∃ r, (∀ fuel, m < fuel → ca_loop sqrt n_atom n_bond dist fuel atom bond = some r) ∧
      ∀ k, (nth r.1 k).exists_ = true → (nth atom k).exists_ = true := by
  intro m
  induction m with
  | zero =>
    intro atom bond hm
    have hp := ca_pass_inv sqrt n_atom n_bond dist atom bond
    have hnf : ¬ (ca_pass sqrt n_atom n_bond dist atom bond).found = true := fun hf => by
      have := hp.2 hf
      omega
    refine ⟨((ca_pass sqrt n_atom n_bond dist atom bond).atom,
      (ca_pass sqrt n_atom n_bond dist atom bond).bond), fun fuel hfuel => ?_, hp.1⟩
    obtain ⟨f, rfl⟩ := Nat.exists_eq_succ_of_ne_zero (Nat.ne_of_gt hfuel)
    simp only [ca_loop, if_neg hnf]
  | succ m ih =>
    intro atom bond hm
    have hp := ca_pass_inv sqrt n_atom n_bond dist atom bond
    by_cases hf : (ca_pass sqrt n_atom n_bond dist atom bond).found = true
    · have hlt := hp.2 hf
      obtain ⟨r, hr1, hr2⟩ := ih (ca_pass sqrt n_atom n_bond dist atom bond).atom
        (ca_pass sqrt n_atom n_bond dist atom bond).bond (by omega)
      refine ⟨r, fun fuel hfuel => ?_, fun k hk => hp.1 k (hr2 k hk)⟩
      obtain ⟨f, rfl⟩ := Nat.exists_eq_succ_of_ne_zero (Nat.ne_of_gt (Nat.lt_of_le_of_lt (Nat.zero_le _) hfuel))
      simp only [ca_loop, if_pos hf]
      exact hr1 f (Nat.lt_of_succ_lt_succ hfuel)
    · refine ⟨((ca_pass sqrt n_atom n_bond dist atom bond).atom,
        (ca_pass sqrt n_atom n_bond dist atom bond).bond), fun fuel hfuel => ?_, hp.1⟩
      obtain ⟨f, rfl⟩ := Nat.exists_eq_succ_of_ne_zero (Nat.ne_of_gt (Nat.lt_of_le_of_lt (Nat.zero_le _) hfuel))
      simp only [ca_loop, if_neg hf]

theorem count_atoms_le {K : Type} [Zero K] (atom : List (Atom K)) (n : Nat) :
    count_atoms atom n ≤ n := by
  rw [count_atoms_eq]
  simpa using List.countP_le_length (l := List.range n) (fun i => (nth atom i).exists_)

/-- C10. `collapse_atoms` terminates: with any fuel above `n_atom` the `while`
loop ends by itself, with one and the same result.  In that result no atom
exists that did not exist before, so the number of existing atoms (counted by
`count_atoms` over any index range) has not grown. -/
theorem collapse_atoms_monotone {K : Type} [LinearOrderedField K] (sqrt : K → K)
    (atom : List (Atom K)) (bond : List Bond) (n_atom n_bond : Nat) (dist : K) :
    ∃ r, (∀ fuel, n_atom < fuel →
        collapse_atoms sqrt fuel atom bond n_atom n_bond dist = some r) ∧
      (∀ n, count_atoms r.1 n ≤ count_atoms atom n) ∧
      (∀ i, (nth atom i).exists_ = false → (nth r.1 i).exists_ = false) := by
  obtain ⟨r, h1, h2⟩ := ca_loop_spec sqrt n_atom n_bond dist n_atom atom bond
    (count_atoms_le atom n_atom)
  refine ⟨r, h1, fun n => count_atoms_mono _ _ n h2, fun i hi => ?_⟩
  cases h : (nth r.1 i).exists_ with
  | false => rfl
  | true => rw [h2 i h] at hi; exact absurd hi (by decide)

/-! ## C5, C6: `skeletize` -/

theorem small_of_shrinks_delete (b : List Bond) (i k : Nat) :
    (nth (delete_bond b i) k).Small = (nth b k).Small ∧
    (nth (delete_bond b i) k).type = (nth b k).type := by
  unfold delete_bond
  by_cases hk : i = k
  · subst hk
    by_cases hl : i < b.length
    · rw [nth_modify_eq _ _ _ hl]; exact ⟨rfl, rfl⟩
    · rw [nth_modify_eq_of_le _ _ _ (Nat.le_of_not_lt hl)]; exact ⟨rfl, rfl⟩
  · rw [nth_modify_ne _ _ _ _ hk]; exact ⟨rfl, rfl⟩

/-- What lines 549-552 / 602-605 do to the two bonds: the dropped bond is
deleted, the kept bond stays and its order becomes 1. -/
theorem skel_bonds_spec (bond : List Bond) (drop keep : Nat) (hne : drop ≠ keep)
    (hk : (nth bond keep).exists_ = true) :
    (nth (skel_bonds bond drop keep) drop).exists_ = false ∧
    (nth (skel_bonds bond drop keep) keep).exists_ = true ∧
    (nth (skel_bonds bond drop keep) keep).type = 1 := by
  have hkl : keep < bond.length := exists_lt_length bond keep hk
  have hkl1 : keep < (delete_bond bond drop).length := by simpa [delete_bond] using hkl
  have hkl2 : keep < (set_type (delete_bond bond drop) keep 1).length := by
    simpa [set_type] using hkl1
  have d1 : (nth (set_type (delete_bond bond drop) keep 1) drop).exists_ = false := by
    unfold set_type
    rw [nth_modify_ne _ _ _ _ (Ne.symm hne)]
    exact deleted_at bond drop
  have d2 : (nth (set_type (delete_bond bond drop) keep 1) keep).exists_ = true ∧
      (nth (set_type (delete_bond bond drop) keep 1) keep).type = 1 := by
    unfold set_type
    rw [nth_modify_eq _ _ _ hkl1]
    refine ⟨?_, rfl⟩
    show (nth (delete_bond bond drop) keep).exists_ = true
    unfold delete_bond
    rw [nth_modify_ne _ _ _ _ hne]
    exact hk
  unfold skel_bonds copy_arom
  split
  · refine ⟨?_, ?_, ?_⟩
    · rw [nth_modify_ne _ _ _ _ (Ne.symm hne)]; exact d1
    · rw [nth_modify_eq _ _ _ hkl2]; exact d2.1
    · rw [nth_modify_eq _ _ _ hkl2]; exact d2.2
  · exact ⟨d1, d2.1, d2.2⟩

/-- `skeletize` on a state whose first two bonds pass the tests of lines 537
and 541-542, run with `n_bond = 2`: the bond vector afterwards. -/
theorem skel_loops_two {K : Type} [LinearOrderedField K] (sqrt : K → K)
    (D_T_TOLERANCE MAX_BOND_THICKNESS FLT_MAX : K)
    (nws : Nat → Nat → Nat → Nat → List (Atom K) → Bool)
    (atom : List (Atom K)) (bond : List Bond) (dist avg : K)
    (h0 : (nth bond 0).exists_ = true) (h0s : (nth bond 0).Small = false)
    (h1 : (nth bond 1).exists_ = true) (h1s : (nth bond 1).Small = false)
    (hw : bonds_within_each_other sqrt bond 0 1 atom)
    (hl : skel_same_line sqrt D_T_TOLERANCE MAX_BOND_THICKNESS FLT_MAX nws dist 0 1
      ⟨atom, bond, []⟩) :
    (skel_loops sqrt D_T_TOLERANCE MAX_BOND_THICKNESS FLT_MAX nws atom bond 2 dist avg).bond =
      if bond_length sqrt bond 0 atom < bond_length sqrt bond 1 atom then skel_bonds bond 0 1
      else skel_bonds bond 1 0 := by
  have hr : List.range 2 = [0, 1] := by decide
  have hc0 : ∀ s : SkState K, ¬ skel_candidate sqrt 0 0 s := fun s h => h.1 rfl
  have hc1 : ∀ s : SkState K, ¬ skel_candidate sqrt 1 1 s := fun s h => h.1 rfl
  have hcand : skel_candidate sqrt 0 1 ⟨atom, bond, []⟩ := ⟨by decide, h1, hw, h1s⟩
  unfold skel_loops
  rw [hr]
  simp only [List.foldl_cons, List.foldl_nil]
  have e1 : skel_outer sqrt D_T_TOLERANCE MAX_BOND_THICKNESS FLT_MAX nws dist avg 2
      ⟨atom, bond, []⟩ 0 =
      if bond_length sqrt bond 0 atom < bond_length sqrt bond 1 atom then
        skel_drop_i sqrt FLT_MAX avg (bond_length sqrt bond 0 atom) 0 1 ⟨atom, bond, []⟩
      else skel_drop_j sqrt FLT_MAX avg 0 1 ⟨atom, bond, []⟩ := by
    unfold skel_outer
    rw [if_pos ⟨h0, h0s⟩, hr]
    simp only [skel_jloop]
    rw [if_neg (fun h => hc0 _ h.1), if_pos ⟨hcand, hl⟩]
  rw [e1]
  split
  · -- bond 0 dropped
    unfold skel_outer
    have hb : (skel_drop_i sqrt FLT_MAX avg (bond_length sqrt bond 0 atom) 0 1
        ⟨atom, bond, []⟩).bond = skel_bonds bond 0 1 := rfl
    obtain ⟨g1, g2, g3⟩ := skel_bonds_spec bond 0 1 (by decide) h1
    split
    · rw [hr]
      simp only [skel_jloop]
      rw [if_neg (fun h => by
        have := h.1.2.1
        rw [hb, g1] at this
        exact absurd this (by decide)), if_neg (fun h => hc1 _ h.1)]
      exact hb
    · rfl
  · -- bond 1 dropped
    unfold skel_outer
    have hb : (skel_drop_j sqrt FLT_MAX avg 0 1 ⟨atom, bond, []⟩).bond =
        skel_bonds bond 1 0 := rfl
    obtain ⟨g1, g2, g3⟩ := skel_bonds_spec bond 1 0 (by decide) h0
    rw [if_neg (fun h => by
      have := h.1
      rw [hb, g1] at this
      exact absurd this (by decide))]
    exact hb

theorem dfby_start {K : Type} [LinearOrderedField K] (sqrt : K → K) (x0 y0 x1 y1 : K) :
    distance_from_bond_y sqrt x0 y0 x1 y1 x0 y0 = 0 := by
  unfold distance_from_bond_y; ring

theorem dfby_end {K : Type} [LinearOrderedField K] (sqrt : K → K) (x0 y0 x1 y1 : K) :
    distance_from_bond_y sqrt x0 y0 x1 y1 x1 y1 = 0 := by
  unfold distance_from_bond_y; ring

theorem dfbxa_start {K : Type} [LinearOrderedField K] (sqrt : K → K) (x0 y0 x1 y1 : K) :
    distance_from_bond_x_a sqrt x0 y0 x1 y1 x0 y0 = 0 := by
  unfold distance_from_bond_x_a; ring

theorem dfbxa_end {K : Type} [LinearOrderedField K] (sqrt : K → K) (x0 y0 x1 y1 : K)
    (hd : 0 < distance sqrt x0 y0 x1 y1)
    (hsq : distance sqrt x0 y0 x1 y1 * distance sqrt x0 y0 x1 y1 =
      (x0 - x1) * (x0 - x1) + (y0 - y1) * (y0 - y1)) :
    distance_from_bond_x_a sqrt x0 y0 x1 y1 x1 y1 = distance sqrt x0 y0 x1 y1 := by
  unfold distance_from_bond_x_a
  have hne : distance sqrt x0 y0 x1 y1 ≠ 0 := ne_of_gt hd
  field_simp
  rw [hsq]; ring

theorem distance_swap {K : Type} [LinearOrderedField K] (sqrt : K → K) (x0 y0 x1 y1 : K) :
    distance sqrt x1 y1 x0 y0 = distance sqrt x0 y0 x1 y1 := by
  unfold distance
  congr 1; ring

/-- Geometry of two strokes on the same segment `P = (x0, y0)`, `Q = (x1, y1)`:
the second stroke `(u0, v0)`-`(u1, v1)` has the same length, its line carries
`P` and `Q` at positions whose mean is half the length, and both of its ends
have offset 0 from the line `PQ`. -/
theorem coincident_core {K : Type} [LinearOrderedField K] (sqrt : K → K)
    (x0 y0 x1 y1 u0 v0 u1 v1 : K)
    (hd : 0 < distance sqrt x0 y0 x1 y1)
    (hsq : distance sqrt x0 y0 x1 y1 * distance sqrt x0 y0 x1 y1 =
      (x0 - x1) * (x0 - x1) + (y0 - y1) * (y0 - y1))
    (h : (u0 = x0 ∧ v0 = y0 ∧ u1 = x1 ∧ v1 = y1) ∨ (u0 = x1 ∧ v0 = y1 ∧ u1 = x0 ∧ v1 = y0)) :
    distance sqrt u0 v0 u1 v1 = distance sqrt x0 y0 x1 y1 ∧
    (distance_from_bond_x_a sqrt u0 v0 u1 v1 x0 y0 +
      distance_from_bond_x_a sqrt u0 v0 u1 v1 x1 y1) / 2 > 0 ∧
    (distance_from_bond_x_a sqrt u0 v0 u1 v1 x0 y0 +
      distance_from_bond_x_a sqrt u0 v0 u1 v1 x1 y1) / 2 < distance sqrt u0 v0 u1 v1 ∧
    distance_from_bond_y sqrt x0 y0 x1 y1 u0 v0 = 0 ∧
    distance_from_bond_y sqrt x0 y0 x1 y1 u1 v1 = 0 := by
  rcases h with ⟨e1, e2, e3, e4⟩ | ⟨e1, e2, e3, e4⟩
  · subst e1 e2 e3 e4
    rw [dfbxa_start, dfbxa_end sqrt _ _ _ _ hd hsq, dfby_start, dfby_end]
    refine ⟨rfl, ?_, ?_, rfl, rfl⟩
    · linarith
    · linarith
  · subst e1 e2 e3 e4
    have hd2 : 0 < distance sqrt u0 v0 u1 v1 := by rw [distance_swap]; exact hd
    have hsq2 : distance sqrt u0 v0 u1 v1 * distance sqrt u0 v0 u1 v1 =
        (u0 - u1) * (u0 - u1) + (v0 - v1) * (v0 - v1) := by
      rw [distance_swap, hsq]; ring
    rw [dfbxa_start, dfbxa_end sqrt _ _ _ _ hd2 hsq2, dfby_start, dfby_end]
    refine ⟨distance_swap sqrt _ _ _ _, ?_, ?_, rfl, rfl⟩
    · linarith
    · linarith

/-- C5. Two existing, non-small bonds 0 and 1 on the same segment of positive
length (`sqrt` exact at its squared length), no other bond (`n_bond = 2`) and
`dist > 0`: after `skeletize` bond 0 exists with order 1 and bond 1 does not
exist, whatever `no_white_space` reads from the image. -/
theorem skeletize_coincident {K : Type} [LinearOrderedField K] (sqrt : K → K)
    (D_T_TOLERANCE MAX_BOND_THICKNESS FLT_MAX : K)
    (nws : Nat → Nat → Nat → Nat → List (Atom K) → Bool)
    (atom : List (Atom K)) (bond : List Bond) (dist avg : K)
    (h0 : (nth bond 0).exists_ = true) (h0s : (nth bond 0).Small = false)
    (h1 : (nth bond 1).exists_ = true) (h1s : (nth bond 1).Small = false)
    (hseg : same_segment atom bond 0 1)
    (hpos : 0 < bond_length sqrt bond 0 atom)
    (hexact : bond_length sqrt bond 0 atom * bond_length sqrt bond 0 atom =
      bond_length_sq bond 0 atom)
    (hdist : 0 < dist) :
    (nth (skeletize sqrt D_T_TOLERANCE MAX_BOND_THICKNESS FLT_MAX nws atom bond 2
      dist avg).2.1 0).exists_ = true ∧
    (nth (skeletize sqrt D_T_TOLERANCE MAX_BOND_THICKNESS FLT_MAX nws atom bond 2
      dist avg).2.1 0).type = 1 ∧
    (nth (skeletize sqrt D_T_TOLERANCE MAX_BOND_THICKNESS FLT_MAX nws atom bond 2
      dist avg).2.1 1).exists_ = false := by
  have core := coincident_core sqrt
    (nth atom (nth bond 0).a).x (nth atom (nth bond 0).a).y
    (nth atom (nth bond 0).b).x (nth atom (nth bond 0).b).y
    (nth atom (nth bond 1).a).x (nth atom (nth bond 1).a).y
    (nth atom (nth bond 1).b).x (nth atom (nth bond 1).b).y hpos hexact
    (by
      rcases hseg with ⟨⟨a1, a2⟩, ⟨a3, a4⟩⟩ | ⟨⟨a1, a2⟩, ⟨a3, a4⟩⟩
      · exact Or.inl ⟨a1, a2, a3, a4⟩
      · exact Or.inr ⟨a1, a2, a3, a4⟩)
  obtain ⟨c1, c2, c3, c4, c5⟩ := core
  have hlen : bond_length sqrt bond 1 atom = bond_length sqrt bond 0 atom := c1
  have hw : bonds_within_each_other sqrt bond 0 1 atom := by
    unfold bonds_within_each_other
    rw [if_neg (by rw [hlen]; exact lt_irrefl _)]
    exact ⟨c2, c3⟩
  have htt : distance_between_bonds sqrt FLT_MAX bond 0 1 atom = 0 := by
    unfold distance_between_bonds
    rw [c4, c5]
    norm_num
  have hl : skel_same_line sqrt D_T_TOLERANCE MAX_BOND_THICKNESS FLT_MAX nws dist 0 1
      ⟨atom, bond, []⟩ := Or.inr (by show distance_between_bonds sqrt FLT_MAX bond 0 1 atom < dist; rw [htt]; exact hdist)
  have hb := skel_loops_two sqrt D_T_TOLERANCE MAX_BOND_THICKNESS FLT_MAX nws atom bond
    dist avg h0 h0s h1 h1s hw hl
  rw [if_neg (by rw [hlen]; exact lt_irrefl _)] at hb
  obtain ⟨g1, g2, g3⟩ := skel_bonds_spec bond 1 0 (by decide) h0
  unfold skeletize
  simp only [hb]
  exact ⟨g2, g3, g1⟩

/-- Witness for C5: the strokes `(0,0)-(3,4)` and `(3,4)-(0,0)`. -/
theorem skeletize_coincident_witness :
    same_segment coincident_atoms coincident_bonds 0 1 ∧
    0 < bond_length qsqrt coincident_bonds 0 coincident_atoms ∧
    (nth (skeletize qsqrt (19 / 20) 10 1000000 nws_never coincident_atoms coincident_bonds 2
      3 10).2.1 0).exists_ = true ∧
    (nth (skeletize qsqrt (19 / 20) 10 1000000 nws_never coincident_atoms coincident_bonds 2
      3 10).2.1 0).type = 1 ∧
    (nth (skeletize qsqrt (19 / 20) 10 1000000 nws_never coincident_atoms coincident_bonds 2
      3 10).2.1 1).exists_ = false :=
  ⟨Or.inr ⟨⟨rfl, rfl⟩, ⟨rfl, rfl⟩⟩, by decide!,
    skeletize_coincident qsqrt (19 / 20) 10 1000000 nws_never coincident_atoms
      coincident_bonds 3 10 (by decide) (by decide) (by decide) (by decide)
      (Or.inr ⟨⟨rfl, rfl⟩, ⟨rfl, rfl⟩⟩) (by decide!) (by decide!) (by decide!)⟩

/-- C6 (amended). When `skeletize` (run on two bonds, `n_bond = 2`) treats the
existing non-small bonds 0 and 1 as strokes of one line (tests of lines 537 and
541-542), the shorter bond is deleted (bond 1 on a tie), the other one stays and
its order is set to 1, whatever it was.  The same holds for every single merge
inside the loops: `skel_drop_i` and `skel_drop_j` delete one bond of the pair
and set the order of the other to 1. -/
theorem skeletize_merge_sets_order_one {K : Type} [LinearOrderedField K] (sqrt : K → K)
    (D_T_TOLERANCE MAX_BOND_THICKNESS FLT_MAX : K)
    (nws : Nat → Nat → Nat → Nat → List (Atom K) → Bool)
    (atom : List (Atom K)) (bond : List Bond) (dist avg : K)
    (h0 : (nth bond 0).exists_ = true) (h0s : (nth bond 0).Small = false)
    (h1 : (nth bond 1).exists_ = true) (h1s : (nth bond 1).Small = false)
    (hw : bonds_within_each_other sqrt bond 0 1 atom)
    (hl : skel_same_line sqrt D_T_TOLERANCE MAX_BOND_THICKNESS FLT_MAX nws dist 0 1
      ⟨atom, bond, []⟩) :
    (bond_length sqrt bond 0 atom < bond_length sqrt bond 1 atom →
      (nth (skeletize sqrt D_T_TOLERANCE MAX_BOND_THICKNESS FLT_MAX nws atom bond 2
        dist avg).2.1 0).exists_ = false ∧
      (nth (skeletize sqrt D_T_TOLERANCE MAX_BOND_THICKNESS FLT_MAX nws atom bond 2
        dist avg).2.1 1).exists_ = true ∧
      (nth (skeletize sqrt D_T_TOLERANCE MAX_BOND_THICKNESS FLT_MAX nws atom bond 2
        dist avg).2.1 1).type = 1) ∧
    (¬ bond_length sqrt bond 0 atom < bond_length sqrt bond 1 atom →
      (nth (skeletize sqrt D_T_TOLERANCE MAX_BOND_THICKNESS FLT_MAX nws atom bond 2
        dist avg).2.1 1).exists_ = false ∧
      (nth (skeletize sqrt D_T_TOLERANCE MAX_BOND_THICKNESS FLT_MAX nws atom bond 2
        dist avg).2.1 0).exists_ = true ∧
      (nth (skeletize sqrt D_T_TOLERANCE MAX_BOND_THICKNESS FLT_MAX nws atom bond 2
        dist avg).2.1 0).type = 1) ∧
    (∀ (s : SkState K) (i j : Nat) (l1 : K), i ≠ j → (nth s.bond j).exists_ = true →
      (nth (skel_drop_i sqrt FLT_MAX avg l1 i j s).bond i).exists_ = false ∧
      (nth (skel_drop_i sqrt FLT_MAX avg l1 i j s).bond j).exists_ = true ∧
      (nth (skel_drop_i sqrt FLT_MAX avg l1 i j s).bond j).type = 1) ∧
    (∀ (s : SkState K) (i j : Nat), i ≠ j → (nth s.bond i).exists_ = true →
      (nth (skel_drop_j sqrt FLT_MAX avg i j s).bond j).exists_ = false ∧
      (nth (skel_drop_j sqrt FLT_MAX avg i j s).bond i).exists_ = true ∧
      (nth (skel_drop_j sqrt FLT_MAX avg i j s).bond i).type = 1) := by
  have hb := skel_loops_two sqrt D_T_TOLERANCE MAX_BOND_THICKNESS FLT_MAX nws atom bond
    dist avg h0 h0s h1 h1s hw hl
  refine ⟨fun hlt => ?_, fun hge => ?_, fun s i j l1 hij hj => ?_, fun s i j hij hi => ?_⟩
  · rw [if_pos hlt] at hb
    unfold skeletize
    simp only [hb]
    exact skel_bonds_spec bond 0 1 (by decide) h1
  · rw [if_neg hge] at hb
    unfold skeletize
    simp only [hb]
    exact skel_bonds_spec bond 1 0 (by decide) h0
  · exact skel_bonds_spec s.bond i j hij hj
  · exact skel_bonds_spec s.bond j i (Ne.symm hij) hi

/-- Witness for C6 (amended): the two parallel strokes of `parallel_atoms`, one
unit apart, with threshold `dist = 3`. -/
theorem skeletize_merge_sets_order_one_witness :
    bonds_within_each_other qsqrt parallel_bonds 0 1 parallel_atoms ∧
    skel_same_line qsqrt (19 / 20) 10 1000000 nws_never 3 0 1
      ⟨parallel_atoms, parallel_bonds, []⟩ ∧
    (¬ bond_length qsqrt parallel_bonds 0 parallel_atoms <
        bond_length qsqrt parallel_bonds 1 parallel_atoms →
      (nth (skeletize qsqrt (19 / 20) 10 1000000 nws_never parallel_atoms parallel_bonds 2
        3 10).2.1 1).exists_ = false ∧
      (nth (skeletize qsqrt (19 / 20) 10 1000000 nws_never parallel_atoms parallel_bonds 2
        3 10).2.1 0).exists_ = true ∧
      (nth (skeletize qsqrt (19 / 20) 10 1000000 nws_never parallel_atoms parallel_bonds 2
        3 10).2.1 0).type = 1) :=
  ⟨by decide!, by decide!,
    (skeletize_merge_sets_order_one qsqrt (19 / 20) 10 1000000 nws_never parallel_atoms
      parallel_bonds 3 10 (by decide) (by decide) (by decide) (by decide) (by decide!)
      (by decide!)).2.1⟩

/-- C6 (as stated) fails: the strokes of `parallel_atoms` (orders 1 and 1) are
treated as one line, the shorter bond 1 is deleted, and the longer bond 0 is
left with order 1, not 1 + 1. -/
theorem skeletize_increment_counterexample :
    skel_candidate qsqrt 0 1 ⟨parallel_atoms, parallel_bonds, []⟩ ∧
    skel_same_line qsqrt (19 / 20) 10 1000000 nws_never 3 0 1
      ⟨parallel_atoms, parallel_bonds, []⟩ ∧
    bond_length qsqrt parallel_bonds 1 parallel_atoms <
      bond_length qsqrt parallel_bonds 0 parallel_atoms ∧
    (nth (skeletize qsqrt (19 / 20) 10 1000000 nws_never parallel_atoms parallel_bonds 2
      3 10).2.1 1).exists_ = false ∧
    (nth (skeletize qsqrt (19 / 20) 10 1000000 nws_never parallel_atoms parallel_bonds 2
      3 10).2.1 0).exists_ = true ∧
    (nth (skeletize qsqrt (19 / 20) 10 1000000 nws_never parallel_atoms parallel_bonds 2
      3 10).2.1 0).type = 1 ∧
    (nth (skeletize qsqrt (19 / 20) 10 1000000 nws_never parallel_atoms parallel_bonds 2
      3 10).2.1 0).type ≠ (nth parallel_bonds 0).type + 1 := by
  decide!

/-! ## C4: `double_triple_bonds` -/

theorem nth_append_default {α : Type} [Inhabited α] (v : List α) (k : Nat) :
    nth (v ++ [default]) k = nth v k := by
  unfold nth
  by_cases h : k < v.length
  · rw [List.getElem?_append_left h]
  · rw [List.getElem?_eq_none (Nat.le_of_not_lt h)]
    rcases Nat.eq_or_lt_of_le (Nat.le_of_not_lt h) with h1 | h1
    · subst h1; simp
    · rw [List.getElem?_eq_none (by simp; omega)]

theorem nth_set_ne {α : Type} [Inhabited α] (v : List α) (n k : Nat) (x : α) (h : n ≠ k) :
    nth (v.set n x) k = nth v k := by
  simp [nth, List.getElem?_set_ne h]

theorem flags_modify_keep (v : List Bond) (i : Nat) (f : Bond → Bond)
    (hf : ∀ b, (f b).exists_ = b.exists_ ∧ (f b).type = b.type) (k : Nat) :
    (nth (modify v i f) k).exists_ = (nth v k).exists_ ∧
    (nth (modify v i f) k).type = (nth v k).type := by
  by_cases hk : i = k
  · subst hk
    by_cases hl : i < v.length
    · rw [nth_modify_eq _ _ _ hl]; exact hf _
    · rw [nth_modify_eq_of_le _ _ _ (Nat.le_of_not_lt hl)]; exact ⟨rfl, rfl⟩
  · rw [nth_modify_ne _ _ _ _ hk]; exact ⟨rfl, rfl⟩

theorem copy_arom_flags (bond : List Bond) (src dst k : Nat) :
    (nth (copy_arom bond src dst) k).exists_ = (nth bond k).exists_ ∧
    (nth (copy_arom bond src dst) k).type = (nth bond k).type := by
  unfold copy_arom
  split
  · exact flags_modify_keep bond dst (fun b => { b with arom := true }) (fun _ => ⟨rfl, rfl⟩) k
  · exact ⟨rfl, rfl⟩

theorem mark_conjoined_flags (bond : List Bond) (a b dst k : Nat) :
    (nth (mark_conjoined bond a b dst) k).exists_ = (nth bond k).exists_ ∧
    (nth (mark_conjoined bond a b dst) k).type = (nth bond k).type := by
  unfold mark_conjoined
  split
  · exact flags_modify_keep bond dst (fun x => { x with conjoined := true })
      (fun _ => ⟨rfl, rfl⟩) k
  · exact ⟨rfl, rfl⟩

/-- What the merge statements do to the pair: the bond `gone` is deleted, the
bond `stay` stays, and its order grows by the order of `gone` exactly when the
guard `accumulate` holds. -/
theorem dt_absorb_spec (bond : List Bond) (gone stay : Nat) (accumulate : Prop)
    [Decidable accumulate] (hne : gone ≠ stay) (hs : (nth bond stay).exists_ = true) :
    (nth (dt_absorb bond gone stay accumulate) gone).exists_ = false ∧
    (nth (dt_absorb bond gone stay accumulate) stay).exists_ = true ∧
    (nth (dt_absorb bond gone stay accumulate) stay).type =
      if accumulate then (nth bond stay).type + (nth bond gone).type else (nth bond stay).type := by
  have hsl : stay < bond.length := exists_lt_length bond stay hs
  have hsl1 : stay < (delete_bond bond gone).length := by simpa [delete_bond] using hsl
  have hd_stay : nth (delete_bond bond gone) stay = nth bond stay := by
    unfold delete_bond; rw [nth_modify_ne _ _ _ _ hne]
  unfold dt_absorb
  by_cases hacc : accumulate
  · simp only [if_pos hacc]
    refine ⟨?_, ?_, ?_⟩
    · rw [(copy_arom_flags _ _ _ _).1, (mark_conjoined_flags _ _ _ _ _).1]
      unfold add_type
      rw [nth_modify_ne _ _ _ _ (Ne.symm hne)]
      exact deleted_at bond gone
    · rw [(copy_arom_flags _ _ _ _).1, (mark_conjoined_flags _ _ _ _ _).1]
      unfold add_type
      rw [nth_modify_eq _ _ _ hsl1]
      show (nth (delete_bond bond gone) stay).exists_ = true
      rw [hd_stay]; exact hs
    · rw [(copy_arom_flags _ _ _ _).2, (mark_conjoined_flags _ _ _ _ _).2]
      unfold add_type
      rw [nth_modify_eq _ _ _ hsl1]
      show (nth (delete_bond bond gone) stay).type + (nth (delete_bond bond gone) gone).type = _
      rw [hd_stay, (small_of_shrinks_delete bond gone gone).2]
  · simp only [if_neg hacc]
    refine ⟨?_, ?_, ?_⟩
    · rw [(copy_arom_flags _ _ _ _).1]; exact deleted_at bond gone
    · rw [(copy_arom_flags _ _ _ _).1, hd_stay]; exact hs
    · rw [(copy_arom_flags _ _ _ _).2, hd_stay]

theorem le_bump (MAX_ATOMS n : Nat) : n ≤ bump MAX_ATOMS n := by
  unfold bump; split <;> omega

/-- Cutting the long bond leaves the `exists` flag and the order of every bond
below `n_bond` as they were. -/
theorem dt_split_a_flags {K : Type} [LinearOrderedField K] (MAX_ATOMS ii : Nat) (da l11 : K)
    (s : DtState K) (k : Nat) (hk : k < s.n_bond) :
    (nth (dt_split_a MAX_ATOMS ii da l11 s).bond k).exists_ = (nth s.bond k).exists_ ∧
    (nth (dt_split_a MAX_ATOMS ii da l11 s).bond k).type = (nth s.bond k).type ∧
    s.n_bond ≤ (dt_split_a MAX_ATOMS ii da l11 s).n_bond := by
  have h := flags_modify_keep ((s.bond ++ [default]).set s.n_bond
        ⟨(nth s.bond ii).a, s.n_atom, 1, (nth s.bond ii).curve, true,
          false, false, false, false, false, false, false⟩)
      ii (fun b => { b with a := s.n_atom }) (fun _ => ⟨rfl, rfl⟩) k
  rw [nth_set_ne _ _ _ _ (Ne.symm (Nat.ne_of_lt hk)), nth_append_default] at h
  exact ⟨h.1, h.2, le_bump MAX_ATOMS s.n_bond⟩

theorem dt_split_b_flags {K : Type} [LinearOrderedField K] (MAX_ATOMS ii : Nat) (db l11 : K)
    (s : DtState K) (k : Nat) (hk : k < s.n_bond) :
    (nth (dt_split_b MAX_ATOMS ii db l11 s).bond k).exists_ = (nth s.bond k).exists_ ∧
    (nth (dt_split_b MAX_ATOMS ii db l11 s).bond k).type = (nth s.bond k).type ∧
    s.n_bond ≤ (dt_split_b MAX_ATOMS ii db l11 s).n_bond := by
  have h := flags_modify_keep ((s.bond ++ [default]).set s.n_bond
        ⟨(nth s.bond ii).b, s.n_atom, 1, (nth s.bond ii).curve, true,
          false, false, false, false, false, false, false⟩)
      ii (fun b => { b with b := s.n_atom }) (fun _ => ⟨rfl, rfl⟩) k
  rw [nth_set_ne _ _ _ _ (Ne.symm (Nat.ne_of_lt hk)), nth_append_default] at h
  exact ⟨h.1, h.2, le_bump MAX_ATOMS s.n_bond⟩

/-- The extended triple bond merge: the short bond `jj` is deleted, the long
bond `ii` stays and takes the sum of the two orders. -/
theorem dt_extended_spec {K : Type} [LinearOrderedField K] (sqrt : K → K) (MAX_ATOMS : Nat)
    (ii jj : Nat) (l11 l22 : K) (s : DtState K) (hne : jj ≠ ii)
    (hii : ii < s.n_bond) (hjj : jj < s.n_bond) (hs : (nth s.bond ii).exists_ = true) :
    (nth (dt_extended sqrt MAX_ATOMS ii jj l11 l22 s).bond jj).exists_ = false ∧
    (nth (dt_extended sqrt MAX_ATOMS ii jj l11 l22 s).bond ii).exists_ = true ∧
    (nth (dt_extended sqrt MAX_ATOMS ii jj l11 l22 s).bond ii).type =
      (nth s.bond ii).type + (nth s.bond jj).type := by
  unfold dt_extended
  dsimp only
  generalize min (off_xa sqrt s.bond s.atom ii (nth s.bond jj).a)
    (off_xa sqrt s.bond s.atom ii (nth s.bond jj).b) = da
  generalize min (off_xb sqrt s.bond s.atom ii (nth s.bond jj).a)
    (off_xb sqrt s.bond s.atom ii (nth s.bond jj).b) = db
  have h1 : ∀ k, k < s.n_bond →
      (nth (if da > 1 / 2 * l22 then dt_split_a MAX_ATOMS ii da l11 s else s).bond k).exists_
        = (nth s.bond k).exists_ ∧
      (nth (if da > 1 / 2 * l22 then dt_split_a MAX_ATOMS ii da l11 s else s).bond k).type
        = (nth s.bond k).type ∧
      s.n_bond ≤ (if da > 1 / 2 * l22 then dt_split_a MAX_ATOMS ii da l11 s else s).n_bond := by
    intro k hk
    split
    · exact dt_split_a_flags MAX_ATOMS ii da l11 s k hk
    · exact ⟨rfl, rfl, Nat.le_refl _⟩
  generalize (if da > 1 / 2 * l22 then dt_split_a MAX_ATOMS ii da l11 s else s) = s1 at h1 ⊢
  have h2 : ∀ k, k < s.n_bond →
      (nth (if db > 1 / 2 * l22 then dt_split_b MAX_ATOMS ii db l11 s1 else s1).bond k).exists_
        = (nth s.bond k).exists_ ∧
      (nth (if db > 1 / 2 * l22 then dt_split_b MAX_ATOMS ii db l11 s1 else s1).bond k).type
        = (nth s.bond k).type := by
    intro k hk
    obtain ⟨a1, a2, a3⟩ := h1 k hk
    split
    · obtain ⟨b1, b2, _⟩ := dt_split_b_flags MAX_ATOMS ii db l11 s1 k (Nat.lt_of_lt_of_le hk a3)
      exact ⟨b1.trans a1, b2.trans a2⟩
    · exact ⟨a1, a2⟩
  generalize (if db > 1 / 2 * l22 then dt_split_b MAX_ATOMS ii db l11 s1 else s1) = s2 at h2 ⊢
  have hs2 : (nth s2.bond ii).exists_ = true := by rw [(h2 ii hii).1]; exact hs
  obtain ⟨g1, g2, g3⟩ := dt_absorb_spec s2.bond jj ii True hne hs2
  refine ⟨g1, g2, ?_⟩
  rw [g3, if_pos trivial, (h2 ii hii).2, (h2 jj hjj).2]

/-- `double_triple_bonds` on two bonds that pass the tests of lines 713 and 717
and are not an extended triple bond: 3 units of fuel suffice and the result is
the state after the one merge of lines 872-896. -/
theorem dtb_two {K : Type} [LinearOrderedField K] (sqrt : K → K) (D_T_TOLERANCE FLT_MAX : K)
    (MAX_ATOMS : Nat) (atom : List (Atom K)) (bond : List Bond) (avg : K) (n_atom : Nat)
    (max_dist_double_bond : K)
    (h0 : (nth bond 0).exists_ = true) (h1 : (nth bond 1).exists_ = true)
    (hang : |angle_between_bonds sqrt bond 0 1 atom| > D_T_TOLERANCE)
    (hd : distance_between_bonds sqrt FLT_MAX bond 0 1 atom ≤ max_dist_double_bond)
    (hw : bonds_within_each_other sqrt bond 0 1 atom)
    (hx1 : ¬ dt_is_extended avg (bond_length sqrt bond 0 atom) (bond_length sqrt bond 1 atom))
    (hx2 : ¬ dt_is_extended avg (bond_length sqrt bond 1 atom) (bond_length sqrt bond 0 atom))
    (f : Nat) :
    double_triple_bonds sqrt D_T_TOLERANCE FLT_MAX MAX_ATOMS (f + 3) atom bond 2 avg n_atom
        max_dist_double_bond =
      some (if bond_length sqrt bond 0 atom > bond_length sqrt bond 1 atom then
          ⟨atom, dt_absorb bond 1 0
            (bond_length sqrt bond 1 atom > bond_length sqrt bond 0 atom / 2), 2, n_atom⟩
        else
          ⟨atom, dt_absorb bond 0 1
            (bond_length sqrt bond 0 atom > bond_length sqrt bond 1 atom / 2), 2, n_atom⟩) := by
  have hbody : dt_body sqrt D_T_TOLERANCE FLT_MAX MAX_ATOMS avg max_dist_double_bond 0
      (bond_length sqrt bond 0 atom) 1 ⟨atom, bond, 2, n_atom⟩ =
      if bond_length sqrt bond 0 atom > bond_length sqrt bond 1 atom then
        (⟨atom, dt_absorb bond 1 0
          (bond_length sqrt bond 1 atom > bond_length sqrt bond 0 atom / 2), 2, n_atom⟩, false)
      else
        (⟨atom, dt_absorb bond 0 1
          (bond_length sqrt bond 0 atom > bond_length sqrt bond 1 atom / 2), 2, n_atom⟩, true) := by
    unfold dt_body
    have hr : List.range' (1 + 1) (2 - (1 + 1)) = [] := by decide
    simp only [hr, dt_triple_loop]
    rw [if_pos ⟨h1, hang⟩, if_pos ⟨hd, hw⟩, if_neg (by rw [h1]; decide)]
    unfold dt_merge
    rw [if_neg hx1, if_neg hx2]
  unfold double_triple_bonds
  by_cases hlt : bond_length sqrt bond 0 atom > bond_length sqrt bond 1 atom
  · rw [if_pos hlt] at hbody ⊢
    obtain ⟨g1, _, _⟩ := dt_absorb_spec bond 1 0
      (bond_length sqrt bond 1 atom > bond_length sqrt bond 0 atom / 2) (by decide) h0
    simp only [dt_iloop, dt_jloop, hbody, h0, g1]
    simp
  · rw [if_neg hlt] at hbody ⊢
    simp only [dt_iloop, dt_jloop, hbody, h0]
    simp

/-- C4 (amended). Two existing bonds 0 and 1 (`n_bond = 2`) that pass the tests
of lines 713 and 717 and are not an extended triple bond are merged by
`double_triple_bonds` into the longer one (bond 1 on a tie): the other bond is
deleted, and the order of the survivor is the sum of the two orders when the
shorter bond is longer than half the longer one and is left unchanged
otherwise.  The same holds for every merge step `dt_merge` of a pair
`i < j < n_bond` of existing bonds, where an extended triple bond always adds
the orders. -/
theorem double_triple_bonds_merge {K : Type} [LinearOrderedField K] (sqrt : K → K)
    (D_T_TOLERANCE FLT_MAX : K) (MAX_ATOMS : Nat) (atom : List (Atom K)) (bond : List Bond)
    (avg : K) (n_atom : Nat) (max_dist_double_bond : K)
    (h0 : (nth bond 0).exists_ = true) (h1 : (nth bond 1).exists_ = true)
    (hang : |angle_between_bonds sqrt bond 0 1 atom| > D_T_TOLERANCE)
    (hd : distance_between_bonds sqrt FLT_MAX bond 0 1 atom ≤ max_dist_double_bond)
    (hw : bonds_within_each_other sqrt bond 0 1 atom)
    (hx1 : ¬ dt_is_extended avg (bond_length sqrt bond 0 atom) (bond_length sqrt bond 1 atom))
    (hx2 : ¬ dt_is_extended avg (bond_length sqrt bond 1 atom) (bond_length sqrt bond 0 atom)) :
    (∃ r, (∀ f, double_triple_bonds sqrt D_T_TOLERANCE FLT_MAX MAX_ATOMS (f + 3) atom bond 2
          avg n_atom max_dist_double_bond = some r) ∧
      r.n_bond = 2 ∧
      (bond_length sqrt bond 0 atom > bond_length sqrt bond 1 atom →
        (nth r.bond 1).exists_ = false ∧ (nth r.bond 0).exists_ = true ∧
        (nth r.bond 0).type =
          if bond_length sqrt bond 1 atom > bond_length sqrt bond 0 atom / 2 then
            (nth bond 0).type + (nth bond 1).type
          else (nth bond 0).type) ∧
      (¬ bond_length sqrt bond 0 atom > bond_length sqrt bond 1 atom →
        (nth r.bond 0).exists_ = false ∧ (nth r.bond 1).exists_ = true ∧
        (nth r.bond 1).type =
          if bond_length sqrt bond 0 atom > bond_length sqrt bond 1 atom / 2 then
            (nth bond 1).type + (nth bond 0).type
          else (nth bond 1).type)) ∧
    (∀ (s : DtState K) (i j : Nat) (l1 l2 : K), i < j → j < s.n_bond →
      (nth s.bond i).exists_ = true → (nth s.bond j).exists_ = true →
      (dt_is_extended avg l1 l2 →
        (nth (dt_merge sqrt MAX_ATOMS avg i j l1 l2 s).1.bond j).exists_ = false ∧
        (nth (dt_merge sqrt MAX_ATOMS avg i j l1 l2 s).1.bond i).exists_ = true ∧
        (nth (dt_merge sqrt MAX_ATOMS avg i j l1 l2 s).1.bond i).type =
          (nth s.bond i).type + (nth s.bond j).type) ∧
      (¬ dt_is_extended avg l1 l2 → dt_is_extended avg l2 l1 →
        (nth (dt_merge sqrt MAX_ATOMS avg i j l1 l2 s).1.bond i).exists_ = false ∧
        (nth (dt_merge sqrt MAX_ATOMS avg i j l1 l2 s).1.bond j).exists_ = true ∧
        (nth (dt_merge sqrt MAX_ATOMS avg i j l1 l2 s).1.bond j).type =
          (nth s.bond j).type + (nth s.bond i).type) ∧
      (¬ dt_is_extended avg l1 l2 → ¬ dt_is_extended avg l2 l1 → l1 > l2 →
        (nth (dt_merge sqrt MAX_ATOMS avg i j l1 l2 s).1.bond j).exists_ = false ∧
        (nth (dt_merge sqrt MAX_ATOMS avg i j l1 l2 s).1.bond i).exists_ = true ∧
        (nth (dt_merge sqrt MAX_ATOMS avg i j l1 l2 s).1.bond i).type =
          if l2 > l1 / 2 then (nth s.bond i).type + (nth s.bond j).type
          else (nth s.bond i).type) ∧
      (¬ dt_is_extended avg l1 l2 → ¬ dt_is_extended avg l2 l1 → ¬ l1 > l2 →
        (nth (dt_merge sqrt MAX_ATOMS avg i j l1 l2 s).1.bond i).exists_ = false ∧
        (nth (dt_merge sqrt MAX_ATOMS avg i j l1 l2 s).1.bond j).exists_ = true ∧
        (nth (dt_merge sqrt MAX_ATOMS avg i j l1 l2 s).1.bond j).type =
          if l1 > l2 / 2 then (nth s.bond j).type + (nth s.bond i).type
          else (nth s.bond j).type)) := by
  constructor
  · have hres := dtb_two sqrt D_T_TOLERANCE FLT_MAX MAX_ATOMS atom bond avg n_atom
      max_dist_double_bond h0 h1 hang hd hw hx1 hx2
    by_cases hlt : bond_length sqrt bond 0 atom > bond_length sqrt bond 1 atom
    · simp only [if_pos hlt] at hres
      exact ⟨_, hres, rfl, fun _ => dt_absorb_spec bond 1 0 _ (by decide) h0,
        fun h => absurd hlt h⟩
    · simp only [if_neg hlt] at hres
      exact ⟨_, hres, rfl, fun h => absurd h hlt,
        fun _ => dt_absorb_spec bond 0 1 _ (by decide) h1⟩
  · intro s i j l1 l2 hij hj hi hjx
    have hne : i ≠ j := Nat.ne_of_lt hij
    refine ⟨fun e1 => ?_, fun e1 e2 => ?_, fun e1 e2 hl => ?_, fun e1 e2 hl => ?_⟩
    · unfold dt_merge
      rw [if_pos e1]
      exact dt_extended_spec sqrt MAX_ATOMS i j l1 l2 s (Ne.symm hne)
        (Nat.lt_trans hij hj) hj hi
    · unfold dt_merge
      rw [if_neg e1, if_pos e2]
      exact dt_extended_spec sqrt MAX_ATOMS j i l2 l1 s hne hj (Nat.lt_trans hij hj) hjx
    · unfold dt_merge
      rw [if_neg e1, if_neg e2, if_pos hl]
      exact dt_absorb_spec s.bond j i _ (Ne.symm hne) hi
    · unfold dt_merge
      rw [if_neg e1, if_neg e2, if_neg hl]
      exact dt_absorb_spec s.bond i j _ hne hjx

/-- Witness for C4 (amended), Scenario B: parallel strokes of lengths 10 and 8,
offset by `max_dist_double_bond - 1 = 2`, with `avg = 12`: one bond of order 2. -/
theorem double_triple_bonds_merge_witness :
    distance_between_bonds qsqrt 1000000 parallel_bonds 0 1 double_atoms = 3 - 1 ∧
    bond_length qsqrt parallel_bonds 1 double_atoms ≥ 12 / 3 ∧
    ∃ r, (∀ f, double_triple_bonds qsqrt (19 / 20) 1000000 10000 (f + 3) double_atoms
          parallel_bonds 2 12 4 3 = some r) ∧
      (nth r.bond 1).exists_ = false ∧ (nth r.bond 0).exists_ = true ∧
      (nth r.bond 0).type = 2 := by
  refine ⟨by decide!, by decide!, ?_⟩
  obtain ⟨r, hr, _, h1, _⟩ := (double_triple_bonds_merge qsqrt (19 / 20) 1000000 10000
    double_atoms parallel_bonds 12 4 3 (by decide) (by decide) (by decide!) (by decide!)
    (by decide!) (by decide!) (by decide!)).1
  obtain ⟨g1, g2, g3⟩ := h1 (by decide!)
  refine ⟨r, hr, g1, g2, ?_⟩
  rw [g3, if_pos (by decide!)]
  decide

/-- C4 (as stated) fails, Scenario B included: parallel order-1 strokes of
lengths 10 and 4 (both at least `avg / 3 = 4`), offset by
`max_dist_double_bond - 1 = 2` and within each other's span, are merged into one
bond whose order stays 1, because the shorter stroke is not longer than half the
longer one (line 875). -/
theorem double_triple_bonds_order_counterexample :
    |angle_between_bonds qsqrt parallel_bonds 0 1 short_double_atoms| > 19 / 20 ∧
    distance_between_bonds qsqrt 1000000 parallel_bonds 0 1 short_double_atoms = 3 - 1 ∧
    bonds_within_each_other qsqrt parallel_bonds 0 1 short_double_atoms ∧
    bond_length qsqrt parallel_bonds 0 short_double_atoms ≥ 12 / 3 ∧
    bond_length qsqrt parallel_bonds 1 short_double_atoms ≥ 12 / 3 ∧
    (double_triple_bonds qsqrt (19 / 20) 1000000 10000 3 short_double_atoms parallel_bonds 2
      12 4 3).map (fun r => (r.bond.map (fun b => (b.exists_, b.type)), r.n_bond)) =
      some ([(true, 1), (false, 1)], 2) := by
  decide!

/-! ## C9: the charges are stripped and appended -/

theorem filter_erase_sign (a : Char) (ha : is_sign a = true) (l : List Char) :
    (l.erase a).filter (fun c => !is_sign c) = l.filter (fun c => !is_sign c) := by
  induction l with
  | nil => rfl
  | cons x xs ih =>
    by_cases hx : x = a
    · subst hx
      simp [ha]
    · rw [List.erase_cons_tail (by simpa using hx)]
      simp only [List.filter_cons, ih]

theorem no_sign_filter (l : List Char) (h1 : '-' ∉ l) (h2 : '+' ∉ l) :
    l.filter (fun c => !is_sign c) = l := by
  rw [List.filter_eq_self]
  intro c hc
  have e1 : c ≠ '-' := fun e => h1 (e ▸ hc)
  have e2 : c ≠ '+' := fun e => h2 (e ▸ hc)
  simp [is_sign, e1, e2]

/-- One round of the stripping loop: the non-sign characters stay as they are,
signs move to the end of `charges`, and a round that sets `cont` shortens the
string. -/
theorem strip_round_spec (s charges : List Char) :
    (strip_round s charges).1.filter (fun c => !is_sign c) = s.filter (fun c => !is_sign c) ∧
    (∃ extra, (strip_round s charges).2.1 = charges ++ extra ∧ ∀ c ∈ extra, is_sign c = true) ∧
    (∀ c, ((strip_round s charges).1 ++ (strip_round s charges).2.1).count c =
      (s ++ charges).count c) ∧
    ((strip_round s charges).2.2 = true → (strip_round s charges).1.length < s.length) ∧
    ((strip_round s charges).2.2 = false →
      (strip_round s charges).1 = s ∧ (strip_round s charges).2.1 = charges ∧
      '-' ∉ s ∧ '+' ∉ s) := by
  have hm : is_sign '-' = true := by decide
  have hp : is_sign '+' = true := by decide
  have cnt : ∀ (a : Char) (l ch : List Char), a ∈ l → ∀ c,
      (l.erase a ++ (ch ++ [a])).count c = (l ++ ch).count c := by
    intro a l ch ha c
    simp only [List.count_append, List.count_singleton]
    by_cases hc : c = a
    · subst hc
      have := List.count_pos_iff.mpr ha
      rw [List.count_erase_self]
      simp
      omega
    · rw [List.count_erase_of_ne hc]
      simp [Ne.symm hc, hc]
  have len : ∀ (a : Char) (l : List Char), a ∈ l → (l.erase a).length < l.length := by
    intro a l ha
    rw [List.length_erase_of_mem ha]
    exact Nat.sub_lt (List.length_pos_of_mem ha) Nat.one_pos
  by_cases h1 : '-' ∈ s
  · by_cases h2 : '+' ∈ s.erase '-'
    · have e : strip_round s charges =
          ((s.erase '-').erase '+', (charges ++ ['-']) ++ ['+'], true) := by
        unfold strip_round; rw [if_pos h1, if_pos h2, if_pos h1]
      rw [e]
      refine ⟨?_, ⟨['-', '+'], by simp, by simp [hm, hp]⟩, ?_, ?_, ?_⟩
      · show ((s.erase '-').erase '+').filter _ = _
        rw [filter_erase_sign _ hp, filter_erase_sign _ hm]
      · intro c
        show (((s.erase '-').erase '+') ++ ((charges ++ ['-']) ++ ['+'])).count c = _
        rw [cnt '+' _ _ h2 c, cnt '-' _ _ h1 c]
      · intro _
        exact Nat.lt_trans (len _ _ h2) (len _ _ h1)
      · intro h; exact Bool.noConfusion h
    · have e : strip_round s charges = (s.erase '-', charges ++ ['-'], true) := by
        unfold strip_round; rw [if_pos h1, if_neg h2, if_pos h1, if_pos h1]
      rw [e]
      refine ⟨filter_erase_sign _ hm s, ⟨['-'], rfl, by simp [hm]⟩, cnt '-' _ _ h1, ?_, ?_⟩
      · intro _; exact len _ _ h1
      · intro h; exact Bool.noConfusion h
  · by_cases h2 : '+' ∈ s
    · have e : strip_round s charges = (s.erase '+', charges ++ ['+'], true) := by
        unfold strip_round; rw [if_neg h1, if_pos h2, if_neg h1]
      rw [e]
      refine ⟨filter_erase_sign _ hp s, ⟨['+'], rfl, by simp [hp]⟩, cnt '+' _ _ h2, ?_, ?_⟩
      · intro _; exact len _ _ h2
      · intro h; exact Bool.noConfusion h
    · have e : strip_round s charges = (s, charges, false) := by
        unfold strip_round; rw [if_neg h1, if_neg h2, if_neg h1, if_neg h1]
      rw [e]
      exact ⟨rfl, ⟨[], by simp, by simp⟩, fun _ => rfl, fun h => absurd h Bool.false_ne_true,
        fun _ => ⟨rfl, rfl, h1, h2⟩⟩

/-- The loop `while (cont)` ends within `s.length + 1` rounds; it leaves the
non-sign characters of `s` in the string and appends the signs to `charges`. -/
theorem strip_loop_spec : ∀ (fuel : Nat) (s charges : List Char), s.length < fuel →
    ∃ s2 extra, strip_loop fuel s charges = some (s2, charges ++ extra) ∧
      s2 = s.filter (fun c => !is_sign c) ∧ (∀ c ∈ extra, is_sign c = true) ∧
      ∀ c, (s2 ++ (charges ++ extra)).count c = (s ++ charges).count c := by
  intro fuel
  induction fuel with
  | zero => intro s charges h; exact absurd h (Nat.not_lt_zero _)
  | succ n ih =>
    intro s charges hlen
    obtain ⟨r1, ⟨extra, r2, r3⟩, r4, r5, r6⟩ := strip_round_spec s charges
    simp only [strip_loop]
    by_cases hc : (strip_round s charges).2.2 = true
    · rw [if_pos hc]
      obtain ⟨s2, extra2, e1, e2, e3, e4⟩ := ih (strip_round s charges).1
        (strip_round s charges).2.1 (Nat.lt_of_lt_of_le (r5 hc) (Nat.le_of_lt_succ hlen))
      refine ⟨s2, extra ++ extra2, ?_, ?_, ?_, ?_⟩
      · rw [e1, r2, List.append_assoc]
      · rw [e2, r1]
      · intro c hcm
        rcases List.mem_append.mp hcm with h | h
        · exact r3 c h
        · exact e3 c h
      · intro c
        rw [← List.append_assoc charges, ← r2, e4 c, r4 c]
    · rw [if_neg hc]
      obtain ⟨q1, q2, q3, q4⟩ := r6 (by simpa using hc)
      refine ⟨(strip_round s charges).1, [], ?_, ?_, ?_, ?_⟩
      · rw [q2, List.append_nil]
      · rw [q1, no_sign_filter s q3 q4]
      · intro c h; exact absurd h (List.not_mem_nil c)
      · intro c; rw [List.append_nil, q1]

/-- `strip_charges` returns: the non-sign characters in their order, then
signs only, with the number of every character unchanged. -/
theorem strip_charges_spec (s : List Char) :
    ∃ charges, strip_charges s = some (s.filter (fun c => !is_sign c) ++ charges) ∧
      (∀ c ∈ charges, is_sign c = true) ∧
      ∀ c, (s.filter (fun c => !is_sign c) ++ charges).count c = s.count c := by
  obtain ⟨s2, extra, e1, e2, e3, e4⟩ := strip_loop_spec (s.length + 1) s [] (Nat.lt_succ_self _)
  refine ⟨extra, ?_, e3, ?_⟩
  · unfold strip_charges
    rw [e1, e2]
    simp
  · intro c
    have := e4 c
    rw [e2] at this
    simpa using this

/-- The loop over the labels returns, and rewrites the string of every label
below `n_label` to what `strip_charges` makes of it. -/
theorem strip_all_spec {K : Type} [Zero K] (n_label : Nat) (label : List (Label K)) :
    ∃ out, strip_all n_label label = some out ∧
      ∀ i, (i < n_label → strip_charges (nth label i).a = some (nth out i).a) ∧
        (n_label ≤ i → nth out i = nth label i) := by
  unfold strip_all
  exact foldl_range_inv
    (fun m (acc : Option (List (Label K))) => ∃ out, acc = some out ∧
      ∀ i, (i < m → strip_charges (nth label i).a = some (nth out i).a) ∧
        (m ≤ i → nth out i = nth label i))
    strip_at n_label (some label)
    ⟨label, rfl, fun i => ⟨fun h => absurd h (Nat.not_lt_zero i), fun _ => rfl⟩⟩
    (fun m acc _ hacc => by
      obtain ⟨out, e, h⟩ := hacc
      obtain ⟨charges, c1, _, _⟩ := strip_charges_spec (nth out m).a
      subst e
      refine ⟨set_text out m ((nth out m).a.filter (fun c => !is_sign c) ++ charges), ?_, ?_⟩
      · simp [strip_at, c1]
      · intro i
        unfold set_text
        constructor
        · intro hi
          rcases Nat.lt_succ_iff_lt_or_eq.mp hi with h1 | h1
          · rw [nth_modify_ne _ _ _ _ (Ne.symm (Nat.ne_of_lt h1))]
            exact (h i).1 h1
          · subst h1
            have hm := (h i).2 (Nat.le_refl i)
            by_cases hl : i < out.length
            · rw [nth_modify_eq _ _ _ hl, ← hm]
              exact c1
            · rw [nth_modify_eq_of_le _ _ _ (Nat.le_of_not_lt hl), ← hm,
                nth_of_le _ _ (Nat.le_of_not_lt hl)]
              rfl
        · intro hi
          rw [nth_modify_ne _ _ _ _ (Nat.ne_of_lt hi)]
          exact (h i).2 (Nat.le_of_succ_le hi))

/-- C9. `assemble_labels` returns, and in every label it returns (index below
`n_label`) the string is the label text of before the stripping loop with its
`+` and `-` characters taken out, followed by sign characters only; the number
of `+` and the number of `-` are the same as before. -/
theorem assemble_labels_strips_charges {K : Type} [LinearOrderedField K] (sqrt : K → K)
    (FLT_MAX : K) (MAX_ATOMS : Nat) (sort_letters : List (Letter K) → List (Letter K))
    (sort_lbonds : List (Lbond K) → List (Lbond K))
    (letters : List (Letter K)) (n_letters : Nat) (label : List (Label K)) :
    ∃ r, assemble_labels sqrt FLT_MAX MAX_ATOMS sort_letters sort_lbonds letters n_letters
        label = some r ∧
      r.n_label = (assemble_pre sqrt FLT_MAX MAX_ATOMS sort_letters sort_lbonds letters
        n_letters label).2 ∧
      ∀ i, i < r.n_label → ∃ charges,
        (nth r.label i).a =
          (nth (assemble_pre sqrt FLT_MAX MAX_ATOMS sort_letters sort_lbonds letters
            n_letters label).1 i).a.filter (fun c => !is_sign c) ++ charges ∧
        (∀ c ∈ charges, c = '+' ∨ c = '-') ∧
        (nth r.label i).a.count '+' =
          (nth (assemble_pre sqrt FLT_MAX MAX_ATOMS sort_letters sort_lbonds letters
            n_letters label).1 i).a.count '+' ∧
        (nth r.label i).a.count '-' =
          (nth (assemble_pre sqrt FLT_MAX MAX_ATOMS sort_letters sort_lbonds letters
            n_letters label).1 i).a.count '-' := by
  obtain ⟨out, h1, h2⟩ := strip_all_spec
    (assemble_pre sqrt FLT_MAX MAX_ATOMS sort_letters sort_lbonds letters n_letters label).2
    (assemble_pre sqrt FLT_MAX MAX_ATOMS sort_letters sort_lbonds letters n_letters label).1
  refine ⟨⟨_, out, _⟩, by unfold assemble_labels; rw [h1]; rfl, rfl, ?_⟩
  intro i hi
  obtain ⟨charges, c1, c2, c3⟩ := strip_charges_spec
    (nth (assemble_pre sqrt FLT_MAX MAX_ATOMS sort_letters sort_lbonds letters
      n_letters label).1 i).a
  have e := (h2 i).1 hi
  rw [c1] at e
  have e2 : (nth out i).a = _ := (Option.some.inj e).symm
  refine ⟨charges, e2, ?_, ?_, ?_⟩
  · intro c hc
    have := c2 c hc
    simpa [is_sign] using this
  · show (nth out i).a.count '+' = _
    rw [e2]; exact c3 '+'
  · show (nth out i).a.count '-' = _
    rw [e2]; exact c3 '-'

/-! ## C8: letters on a line are assembled into one label -/

/-- A sorting function leaves a vector with strictly increasing keys alone. -/
theorem sort_fixes_strict {α : Type} {K : Type} [LinearOrderedField K] (key : α → K)
    (comp : α → α → Bool) (hcomp : ∀ p q, comp p q = true ↔ key p < key q)
    (sort : List α → List α) (hs : sorts_by comp sort) (v : List α)
    (hv : v.Pairwise (fun p q => key p < key q)) : sort v = v := by
  obtain ⟨hperm, hsorted⟩ := hs v
  have hne : (sort v).Pairwise (fun p q => key p ≠ key q) :=
    hperm.symm.pairwise (hv.imp (fun h => ne_of_lt h)) (fun h => h.symm)
  have hlt : (sort v).Pairwise (fun p q => key p < key q) := by
    refine (hsorted.and hne).imp ?_
    intro p q ⟨h1, h2⟩
    have h3 : ¬ key q < key p := fun h => by
      rw [(hcomp q p).mpr h] at h1; exact Bool.noConfusion h1
    exact lt_of_le_of_ne (not_lt.mp h3) h2
  haveI : IsAntisymm α (fun p q => key p < key q) :=
    ⟨fun a b h1 h2 => absurd (lt_trans h1 h2) (lt_irrefl _)⟩
  exact List.eq_of_perm_of_sorted hperm hlt hv

theorem comp_letters_iff {K : Type} [LinearOrderedField K] (p q : Letter K) :
    comp_letters p q = true ↔ p.x < q.x := by
  unfold comp_letters
  split <;> simp [*]

theorem comp_lbonds_iff {K : Type} [LinearOrderedField K] (p q : Lbond K) :
    comp_lbonds p q = true ↔ p.x < q.x := by
  unfold comp_lbonds
  split <;> simp [*]

/-- Loop-invariant rule for a `for` loop over `s .. s + n - 1`. -/
theorem foldl_range'_inv {σ : Type} (P : Nat → σ → Prop) (f : σ → Nat → σ) (s n : Nat)
    (s0 : σ) (h0 : P 0 s0) (hstep : ∀ t st, t < n → P t st → P (t + 1) (f st (s + t))) :
    P n ((List.range' s n).foldl f s0) := by
  rw [List.range'_eq_map_range, List.foldl_map]
  exact foldl_range_inv P (fun st t => f st (s + t)) n s0 h0 hstep

theorem glyph_mark_used {K : Type} [Zero K] (letters : List (Letter K)) (i k : Nat) :
    glyph (nth (mark_used letters i) k) = glyph (nth letters k) := by
  unfold mark_used
  by_cases hk : i = k
  · subst hk
    by_cases hl : i < letters.length
    · rw [nth_modify_eq _ _ _ hl]; rfl
    · rw [nth_modify_eq_of_le _ _ _ (Nat.le_of_not_lt hl)]
  · rw [nth_modify_ne _ _ _ _ hk]

theorem lb_close_of_glyph {K : Type} [LinearOrderedField K] (sqrt : K → K)
    (p q p2 q2 : Letter K) (hp : glyph p = glyph p2) (hq : glyph q = glyph q2) :
    lb_close sqrt p q ↔ lb_close sqrt p2 q2 := by
  have e1 : p.x = p2.x := congrArg (fun g => g.1) hp
  have e2 : p.y = p2.y := congrArg (fun g => g.2.1) hp
  have e3 : p.r = p2.r := congrArg (fun g => g.2.2.1) hp
  have e4 : p.a = p2.a := congrArg (fun g => g.2.2.2) hp
  have f1 : q.x = q2.x := congrArg (fun g => g.1) hq
  have f2 : q.y = q2.y := congrArg (fun g => g.2.1) hq
  have f3 : q.r = q2.r := congrArg (fun g => g.2.2.1) hq
  have f4 : q.a = q2.a := congrArg (fun g => g.2.2.2) hq
  unfold lb_close
  rw [e1, e2, e3, e4, f1, f2, f3, f4]

theorem consecutive_pairs_succ {K : Type} [Zero K] (letters : List (Letter K)) (m : Nat) :
    consecutive_pairs letters (m + 1) =
      consecutive_pairs letters m ++ [⟨m, m + 1, (nth letters m).x, true⟩] := by
  unfold consecutive_pairs
  rw [List.range_succ, List.map_append]
  rfl

theorem length_consecutive_pairs {K : Type} [Zero K] (letters : List (Letter K)) (m : Nat) :
    (consecutive_pairs letters m).length = m := by
  simp [consecutive_pairs]

theorem nth_consecutive_pairs {K : Type} [Zero K] (letters : List (Letter K)) (m k : Nat)
    (hk : k < m) : nth (consecutive_pairs letters m) k = ⟨k, k + 1, (nth letters k).x, true⟩ := by
  rw [nth_of_lt _ _ (by rw [length_consecutive_pairs]; exact hk)]
  simp [consecutive_pairs]

theorem push_at_end {α : Type} [Inhabited α] (v : List α) (x : α) :
    (v ++ [default]).set v.length x = v ++ [x] := by
  rw [List.set_append_right _ _ (Nat.le_refl _)]
  simp

theorem bump_lt (MAX_ATOMS n : Nat) (h : n + 1 < MAX_ATOMS) : bump MAX_ATOMS n = n + 1 := by
  unfold bump
  rw [if_neg (by omega)]

/-- The pairing loop on letters of which every two neighbours are close: letter
`k` is paired with letter `k + 1`. -/
theorem pair_letters_line {K : Type} [LinearOrderedField K] (sqrt : K → K) (MAX_ATOMS : Nat)
    (sort_letters : List (Letter K) → List (Letter K)) (letters : List (Letter K))
    (hsort : sort_letters letters = letters) (h2 : 2 ≤ letters.length)
    (hmax : letters.length < MAX_ATOMS)
    (hclose : ∀ i, i + 1 < letters.length → lb_close sqrt (nth letters i) (nth letters (i + 1))) :
    (pair_letters sqrt MAX_ATOMS sort_letters letters letters.length).lbond =
      consecutive_pairs letters (letters.length - 1) ∧
    (pair_letters sqrt MAX_ATOMS sort_letters letters letters.length).n_lbond =
      letters.length - 1 ∧
    ∀ k, glyph (nth (pair_letters sqrt MAX_ATOMS sort_letters letters letters.length).letters k)
      = glyph (nth letters k) := by
  unfold pair_letters
  rw [hsort]
  have inv := foldl_range_inv
    (fun m (s : PairState K) => (∀ k, glyph (nth s.letters k) = glyph (nth letters k)) ∧
      (m + 1 ≤ letters.length → s.lbond = consecutive_pairs letters m ∧ s.n_lbond = m) ∧
      (m = letters.length → s.lbond = consecutive_pairs letters (letters.length - 1) ∧
        s.n_lbond = letters.length - 1))
    (lp_outer sqrt MAX_ATOMS letters.length) letters.length ⟨letters, [], 0⟩
    ⟨fun _ => rfl, fun _ => ⟨rfl, rfl⟩, fun h => by omega⟩
    (fun i s hi hs => by
      obtain ⟨hg, hle, _⟩ := hs
      obtain ⟨e1, e2⟩ := hle hi
      unfold lp_outer
      by_cases hlast : i + 1 < letters.length
      · have hr : letters.length - (i + 1) = (letters.length - (i + 2)) + 1 := by omega
        rw [hr, List.range'_succ]
        simp only [lp_inner]
        rw [if_pos ((lb_close_of_glyph sqrt _ _ _ _ (hg i) (hg (i + 1))).mpr (hclose i hlast))]
        refine ⟨fun k => ?_, fun _ => ⟨?_, ?_⟩, fun h => by omega⟩
        · show glyph (nth (mark_used (mark_used s.letters i) (i + 1)) k) = _
          rw [glyph_mark_used, glyph_mark_used]; exact hg k
        · show (s.lbond ++ [default]).set s.n_lbond ⟨i, i + 1, (nth s.letters i).x, true⟩ = _
          have hx : (nth s.letters i).x = (nth letters i).x := congrArg (fun g => g.1) (hg i)
          rw [e1, e2, hx, consecutive_pairs_succ]
          have := push_at_end (consecutive_pairs letters i)
            (⟨i, i + 1, (nth letters i).x, true⟩ : Lbond K)
          rw [length_consecutive_pairs] at this
          exact this
        · show bump MAX_ATOMS s.n_lbond = i + 1
          rw [e2]; exact bump_lt MAX_ATOMS i (by omega)
      · have hr : letters.length - (i + 1) = 0 := by omega
        rw [hr]
        simp only [List.range'_zero, lp_inner]
        refine ⟨hg, fun h => by omega, fun h => ?_⟩
        have hi2 : letters.length - 1 = i := by omega
        rw [hi2]; exact ⟨e1, e2⟩)
  obtain ⟨g1, _, g3⟩ := inv
  exact ⟨(g3 rfl).1, (g3 rfl).2, g1⟩

theorem anchor_left_text {K : Type} [Zero K] (letters : List (Letter K)) (p : Nat)
    (s : Label K × Bool) :
    (anchor_left letters p s).1.a = s.1.a ∧ (anchor_left letters p s).1.n = s.1.n := by
  unfold anchor_left
  split <;> exact ⟨rfl, rfl⟩

theorem anchor_right_text {K : Type} [Zero K] (letters : List (Letter K)) (p : Nat)
    (L : Label K) :
    (anchor_right letters p L).a = L.a ∧ (anchor_right letters p L).n = L.n := by
  unfold anchor_right
  split <;> exact ⟨rfl, rfl⟩

/-- The anchor statements leave the string and the letter indices alone. -/
theorem anchors_text {K : Type} [Zero K] (letters : List (Letter K)) (pa pb : Nat)
    (s : Label K × Bool) :
    (anchors letters pa pb s).1.a = s.1.a ∧ (anchors letters pa pb s).1.n = s.1.n := by
  unfold anchors
  constructor
  · show (anchor_right letters pb (anchor_right letters pa _)).a = _
    rw [(anchor_right_text _ _ _).1, (anchor_right_text _ _ _).1,
      (anchor_left_text _ _ _).1, (anchor_left_text _ _ _).1]
  · show (anchor_right letters pb (anchor_right letters pa _)).n = _
    rw [(anchor_right_text _ _ _).2, (anchor_right_text _ _ _).2,
      (anchor_left_text _ _ _).2, (anchor_left_text _ _ _).2]

theorem nth_singleton_default {α : Type} [Inhabited α] :
    nth (([] : List α) ++ [default]) 0 = default := rfl

theorem lbond_deleted_at {K : Type} [Zero K] (v : List (Lbond K)) (i : Nat) :
    (nth (use_up v i) i).exists_ = false := by
  unfold use_up
  by_cases hl : i < v.length
  · rw [nth_modify_eq _ _ _ hl]
  · rw [nth_of_le _ _ (by simpa using Nat.le_of_not_lt hl)]; rfl

/-- The chaining loop started at the first pair of a line of letters collects
all letters, in order, and uses up every pair. -/
theorem chain_line {K : Type} [LinearOrderedField K] (FLT_MAX : K)
    (letters L : List (Letter K)) (hg : ∀ k, glyph (nth letters k) = glyph (nth L k))
    (h2 : 2 ≤ L.length) :
    (chain FLT_MAX letters (L.length - 1)
      ⟨[], 0, consecutive_pairs L (L.length - 1)⟩ 0).lab.a =
      (List.range L.length).map (fun k => (nth L k).a) ∧
    (chain FLT_MAX letters (L.length - 1)
      ⟨[], 0, consecutive_pairs L (L.length - 1)⟩ 0).lab.n = List.range L.length ∧
    ∀ k, (nth (chain FLT_MAX letters (L.length - 1)
      ⟨[], 0, consecutive_pairs L (L.length - 1)⟩ 0).lbond k).exists_ = false := by
  have ha : ∀ k, (nth letters k).a = (nth L k).a := fun k => congrArg (fun g => g.2.2.2) (hg k)
  have hp0 : nth (consecutive_pairs L (L.length - 1)) 0 = ⟨0, 1, (nth L 0).x, true⟩ :=
    nth_consecutive_pairs L _ 0 (by omega)
  unfold chain
  have inv := foldl_range'_inv
    (fun t (cs : ChainState K) =>
      cs.lab.a = (List.range (t + 2)).map (fun k => (nth L k).a) ∧
      cs.lab.n = List.range (t + 2) ∧ cs.last = t + 1 ∧
      (∀ k, k ≤ t → (nth cs.lbond k).exists_ = false) ∧
      (∀ k, t < k → nth cs.lbond k = nth (consecutive_pairs L (L.length - 1)) k))
    (chain_step letters) (0 + 1) (L.length - 1 - (0 + 1))
    ⟨(start_label FLT_MAX letters (nth (consecutive_pairs L (L.length - 1)) 0)
        (nth (([] : List (Label K)) ++ [default]) 0)).1,
      (start_label FLT_MAX letters (nth (consecutive_pairs L (L.length - 1)) 0)
        (nth (([] : List (Label K)) ++ [default]) 0)).2,
      (nth (consecutive_pairs L (L.length - 1)) 0).b,
      use_up (consecutive_pairs L (L.length - 1)) 0⟩
    (by
      refine ⟨?_, ?_, ?_, ?_, ?_⟩
      · show (start_label FLT_MAX letters _ _).1.a = _
        unfold start_label
        rw [(anchors_text _ _ _ _).1, hp0]
        show [(nth letters 0).a, (nth letters 1).a] = _
        rw [ha 0, ha 1]
        rfl
      · show (start_label FLT_MAX letters _ _).1.n = _
        unfold start_label
        rw [(anchors_text _ _ _ _).2, hp0, nth_singleton_default]
        rfl
      · show (nth (consecutive_pairs L (L.length - 1)) 0).b = 0 + 1
        rw [hp0]
      · intro k hk
        have hk0 : k = 0 := by omega
        subst hk0
        exact lbond_deleted_at _ 0
      · intro k hk
        show nth (use_up _ 0) k = _
        unfold use_up
        rw [nth_modify_ne _ _ _ _ (by omega)])
    (fun t cs ht hcs => by
      obtain ⟨c1, c2, c3, c4, c5⟩ := hcs
      have hj : nth cs.lbond (0 + 1 + t) = ⟨t + 1, t + 2, (nth L (t + 1)).x, true⟩ := by
        rw [c5 (0 + 1 + t) (by omega), nth_consecutive_pairs L _ _ (by omega)]
        have e : 0 + 1 + t = t + 1 := by omega
        rw [e]
      unfold chain_step
      rw [if_pos (by rw [hj, c3]; exact ⟨rfl, rfl⟩)]
      refine ⟨?_, ?_, ?_, ?_, ?_⟩
      · show (anchors letters _ _ _).1.a = _
        rw [(anchors_text _ _ _ _).1]
        show cs.lab.a ++ [(nth letters (nth cs.lbond (0 + 1 + t)).b).a] = _
        rw [hj, c1, ha, List.range_succ (t + 2), List.map_append]
        rfl
      · show (anchors letters _ _ _).1.n = _
        rw [(anchors_text _ _ _ _).2]
        show cs.lab.n ++ [(nth cs.lbond (0 + 1 + t)).b] = _
        rw [hj, c2, List.range_succ (t + 2)]
      · show (nth cs.lbond (0 + 1 + t)).b = t + 1 + 1
        rw [hj]
      · intro k hk
        show (nth (use_up cs.lbond (0 + 1 + t)) k).exists_ = false
        by_cases hkt : k = 0 + 1 + t
        · subst hkt
          exact lbond_deleted_at _ _
        · unfold use_up
          rw [nth_modify_ne _ _ _ _ (Ne.symm hkt)]
          exact c4 k (by omega)
      · intro k hk
        show nth (use_up cs.lbond (0 + 1 + t)) k = _
        unfold use_up
        rw [nth_modify_ne _ _ _ _ (by omega)]
        exact c5 k (by omega))
  obtain ⟨r1, r2, _, r4, r5⟩ := inv
  have hlen : L.length - 1 - (0 + 1) + 2 = L.length := by omega
  rw [hlen] at r1 r2
  refine ⟨r1, r2, fun k => ?_⟩
  by_cases hk : k ≤ L.length - 1 - (0 + 1)
  · exact r4 k hk
  · rw [r5 k (by omega), nth_of_le _ _ (by rw [length_consecutive_pairs]; omega)]
    rfl

/-- The label building loop on the pairs of a line of letters: one label with
all the letters. -/
theorem build_labels_line {K : Type} [LinearOrderedField K] (FLT_MAX : K) (MAX_ATOMS : Nat)
    (sort_lbonds : List (Lbond K) → List (Lbond K)) (p : PairState K) (L : List (Letter K))
    (hg : ∀ k, glyph (nth p.letters k) = glyph (nth L k))
    (hb : p.lbond = consecutive_pairs L (L.length - 1)) (hn : p.n_lbond = L.length - 1)
    (hsort : sort_lbonds (consecutive_pairs L (L.length - 1)) =
      consecutive_pairs L (L.length - 1))
    (h2 : 2 ≤ L.length) (hmax : L.length < MAX_ATOMS) :
    ∃ lab, (build_labels FLT_MAX MAX_ATOMS sort_lbonds p []).label = [lab] ∧
      (build_labels FLT_MAX MAX_ATOMS sort_lbonds p []).n_label = 1 ∧
      lab.a = (List.range L.length).map (fun k => (nth L k).a) ∧
      lab.n = List.range L.length := by
  unfold build_labels
  rw [hb, hn, hsort]
  obtain ⟨c1, c2, c3⟩ := chain_line FLT_MAX p.letters L hg h2
  have hp0 : nth (consecutive_pairs L (L.length - 1)) 0 = ⟨0, 1, (nth L 0).x, true⟩ :=
    nth_consecutive_pairs L _ 0 (by omega)
  have inv := foldl_range_inv
    (fun m (s : AsmState K) =>
      (m = 0 → s = ⟨[], 0, consecutive_pairs L (L.length - 1)⟩) ∧
      (1 ≤ m → ∃ lab, s.label = [lab] ∧ s.n_label = 1 ∧
        lab.a = (List.range L.length).map (fun k => (nth L k).a) ∧
        lab.n = List.range L.length ∧ ∀ k, (nth s.lbond k).exists_ = false))
    (asm_outer FLT_MAX MAX_ATOMS p.letters (L.length - 1)) (L.length - 1)
    ⟨[], 0, consecutive_pairs L (L.length - 1)⟩
    ⟨fun _ => rfl, fun h => by omega⟩
    (fun m s _ hs => by
      refine ⟨fun h => by omega, fun _ => ?_⟩
      by_cases hm : m = 0
      · subst hm
        rw [hs.1 rfl]
        unfold asm_outer
        rw [if_pos (by rw [hp0])]
        exact ⟨_, rfl, bump_lt MAX_ATOMS 0 (by omega), c1, c2, c3⟩
      · obtain ⟨lab, l1, l2, l3, l4, l5⟩ := hs.2 (by omega)
        unfold asm_outer
        rw [if_neg (by rw [l5 m]; exact Bool.noConfusion)]
        exact ⟨lab, l1, l2, l3, l4, l5⟩)
  obtain ⟨lab, l1, l2, l3, l4, _⟩ := inv.2 (by omega)
  exact ⟨lab, l1, l2, l3, l4⟩

theorem alpha_fold {K : Type} [LinearOrderedField K] (letters : List (Letter K)) (c : K)
    (ns : List Nat) (hy : ∀ k ∈ ns, (nth letters k).y = c) : ∀ acc : K × Nat,
    ns.foldl (fun acc k => if (nth letters k).a.isAlpha = true then
      (acc.1 + (nth letters k).y, acc.2 + 1) else acc) acc =
    (acc.1 + (ns.countP (fun k => (nth letters k).a.isAlpha) : Nat) * c,
      acc.2 + ns.countP (fun k => (nth letters k).a.isAlpha)) := by
  induction ns with
  | nil => intro acc; simp
  | cons k ks ih =>
    intro acc
    have ih2 := ih (fun j hj => hy j (List.mem_cons_of_mem _ hj))
    rw [List.foldl_cons, ih2]
    by_cases h : (nth letters k).a.isAlpha = true
    · have hc : List.countP (fun k => (nth letters k).a.isAlpha) (k :: ks) =
          List.countP (fun k => (nth letters k).a.isAlpha) ks + 1 := by
        simp [List.countP_cons, h]
      rw [if_pos h, hc, hy k (List.mem_cons_self _ _)]
      simp only [Prod.mk.injEq]
      constructor
      · push_cast; ring
      · omega
    · have hc : List.countP (fun k => (nth letters k).a.isAlpha) (k :: ks) =
          List.countP (fun k => (nth letters k).a.isAlpha) ks := by
        simp [List.countP_cons, h]
      rw [if_neg h, hc]

/-- The mean `cy` of letters that all lie at height `c` is `c` as soon as one of
them is alphabetic. -/
theorem alpha_mean_const {K : Type} [LinearOrderedField K] (letters : List (Letter K)) (c : K)
    (ns : List Nat) (hy : ∀ k ∈ ns, (nth letters k).y = c)
    (hex : ∃ k ∈ ns, (nth letters k).a.isAlpha = true) :
    alpha_mean letters ns = c := by
  unfold alpha_mean
  rw [alpha_fold letters c ns hy]
  obtain ⟨k, hk, hka⟩ := hex
  have hpos : 0 < ns.countP (fun k => (nth letters k).a.isAlpha) :=
    List.countP_pos_iff.mpr ⟨k, hk, hka⟩
  have hne : ((ns.countP (fun k => (nth letters k).a.isAlpha) : Nat) : K) ≠ 0 :=
    Nat.cast_ne_zero.mpr (Nat.ne_of_gt hpos)
  simp only [zero_add]
  field_simp

theorem low_count_zero {K : Type} [LinearOrderedField K] (letters : List (Letter K)) (cy : K)
    (ns : List Nat)
    (h : ∀ k ∈ ns, ¬ ((nth letters k).a.isAlpha = true ∧
      (nth letters k).y - cy > (nth letters k).r / 2)) :
    low_count letters cy ns = 0 := by
  unfold low_count
  generalize (0 : Nat) = c0
  induction ns generalizing c0 with
  | nil => rfl
  | cons k ks ih =>
    rw [List.foldl_cons, if_neg (h k (List.mem_cons_self _ _))]
    exact ih (fun j hj => h j (List.mem_cons_of_mem _ hj)) c0

/-- A label whose letters lie at one height is not split. -/
theorem split_outer_line {K : Type} [LinearOrderedField K] (FLT_MAX : K)
    (letters : List (Letter K)) (c : K) (s : List (Label K) × Nat) (i : Nat)
    (hy : ∀ k ∈ (nth s.1 i).n, (nth letters k).y = c)
    (hr : ∀ k ∈ (nth s.1 i).n, 0 < (nth letters k).r) :
    split_outer FLT_MAX letters s i = s := by
  unfold split_outer
  rw [if_neg]
  rw [low_count_zero]
  · exact Nat.lt_irrefl 0 ∘ Nat.lt_of_succ_lt
  · intro k hk ⟨ha, hlow⟩
    rw [alpha_mean_const letters c _ hy ⟨k, hk, ha⟩, hy k hk, sub_self] at hlow
    have := hr k hk
    linarith

theorem strip_charges_no_sign (s : List Char) (h1 : '-' ∉ s) (h2 : '+' ∉ s) :
    strip_charges s = some s := by
  have e : strip_round s [] = (s, [], false) := by
    unfold strip_round; rw [if_neg h1, if_neg h2, if_neg h1, if_neg h1]
  unfold strip_charges
  simp [strip_loop, e]

theorem range_map_nth {α β : Type} [Inhabited α] (f : α → β) (l : List α) :
    (List.range l.length).map (fun k => f (nth l k)) = l.map f := by
  apply List.ext_getElem
  · simp
  · intro i h1 h2
    have hi : i < l.length := by simpa using h2
    simp [nth_of_lt l i hi]

theorem nth_mem {α : Type} [Inhabited α] (l : List α) (i : Nat) (h : i < l.length) :
    nth l i ∈ l := by
  rw [nth_of_lt l i h]
  exact List.getElem_mem h

theorem consecutive_pairs_sorted {K : Type} [LinearOrderedField K] (letters : List (Letter K))
    (hx : letters.Pairwise (fun p q => p.x < q.x)) (m : Nat) (hm : m ≤ letters.length) :
    (consecutive_pairs letters m).Pairwise (fun p q => p.x < q.x) := by
  unfold consecutive_pairs
  rw [List.pairwise_map]
  refine List.Pairwise.imp_of_mem ?_ (List.pairwise_lt_range m)
  intro a b ha hb hab
  have ha2 : a < letters.length := Nat.lt_of_lt_of_le (List.mem_range.mp ha) hm
  have hb2 : b < letters.length := Nat.lt_of_lt_of_le (List.mem_range.mp hb) hm
  show (nth letters a).x < (nth letters b).x
  rw [nth_of_lt _ _ ha2, nth_of_lt _ _ hb2]
  exact List.pairwise_iff_getElem.mp hx a b ha2 hb2 hab

/-- C8. At least two letters (fewer than `MAX_ATOMS`, in a fresh `label`
vector) with strictly increasing `x`, one common `y`, positive radii, no `+` or
`-`, and every two neighbours closer than twice the larger of their radii:
`assemble_labels` returns exactly one label, and its string is the characters
of the letters in the order of increasing `x`.  `std::sort` may be any function
that sorts by the comparator. -/
theorem assemble_labels_line {K : Type} [LinearOrderedField K] (sqrt : K → K)
    (FLT_MAX : K) (MAX_ATOMS : Nat) (sort_letters : List (Letter K) → List (Letter K))
    (sort_lbonds : List (Lbond K) → List (Lbond K)) (letters : List (Letter K)) (y0 : K)
    (hsl : sorts_by comp_letters sort_letters) (hsb : sorts_by comp_lbonds sort_lbonds)
    (h2 : 2 ≤ letters.length) (hmax : letters.length < MAX_ATOMS)
    (hx : letters.Pairwise (fun p q => p.x < q.x))
    (hy : ∀ l ∈ letters, l.y = y0) (hr : ∀ l ∈ letters, 0 < l.r)
    (hsign : ∀ l ∈ letters, l.a ≠ '+' ∧ l.a ≠ '-')
    (hclose : ∀ i, i + 1 < letters.length →
      distance sqrt (nth letters i).x (nth letters i).y
          (nth letters (i + 1)).x (nth letters (i + 1)).y <
        2 * max (nth letters i).r (nth letters (i + 1)).r) :
    ∃ r, assemble_labels sqrt FLT_MAX MAX_ATOMS sort_letters sort_lbonds letters
        letters.length [] = some r ∧
      r.n_label = 1 ∧ (nth r.label 0).a = letters.map (fun l => l.a) := by
  have hsortL : sort_letters letters = letters :=
    sort_fixes_strict (fun l => l.x) comp_letters comp_letters_iff sort_letters hsl letters hx
  have hsortB : sort_lbonds (consecutive_pairs letters (letters.length - 1)) =
      consecutive_pairs letters (letters.length - 1) :=
    sort_fixes_strict (fun l => l.x) comp_lbonds comp_lbonds_iff sort_lbonds hsb _
      (consecutive_pairs_sorted letters hx _ (Nat.sub_le _ _))
  have hlb : ∀ i, i + 1 < letters.length →
      lb_close sqrt (nth letters i) (nth letters (i + 1)) := by
    intro i hi
    have m1 := nth_mem letters i (Nat.lt_of_succ_lt hi)
    have m2 := nth_mem letters (i + 1) hi
    refine Or.inl ⟨hclose i hi, Or.inl ?_⟩
    rw [hy _ m1, hy _ m2, sub_self, abs_zero]
    exact lt_min (hr _ m1) (hr _ m2)
  obtain ⟨p1, p2, p3⟩ := pair_letters_line sqrt MAX_ATOMS sort_letters letters hsortL h2
    hmax hlb
  obtain ⟨lab, b1, b2, b3, b4⟩ := build_labels_line FLT_MAX MAX_ATOMS sort_lbonds
    (pair_letters sqrt MAX_ATOMS sort_letters letters letters.length) letters p3 p1 p2
    hsortB h2 hmax
  have hy2 : ∀ k, k < letters.length →
      (nth (pair_letters sqrt MAX_ATOMS sort_letters letters letters.length).letters k).y = y0 ∧
      0 < (nth (pair_letters sqrt MAX_ATOMS sort_letters letters letters.length).letters k).r := by
    intro k hk
    have e1 : (nth (pair_letters sqrt MAX_ATOMS sort_letters letters letters.length).letters k).y
        = (nth letters k).y := congrArg (fun g => g.2.1) (p3 k)
    have e2 : (nth (pair_letters sqrt MAX_ATOMS sort_letters letters letters.length).letters k).r
        = (nth letters k).r := congrArg (fun g => g.2.2.1) (p3 k)
    rw [e1, e2]
    exact ⟨hy _ (nth_mem letters k hk), hr _ (nth_mem letters k hk)⟩
  have hpre : assemble_pre sqrt FLT_MAX MAX_ATOMS sort_letters sort_lbonds letters
      letters.length [] = ([lab], 1) := by
    unfold assemble_pre
    rw [b1, b2]
    have hr1 : List.range 1 = [0] := by decide
    rw [hr1]
    simp only [List.foldl_cons, List.foldl_nil]
    apply split_outer_line FLT_MAX _ y0
    · intro k hk
      have hk2 : k ∈ List.range letters.length := by
        have : (nth [lab] 0).n = lab.n := rfl
        rw [this, b4] at hk; exact hk
      exact (hy2 k (List.mem_range.mp hk2)).1
    · intro k hk
      have hk2 : k ∈ List.range letters.length := by
        have : (nth [lab] 0).n = lab.n := rfl
        rw [this, b4] at hk; exact hk
      exact (hy2 k (List.mem_range.mp hk2)).2
  have htext : lab.a = letters.map (fun l => l.a) := by
    rw [b3]; exact range_map_nth (fun l => l.a) letters
  have hns : strip_charges lab.a = some lab.a := by
    apply strip_charges_no_sign
    · rw [htext]
      intro h
      obtain ⟨l, hl, e⟩ := List.mem_map.mp h
      exact (hsign l hl).2 e
    · rw [htext]
      intro h
      obtain ⟨l, hl, e⟩ := List.mem_map.mp h
      exact (hsign l hl).1 e
  obtain ⟨out, o1, o2⟩ := strip_all_spec 1 [lab]
  have o3 := (o2 0).1 (by decide)
  have o4 : strip_charges (nth [lab] 0).a = some lab.a := hns
  rw [o4] at o3
  refine ⟨⟨(pair_letters sqrt MAX_ATOMS sort_letters letters letters.length).letters,
    out, 1⟩, ?_, rfl, ?_⟩
  · unfold assemble_labels
    rw [hpre]
    simp only [o1, Option.map_some']
  · show (nth out 0).a = _
    rw [← htext]
    exact (Option.some.inj o3).symm

theorem sort_letters_by_x_sorts {K : Type} [LinearOrderedField K] :
    sorts_by (comp_letters (K := K)) sort_letters_by_x := by
  intro v
  haveI : IsTotal (Letter K) (fun p q => p.x ≤ q.x) := ⟨fun p q => le_total p.x q.x⟩
  haveI : IsTrans (Letter K) (fun p q => p.x ≤ q.x) := ⟨fun _ _ _ h1 h2 => le_trans h1 h2⟩
  refine ⟨List.perm_insertionSort _ v, ?_⟩
  refine (List.sorted_insertionSort (fun p q : Letter K => p.x ≤ q.x) v).imp ?_
  intro p q hpq
  cases h : comp_letters q p with
  | false => rfl
  | true => exact absurd ((comp_letters_iff q p).mp h) (not_lt.mpr hpq)

theorem sort_lbonds_by_x_sorts {K : Type} [LinearOrderedField K] :
    sorts_by (comp_lbonds (K := K)) sort_lbonds_by_x := by
  intro v
  haveI : IsTotal (Lbond K) (fun p q => p.x ≤ q.x) := ⟨fun p q => le_total p.x q.x⟩
  haveI : IsTrans (Lbond K) (fun p q => p.x ≤ q.x) := ⟨fun _ _ _ h1 h2 => le_trans h1 h2⟩
  refine ⟨List.perm_insertionSort _ v, ?_⟩
  refine (List.sorted_insertionSort (fun p q : Lbond K => p.x ≤ q.x) v).imp ?_
  intro p q hpq
  cases h : comp_lbonds q p with
  | false => rfl
  | true => exact absurd ((comp_lbonds_iff q p).mp h) (not_lt.mpr hpq)

/-- Witness for C8: the letters `C`, `H`, `3` on one line give the label `CH3`. -/
theorem assemble_labels_line_witness :
    ch3_letters.Pairwise (fun p q => p.x < q.x) ∧ (∀ l ∈ ch3_letters, l.y = 0) ∧
    ∃ r, assemble_labels qsqrt 1000000 10000 sort_letters_by_x sort_lbonds_by_x ch3_letters
        3 [] = some r ∧
      r.n_label = 1 ∧ (nth r.label 0).a = ['C', 'H', '3'] :=
  ⟨by decide!, by decide!,
    assemble_labels_line qsqrt 1000000 10000 sort_letters_by_x sort_lbonds_by_x ch3_letters 0
      sort_letters_by_x_sorts sort_lbonds_by_x_sorts (by decide) (by decide) (by decide!)
      (by decide!) (by decide!) (by decide!)
      (fun i hi => by
        have hi3 : i + 1 < 3 := hi
        have h01 : i = 0 ∨ i = 1 := by omega
        rcases h01 with h | h
        · subst h; decide!
        · subst h; decide!)⟩

/-! ## C11: `collapse_atoms` is idempotent -/

theorem ca_inner_quiet {K : Type} [LinearOrderedField K] (sqrt : K → K) (n_atom n_bond : Nat)
    (dist : K) (atom : List (Atom K)) (bond : List Bond) (i j : Nat) (s : CAState K)
    (hs : QuietInv sqrt dist n_atom atom bond i j s) :
    QuietInv sqrt dist n_atom atom bond i (j + 1) (ca_inner sqrt n_bond dist i s j) := by
  unfold ca_inner
  split
  · intro hf
    exact absurd hf (by simp)
  · rename_i hc
    intro hf
    obtain ⟨h1, h2, h3, h4⟩ := hs hf
    refine ⟨h1, h2, h3, fun q hq => ?_⟩
    rcases Nat.lt_succ_iff_lt_or_eq.mp hq with h | h
    · exact h4 q h
    · subst h
      rw [h1] at hc
      intro hcl
      exact hc ⟨hcl.2.1, hcl.2.2.1, hcl.2.2.2⟩

theorem ca_outer_quiet {K : Type} [LinearOrderedField K] (sqrt : K → K) (n_atom n_bond : Nat)
    (dist : K) (atom : List (Atom K)) (bond : List Bond) (i : Nat) (s : CAState K)
    (hs : QuietInv sqrt dist n_atom atom bond i 0 s) :
    QuietInv sqrt dist n_atom atom bond (i + 1) 0 (ca_outer sqrt n_atom n_bond dist s i) := by
  have hfin : ∀ t : CAState K, QuietInv sqrt dist n_atom atom bond i n_atom t →
      QuietInv sqrt dist n_atom atom bond (i + 1) 0 t := by
    intro t ht hf
    obtain ⟨h1, h2, h3, h4⟩ := ht hf
    refine ⟨h1, h2, fun p q hp hq => ?_, fun q hq => absurd hq (Nat.not_lt_zero q)⟩
    rcases Nat.lt_succ_iff_lt_or_eq.mp hp with h | h
    · exact h3 p q h hq
    · subst h; exact h4 q hq
  unfold ca_outer
  split
  · rename_i hex
    by_cases hf : s.found = false
    · exact hfin _ (foldl_range_inv (fun j t => QuietInv sqrt dist n_atom atom bond i j t) _
        n_atom s hs
        (fun j t _ ht => ca_inner_quiet sqrt n_atom n_bond dist atom bond i j t ht))
    · have hkeep : ∀ (n : Nat), ((List.range n).foldl (ca_inner sqrt n_bond dist i) s).found
          = true := by
        intro n
        exact foldl_range_inv (fun _ t => t.found = true) (ca_inner sqrt n_bond dist i) n s
          (by simpa using hf)
          (fun j t _ ht => by
            show (ca_inner sqrt n_bond dist i t j).found = true
            unfold ca_inner
            split
            · rfl
            · exact ht)
      intro hf2
      rw [hkeep n_atom] at hf2
      exact absurd hf2 (by decide)
  · rename_i hex
    intro hf
    obtain ⟨h1, h2, h3, _⟩ := hs hf
    refine ⟨h1, h2, fun p q hp hq => ?_, fun q hq => absurd hq (Nat.not_lt_zero q)⟩
    rcases Nat.lt_succ_iff_lt_or_eq.mp hp with h | h
    · exact h3 p q h hq
    · subst h
      intro hcl
      rw [h1] at hex
      exact hex hcl.1

/-- A pass of `collapse_atoms` that leaves `found` unset has changed nothing and
has met no close pair of existing atoms. -/
theorem ca_pass_quiet {K : Type} [LinearOrderedField K] (sqrt : K → K) (n_atom n_bond : Nat)
    (dist : K) (atom : List (Atom K)) (bond : List Bond)
    (hf : (ca_pass sqrt n_atom n_bond dist atom bond).found = false) :
    (ca_pass sqrt n_atom n_bond dist atom bond).atom = atom ∧
    (ca_pass sqrt n_atom n_bond dist atom bond).bond = bond ∧
    ∀ p q, p < n_atom → q < n_atom → ¬ ca_close sqrt dist atom p q := by
  have h := foldl_range_inv (fun i t => QuietInv sqrt dist n_atom atom bond i 0 t)
    (ca_outer sqrt n_atom n_bond dist) n_atom ⟨atom, bond, false⟩
    (fun _ => ⟨rfl, rfl, fun p _ hp => absurd hp (Nat.not_lt_zero p),
      fun q hq => absurd hq (Nat.not_lt_zero q)⟩)
    (fun i t _ ht => ca_outer_quiet sqrt n_atom n_bond dist atom bond i t ht)
  obtain ⟨h1, h2, h3, _⟩ := h hf
  exact ⟨h1, h2, h3⟩

/-- Whatever `collapse_atoms` returns is a state in which a pass finds nothing. -/
theorem ca_loop_settled {K : Type} [LinearOrderedField K] (sqrt : K → K) (n_atom n_bond : Nat)
    (dist : K) : ∀ (fuel : Nat) (atom : List (Atom K)) (bond : List Bond)
    (r : List (Atom K) × List Bond),
    ca_loop sqrt n_atom n_bond dist fuel atom bond = some r →
    (ca_pass sqrt n_atom n_bond dist r.1 r.2).found = false := by
  intro fuel
  induction fuel with
  | zero => intro atom bond r h; simp [ca_loop] at h
  | succ f ih =>
    intro atom bond r h
    by_cases hf : (ca_pass sqrt n_atom n_bond dist atom bond).found = true
    · simp only [ca_loop, if_pos hf] at h
      exact ih _ _ r h
    · simp only [ca_loop, if_neg hf] at h
      have hf2 : (ca_pass sqrt n_atom n_bond dist atom bond).found = false := by
        simpa using hf
      obtain ⟨h1, h2, _⟩ := ca_pass_quiet sqrt n_atom n_bond dist atom bond hf2
      have hr : r = (atom, bond) := by
        rw [← Option.some.inj h, h1, h2]
      rw [hr]
      exact hf2

/-- C11. `collapse_atoms` terminates with a result `r` (the same for every fuel
above `n_atom`); in `r` no two distinct existing atoms below `n_atom` are closer
than `dist`, and a second call with the same `dist` returns `r` itself: the atom
vector and the bond vector are unchanged. -/
theorem collapse_atoms_idempotent {K : Type} [LinearOrderedField K] (sqrt : K → K)
    (atom : List (Atom K)) (bond : List Bond) (n_atom n_bond : Nat) (dist : K) :
    ∃ r, (∀ fuel, n_atom < fuel →
        collapse_atoms sqrt fuel atom bond n_atom n_bond dist = some r) ∧
      (∀ p q, p < n_atom → q < n_atom → (nth r.1 p).exists_ = true →
        (nth r.1 q).exists_ = true → q ≠ p →
        ¬ distance sqrt (nth r.1 p).x (nth r.1 p).y (nth r.1 q).x (nth r.1 q).y < dist) ∧
      (∀ fuel, 0 < fuel → collapse_atoms sqrt fuel r.1 r.2 n_atom n_bond dist = some r) := by
  obtain ⟨r, h1, _⟩ := ca_loop_spec sqrt n_atom n_bond dist n_atom atom bond
    (count_atoms_le atom n_atom)
  have hs := ca_loop_settled sqrt n_atom n_bond dist (n_atom + 1) atom bond r
    (h1 (n_atom + 1) (Nat.lt_succ_self n_atom))
  obtain ⟨q1, q2, q3⟩ := ca_pass_quiet sqrt n_atom n_bond dist r.1 r.2 hs
  refine ⟨r, h1, fun p q hp hq e1 e2 hne hd => q3 p q hp hq ⟨e1, e2, hne, hd⟩, ?_⟩
  intro fuel hfuel
  obtain ⟨f, rfl⟩ := Nat.exists_eq_succ_of_ne_zero (Nat.ne_of_gt hfuel)
  have hnf : ¬ (ca_pass sqrt n_atom n_bond dist r.1 r.2).found = true := by
    rw [hs]; decide
  unfold collapse_atoms
  simp only [ca_loop, if_neg hnf, q1, q2]

/-! ## C12, C13: `resolve_bridge_bonds` -/

theorem nth_modify {α : Type} [Inhabited α] (v : List α) (i : Nat) (f : α → α) (k : Nat) :
    nth (modify v i f) k = if i = k ∧ i < v.length then f (nth v k) else nth v k := by
  by_cases hk : i = k
  · subst hk
    by_cases hl : i < v.length
    · rw [nth_modify_eq _ _ _ hl, if_pos ⟨rfl, hl⟩]
    · rw [nth_modify_eq_of_le _ _ _ (Nat.le_of_not_lt hl), if_neg (fun h => hl h.2)]
  · rw [nth_modify_ne _ _ _ _ hk, if_neg (fun h => hk h.1)]

theorem list_ext_nth {α : Type} [Inhabited α] (l1 l2 : List α) (hlen : l1.length = l2.length)
    (h : ∀ k, k < l2.length → nth l1 k = nth l2 k) : l1 = l2 := by
  apply List.ext_getElem hlen
  intro k h1 h2
  have := h k h2
  rwa [nth_of_lt _ _ h1, nth_of_lt _ _ h2] at this

theorem rejoined_congr (x y z : Bond) (ha : y.a = z.a) (hb : y.b = z.b) :
    rejoined x y = rejoined x z := by
  unfold rejoined
  rw [ha, hb]

/-- Applying the endpoint chain twice gives the bond back. -/
theorem rejoined_rejoined (x y : Bond) : rejoined (rejoined x y) y = x := by
  obtain ⟨xa, xb, xt, xc, xe, xh, xw, xu, xd, xs, xr, xj⟩ := x
  obtain ⟨ya, yb, yt, yc, ye, yh, yw, yu, yd, ys, yr, yj⟩ := y
  unfold rejoined
  by_cases h1 : xa = ya
  · subst h1
    by_cases h2 : yb = xa
    · subst h2; simp
    · simp [h2]
  · by_cases h2 : xa = yb
    · subst h2
      simp [h1, Ne.symm h1]
    · by_cases h3 : xb = ya
      · subst h3
        by_cases h4 : yb = xb
        · subst h4; simp [h1]
        · simp [h1, h2, h4]
      · by_cases h4 : xb = yb
        · subst h4
          simp [h1, h2, h3, Ne.symm h3]
        · simp [h1, h2, h3, h4]

/-- Deleting and restoring an existing atom gives the vector back. -/
theorem restore_delete_atom {K : Type} [Zero K] (atom : List (Atom K)) (i : Nat)
    (h : (nth atom i).exists_ = true) : restore_atom (delete_atom atom i) i = atom := by
  unfold restore_atom delete_atom
  apply list_ext_nth _ _ (by simp)
  intro k _
  rw [nth_modify, nth_modify]
  by_cases hk : i = k
  · subst hk
    by_cases hl : i < atom.length
    · simp only [length_modify, hl, and_self, if_true]
      rw [← h]
    · simp [hl]
  · simp [hk]

/-- The statements that take the split back undo it on the bond vector, when
the four bonds are distinct and `b`, `d` existed. -/
theorem undo_split_bonds (bond : List Bond) (a b c d : Nat)
    (hab : a ≠ b) (hac : a ≠ c) (had : a ≠ d) (hbc : b ≠ c) (hbd : b ≠ d) (hcd : c ≠ d)
    (hb : (nth bond b).exists_ = true) (hd : (nth bond d).exists_ = true) :
    rbb_rejoin (rbb_rejoin (restore_bond (restore_bond
      (rbb_rejoin (rbb_rejoin (delete_bond (delete_bond bond b) d) a b) c d) b) d) a b) c d
      = bond := by
  have lb := exists_lt_length bond b hb
  have ld := exists_lt_length bond d hd
  apply list_ext_nth _ _ (by simp [rbb_rejoin, restore_bond, delete_bond])
  intro k _
  simp only [rbb_rejoin, restore_bond, delete_bond, nth_modify, length_modify]
  by_cases ka : k = a
  · subst ka
    by_cases la : k < bond.length
    · simp only [hab, hac, had, Ne.symm hab, Ne.symm hac, Ne.symm had, hbc, hbd, hcd,
        Ne.symm hbc, Ne.symm hbd, Ne.symm hcd, la, lb, ld, and_self, and_true, true_and,
        false_and, if_true, if_false]
      rw [rejoined_congr _ _ { nth bond b with exists_ := false } rfl rfl]
      exact rejoined_rejoined _ _
    · simp [hab, hac, had, Ne.symm hab, Ne.symm hac, Ne.symm had, la]
  · by_cases kb : k = b
    · subst kb
      simp only [hab, hbc, hbd, Ne.symm hab, Ne.symm hbc, Ne.symm hbd, lb, and_self, and_true,
        true_and, false_and, if_true, if_false]
      rw [← hb]
    · by_cases kc : k = c
      · subst kc
        by_cases lc : k < bond.length
        · simp only [hcd, Ne.symm hcd, Ne.symm had, had, Ne.symm hbd, hbd, ka, kb, Ne.symm ka,
            Ne.symm kb, lc, ld, and_self, and_true, true_and, false_and, if_true, if_false]
          rw [rejoined_congr _ _ { nth bond d with exists_ := false } rfl rfl]
          exact rejoined_rejoined _ _
        · simp [ka, kb, Ne.symm ka, Ne.symm kb, hcd, Ne.symm hcd, lc]
      · by_cases kd : k = d
        · subst kd
          simp only [ka, kb, kc, Ne.symm ka, Ne.symm kb, Ne.symm kc, ld, and_self, and_true,
            true_and, false_and, if_true, if_false]
          rw [← hd]
        · simp [Ne.symm ka, Ne.symm kb, Ne.symm kc, Ne.symm kd]

theorem rbb_rotate_short {K : Type} [LinearOrderedField K] (sqrt : K → K)
    (atom : List (Atom K)) (bond : List Bond) (thickness : K) (a e : Nat) (con : List Nat)
    (b : Nat) (h : con.length ≤ 2) :
    rbb_rotate sqrt atom bond thickness a e con b = (con, b) := by
  cases e with
  | zero => rfl
  | succ e => simp only [rbb_rotate, if_neg (Nat.not_lt.mpr h)]

/-- The loop of lines 2772-2782 started with three bonds ends either with the
same three bonds or with two of them and the third one in `b`. -/
theorem rbb_rotate_perm {K : Type} [LinearOrderedField K] (sqrt : K → K)
    (atom : List (Atom K)) (bond : List Bond) (thickness : K) (a : Nat) :
    ∀ (e : Nat) (con : List Nat) (b : Nat), con.length = 3 →
      (rbb_rotate sqrt atom bond thickness a e con b).1.Perm con ∨
      ((rbb_rotate sqrt atom bond thickness a e con b).2 ::
        (rbb_rotate sqrt atom bond thickness a e con b).1).Perm con := by
  intro e
  induction e with
  | zero => intro con b _; exact Or.inl (List.Perm.refl _)
  | succ e ih =>
    intro con b hlen
    match con, hlen with
    | h :: t, hlen =>
      have ht : t.length = 2 := by simpa using hlen
      have hgt : (h :: t).length > 2 := by simp [ht]
      simp only [rbb_rotate, if_pos hgt, List.headD_cons, List.tail_cons]
      by_cases hoff : rbb_off sqrt atom bond thickness a h
      · simp only [if_pos hoff]
        have hp : (t ++ [h]).Perm (h :: t) := List.perm_append_singleton h t
        rcases ih (t ++ [h]) h (by simp [ht]) with h1 | h1
        · exact Or.inl (h1.trans hp)
        · exact Or.inr (h1.trans hp)
      · simp only [if_neg hoff]
        rw [rbb_rotate_short sqrt atom bond thickness a e t h (Nat.le_of_eq ht)]
        exact Or.inr (List.Perm.refl _)

theorem mem_rbb_con (bond : List Bond) (n_bond i k : Nat) :
    k ∈ rbb_con bond n_bond i ↔
      k < n_bond ∧ (nth bond k).exists_ = true ∧ ((nth bond k).a = i ∨ (nth bond k).b = i) := by
  simp [rbb_con, List.mem_filter]

theorem nodup_rbb_con (bond : List Bond) (n_bond i : Nat) : (rbb_con bond n_bond i).Nodup :=
  (List.nodup_range n_bond).filter _

/-- What a plan `(a, b, c, d)` for atom `i` guarantees: the atom exists, and
`a`, `b`, `c`, `d` are the four bonds of `con`, in some order. -/
theorem rbb_plan_spec {K : Type} [LinearOrderedField K] (sqrt : K → K) (atom : List (Atom K))
    (bond : List Bond) (n_bond : Nat) (thickness : K) (i a b c d : Nat)
    (h : rbb_plan sqrt atom bond n_bond thickness i = some (a, b, c, d)) :
    (nth atom i).exists_ = true ∧ [a, b, c, d].Perm (rbb_con bond n_bond i) ∧
      rbb_accept sqrt atom bond n_bond thickness a b c d := by
  unfold rbb_plan at h
  split at h
  · rename_i h1
    split at h
    · rename_i h2
      split at h
      · rename_i h3
        split at h
        · rename_i h4
          have e := Option.some.inj h
          have ea : (rbb_con bond n_bond i).headD 0 = a := congrArg (fun q => q.1) e
          have eb : (rbb_pick sqrt atom bond n_bond thickness i).2 = b :=
            congrArg (fun q => q.2.1) e
          have ec : (rbb_pick sqrt atom bond n_bond thickness i).1.headD 0 = c :=
            congrArg (fun q => q.2.2.1) e
          have ed : (rbb_pick sqrt atom bond n_bond thickness i).1.tail.headD 0 = d :=
            congrArg (fun q => q.2.2.2) e
          rw [ea, eb, ec, ed] at h4
          refine ⟨h1.1, ?_, h4⟩
          match hcon : rbb_con bond n_bond i, h2 with
          | x :: t, h2 =>
            have ht : t.length = 3 := by simpa using h2
            rw [hcon] at ea
            have ea2 : x = a := by simpa using ea
            subst ea2
            have hpick : rbb_pick sqrt atom bond n_bond thickness i =
                rbb_rotate sqrt atom bond thickness x 3 t 0 := by
              unfold rbb_pick; rw [hcon]; rfl
            rw [hpick] at h3 eb ec ed
            rcases rbb_rotate_perm sqrt atom bond thickness x 3 t 0 ht with hp | hp
            · have := hp.length_eq
              omega
            · match hr : (rbb_rotate sqrt atom bond thickness x 3 t 0).1, h3 with
              | [c1, d1], _ =>
                rw [hr] at ec ed hp
                have ec2 : c1 = c := by simpa using ec
                have ed2 : d1 = d := by simpa using ed
                subst ec2; subst ed2
                rw [eb] at hp
                exact List.Perm.cons x hp
        · exact absurd h (by simp)
      · exact absurd h (by simp)
    · exact absurd h (by simp)
  · exact absurd h (by simp)

/-- C12. When the body of `resolve_bridge_bonds` tries the split `(a, b, c, d)` at
atom `i` and the statistics of the split state differ from those at entry in
the fragment count or in the rotor count, or have exactly two rings fewer, the
body leaves the state exactly as it was: the atom vector and the bond vector
(all `exists` flags and all endpoints) are those of before the split. -/
theorem resolve_bridge_bonds_rollback {K : Type} [LinearOrderedField K] (sqrt : K → K)
    (stats : List (Atom K) → List Bond → Nat → MolStats) (st1 : MolStats) (n_bond : Nat)
    (thickness : K) (s : List (Atom K) × List Bond) (i a b c d : Nat)
    (hplan : rbb_plan sqrt s.1 s.2 n_bond thickness i = some (a, b, c, d))
    (hch : rbb_changed st1
      (stats (rbb_split s i a b c d).1 (rbb_split s i a b c d).2 n_bond)) :
    rbb_body sqrt stats st1 n_bond thickness s i = s := by
  obtain ⟨hex, hperm, _⟩ := rbb_plan_spec sqrt s.1 s.2 n_bond thickness i a b c d hplan
  have hnd : [a, b, c, d].Nodup := hperm.nodup_iff.mpr (nodup_rbb_con s.2 n_bond i)
  have hb : (nth s.2 b).exists_ = true :=
    ((mem_rbb_con s.2 n_bond i b).mp (hperm.subset (by simp))).2.1
  have hd : (nth s.2 d).exists_ = true :=
    ((mem_rbb_con s.2 n_bond i d).mp (hperm.subset (by simp))).2.1
  simp only [List.nodup_cons, List.mem_cons, List.mem_singleton, not_or, List.not_mem_nil,
    not_false_eq_true, List.nodup_nil, and_true] at hnd
  obtain ⟨⟨hab, hac, had⟩, ⟨hbc, hbd⟩, hcd⟩ := hnd
  unfold rbb_body
  rw [hplan]
  show rbb_resolve stats st1 n_bond s i a b c d = s
  unfold rbb_resolve
  rw [if_pos hch]
  unfold rbb_undo rbb_split
  show (restore_atom (delete_atom s.1 i) i, _) = s
  rw [restore_delete_atom s.1 i hex]
  show (s.1, rbb_rejoin (rbb_rejoin (restore_bond (restore_bond
      (rbb_rejoin (rbb_rejoin (delete_bond (delete_bond s.2 b) d) a b) c d) b) d) a b) c d) = s
  rw [undo_split_bonds s.2 a b c d hab hac had hbc hbd hcd hb hd]

/-- Witness for C12: at the crossing `cross_atoms` the split of atom 0 is tried
with the bonds `(0, 2, 3, 1)`, it removes an atom, and it is taken back. -/
theorem resolve_bridge_bonds_rollback_witness :
    rbb_plan qsqrt cross_atoms cross_bonds 8 1 0 = some (0, 2, 3, 1) ∧
    rbb_split (cross_atoms, cross_bonds) 0 0 2 3 1 ≠ (cross_atoms, cross_bonds) ∧
    rbb_body qsqrt stats_atoms (stats_atoms cross_atoms cross_bonds 8) 8 1
      (cross_atoms, cross_bonds) 0 = (cross_atoms, cross_bonds) :=
  ⟨by decide!, by decide!,
    resolve_bridge_bonds_rollback qsqrt stats_atoms (stats_atoms cross_atoms cross_bonds 8) 8 1
      (cross_atoms, cross_bonds) 0 0 2 3 1 (by decide!) (by decide!)⟩

theorem rbb_rotate_all_off {K : Type} [LinearOrderedField K] (sqrt : K → K)
    (atom : List (Atom K)) (bond : List Bond) (thickness : K) (a : Nat) :
    ∀ (e : Nat) (con : List Nat) (b : Nat),
      (∀ q ∈ con, rbb_off sqrt atom bond thickness a q) →
      (rbb_rotate sqrt atom bond thickness a e con b).1.length = con.length := by
  intro e
  induction e with
  | zero => intro con b _; rfl
  | succ e ih =>
    intro con b hoff
    by_cases hgt : con.length > 2
    · match con, hgt, hoff with
      | h :: t, hgt, hoff =>
        simp only [rbb_rotate, if_pos hgt, List.headD_cons, List.tail_cons,
          if_pos (hoff h (List.mem_cons_self h t))]
        rw [ih (t ++ [h]) h (fun q hq => hoff q (by
          rcases List.mem_append.mp hq with h1 | h1
          · exact List.mem_cons_of_mem h h1
          · rw [List.mem_singleton.mp h1]; exact List.mem_cons_self h t))]
        simp
    · simp only [rbb_rotate, if_neg hgt]

/-- No split is planned at an atom whose bonds are pairwise off each other's line. -/
theorem rbb_plan_none {K : Type} [LinearOrderedField K] (sqrt : K → K) (atom : List (Atom K))
    (bond : List Bond) (n_bond : Nat) (thickness : K) (i : Nat)
    (h : (nth atom i).exists_ = true → (nth atom i).label = " " →
      (rbb_con bond n_bond i).length = 4 →
      ∀ p ∈ rbb_con bond n_bond i, ∀ q ∈ rbb_con bond n_bond i, p ≠ q →
        rbb_off sqrt atom bond thickness p q) :
    rbb_plan sqrt atom bond n_bond thickness i = none := by
  unfold rbb_plan
  split
  · rename_i h1
    split
    · rename_i h2
      have hoff := h h1.1 h1.2 h2
      have hnd := nodup_rbb_con bond n_bond i
      have hlen : (rbb_pick sqrt atom bond n_bond thickness i).1.length = 3 := by
        unfold rbb_pick
        match hcon : rbb_con bond n_bond i, h2 with
        | x :: t, h2 =>
          rw [hcon] at hoff hnd
          have ht : t.length = 3 := by simpa using h2
          simp only [List.headD_cons, List.tail_cons]
          rw [rbb_rotate_all_off sqrt atom bond thickness x 3 t 0 (fun q hq =>
            hoff x (List.mem_cons_self x t) q (List.mem_cons_of_mem x hq)
              (fun e => (List.nodup_cons.mp hnd).1 (e ▸ hq)))]
          exact ht
      rw [if_neg (by omega)]
    · rfl
  · rfl

/-- C13 (as amended). If at every existing unlabeled atom below `n_atom` with
exactly four existing bonds each of these bonds has, for every other of them, an
endpoint that lies more than `thickness` off the line through that other bond
(so for every two of them in both directions), then `resolve_bridge_bonds`
returns the atom vector and the bond vector unchanged. -/
theorem resolve_bridge_bonds_no_colinear {K : Type} [LinearOrderedField K] (sqrt : K → K)
    (stats : List (Atom K) → List Bond → Nat → MolStats)
    (atom : List (Atom K)) (n_atom : Nat) (bond : List Bond) (n_bond : Nat) (thickness : K)
    (h : ∀ i, i < n_atom → (nth atom i).exists_ = true → (nth atom i).label = " " →
      (rbb_con bond n_bond i).length = 4 →
      ∀ p ∈ rbb_con bond n_bond i, ∀ q ∈ rbb_con bond n_bond i, p ≠ q →
        rbb_off sqrt atom bond thickness p q) :
    resolve_bridge_bonds sqrt stats atom n_atom bond n_bond thickness =
      (atom, bond, (stats atom bond n_bond).fragments) := by
  have hfold : (List.range n_atom).foldl
      (rbb_body sqrt stats (stats atom bond n_bond) n_bond thickness) (atom, bond) =
      (atom, bond) :=
    foldl_range_inv (fun _ s => s = (atom, bond))
      (rbb_body sqrt stats (stats atom bond n_bond) n_bond thickness) n_atom (atom, bond) rfl
      (fun i s hi hs => by
        show rbb_body sqrt stats (stats atom bond n_bond) n_bond thickness s i = (atom, bond)
        rw [hs]
        unfold rbb_body
        rw [rbb_plan_none sqrt atom bond n_bond thickness i (h i hi)])
  unfold resolve_bridge_bonds
  rw [hfold]

/-- Witness for C13: the four arms of `star_atoms` meet at atom 0 and no two of
them lie on one line. -/
theorem resolve_bridge_bonds_no_colinear_witness :
    (rbb_con star_bonds 4 0).length = 4 ∧
    resolve_bridge_bonds qsqrt stats_atoms star_atoms 5 star_bonds 4 1 =
      (star_atoms, star_bonds, (stats_atoms star_atoms star_bonds 4).fragments) :=
  ⟨by decide,
    resolve_bridge_bonds_no_colinear qsqrt stats_atoms star_atoms 5 star_bonds 4 1
      (by decide!)⟩

/-- C13 (counterexample): at atom 0 of `skew_atoms`, the only atom with four
bonds, two long arms cross two short ones. Of every two of the four bonds some
endpoint of one lies more than `thickness = 7` off the line through the other
(the far end of a long arm is 24 off the line through the short arm that
continues it), yet the ends of the short arms 1 and 3 are within 7 of the lines
through the long arms 0 and 2, which is what the code tests. So the split is
made, and it is kept whenever the statistics after it do not differ from those
at entry, as with `stats_ring`: atom 0 and the bonds 1 and 3 are deleted and the
bonds 0 and 2 run from atom 2 to atom 1 and from atom 4 to atom 3. -/
theorem resolve_bridge_bonds_skew_counterexample :
    (∀ i, i < 5 → (nth skew_atoms i).exists_ = true → (nth skew_atoms i).label = " " →
      (rbb_con skew_bonds 8 i).length = 4 →
      ∀ p ∈ rbb_con skew_bonds 8 i, ∀ q ∈ rbb_con skew_bonds 8 i, p ≠ q →
        rbb_apart qsqrt skew_atoms skew_bonds 7 p q) ∧
    (rbb_con skew_bonds 8 0).length = 4 ∧
    ¬ rbb_off qsqrt skew_atoms skew_bonds 7 0 1 ∧
    (∀ stats : List (Atom ℚ) → List Bond → Nat → MolStats,
      ¬ rbb_changed (stats skew_atoms skew_bonds 8)
        (stats (rbb_split (skew_atoms, skew_bonds) 0 0 1 2 3).1
          (rbb_split (skew_atoms, skew_bonds) 0 0 1 2 3).2 8) →
      (resolve_bridge_bonds qsqrt stats skew_atoms 5 skew_bonds 8 7).1 =
        (rbb_split (skew_atoms, skew_bonds) 0 0 1 2 3).1 ∧
      (resolve_bridge_bonds qsqrt stats skew_atoms 5 skew_bonds 8 7).2.1 =
        (rbb_split (skew_atoms, skew_bonds) 0 0 1 2 3).2) ∧
    (resolve_bridge_bonds qsqrt stats_ring skew_atoms 5 skew_bonds 8 7).1.map
        (fun a => a.exists_) = [false, true, true, true, true] ∧
    (resolve_bridge_bonds qsqrt stats_ring skew_atoms 5 skew_bonds 8 7).2.1.map
        (fun b => (b.a, b.b, b.exists_)) =
      [(2, 1, true), (0, 2, false), (4, 3, true), (0, 4, false),
        (1, 3, true), (3, 2, true), (2, 4, true), (4, 1, true)] := by
  refine ⟨by decide!, by decide, by decide!, ?_, by decide!, by decide!⟩
  intro stats h
  have p0 : rbb_plan qsqrt skew_atoms skew_bonds 8 7 0 = some (0, 1, 2, 3) := by decide!
  have pk : ∀ i, i < 5 → i ≠ 0 →
      rbb_plan qsqrt (rbb_split (skew_atoms, skew_bonds) 0 0 1 2 3).1
        (rbb_split (skew_atoms, skew_bonds) 0 0 1 2 3).2 8 7 i = none := by
    intro i hi hne
    have hi4 : i = 1 ∨ i = 2 ∨ i = 3 ∨ i = 4 := by omega
    rcases hi4 with h | h | h | h <;> subst h <;> decide!
  have s0 : rbb_body qsqrt stats (stats skew_atoms skew_bonds 8) 8 7 (skew_atoms, skew_bonds) 0 =
      rbb_split (skew_atoms, skew_bonds) 0 0 1 2 3 := by
    unfold rbb_body
    show (match rbb_plan qsqrt skew_atoms skew_bonds 8 7 0 with
      | none => (skew_atoms, skew_bonds)
      | some q => rbb_resolve stats (stats skew_atoms skew_bonds 8) 8 (skew_atoms, skew_bonds) 0
          q.1 q.2.1 q.2.2.1 q.2.2.2) = _
    rw [p0]
    show rbb_resolve stats (stats skew_atoms skew_bonds 8) 8 (skew_atoms, skew_bonds) 0 0 1 2 3 = _
    unfold rbb_resolve
    rw [if_neg h]
  have sk : ∀ i, i < 5 → i ≠ 0 →
      rbb_body qsqrt stats (stats skew_atoms skew_bonds 8) 8 7
        (rbb_split (skew_atoms, skew_bonds) 0 0 1 2 3) i =
      rbb_split (skew_atoms, skew_bonds) 0 0 1 2 3 := by
    intro i hi hne
    unfold rbb_body
    rw [pk i hi hne]
  have hfold : (List.range 5).foldl
      (rbb_body qsqrt stats (stats skew_atoms skew_bonds 8) 8 7) (skew_atoms, skew_bonds) =
      rbb_split (skew_atoms, skew_bonds) 0 0 1 2 3 := by
    have e : List.range 5 = [0, 1, 2, 3, 4] := by decide
    rw [e]
    simp only [List.foldl]
    rw [s0, sk 1 (by decide) (by decide), sk 2 (by decide) (by decide),
      sk 3 (by decide) (by decide), sk 4 (by decide) (by decide)]
  unfold resolve_bridge_bonds
  rw [hfold]
  exact ⟨rfl, rfl⟩

/-! ## C14: `extend_dashed_bond` -/

theorem nth_set_x {K : Type} [Zero K] (atom : List (Atom K)) (i : Nat) (v : K) (k : Nat) :
    nth (set_x atom i v) k =
      if i = k ∧ i < atom.length then { nth atom k with x := v } else nth atom k := by
  unfold set_x; exact nth_modify _ _ _ _

theorem nth_set_y {K : Type} [Zero K] (atom : List (Atom K)) (i : Nat) (v : K) (k : Nat) :
    nth (set_y atom i v) k =
      if i = k ∧ i < atom.length then { nth atom k with y := v } else nth atom k := by
  unfold set_y; exact nth_modify _ _ _ _

theorem length_set_x {K : Type} [Zero K] (atom : List (Atom K)) (i : Nat) (v : K) :
    (set_x atom i v).length = atom.length := by
  unfold set_x; simp

theorem length_set_y {K : Type} [Zero K] (atom : List (Atom K)) (i : Nat) (v : K) :
    (set_y atom i v).length = atom.length := by
  unfold set_y; simp

/-- The value `kx * (-1. * l / (n - 1)) + x0` of line 2332 (and 2333). -/
theorem edb_back {K : Type} [LinearOrderedField K] (d l m x0 : K) (hl : l ≠ 0) :
    d / l * (-1 * l / m) + x0 = x0 - d / m := by
  by_cases hm : m = 0
  · subst hm; simp
  · field_simp
    ring

/-- The value `kx * l / (n - 1) + x1` of line 2334 (and 2335). -/
theorem edb_forth {K : Type} [LinearOrderedField K] (d l m x1 : K) (hl : l ≠ 0) :
    d / l * l / m + x1 = x1 + d / m := by
  rw [div_mul_cancel₀ d hl]
  ring

/-- Two distinct points are at a nonzero distance, for a square root that does
not vanish on positive numbers. -/
theorem distance_ne_zero {K : Type} [LinearOrderedField K] (sqrt : K → K)
    (hsqrt : ∀ v, 0 < v → sqrt v ≠ 0) (x0 y0 x1 y1 : K) (h : x0 ≠ x1 ∨ y0 ≠ y1) :
    distance sqrt x0 y0 x1 y1 ≠ 0 := by
  unfold distance
  apply hsqrt
  rcases h with h | h
  · have h1 : 0 < (x0 - x1) * (x0 - x1) := mul_self_pos.mpr (sub_ne_zero.mpr h)
    have h2 : 0 ≤ (y0 - y1) * (y0 - y1) := mul_self_nonneg _
    linarith
  · have h1 : 0 < (y0 - y1) * (y0 - y1) := mul_self_pos.mpr (sub_ne_zero.mpr h)
    have h2 : 0 ≤ (x0 - x1) * (x0 - x1) := mul_self_nonneg _
    linarith

/-- The effect of `extend_dashed_bond` on two atoms at distinct points. -/
theorem extend_dashed_bond_spec {K : Type} [LinearOrderedField K] (sqrt : K → K)
    (hsqrt : ∀ v, 0 < v → sqrt v ≠ 0) (atom : List (Atom K)) (a b : Nat) (n : Int)
    (ha : a < atom.length) (hb : b < atom.length)
    (hne : (nth atom a).x ≠ (nth atom b).x ∨ (nth atom a).y ≠ (nth atom b).y) :
    nth (extend_dashed_bond sqrt a b n atom) a =
        { nth atom a with
          x := (nth atom a).x - ((nth atom b).x - (nth atom a).x) / ((n - 1 : Int) : K),
          y := (nth atom a).y - ((nth atom b).y - (nth atom a).y) / ((n - 1 : Int) : K) } ∧
      nth (extend_dashed_bond sqrt a b n atom) b =
        { nth atom b with
          x := (nth atom b).x + ((nth atom b).x - (nth atom a).x) / ((n - 1 : Int) : K),
          y := (nth atom b).y + ((nth atom b).y - (nth atom a).y) / ((n - 1 : Int) : K) } ∧
      ∀ k, k ≠ a → k ≠ b → nth (extend_dashed_bond sqrt a b n atom) k = nth atom k := by
  have hl := distance_ne_zero sqrt hsqrt _ _ _ _ hne
  have hab : a ≠ b := by
    intro e; subst e
    rcases hne with h | h <;> exact h rfl
  unfold extend_dashed_bond
  rw [edb_back _ _ _ _ hl, edb_back _ _ _ _ hl, edb_forth _ _ _ _ hl, edb_forth _ _ _ _ hl]
  refine ⟨?_, ?_, ?_⟩
  · simp only [nth_set_y, nth_set_x, length_set_x, length_set_y, hab, Ne.symm hab, ha,
      false_and, and_self, if_true, if_false]
  · simp only [nth_set_y, nth_set_x, length_set_x, length_set_y, hab, Ne.symm hab, hb,
      false_and, and_self, if_true, if_false]
  · intro k hka hkb
    simp only [nth_set_y, nth_set_x, length_set_x, length_set_y, Ne.symm hka, Ne.symm hkb,
      false_and, if_false]

/-- A function that sorts like `qsort` returns the one arrangement with strictly
increasing keys, when there is one. -/
theorem qsort_fixes_strict {α : Type} {K : Type} [LinearOrderedField K] (key : α → K)
    (comp : α → α → Int) (hcomp : ∀ p q, comp p q ≤ 0 → key p ≤ key q)
    (sort : List α → List α) (hs : qsorts_by comp sort) (v w : List α) (hvw : v.Perm w)
    (hw : w.Pairwise (fun p q => key p < key q)) : sort v = w := by
  obtain ⟨hperm, hsorted⟩ := hs v
  have hne : (sort v).Pairwise (fun p q => key p ≠ key q) :=
    (hperm.trans hvw).symm.pairwise (hw.imp (fun h => ne_of_lt h)) (fun h => h.symm)
  have hlt : (sort v).Pairwise (fun p q => key p < key q) :=
    (hsorted.and hne).imp (fun h => lt_of_le_of_ne (hcomp _ _ h.1) h.2)
  haveI : IsAntisymm α (fun p q => key p < key q) :=
    ⟨fun a b h1 h2 => absurd (lt_trans h1 h2) (lt_irrefl _)⟩
  exact List.eq_of_perm_of_sorted (hperm.trans hvw) hlt hw

theorem comp_dashes_x_le {K : Type} [LinearOrderedField K] (p q : Dash K)
    (h : comp_dashes_x p q ≤ 0) : p.x ≤ q.x := by
  unfold comp_dashes_x at h
  by_contra hc
  have h1 : ¬ p.x < q.x := fun h2 => hc (le_of_lt h2)
  have h2 : ¬ p.x = q.x := fun h2 => hc (le_of_eq h2)
  have h3 : p.x > q.x := lt_of_not_le hc
  rw [if_neg h1, if_neg h2, if_pos h3] at h
  exact absurd h (by decide)

theorem comp_dashes_y_le {K : Type} [LinearOrderedField K] (p q : Dash K)
    (h : comp_dashes_y p q ≤ 0) : p.y ≤ q.y := by
  unfold comp_dashes_y at h
  by_contra hc
  have h1 : ¬ p.y < q.y := fun h2 => hc (le_of_lt h2)
  have h2 : ¬ p.y = q.y := fun h2 => hc (le_of_eq h2)
  have h3 : p.y > q.y := lt_of_not_le hc
  rw [if_neg h1, if_neg h2, if_pos h3] at h
  exact absurd h (by decide)

theorem nth_push_self {α : Type} [Inhabited α] (v : List α) (n : Nat) (x : α)
    (h : n ≤ v.length) : nth ((v ++ [default]).set n x) n = x := by
  unfold nth
  rw [List.getElem?_set_self (by simp; omega)]
  rfl

theorem nth_push_ne {α : Type} [Inhabited α] (v : List α) (n k : Nat) (x : α) (h : n ≠ k) :
    nth ((v ++ [default]).set n x) k = nth v k := by
  rw [nth_set_ne _ _ _ _ h, nth_append_default]

theorem length_dc_atoms {K : Type} [Zero K] (curve : Nat) (n : Nat) (atom : List (Atom K)) :
    ((List.range n).foldl (dc_atom curve) atom).length = atom.length :=
  foldl_range_inv (fun _ v => v.length = atom.length) (dc_atom curve) n atom rfl
    (fun i v _ hv => by
      show (dc_atom curve v i).length = atom.length
      unfold dc_atom delete_atom
      split
      · rw [length_modify, hv]
      · exact hv)

theorem length_dc_bonds (curve : Nat) (n : Nat) (bond : List Bond) :
    ((List.range n).foldl (dc_bond curve) bond).length = bond.length :=
  foldl_range_inv (fun _ v => v.length = bond.length) (dc_bond curve) n bond rfl
    (fun i v _ hv => by
      show (dc_bond curve v i).length = bond.length
      unfold dc_bond delete_bond
      split
      · rw [length_modify, hv]
      · exact hv)

theorem length_fdb_delete {K : Type} [Zero K] (ds : List (Dash K)) (n : Nat) (s : DtState K) :
    (fdb_delete ds n s).1.length = s.atom.length ∧
    (fdb_delete ds n s).2.length = s.bond.length := by
  unfold fdb_delete
  exact foldl_range_inv
    (fun _ st => st.1.length = s.atom.length ∧ st.2.length = s.bond.length)
    (fun st j => delete_curve st.1 st.2 s.n_atom s.n_bond (nth ds j).curve) n
    (s.atom, s.bond) ⟨rfl, rfl⟩
    (fun j st _ hst => by
      show (delete_curve st.1 st.2 s.n_atom s.n_bond (nth ds j).curve).1.length = _ ∧
        (delete_curve st.1 st.2 s.n_atom s.n_bond (nth ds j).curve).2.length = _
      unfold delete_curve
      exact ⟨by rw [length_dc_atoms]; exact hst.1, by rw [length_dc_bonds]; exact hst.2⟩)

/-- Evenly spaced marks lie on one line. -/
theorem fdb_one_line_even {K : Type} [LinearOrderedField K] (V_DISPLACEMENT : K)
    (hV : 0 ≤ V_DISPLACEMENT) (px py gx gy : K) (c0 c1 c2 c3 : Nat) (a0 a1 a2 a3 : Int)
    (hg : gx ≠ 0 ∨ gy ≠ 0) :
    fdb_one_line V_DISPLACEMENT (even_marks px py gx gy c0 c1 c2 c3 a0 a1 a2 a3) 4 = true := by
  have hz : ∀ j : K, ¬ |(if |px + 3 * gx - px| > |py + 3 * gy - py| then
        (py + 3 * gy - py) / (px + 3 * gx - px) * (px + j * gx - px) - (py + j * gy - py)
      else (px + 3 * gx - px) / (py + 3 * gy - py) * (py + j * gy - py) - (px + j * gx - px))|
      > V_DISPLACEMENT := by
    intro j
    have e : (if |px + 3 * gx - px| > |py + 3 * gy - py| then
        (py + 3 * gy - py) / (px + 3 * gx - px) * (px + j * gx - px) - (py + j * gy - py)
      else (px + 3 * gx - px) / (py + 3 * gy - py) * (py + j * gy - py) - (px + j * gx - px))
        = 0 := by
      split
      · rename_i h
        have hx : gx ≠ 0 := by
          intro e0; subst e0
          simp only [mul_zero, add_zero, sub_self, abs_zero] at h
          exact absurd h (not_lt.mpr (abs_nonneg _))
        field_simp
        ring
      · rename_i h
        have hy : gy ≠ 0 := by
          intro e0; subst e0
          simp only [mul_zero, add_zero, sub_self, abs_zero, gt_iff_lt, abs_pos, not_lt,
            abs_nonpos_iff] at h
          rcases hg with h1 | h1
          · apply h1
            have : px + 3 * gx - px = 3 * gx := by ring
            rw [this] at h
            simpa using h
          · exact h1 rfl
        field_simp
        ring
    rw [e, abs_zero]
    exact not_lt.mpr hV
  have h1 := hz 1
  have h2 := hz 2
  simp only [one_mul] at h1
  simp only [fdb_one_line, even_marks, List.range', List.foldl, nth, List.getElem?_cons_zero,
    List.getElem?_cons_succ, Option.getD_some, if_neg h1, if_neg h2]

theorem extend_even {K : Type} [LinearOrderedField K] (sqrt : K → K)
    (hsqrt : ∀ v, 0 < v → sqrt v ≠ 0) (A : List (Atom K)) (p q : Nat)
    (hp : p < A.length) (hq : q < A.length) (x0 y0 gx gy : K) (c d : Nat)
    (hg : gx ≠ 0 ∨ gy ≠ 0)
    (h0 : nth A p = ⟨x0, y0, " ", 0, 0, c, true, false, false, 0⟩)
    (h3 : nth A q = ⟨x0 + 3 * gx, y0 + 3 * gy, " ", 0, 0, d, true, false, false, 0⟩) :
    (nth (extend_dashed_bond sqrt p q ((4 : Nat) : Int) A) p =
        ⟨x0 - gx, y0 - gy, " ", 0, 0, c, true, false, false, 0⟩ ∧
      nth (extend_dashed_bond sqrt p q ((4 : Nat) : Int) A) q =
        ⟨x0 + 3 * gx + gx, y0 + 3 * gy + gy, " ", 0, 0, d, true, false, false, 0⟩) ∧
    (nth (extend_dashed_bond sqrt q p ((4 : Nat) : Int) A) p =
        ⟨x0 - gx, y0 - gy, " ", 0, 0, c, true, false, false, 0⟩ ∧
      nth (extend_dashed_bond sqrt q p ((4 : Nat) : Int) A) q =
        ⟨x0 + 3 * gx + gx, y0 + 3 * gy + gy, " ", 0, 0, d, true, false, false, 0⟩) := by
  have hne : (nth A p).x ≠ (nth A q).x ∨ (nth A p).y ≠ (nth A q).y := by
    rw [h0, h3]
    rcases hg with h | h
    · left; intro e; apply h
      have e2 : x0 = x0 + 3 * gx := e
      have : 3 * gx = 0 := by linarith
      simpa using this
    · right; intro e; apply h
      have e2 : y0 = y0 + 3 * gy := e
      have : 3 * gy = 0 := by linarith
      simpa using this
  have hne2 : (nth A q).x ≠ (nth A p).x ∨ (nth A q).y ≠ (nth A p).y := by
    rcases hne with h | h
    · exact Or.inl (Ne.symm h)
    · exact Or.inr (Ne.symm h)
  have hcast : (((((4 : Nat) : Int) - 1 : Int)) : K) = 3 := by norm_num
  obtain ⟨x1, x2, _⟩ := extend_dashed_bond_spec sqrt hsqrt A p q ((4 : Nat) : Int) hp hq hne
  obtain ⟨z1, z2, _⟩ := extend_dashed_bond_spec sqrt hsqrt A q p ((4 : Nat) : Int) hq hp hne2
  rw [x1, x2, z1, z2, hcast, h0, h3]
  simp only [Atom.mk.injEq, and_true, true_and]
  refine ⟨⟨⟨?_, ?_⟩, ?_, ?_⟩, ⟨?_, ?_⟩, ?_, ?_⟩ <;> ring

/-- The hash bond built from four sorted marks of which the last lies three gaps
`(gx, gy)` after the first: the new atoms `n_atom` and `n_atom + 1` end up one
gap before the first and one gap after the last mark. -/
theorem fdb_hash_bond_even {K : Type} [LinearOrderedField K] (sqrt : K → K)
    (hsqrt : ∀ v, 0 < v → sqrt v ≠ 0) (MAX_ATOMS : Nat) (s : DtState K) (ds : List (Dash K))
    (px py gx gy : K) (c0 c3 : Nat) (a0 a3 : Int)
    (e0 : nth ds 0 = ⟨px, py, false, c0, a0⟩)
    (e3 : nth ds 3 = ⟨px + 3 * gx, py + 3 * gy, false, c3, a3⟩)
    (hg : gx ≠ 0 ∨ gy ≠ 0) (hna : s.n_atom ≤ s.atom.length) (hnb : s.n_bond ≤ s.bond.length)
    (hmax : s.n_atom + 2 < MAX_ATOMS) :
    (nth (fdb_hash_bond sqrt MAX_ATOMS ds 4 s).bond s.n_bond).exists_ = true ∧
    (nth (fdb_hash_bond sqrt MAX_ATOMS ds 4 s).bond s.n_bond).hash = true ∧
    (nth (fdb_hash_bond sqrt MAX_ATOMS ds 4 s).bond s.n_bond).type = 1 ∧
    (((nth (fdb_hash_bond sqrt MAX_ATOMS ds 4 s).bond s.n_bond).a = s.n_atom ∧
        (nth (fdb_hash_bond sqrt MAX_ATOMS ds 4 s).bond s.n_bond).b = s.n_atom + 1) ∨
      ((nth (fdb_hash_bond sqrt MAX_ATOMS ds 4 s).bond s.n_bond).a = s.n_atom + 1 ∧
        (nth (fdb_hash_bond sqrt MAX_ATOMS ds 4 s).bond s.n_bond).b = s.n_atom)) ∧
    nth (fdb_hash_bond sqrt MAX_ATOMS ds 4 s).atom s.n_atom =
      ⟨px - gx, py - gy, " ", 0, 0, c0, true, false, false, 0⟩ ∧
    nth (fdb_hash_bond sqrt MAX_ATOMS ds 4 s).atom (s.n_atom + 1) =
      ⟨px + 3 * gx + gx, py + 3 * gy + gy, " ", 0, 0, c3, true, false, false, 0⟩ := by
  obtain ⟨hl1, hl2⟩ := length_fdb_delete ds 4 s
  have hb1 : bump MAX_ATOMS s.n_atom = s.n_atom + 1 := bump_lt _ _ (by omega)
  have hb2 : bump MAX_ATOMS (bump MAX_ATOMS s.n_atom) = s.n_atom + 2 := by
    rw [hb1]; exact bump_lt _ _ (by omega)
  have e3b : nth ds (4 - 1) = ⟨px + 3 * gx, py + 3 * gy, false, c3, a3⟩ := e3
  have hA0 : nth (fdb_atoms MAX_ATOMS ds 4 (fdb_delete ds 4 s).1 s.n_atom) s.n_atom =
      ⟨px, py, " ", 0, 0, c0, true, false, false, 0⟩ := by
    unfold fdb_atoms push_atom
    rw [hb1, nth_push_ne _ _ _ _ (by omega), nth_push_self _ _ _ (by omega), e0]
  have hA1 : nth (fdb_atoms MAX_ATOMS ds 4 (fdb_delete ds 4 s).1 s.n_atom) (s.n_atom + 1) =
      ⟨px + 3 * gx, py + 3 * gy, " ", 0, 0, c3, true, false, false, 0⟩ := by
    unfold fdb_atoms push_atom
    rw [hb1, nth_push_self _ _ _ (by simp; omega), e3b]
  have hAl : (fdb_atoms MAX_ATOMS ds 4 (fdb_delete ds 4 s).1 s.n_atom).length =
      s.atom.length + 2 := by
    unfold fdb_atoms push_atom
    simp [hl1]
  obtain ⟨⟨p1, p2⟩, q1, q2⟩ := extend_even sqrt hsqrt
    (fdb_atoms MAX_ATOMS ds 4 (fdb_delete ds 4 s).1 s.n_atom) s.n_atom (s.n_atom + 1)
    (by omega) (by omega) px py gx gy c0 c3 hg hA0 hA1
  have hbond : (fdb_hash_bond sqrt MAX_ATOMS ds 4 s).bond =
      fdb_bond ds 4 (fdb_delete ds 4 s).2 s.n_bond (s.n_atom + 2) := by
    unfold fdb_hash_bond; rw [hb2]
  have hatom : (fdb_hash_bond sqrt MAX_ATOMS ds 4 s).atom =
      extend_dashed_bond sqrt
        (nth (fdb_bond ds 4 (fdb_delete ds 4 s).2 s.n_bond (s.n_atom + 2)) s.n_bond).a
        (nth (fdb_bond ds 4 (fdb_delete ds 4 s).2 s.n_bond (s.n_atom + 2)) s.n_bond).b
        ((4 : Nat) : Int) (fdb_atoms MAX_ATOMS ds 4 (fdb_delete ds 4 s).1 s.n_atom) := by
    unfold fdb_hash_bond; rw [hb2]
  rw [hbond, hatom]
  by_cases hsw : (nth ds 0).area > (nth ds (4 - 1)).area
  · have hB : nth (fdb_bond ds 4 (fdb_delete ds 4 s).2 s.n_bond (s.n_atom + 2)) s.n_bond =
        ⟨s.n_atom + 1, s.n_atom, 1, c0, true, true, false, false, false, false, false, false⟩ := by
      unfold fdb_bond bond_end_swap
      rw [if_pos hsw, nth_modify_eq _ _ _ (by simp; omega), nth_push_self _ _ _ (by omega), e0]
      simp
    rw [hB]
    exact ⟨rfl, rfl, rfl, Or.inr ⟨rfl, rfl⟩, q1, q2⟩
  · have hB : nth (fdb_bond ds 4 (fdb_delete ds 4 s).2 s.n_bond (s.n_atom + 2)) s.n_bond =
        ⟨s.n_atom, s.n_atom + 1, 1, c0, true, true, false, false, false, false, false, false⟩ := by
      unfold fdb_bond
      rw [if_neg hsw, nth_push_self _ _ _ (by omega), e0]
      simp
    rw [hB]
    exact ⟨rfl, rfl, rfl, Or.inl ⟨rfl, rfl⟩, p1, p2⟩

theorem even_marks_sorted_x {K : Type} [LinearOrderedField K] (px py gx gy : K)
    (c0 c1 c2 c3 : Nat) (a0 a1 a2 a3 : Int) (hg : 0 < gx) :
    (even_marks px py gx gy c0 c1 c2 c3 a0 a1 a2 a3).Pairwise (fun p q => p.x < q.x) := by
  simp only [even_marks, List.pairwise_cons, List.mem_cons, List.mem_singleton,
    List.not_mem_nil, forall_eq_or_imp, forall_eq, List.Pairwise.nil, and_true,
    IsEmpty.forall_iff, implies_true]
  refine ⟨⟨?_, ?_, ?_⟩, ⟨?_, ?_⟩, ?_⟩ <;> linarith

theorem even_marks_sorted_y {K : Type} [LinearOrderedField K] (px py gx gy : K)
    (c0 c1 c2 c3 : Nat) (a0 a1 a2 a3 : Int) (hg : 0 < gy) :
    (even_marks px py gx gy c0 c1 c2 c3 a0 a1 a2 a3).Pairwise (fun p q => p.y < q.y) := by
  simp only [even_marks, List.pairwise_cons, List.mem_cons, List.mem_singleton,
    List.not_mem_nil, forall_eq_or_imp, forall_eq, List.Pairwise.nil, and_true,
    IsEmpty.forall_iff, implies_true]
  refine ⟨⟨?_, ?_, ?_⟩, ⟨?_, ?_⟩, ?_⟩ <;> linarith

/-- Lines 2555-2637 on four evenly spaced marks, listed in any order: the marks
are sorted into their order along the line and the hash bond is built. -/
theorem fdb_finish_even {K : Type} [LinearOrderedField K] (sqrt : K → K)
    (V_DISPLACEMENT : K) (MAX_ATOMS : Nat) (sort_x sort_y : List (Dash K) → List (Dash K))
    (dash : List (Dash K)) (l r t b : K) (s : DtState K)
    (px py gx gy : K) (c0 c1 c2 c3 : Nat) (a0 a1 a2 a3 : Int)
    (hsx : qsorts_by comp_dashes_x sort_x) (hsy : qsorts_by comp_dashes_y sort_y)
    (hV : 0 ≤ V_DISPLACEMENT)
    (hperm : (dash.take 4).Perm (even_marks px py gx gy c0 c1 c2 c3 a0 a1 a2 a3))
    (hx : r - l > b - t → 0 < gx) (hy : ¬ r - l > b - t → 0 < gy) :
    fdb_finish sqrt V_DISPLACEMENT MAX_ATOMS sort_x sort_y dash 4 l r t b s =
      fdb_hash_bond sqrt MAX_ATOMS (even_marks px py gx gy c0 c1 c2 c3 a0 a1 a2 a3) 4 s := by
  have hg : gx ≠ 0 ∨ gy ≠ 0 := by
    by_cases h : r - l > b - t
    · exact Or.inl (ne_of_gt (hx h))
    · exact Or.inr (ne_of_gt (hy h))
  have hsorted : (if r - l > b - t then sort_x (dash.take 4) else sort_y (dash.take 4)) =
      even_marks px py gx gy c0 c1 c2 c3 a0 a1 a2 a3 := by
    split
    · rename_i h
      exact qsort_fixes_strict (fun p => p.x) comp_dashes_x comp_dashes_x_le sort_x hsx _ _
        hperm (even_marks_sorted_x px py gx gy c0 c1 c2 c3 a0 a1 a2 a3 (hx h))
    · rename_i h
      exact qsort_fixes_strict (fun p => p.y) comp_dashes_y comp_dashes_y_le sort_y hsy _ _
        hperm (even_marks_sorted_y px py gx gy c0 c1 c2 c3 a0 a1 a2 a3 (hy h))
  unfold fdb_finish
  rw [if_pos (by decide), hsorted,
    if_pos (fdb_one_line_even V_DISPLACEMENT hV px py gx gy c0 c1 c2 c3 a0 a1 a2 a3 hg)]

theorem isqrt_iter_pos (n : Nat) (hn : 1 ≤ n) :
    ∀ (fuel x : Nat), 1 ≤ x → 1 ≤ isqrt_iter n fuel x := by
  intro fuel
  induction fuel with
  | zero => intro x hx; exact hx
  | succ f ih =>
    intro x hx
    simp only [isqrt_iter]
    split
    · apply ih
      rcases Nat.eq_or_lt_of_le hx with h | h
      · subst h
        rw [Nat.div_one]
        omega
      · have : 0 ≤ n / x := Nat.zero_le _
        omega
    · exact hx

theorem isqrt_pos (n : Nat) (hn : 1 ≤ n) : 1 ≤ isqrt n := by
  unfold isqrt
  split
  · exact hn
  · exact isqrt_iter_pos n hn n n hn

/-- The square root used on `ℚ` does not vanish on positive numbers. -/
theorem qsqrt_ne_zero (v : ℚ) (hv : 0 < v) : qsqrt v ≠ 0 := by
  unfold qsqrt
  have h1 : 1 ≤ isqrt v.num.toNat := by
    apply isqrt_pos
    have := Rat.num_pos.mpr hv
    omega
  have h2 : 1 ≤ isqrt v.den := isqrt_pos _ v.den_pos
  have h3 : ((isqrt v.num.toNat : Nat) : ℚ) ≠ 0 := by
    exact_mod_cast Nat.ne_of_gt h1
  have h4 : ((isqrt v.den : Nat) : ℚ) ≠ 0 := by
    exact_mod_cast Nat.ne_of_gt h2
  exact div_ne_zero h3 h4

theorem sort_dashes_by_x_sorts {K : Type} [LinearOrderedField K] :
    qsorts_by (comp_dashes_x (K := K)) sort_dashes_by_x := by
  intro v
  haveI : IsTotal (Dash K) (fun p q => p.x ≤ q.x) := ⟨fun p q => le_total p.x q.x⟩
  haveI : IsTrans (Dash K) (fun p q => p.x ≤ q.x) := ⟨fun _ _ _ h1 h2 => le_trans h1 h2⟩
  refine ⟨List.perm_insertionSort _ v, ?_⟩
  refine (List.sorted_insertionSort (fun p q : Dash K => p.x ≤ q.x) v).imp ?_
  intro p q hpq
  unfold comp_dashes_x
  split
  · decide
  · split
    · decide
    · rename_i h1 h2
      exact absurd (lt_of_le_of_ne hpq h2) h1

theorem sort_dashes_by_y_sorts {K : Type} [LinearOrderedField K] :
    qsorts_by (comp_dashes_y (K := K)) sort_dashes_by_y := by
  intro v
  haveI : IsTotal (Dash K) (fun p q => p.y ≤ q.y) := ⟨fun p q => le_total p.y q.y⟩
  haveI : IsTrans (Dash K) (fun p q => p.y ≤ q.y) := ⟨fun _ _ _ h1 h2 => le_trans h1 h2⟩
  refine ⟨List.perm_insertionSort _ v, ?_⟩
  refine (List.sorted_insertionSort (fun p q : Dash K => p.y ≤ q.y) v).imp ?_
  intro p q hpq
  unfold comp_dashes_y
  split
  · decide
  · split
    · decide
    · rename_i h1 h2
      exact absurd (lt_of_le_of_ne hpq h2) h1

/-- C14. For a square root that does not vanish on positive numbers:
`extend_dashed_bond(a, b, n, atom)` with `n >= 2` on two atoms at distinct
points moves atom `a` to `a - (b - a) / (n - 1)` and atom `b` to
`b + (b - a) / (n - 1)`, leaving their other fields and every other atom as they
were; and for four evenly spaced marks `p, p + g, p + 2 g, p + 3 g` (given in
any order, `g` pointing up the axis they are sorted by) the end of
`find_dashed_bonds` (lines 2555-2637) builds one existing hash bond of order 1
between the new atoms `n_atom` and `n_atom + 1`, which lie at `p - g` and at
`p + 3 g + g`. -/
theorem extend_dashed_bond_gap {K : Type} [LinearOrderedField K] (sqrt : K → K)
    (hsqrt : ∀ v, 0 < v → sqrt v ≠ 0) :
    (∀ (atom : List (Atom K)) (a b : Nat) (n : Int),
      a < atom.length → b < atom.length → 2 ≤ n →
      ((nth atom a).x ≠ (nth atom b).x ∨ (nth atom a).y ≠ (nth atom b).y) →
      nth (extend_dashed_bond sqrt a b n atom) a =
          { nth atom a with
            x := (nth atom a).x - ((nth atom b).x - (nth atom a).x) / ((n - 1 : Int) : K),
            y := (nth atom a).y - ((nth atom b).y - (nth atom a).y) / ((n - 1 : Int) : K) } ∧
        nth (extend_dashed_bond sqrt a b n atom) b =
          { nth atom b with
            x := (nth atom b).x + ((nth atom b).x - (nth atom a).x) / ((n - 1 : Int) : K),
            y := (nth atom b).y + ((nth atom b).y - (nth atom a).y) / ((n - 1 : Int) : K) } ∧
        ∀ k, k ≠ a → k ≠ b → nth (extend_dashed_bond sqrt a b n atom) k = nth atom k) ∧
    (∀ (V_DISPLACEMENT : K) (MAX_ATOMS : Nat) (sort_x sort_y : List (Dash K) → List (Dash K))
      (dash : List (Dash K)) (l r t b : K) (s : DtState K) (px py gx gy : K)
      (c0 c1 c2 c3 : Nat) (a0 a1 a2 a3 : Int),
      qsorts_by comp_dashes_x sort_x → qsorts_by comp_dashes_y sort_y →
      0 ≤ V_DISPLACEMENT →
      (dash.take 4).Perm (even_marks px py gx gy c0 c1 c2 c3 a0 a1 a2 a3) →
      (r - l > b - t → 0 < gx) → (¬ r - l > b - t → 0 < gy) →
      s.n_atom ≤ s.atom.length → s.n_bond ≤ s.bond.length → s.n_atom + 2 < MAX_ATOMS →
      (nth (fdb_finish sqrt V_DISPLACEMENT MAX_ATOMS sort_x sort_y dash 4 l r t b s).bond
          s.n_bond).exists_ = true ∧
      (nth (fdb_finish sqrt V_DISPLACEMENT MAX_ATOMS sort_x sort_y dash 4 l r t b s).bond
          s.n_bond).hash = true ∧
      (nth (fdb_finish sqrt V_DISPLACEMENT MAX_ATOMS sort_x sort_y dash 4 l r t b s).bond
          s.n_bond).type = 1 ∧
      (((nth (fdb_finish sqrt V_DISPLACEMENT MAX_ATOMS sort_x sort_y dash 4 l r t b s).bond
            s.n_bond).a = s.n_atom ∧
          (nth (fdb_finish sqrt V_DISPLACEMENT MAX_ATOMS sort_x sort_y dash 4 l r t b s).bond
            s.n_bond).b = s.n_atom + 1) ∨
        ((nth (fdb_finish sqrt V_DISPLACEMENT MAX_ATOMS sort_x sort_y dash 4 l r t b s).bond
            s.n_bond).a = s.n_atom + 1 ∧
          (nth (fdb_finish sqrt V_DISPLACEMENT MAX_ATOMS sort_x sort_y dash 4 l r t b s).bond
            s.n_bond).b = s.n_atom)) ∧
      nth (fdb_finish sqrt V_DISPLACEMENT MAX_ATOMS sort_x sort_y dash 4 l r t b s).atom
          s.n_atom = ⟨px - gx, py - gy, " ", 0, 0, c0, true, false, false, 0⟩ ∧
      nth (fdb_finish sqrt V_DISPLACEMENT MAX_ATOMS sort_x sort_y dash 4 l r t b s).atom
          (s.n_atom + 1) =
        ⟨px + 3 * gx + gx, py + 3 * gy + gy, " ", 0, 0, c3, true, false, false, 0⟩) := by
  refine ⟨?_, ?_⟩
  · intro atom a b n ha hb _ hne
    exact extend_dashed_bond_spec sqrt hsqrt atom a b n ha hb hne
  · intro V_DISPLACEMENT MAX_ATOMS sort_x sort_y dash l r t b s px py gx gy c0 c1 c2 c3
      a0 a1 a2 a3 hsx hsy hV hperm hx hy hna hnb hmax
    rw [fdb_finish_even sqrt V_DISPLACEMENT MAX_ATOMS sort_x sort_y dash l r t b s px py gx gy
      c0 c1 c2 c3 a0 a1 a2 a3 hsx hsy hV hperm hx hy]
    have hg : gx ≠ 0 ∨ gy ≠ 0 := by
      by_cases h : r - l > b - t
      · exact Or.inl (ne_of_gt (hx h))
      · exact Or.inr (ne_of_gt (hy h))
    exact fdb_hash_bond_even sqrt hsqrt MAX_ATOMS s
      (even_marks px py gx gy c0 c1 c2 c3 a0 a1 a2 a3) px py gx gy c0 c3 a0 a3 rfl rfl hg
      hna hnb hmax

/-- Witness for C14: the ends `(0, 0)` and `(3, 4)` of a bond of four marks move
to `(-1, -4/3)` and `(4, 16/3)`; the marks `(2, 1) .. (11, 13)` give a hash bond
between new atoms at `(-1, -3)` and `(14, 17)`. -/
theorem extend_dashed_bond_gap_witness :
    (nth (extend_dashed_bond qsqrt 0 1 4 gap_atoms) 0 = mkAtom (-1) (-4 / 3) ∧
      nth (extend_dashed_bond qsqrt 0 1 4 gap_atoms) 1 = mkAtom 4 (16 / 3) ∧
      nth (extend_dashed_bond qsqrt 0 1 4 gap_atoms) 2 = mkAtom 1 1) ∧
    (nth (fdb_finish qsqrt 3 10000 sort_dashes_by_x sort_dashes_by_y four_dashes 4 2 11 1 13
        dash_state).bond 1).hash = true ∧
    nth (fdb_finish qsqrt 3 10000 sort_dashes_by_x sort_dashes_by_y four_dashes 4 2 11 1 13
        dash_state).atom 2 = ⟨-1, -3, " ", 0, 0, 7, true, false, false, 0⟩ ∧
    nth (fdb_finish qsqrt 3 10000 sort_dashes_by_x sort_dashes_by_y four_dashes 4 2 11 1 13
        dash_state).atom 3 = ⟨14, 17, " ", 0, 0, 10, true, false, false, 0⟩ :=
  ⟨(fun h => ⟨h.1.trans (by decide!), h.2.1.trans (by decide!), h.2.2 2 (by decide) (by decide)⟩)
      ((extend_dashed_bond_gap qsqrt qsqrt_ne_zero).1 gap_atoms 0 1 4 (by decide) (by decide)
        (by decide) (by decide!)),
    (fun h => ⟨h.2.1, h.2.2.2.2.1.trans (by decide!), h.2.2.2.2.2.trans (by decide!)⟩)
      ((extend_dashed_bond_gap qsqrt qsqrt_ne_zero).2 3 10000 sort_dashes_by_x sort_dashes_by_y
        four_dashes 2 11 1 13 dash_state 2 1 3 4 7 8 9 10 5 5 5 6 sort_dashes_by_x_sorts
        sort_dashes_by_y_sorts (by decide!) (by decide!) (by decide!) (by decide!) (by decide)
        (by decide) (by decide))⟩

/-! ## C15: `find_wedge_bonds` on a linear thickness profile -/

/-- A sampling loop whose samples are all plausible and never jump by more than
2 records every position. -/
theorem fwb_scan_all {K : Type} [LinearOrderedField K] (MAX_BOND_THICKNESS avg : K)
    (sample : Int → Int) :
    ∀ (js : List Int) (s : WScan K),
      (∀ j ∈ js, ((sample j : Int) : K) < 2 * MAX_BOND_THICKNESS ∧
        ((sample j : Int) : K) < avg / 3 ∧ sample j > 0) →
      List.Chain (fun a b => |b - a| ≤ 2) s.old (js.map sample) →
      (fwb_scan MAX_BOND_THICKNESS avg sample js s).x_reg = s.x_reg ++ js ∧
      (fwb_scan MAX_BOND_THICKNESS avg sample js s).y_reg = s.y_reg ++ js.map sample ∧
      (fwb_scan MAX_BOND_THICKNESS avg sample js s).avg_x =
        s.avg_x + (js.map (fun j : Int => (j : K))).sum ∧
      (fwb_scan MAX_BOND_THICKNESS avg sample js s).avg_y =
        s.avg_y + (js.map (fun j : Int => ((sample j : Int) : K))).sum ∧
      (fwb_scan MAX_BOND_THICKNESS avg sample js s).w = (js.map sample).foldl max s.w := by
  intro js
  induction js with
  | nil => intro s _ _; simp [fwb_scan]
  | cons j js ih =>
    intro s hfine hchain
    rw [List.map_cons, List.chain_cons] at hchain
    have hj := hfine j (List.mem_cons_self j js)
    have hstep : fwb_scan MAX_BOND_THICKNESS avg sample (j :: js) s =
        fwb_scan MAX_BOND_THICKNESS avg sample js
          ⟨s.x_reg ++ [j], s.y_reg ++ [sample j], s.avg_x + (j : K),
            s.avg_y + ((sample j : Int) : K), max s.w (sample j), sample j⟩ := by
      simp only [fwb_scan, fwb_take, if_neg (not_lt.mpr hchain.1), if_pos hj]
    obtain ⟨h1, h2, h3, h4, h5⟩ := ih
      ⟨s.x_reg ++ [j], s.y_reg ++ [sample j], s.avg_x + (j : K),
        s.avg_y + ((sample j : Int) : K), max s.w (sample j), sample j⟩
      (fun k hk => hfine k (List.mem_cons_of_mem j hk)) hchain.2
    rw [hstep]
    refine ⟨?_, ?_, ?_, ?_, ?_⟩
    · rw [h1]; simp
    · rw [h2]; simp
    · rw [h3]; simp [add_assoc]
    · rw [h4]; simp [add_assoc]
    · rw [h5]; simp
theorem wedge_profile_bounds (d : Int) (h0 : 0 ≤ d) (h1 : d ≤ 20) :
    1 ≤ wedge_profile d ∧ wedge_profile d ≤ 6 := by
  unfold wedge_profile
  constructor <;> omega

theorem up_positions (L : Int) : (List.range 10).map (fun k : Nat => L + 10 + 1 + (k : Int)) =
    [L + 11, L + 12, L + 13, L + 14, L + 15, L + 16, L + 17, L + 18, L + 19, L + 20] := by
  simp only [List.range_succ, List.range_zero, List.nil_append, List.cons_append,
    List.map_cons, List.map_nil, List.cons.injEq, and_true]
  omega

theorem down_positions (L : Int) : (List.range 10).map (fun k : Nat => L + 10 - 1 - (k : Int)) =
    [L + 9, L + 8, L + 7, L + 6, L + 5, L + 4, L + 3, L + 2, L + 1, L + 0] := by
  simp only [List.range_succ, List.range_zero, List.nil_append, List.cons_append,
    List.map_cons, List.map_nil, List.cons.injEq, and_true]
  omega
/-- The samples of a stroke whose thickness follows `wedge_profile` from
`min_c = L` to `max_c = L + 20`, rising or falling: all twenty positions other
than the middle are recorded. -/
theorem fwb_sample_linear {K : Type} [LinearOrderedField K] (MAX_BOND_THICKNESS avg : K)
    (w3 L sign : Int) (sample : Int → Int) (rising : Bool) (hw3 : 1 ≤ w3 ∧ w3 ≤ 5)
    (hprofile : ∀ d, 0 ≤ d → d ≤ 20 →
      sample (L + d) = if rising = true then wedge_profile d else wedge_profile (20 - d))
    (hMAX : 6 < 2 * MAX_BOND_THICKNESS) (havg : 6 < avg / 3) :
    (fwb_sample MAX_BOND_THICKNESS avg ⟨w3, L + 10, L + 20, L, sign, sample⟩).x_reg =
      [L + 11, L + 12, L + 13, L + 14, L + 15, L + 16, L + 17, L + 18, L + 19, L + 20,
        L + 9, L + 8, L + 7, L + 6, L + 5, L + 4, L + 3, L + 2, L + 1, L + 0] ∧
    (fwb_sample MAX_BOND_THICKNESS avg ⟨w3, L + 10, L + 20, L, sign, sample⟩).y_reg =
      (if rising = true then [3, 4, 4, 4, 4, 5, 5, 5, 5, 6, 3, 3, 2, 2, 2, 2, 1, 1, 1, 1]
        else [3, 3, 2, 2, 2, 2, 1, 1, 1, 1, 3, 4, 4, 4, 4, 5, 5, 5, 5, 6]) ∧
    (fwb_sample MAX_BOND_THICKNESS avg ⟨w3, L + 10, L + 20, L, sign, sample⟩).avg_x =
      20 * (L : K) + 200 ∧
    (fwb_sample MAX_BOND_THICKNESS avg ⟨w3, L + 10, L + 20, L, sign, sample⟩).avg_y = 63 ∧
    (fwb_sample MAX_BOND_THICKNESS avg ⟨w3, L + 10, L + 20, L, sign, sample⟩).w = 6 := by
  have e1 : (L + 20 - (L + 10)).toNat = 10 := by omega
  have e2 : (L + 10 - L).toNat = 10 := by omega
  have hfine : ∀ d, 0 ≤ d → d ≤ 20 →
      ((sample (L + d) : Int) : K) < 2 * MAX_BOND_THICKNESS ∧
      ((sample (L + d) : Int) : K) < avg / 3 ∧ sample (L + d) > 0 := by
    intro d h0 h1
    have hb : 1 ≤ sample (L + d) ∧ sample (L + d) ≤ 6 := by
      rw [hprofile d h0 h1]
      split
      · exact wedge_profile_bounds d h0 h1
      · exact wedge_profile_bounds (20 - d) (by omega) (by omega)
    have hc : ((sample (L + d) : Int) : K) ≤ 6 := by exact_mod_cast hb.2
    exact ⟨lt_of_le_of_lt hc hMAX, lt_of_le_of_lt hc havg, by omega⟩
  have hfineU : ∀ j ∈ [L + 11, L + 12, L + 13, L + 14, L + 15, L + 16, L + 17, L + 18, L + 19,
      L + 20], ((sample j : Int) : K) < 2 * MAX_BOND_THICKNESS ∧
      ((sample j : Int) : K) < avg / 3 ∧ sample j > 0 := by
    intro j hj
    simp only [List.mem_cons, List.mem_singleton, List.not_mem_nil, or_false] at hj
    rcases hj with h | h | h | h | h | h | h | h | h | h <;> subst h <;>
      exact hfine _ (by decide) (by decide)
  have hfineD : ∀ j ∈ [L + 9, L + 8, L + 7, L + 6, L + 5, L + 4, L + 3, L + 2, L + 1, L + 0],
      ((sample j : Int) : K) < 2 * MAX_BOND_THICKNESS ∧
      ((sample j : Int) : K) < avg / 3 ∧ sample j > 0 := by
    intro j hj
    simp only [List.mem_cons, List.mem_singleton, List.not_mem_nil, or_false] at hj
    rcases hj with h | h | h | h | h | h | h | h | h | h <;> subst h <;>
      exact hfine _ (by decide) (by decide)
  have hw3a : |(3 : Int) - w3| ≤ 2 := abs_le.mpr ⟨by omega, by omega⟩
  have sU : [L + 11, L + 12, L + 13, L + 14, L + 15, L + 16, L + 17, L + 18, L + 19,
      L + 20].map sample =
      if rising = true then [3, 4, 4, 4, 4, 5, 5, 5, 5, 6] else [3, 3, 2, 2, 2, 2, 1, 1, 1, 1] := by
    simp only [List.map_cons, List.map_nil, hprofile 11 (by decide) (by decide),
      hprofile 12 (by decide) (by decide), hprofile 13 (by decide) (by decide),
      hprofile 14 (by decide) (by decide), hprofile 15 (by decide) (by decide),
      hprofile 16 (by decide) (by decide), hprofile 17 (by decide) (by decide),
      hprofile 18 (by decide) (by decide), hprofile 19 (by decide) (by decide),
      hprofile 20 (by decide) (by decide)]
    cases rising <;> rfl
  have sD : [L + 9, L + 8, L + 7, L + 6, L + 5, L + 4, L + 3, L + 2, L + 1, L + 0].map sample =
      if rising = true then [3, 3, 2, 2, 2, 2, 1, 1, 1, 1] else [3, 4, 4, 4, 4, 5, 5, 5, 5, 6] := by
    simp only [List.map_cons, List.map_nil, hprofile 9 (by decide) (by decide),
      hprofile 8 (by decide) (by decide), hprofile 7 (by decide) (by decide),
      hprofile 6 (by decide) (by decide), hprofile 5 (by decide) (by decide),
      hprofile 4 (by decide) (by decide), hprofile 3 (by decide) (by decide),
      hprofile 2 (by decide) (by decide), hprofile 1 (by decide) (by decide),
      hprofile 0 (by decide) (by decide)]
    cases rising <;> rfl
  have cU : List.Chain (fun a b : Int => |b - a| ≤ 2) w3
      ([L + 11, L + 12, L + 13, L + 14, L + 15, L + 16, L + 17, L + 18, L + 19,
        L + 20].map sample) := by
    rw [sU]
    cases rising
    · exact List.chain_cons.mpr ⟨hw3a, by norm_num [List.chain_cons]⟩
    · exact List.chain_cons.mpr ⟨hw3a, by norm_num [List.chain_cons]⟩
  have cD : List.Chain (fun a b : Int => |b - a| ≤ 2) w3
      ([L + 9, L + 8, L + 7, L + 6, L + 5, L + 4, L + 3, L + 2, L + 1, L + 0].map sample) := by
    rw [sD]
    cases rising
    · exact List.chain_cons.mpr ⟨hw3a, by norm_num [List.chain_cons]⟩
    · exact List.chain_cons.mpr ⟨hw3a, by norm_num [List.chain_cons]⟩
  obtain ⟨a1, a2, a3, a4, a5⟩ := fwb_scan_all MAX_BOND_THICKNESS avg sample
    [L + 11, L + 12, L + 13, L + 14, L + 15, L + 16, L + 17, L + 18, L + 19, L + 20]
    ⟨[], [], 0, 0, w3, w3⟩ hfineU cU
  obtain ⟨b1, b2, b3, b4, b5⟩ := fwb_scan_all MAX_BOND_THICKNESS avg sample
    [L + 9, L + 8, L + 7, L + 6, L + 5, L + 4, L + 3, L + 2, L + 1, L + 0]
    ⟨(fwb_scan MAX_BOND_THICKNESS avg sample
        [L + 11, L + 12, L + 13, L + 14, L + 15, L + 16, L + 17, L + 18, L + 19, L + 20]
        ⟨[], [], 0, 0, w3, w3⟩).x_reg,
      (fwb_scan MAX_BOND_THICKNESS avg sample
        [L + 11, L + 12, L + 13, L + 14, L + 15, L + 16, L + 17, L + 18, L + 19, L + 20]
        ⟨[], [], 0, 0, w3, w3⟩).y_reg,
      (fwb_scan MAX_BOND_THICKNESS avg sample
        [L + 11, L + 12, L + 13, L + 14, L + 15, L + 16, L + 17, L + 18, L + 19, L + 20]
        ⟨[], [], 0, 0, w3, w3⟩).avg_x,
      (fwb_scan MAX_BOND_THICKNESS avg sample
        [L + 11, L + 12, L + 13, L + 14, L + 15, L + 16, L + 17, L + 18, L + 19, L + 20]
        ⟨[], [], 0, 0, w3, w3⟩).avg_y,
      (fwb_scan MAX_BOND_THICKNESS avg sample
        [L + 11, L + 12, L + 13, L + 14, L + 15, L + 16, L + 17, L + 18, L + 19, L + 20]
        ⟨[], [], 0, 0, w3, w3⟩).w, w3⟩ hfineD cD
  have hy : ∀ l : List Int, l.map (fun j : Int => ((sample j : Int) : K)) =
      (l.map sample).map (fun t : Int => (t : K)) := fun l => by
    rw [List.map_map]; rfl
  unfold fwb_sample
  simp only [e1, e2, up_positions, down_positions]
  rw [b1, b2, b3, b4, b5, a1, a2, a3, a4, a5, hy, hy, sU, sD]
  refine ⟨rfl, ?_, ?_, ?_, ?_⟩
  · cases rising <;> rfl
  · simp only [List.map_cons, List.map_nil, List.sum_cons, List.sum_nil]
    push_cast
    ring
  · cases rising
    · simp only [List.map_cons, List.map_nil, List.sum_cons, List.sum_nil, if_false,
        Bool.false_eq_true]
      norm_num
    · simp only [List.map_cons, List.map_nil, List.sum_cons, List.sum_nil, if_true]
      norm_num
  · cases rising
    · simp only [List.foldl, if_false, Bool.false_eq_true]
      omega
    · simp only [List.foldl, if_true]
      omega
/-- The regression through the samples of `fwb_sample_linear`: slope `19 / 77`
for the rising profile and `-(19 / 77)` for the falling one. -/
theorem fwb_beta_linear {K : Type} [LinearOrderedField K] (sc : WScan K) (L : Int)
    (rising : Bool)
    (hx : sc.x_reg =
      [L + 11, L + 12, L + 13, L + 14, L + 15, L + 16, L + 17, L + 18, L + 19, L + 20,
        L + 9, L + 8, L + 7, L + 6, L + 5, L + 4, L + 3, L + 2, L + 1, L + 0])
    (hy : sc.y_reg =
      (if rising = true then [3, 4, 4, 4, 4, 5, 5, 5, 5, 6, 3, 3, 2, 2, 2, 2, 1, 1, 1, 1]
        else [3, 3, 2, 2, 2, 2, 1, 1, 1, 1, 3, 4, 4, 4, 4, 5, 5, 5, 5, 6]))
    (hax : sc.avg_x = 20 * (L : K) + 200) (hay : sc.avg_y = 63) :
    fwb_beta sc = if rising = true then 19 / 77 else -(19 / 77) := by
  have hden : fwb_denominator sc = 770 := by
    unfold fwb_denominator
    rw [hx, hax]
    simp only [List.length_cons, List.length_nil, List.range_succ, List.range_zero,
      List.nil_append, List.cons_append, List.foldl_cons, List.foldl_nil, nth,
      List.getElem?_cons_zero, List.getElem?_cons_succ, Option.getD_some]
    push_cast
    ring
  have hnum : fwb_numerator sc = if rising = true then 190 else -190 := by
    unfold fwb_numerator
    rw [hx, hy, hax, hay]
    cases rising
    · simp only [List.length_cons, List.length_nil, List.range_succ, List.range_zero,
        List.nil_append, List.cons_append, List.foldl_cons, List.foldl_nil, nth,
        List.getElem?_cons_zero, List.getElem?_cons_succ, Option.getD_some, if_false,
        Bool.false_eq_true]
      push_cast
      ring
    · simp only [List.length_cons, List.length_nil, List.range_succ, List.range_zero,
        List.nil_append, List.cons_append, List.foldl_cons, List.foldl_nil, nth,
        List.getElem?_cons_zero, List.getElem?_cons_succ, Option.getD_some, if_true]
      push_cast
      ring
  unfold fwb_beta
  rw [hden, hnum, if_pos (by norm_num)]
  cases rising
  · simp only [if_false, Bool.false_eq_true]; norm_num
  · simp only [if_true]; norm_num
theorem fwb_axis_sign {K : Type} [LinearOrderedField K] (trunc : K → Int)
    (tv th : Int → Int → Int) (dist : Int) (p q : Atom K) :
    (fwb_axis trunc tv th dist p q).sign = 1 ∨ (fwb_axis trunc tv th dist p q).sign = -1 := by
  unfold fwb_axis
  split
  · show (if q.x < p.x then (-1 : Int) else 1) = 1 ∨ (if q.x < p.x then (-1 : Int) else 1) = -1
    split
    · exact Or.inr rfl
    · exact Or.inl rfl
  · show (if q.y < p.y then (-1 : Int) else 1) = 1 ∨ (if q.y < p.y then (-1 : Int) else 1) = -1
    split
    · exact Or.inr rfl
    · exact Or.inl rfl

/-- The marking of lines 3397-3402 for the slopes of `fwb_beta_linear` over a
span of 20 and `limit = 3`: the bond becomes a wedge and its ends are swapped
unless `a` is the narrow end. -/
theorem fwb_mark_linear {K : Type} [LinearOrderedField K] (ax : WAxis) (rising : Bool)
    (bond : List Bond) (i : Nat) (beta : K)
    (hbeta : beta = if rising = true then 19 / 77 else -(19 / 77))
    (hspan : ax.max_c - ax.min_c = 20) (hsign : ax.sign = 1 ∨ ax.sign = -1) :
    fwb_mark 3 beta ax bond i =
      if narrow_is_a rising ax then set_wedge bond i
      else bond_end_swap (set_wedge bond i) i := by
  have habs : |beta| = 19 / 77 := by
    rw [hbeta]
    cases rising
    · simp only [if_false, Bool.false_eq_true, abs_neg]
      exact abs_of_pos (by norm_num)
    · simp only [if_true]
      exact abs_of_pos (by norm_num)
  unfold fwb_mark
  rw [habs, hspan, if_pos (by norm_num)]
  unfold narrow_is_a
  subst hbeta
  cases rising
  · rcases hsign with h | h
    · have hc : (if false = true then (19 : K) / 77 else -(19 / 77)) * ((ax.sign : Int) : K) < 0 := by
        rw [h]; norm_num
      rw [if_pos hc, if_neg (by rw [h]; decide)]
    · have hc : ¬ (if false = true then (19 : K) / 77 else -(19 / 77)) * ((ax.sign : Int) : K) < 0 := by
        rw [h]; norm_num
      rw [if_neg hc, if_pos (by rw [h]; decide)]
  · rcases hsign with h | h
    · have hc : ¬ (if true = true then (19 : K) / 77 else -(19 / 77)) * ((ax.sign : Int) : K) < 0 := by
        rw [h]; norm_num
      rw [if_neg hc, if_pos (by rw [h]; decide)]
    · have hc : (if true = true then (19 : K) / 77 else -(19 / 77)) * ((ax.sign : Int) : K) < 0 := by
        rw [h]; norm_num
      rw [if_pos hc, if_neg (by rw [h]; decide)]
/-- The merging loop of lines 3403-3424 changes nothing when no other existing
atom lies within `w` of the end `b` of the wedge. -/
theorem fwb_settle_far {K : Type} [LinearOrderedField K] (sqrt : K → K) (n_atom n_bond : Nat)
    (w : Int) (i : Nat) (atom : List (Atom K)) (bond : List Bond)
    (hfar : ∀ j, j < n_atom → (nth atom j).exists_ = true → j ≠ (nth bond i).b →
      (w : K) < distance sqrt (nth atom (nth bond i).b).x (nth atom (nth bond i).b).y
        (nth atom j).x (nth atom j).y) :
    fwb_settle sqrt n_atom n_bond w i (atom, bond) = (atom, bond) := by
  unfold fwb_settle
  split
  · exact foldl_range_inv (fun _ st => st = (atom, bond)) (fwb_merge sqrt n_bond w i) n_atom
      (atom, bond) rfl
      (fun j st hj hst => by
        show fwb_merge sqrt n_bond w i st j = (atom, bond)
        rw [hst]
        unfold fwb_merge
        rw [if_neg]
        intro hc
        exact absurd hc.2.2 (not_le.mpr (hfar j hj hc.1 hc.2.1)))
  · rfl

/-- The bond vector after the marking of a wedge whose narrow end is made `a`. -/
theorem nth_wedge_marked (bond : List Bond) (i : Nat) (hi : i < bond.length) (c : Prop)
    [Decidable c] :
    (nth (if c then set_wedge bond i else bond_end_swap (set_wedge bond i) i) i).wedge = true ∧
    (nth (if c then set_wedge bond i else bond_end_swap (set_wedge bond i) i) i).a =
      (if c then (nth bond i).a else (nth bond i).b) ∧
    (nth (if c then set_wedge bond i else bond_end_swap (set_wedge bond i) i) i).b =
      (if c then (nth bond i).b else (nth bond i).a) ∧
    ∀ k, k ≠ i →
      nth (if c then set_wedge bond i else bond_end_swap (set_wedge bond i) i) k = nth bond k := by
  have hl : i < (set_wedge bond i).length := by unfold set_wedge; simpa using hi
  by_cases h : c
  · simp only [if_pos h]
    unfold set_wedge
    refine ⟨?_, ?_, ?_, ?_⟩
    · rw [nth_modify_eq _ _ _ hi]
    · rw [nth_modify_eq _ _ _ hi]
    · rw [nth_modify_eq _ _ _ hi]
    · intro k hk; rw [nth_modify_ne _ _ _ _ (Ne.symm hk)]
  · simp only [if_neg h]
    unfold bond_end_swap
    refine ⟨?_, ?_, ?_, ?_⟩
    · rw [nth_modify_eq _ _ _ hl]; unfold set_wedge; rw [nth_modify_eq _ _ _ hi]
    · rw [nth_modify_eq _ _ _ hl]; unfold set_wedge; rw [nth_modify_eq _ _ _ hi]
    · rw [nth_modify_eq _ _ _ hl]; unfold set_wedge; rw [nth_modify_eq _ _ _ hi]
    · intro k hk
      rw [nth_modify_ne _ _ _ _ (Ne.symm hk)]
      unfold set_wedge
      rw [nth_modify_ne _ _ _ _ (Ne.symm hk)]

/-- Lines 3303-3430 for a bond whose samples follow `wedge_profile`: the bond is
marked and turned so that `a` is its narrow end; nothing else changes. -/
theorem fwb_wedge_linear {K : Type} [LinearOrderedField K] (sqrt : K → K) (trunc : K → Int)
    (MAX_BOND_THICKNESS avg : K) (n_atom n_bond : Nat) (ax : WAxis) (s : WState K) (i : Nat)
    (rising : Bool) (hi : i < s.bond.length)
    (hmid : ax.mid = ax.min_c + 10) (hmax : ax.max_c = ax.min_c + 20)
    (hw3 : 1 ≤ ax.w3 ∧ ax.w3 ≤ 5) (hsign : ax.sign = 1 ∨ ax.sign = -1)
    (hprofile : ∀ d, 0 ≤ d → d ≤ 20 →
      ax.sample (ax.min_c + d) = if rising = true then wedge_profile d else wedge_profile (20 - d))
    (hMAX : 6 < 2 * MAX_BOND_THICKNESS) (havg : 6 < avg / 3)
    (hfar : ∀ j, j < n_atom → (nth s.atom j).exists_ = true →
      j ≠ (if narrow_is_a rising ax then (nth s.bond i).b else (nth s.bond i).a) →
      6 < distance sqrt
        (nth s.atom (if narrow_is_a rising ax then (nth s.bond i).b else (nth s.bond i).a)).x
        (nth s.atom (if narrow_is_a rising ax then (nth s.bond i).b else (nth s.bond i).a)).y
        (nth s.atom j).x (nth s.atom j).y) :
    fwb_wedge sqrt trunc MAX_BOND_THICKNESS avg 3 n_atom n_bond ax s i =
      ⟨s.atom,
        if narrow_is_a rising ax then set_wedge s.bond i
        else bond_end_swap (set_wedge s.bond i) i, s.a, s.n⟩ := by
  obtain ⟨w3, mid, max_c, min_c, sign, sample⟩ := ax
  simp only at hmid hmax hw3 hsign hprofile
  subst hmid hmax
  obtain ⟨s1, s2, s3, s4, s5⟩ := fwb_sample_linear MAX_BOND_THICKNESS avg w3 min_c sign sample
    rising hw3 hprofile hMAX havg
  have hbeta := fwb_beta_linear
    (fwb_sample MAX_BOND_THICKNESS avg ⟨w3, min_c + 10, min_c + 20, min_c, sign, sample⟩)
    min_c rising s1 s2 s3 s4
  have hmark := fwb_mark_linear ⟨w3, min_c + 10, min_c + 20, min_c, sign, sample⟩ rising s.bond i
    (fwb_beta (fwb_sample MAX_BOND_THICKNESS avg
      ⟨w3, min_c + 10, min_c + 20, min_c, sign, sample⟩)) hbeta
    (by show min_c + 20 - min_c = 20; omega) hsign
  obtain ⟨m1, _, m3, _⟩ := nth_wedge_marked s.bond i hi
    (narrow_is_a rising ⟨w3, min_c + 10, min_c + 20, min_c, sign, sample⟩)
  have hsettle := fwb_settle_far sqrt n_atom n_bond 6 i s.atom
    (if narrow_is_a rising ⟨w3, min_c + 10, min_c + 20, min_c, sign, sample⟩ then
      set_wedge s.bond i else bond_end_swap (set_wedge s.bond i) i)
    (by
      rw [m3]
      intro j hj hex hne
      have := hfar j hj hex hne
      exact_mod_cast this)
  unfold fwb_wedge
  rw [hmark, s5, hsettle]
  simp only [m1]
  rfl
theorem fwb_guard_congr {K : Type} [LinearOrderedField K] (sqrt : K → K)
    (max_dist_double_bond : K) (atom : List (Atom K)) (bond1 bond2 : List Bond) (k : Nat)
    (h : nth bond1 k = nth bond2 k) :
    fwb_guard sqrt max_dist_double_bond atom bond1 k ↔
      fwb_guard sqrt max_dist_double_bond atom bond2 k := by
  unfold fwb_guard bond_length
  rw [h]

/-- The marking of bond `k` changes no other bond. -/
theorem fwb_mark_other {K : Type} [LinearOrderedField K] (limit : Int) (beta : K) (ax : WAxis)
    (bond : List Bond) (k k2 : Nat) (h : k2 ≠ k) :
    nth (fwb_mark limit beta ax bond k) k2 = nth bond k2 := by
  unfold fwb_mark
  split
  · split
    · unfold bond_end_swap set_wedge
      rw [nth_modify_ne _ _ _ _ (Ne.symm h), nth_modify_ne _ _ _ _ (Ne.symm h)]
    · unfold set_wedge
      rw [nth_modify_ne _ _ _ _ (Ne.symm h)]
  · rfl

/-- The marking of bond `k` reads bond `k` only. -/
theorem fwb_mark_self_congr {K : Type} [LinearOrderedField K] (limit : Int) (beta : K)
    (ax : WAxis) (bond1 bond2 : List Bond) (k : Nat) (h : nth bond1 k = nth bond2 k)
    (h1 : k < bond1.length) (h2 : k < bond2.length) :
    nth (fwb_mark limit beta ax bond1 k) k = nth (fwb_mark limit beta ax bond2 k) k := by
  have l1 : k < (set_wedge bond1 k).length := by unfold set_wedge; simpa using h1
  have l2 : k < (set_wedge bond2 k).length := by unfold set_wedge; simpa using h2
  unfold fwb_mark
  split
  · split
    · unfold bond_end_swap
      rw [nth_modify_eq _ _ _ l1, nth_modify_eq _ _ _ l2]
      unfold set_wedge
      rw [nth_modify_eq _ _ _ h1, nth_modify_eq _ _ _ h2, h]
    · unfold set_wedge
      rw [nth_modify_eq _ _ _ h1, nth_modify_eq _ _ _ h2, h]
  · exact h

/-- The merging loop changes nothing when the bond is no wedge or no other
existing atom lies within `w` of its end `b`. -/
theorem fwb_settle_quiet {K : Type} [LinearOrderedField K] (sqrt : K → K) (n_atom n_bond : Nat)
    (w : Int) (k : Nat) (atom : List (Atom K)) (bond : List Bond)
    (h : (nth bond k).wedge = true →
      ∀ j, j < n_atom → (nth atom j).exists_ = true → j ≠ (nth bond k).b →
        (w : K) < distance sqrt (nth atom (nth bond k).b).x (nth atom (nth bond k).b).y
          (nth atom j).x (nth atom j).y) :
    fwb_settle sqrt n_atom n_bond w k (atom, bond) = (atom, bond) := by
  by_cases hw : (nth bond k).wedge = true
  · exact fwb_settle_far sqrt n_atom n_bond w k atom bond (h hw)
  · unfold fwb_settle
    rw [if_neg hw]

/-- The atom and bond vectors after lines 3303-3430 are those after the merging
loop. -/
theorem fwb_wedge_vectors {K : Type} [LinearOrderedField K] (sqrt : K → K) (trunc : K → Int)
    (MAX_BOND_THICKNESS avg : K) (limit : Int) (n_atom n_bond : Nat) (ax : WAxis)
    (s : WState K) (k : Nat) :
    (fwb_wedge sqrt trunc MAX_BOND_THICKNESS avg limit n_atom n_bond ax s k).atom =
      (fwb_settle sqrt n_atom n_bond (fwb_sample MAX_BOND_THICKNESS avg ax).w k
        (s.atom, fwb_mark limit (fwb_beta (fwb_sample MAX_BOND_THICKNESS avg ax)) ax s.bond k)).1 ∧
    (fwb_wedge sqrt trunc MAX_BOND_THICKNESS avg limit n_atom n_bond ax s k).bond =
      (fwb_settle sqrt n_atom n_bond (fwb_sample MAX_BOND_THICKNESS avg ax).w k
        (s.atom, fwb_mark limit (fwb_beta (fwb_sample MAX_BOND_THICKNESS avg ax)) ax s.bond k)).2 := by
  unfold fwb_wedge
  split <;> exact ⟨rfl, rfl⟩

theorem bond_axis_congr {K : Type} [LinearOrderedField K] (trunc : K → Int)
    (tv th : Int → Int → Int) (dist : Int) (atom : List (Atom K)) (bond1 bond2 : List Bond)
    (k : Nat) (h : nth bond1 k = nth bond2 k) :
    bond_axis trunc tv th dist atom bond1 k = bond_axis trunc tv th dist atom bond2 k := by
  unfold bond_axis
  rw [h]

/-- The turn of a bond in which the merging loop finds nothing to merge changes
no atom and no other bond. -/
theorem fwb_body_quiet {K : Type} [LinearOrderedField K] (sqrt : K → K) (trunc : K → Int)
    (tv th : Int → Int → Int) (MAX_BOND_THICKNESS max_dist_double_bond avg : K)
    (limit dist : Int) (n_atom n_bond : Nat) (atom : List (Atom K)) (bond sb : List Bond)
    (sl : List K) (sn : Nat) (k : Nat) (e0 : nth sb k = nth bond k)
    (hq : fwb_quiet sqrt trunc tv th MAX_BOND_THICKNESS max_dist_double_bond avg limit dist
      n_atom atom bond k) :
    (fwb_body sqrt trunc tv th MAX_BOND_THICKNESS max_dist_double_bond avg limit dist
        n_atom n_bond ⟨atom, sb, sl, sn⟩ k).atom = atom ∧
    ∀ k2, k2 ≠ k →
      nth (fwb_body sqrt trunc tv th MAX_BOND_THICKNESS max_dist_double_bond avg limit dist
        n_atom n_bond ⟨atom, sb, sl, sn⟩ k).bond k2 = nth sb k2 := by
  unfold fwb_body
  by_cases hg : fwb_guard sqrt max_dist_double_bond atom sb k
  · rw [if_pos hg]
    by_cases hz : (fwb_ver trunc tv dist (nth atom (nth sb k).a) (nth atom (nth sb k).b)).w3 = 0 ∧
        (fwb_hor trunc th dist (nth atom (nth sb k).a) (nth atom (nth sb k).b)).w3 = 0
    · rw [if_pos hz]
      exact ⟨rfl, fun _ _ => rfl⟩
    · rw [if_neg hz]
      have hg0 : fwb_guard sqrt max_dist_double_bond atom bond k :=
        (fwb_guard_congr sqrt max_dist_double_bond atom sb bond k e0).mp hg
      have hz0 : ¬ ((fwb_ver trunc tv dist (nth atom (nth bond k).a)
            (nth atom (nth bond k).b)).w3 = 0 ∧
          (fwb_hor trunc th dist (nth atom (nth bond k).a) (nth atom (nth bond k).b)).w3 = 0) := by
        rw [← e0]; exact hz
      have hax : bond_axis trunc tv th dist atom sb k = bond_axis trunc tv th dist atom bond k :=
        bond_axis_congr trunc tv th dist atom sb bond k e0
      have hl1 : k < sb.length := exists_lt_length sb k hg.1
      have hl0 : k < bond.length := exists_lt_length bond k hg0.1
      have hmk : nth (fwb_mark limit
            (fwb_beta (fwb_sample MAX_BOND_THICKNESS avg (bond_axis trunc tv th dist atom bond k)))
            (bond_axis trunc tv th dist atom bond k) sb k) k =
          fwb_marked trunc tv th MAX_BOND_THICKNESS avg limit dist atom bond k :=
        fwb_mark_self_congr limit _ _ sb bond k e0 hl1 hl0
      obtain ⟨v1, v2⟩ := fwb_wedge_vectors sqrt trunc MAX_BOND_THICKNESS avg limit n_atom n_bond
        (bond_axis trunc tv th dist atom sb k) ⟨atom, sb, sl, sn⟩ k
      have hset := fwb_settle_quiet sqrt n_atom n_bond
        (fwb_sample MAX_BOND_THICKNESS avg (bond_axis trunc tv th dist atom bond k)).w k atom
        (fwb_mark limit
          (fwb_beta (fwb_sample MAX_BOND_THICKNESS avg (bond_axis trunc tv th dist atom bond k)))
          (bond_axis trunc tv th dist atom bond k) sb k)
        (by
          rw [hmk]
          exact hq hg0 hz0)
      show (fwb_wedge sqrt trunc MAX_BOND_THICKNESS avg limit n_atom n_bond
          (bond_axis trunc tv th dist atom sb k) ⟨atom, sb, sl, sn⟩ k).atom = atom ∧
        ∀ k2, k2 ≠ k → nth (fwb_wedge sqrt trunc MAX_BOND_THICKNESS avg limit n_atom n_bond
          (bond_axis trunc tv th dist atom sb k) ⟨atom, sb, sl, sn⟩ k).bond k2 = nth sb k2
      rw [v1, v2, hax]
      show (fwb_settle sqrt n_atom n_bond _ k (atom, _)).1 = atom ∧
        ∀ k2, k2 ≠ k → nth (fwb_settle sqrt n_atom n_bond _ k (atom, _)).2 k2 = nth sb k2
      rw [hset]
      exact ⟨rfl, fun k2 h2 => fwb_mark_other limit _ _ sb k k2 h2⟩
  · rw [if_neg hg]
    exact ⟨rfl, fun _ _ => rfl⟩

theorem nth_restore_atom {K : Type} [Zero K] (atom : List (Atom K)) (i k : Nat) :
    (nth (restore_atom atom i) k).exists_ =
      if i = k ∧ i < atom.length then true else (nth atom k).exists_ := by
  unfold restore_atom
  rw [nth_modify]
  split <;> rfl

/-- C16 (amended). A path point `i` that is no corner, at which `dir_change`
answers `false` and whose `exists` flag is unset (as `find_atoms` leaves it) is
kept by the loop body of `find_bonds` (`exists` set, `last = i`) exactly when
the next point of the path is closer to `last` than `i` is, that is when
`distance(i, last) > distance(next(i), last)`; otherwise the state is left as
it was. -/
theorem find_bonds_keeps_turning_point {K : Type} [LinearOrderedField K] (sqrt : K → K)
    (V_DISPLACEMENT DIR_CHANGE : K) (b_atom n_atom : Nat) (atom : List (Atom K))
    (last i : Nat) (hlen : i < atom.length) (hc : (nth atom i).corner = false)
    (hd : dir_change sqrt V_DISPLACEMENT DIR_CHANGE i last b_atom n_atom atom = some false)
    (hex : (nth atom i).exists_ = false) :
    ∃ st, fb_decide sqrt V_DISPLACEMENT DIR_CHANGE b_atom n_atom (some (atom, last)) i =
        some st ∧
      ((nth st.1 i).exists_ = true ↔
        distance sqrt (nth atom i).x (nth atom i).y (nth atom last).x (nth atom last).y >
          distance sqrt (nth atom (next_atom i b_atom n_atom)).x
            (nth atom (next_atom i b_atom n_atom)).y (nth atom last).x (nth atom last).y) ∧
      st = (if distance sqrt (nth atom i).x (nth atom i).y (nth atom last).x (nth atom last).y >
          distance sqrt (nth atom (next_atom i b_atom n_atom)).x
            (nth atom (next_atom i b_atom n_atom)).y (nth atom last).x (nth atom last).y
        then (restore_atom atom i, i) else (atom, last)) := by
  have hcf : ¬ (nth atom i).corner = true := by rw [hc]; decide
  by_cases h : distance sqrt (nth atom i).x (nth atom i).y (nth atom last).x (nth atom last).y >
      distance sqrt (nth atom (next_atom i b_atom n_atom)).x
        (nth atom (next_atom i b_atom n_atom)).y (nth atom last).x (nth atom last).y
  · refine ⟨(restore_atom atom i, i), ?_, ?_, by rw [if_pos h]⟩
    · simp only [fb_decide, Option.some_bind, if_neg hcf, hd, Option.map_some',
        smaller_distance, if_pos h, if_true, Bool.false_eq_true, if_false]
    · constructor
      · intro _; exact h
      · intro _
        show (nth (restore_atom atom i) i).exists_ = true
        rw [nth_restore_atom, if_pos ⟨rfl, hlen⟩]
  · refine ⟨(atom, last), ?_, ?_, by rw [if_neg h]⟩
    · simp only [fb_decide, Option.some_bind, if_neg hcf, hd, Option.map_some',
        smaller_distance, if_neg h, Bool.false_eq_true, if_false]
    · constructor
      · intro h2
        rw [show (nth (atom, last).1 i).exists_ = (nth atom i).exists_ from rfl, hex] at h2
        exact absurd h2 (by decide)
      · intro h2; exact absurd h2 h

/-- Witness for C16: on `loop_path` the point 3 at `(3, 0)` is the farthest
from the start; the next point is closer, and point 3 is kept. -/
theorem find_bonds_keeps_turning_point_witness :
    ∃ st, fb_decide qsqrt (1 / 2) 2 0 6 (some (loop_path, 0)) 3 = some st ∧
      ((nth st.1 3).exists_ = true ↔
        distance qsqrt (nth loop_path 3).x (nth loop_path 3).y (nth loop_path 0).x
            (nth loop_path 0).y >
          distance qsqrt (nth loop_path (next_atom 3 0 6)).x
            (nth loop_path (next_atom 3 0 6)).y (nth loop_path 0).x (nth loop_path 0).y) ∧
      st = (if distance qsqrt (nth loop_path 3).x (nth loop_path 3).y (nth loop_path 0).x
            (nth loop_path 0).y >
          distance qsqrt (nth loop_path (next_atom 3 0 6)).x
            (nth loop_path (next_atom 3 0 6)).y (nth loop_path 0).x (nth loop_path 0).y
        then (restore_atom loop_path 3, 3) else (loop_path, 0)) :=
  find_bonds_keeps_turning_point qsqrt (1 / 2) 2 0 6 loop_path 0 3 (by decide) (by decide)
    (by decide!) (by decide)

/-- Counterexample to C16 as stated: on `loop_path` with `last = 0`, point 1 is
no corner, the direction does not change there, and moving on to point 2
increases the distance from `last` (from 1 to 2); the loop body does not keep
point 1, and neither does `find_bonds`. -/
theorem find_bonds_increase_counterexample :
    (nth loop_path 1).corner = false ∧
    dir_change qsqrt (1 / 2) 2 1 0 0 6 loop_path = some false ∧
    distance qsqrt (nth loop_path (next_atom 1 0 6)).x (nth loop_path (next_atom 1 0 6)).y
        (nth loop_path 0).x (nth loop_path 0).y >
      distance qsqrt (nth loop_path 1).x (nth loop_path 1).y (nth loop_path 0).x
        (nth loop_path 0).y ∧
    fb_decide qsqrt (1 / 2) 2 0 6 (some (loop_path, 0)) 1 = some (loop_path, 0) ∧
    (find_bonds qsqrt (1 / 2) 2 10000 loop_path [] 0 6 0 7).map
      (fun r => (nth r.1 1).exists_) = some false := by
  decide!
theorem next_atom_mem (i b n : Nat) (hb : b ≤ i) (hi : i < n) :
    b ≤ next_atom i b n ∧ next_atom i b n < n := by
  unfold next_atom
  split <;> omega

/-- The loop of `dir_change` ends: going round the path, `m` comes back to `n`. -/
theorem dc_seek_returns {K : Type} [LinearOrderedField K] (sqrt : K → K) (V_DISPLACEMENT : K)
    (atom : List (Atom K)) (i b n : Nat) (hb : b ≤ i) (hi : i < n) :
    ∀ (fuel m : Nat), b ≤ m → m < n →
      (if m ≤ i then i - m else (n - m) + (i - b)) < fuel →
      ∃ r, dc_seek sqrt V_DISPLACEMENT atom i b n fuel m = some r := by
  intro fuel
  induction fuel with
  | zero => intro m _ _ h; exact absurd h (Nat.not_lt_zero _)
  | succ f ih =>
    intro m hbm hmn hcd
    simp only [dc_seek]
    split
    · rename_i hc
      have hne : m ≠ i := hc.2
      obtain ⟨h1, h2⟩ := next_atom_mem m b n hbm hmn
      apply ih _ h1 h2
      by_cases hw : m + 1 > n - 1
      · have e : next_atom m b n = b := by unfold next_atom; rw [if_pos hw]
        rw [e, if_pos hb]
        split at hcd <;> omega
      · have e : next_atom m b n = m + 1 := by unfold next_atom; rw [if_neg hw]
        rw [e]
        split at hcd <;> split <;> omega
    · exact ⟨m, rfl⟩

theorem dir_change_returns {K : Type} [LinearOrderedField K] (sqrt : K → K)
    (V_DISPLACEMENT DIR_CHANGE : K) (atom : List (Atom K)) (i last b n : Nat)
    (hb : b ≤ i) (hi : i < n) :
    ∃ r, dir_change sqrt V_DISPLACEMENT DIR_CHANGE i last b n atom = some r := by
  obtain ⟨h1, h2⟩ := next_atom_mem i b n hb hi
  obtain ⟨m, hm⟩ := dc_seek_returns sqrt V_DISPLACEMENT atom i b n hb hi n
    (next_atom i b n) h1 h2 (by split <;> omega)
  unfold dir_change
  rw [hm]
  exact ⟨_, rfl⟩

/-- The body of the decimation loop returns for every point of the segment. -/
theorem fb_decide_returns {K : Type} [LinearOrderedField K] (sqrt : K → K)
    (V_DISPLACEMENT DIR_CHANGE : K) (b n : Nat) (st : List (Atom K) × Nat) (i : Nat)
    (hb : b ≤ i) (hi : i < n) :
    ∃ st2, fb_decide sqrt V_DISPLACEMENT DIR_CHANGE b n (some st) i = some st2 := by
  obtain ⟨r, hr⟩ := dir_change_returns sqrt V_DISPLACEMENT DIR_CHANGE st.1 i st.2 b n hb hi
  simp only [fb_decide, Option.some_bind, hr, Option.map_some']
  split
  · exact ⟨_, rfl⟩
  · exact ⟨_, rfl⟩

theorem fb_decimate_returns {K : Type} [LinearOrderedField K] (sqrt : K → K)
    (V_DISPLACEMENT DIR_CHANGE : K) (atom : List (Atom K)) (b n : Nat) :
    ∃ st, fb_decimate sqrt V_DISPLACEMENT DIR_CHANGE atom b n = some st := by
  unfold fb_decimate
  exact foldl_range'_inv (fun _ s => ∃ st, s = some st)
    (fb_decide sqrt V_DISPLACEMENT DIR_CHANGE b n) (b + 1) (n - (b + 1)) (some (atom, b))
    ⟨_, rfl⟩
    (fun t s ht hs => by
      obtain ⟨st, rfl⟩ := hs
      exact fb_decide_returns sqrt V_DISPLACEMENT DIR_CHANGE b n st (b + 1 + t)
        (by omega) (by omega))
/-- The search of lines 1678-1681 started at `j` finds the first existing atom
`k` at or after `j`. -/
theorem fb_seek_found {K : Type} [Zero K] (atom : List (Atom K)) (b n k : Nat) (hk : k < n)
    (hex : (nth atom k).exists_ = true) :
    ∀ (d j fuel : Nat), j + d = k →
      (∀ t, j ≤ t → t < k → (nth atom t).exists_ = false) → d < fuel →
      fb_seek atom b n fuel j = some k := by
  intro d
  induction d with
  | zero =>
    intro j fuel hj _ hf
    obtain ⟨f, rfl⟩ := Nat.exists_eq_succ_of_ne_zero (Nat.ne_of_gt hf)
    have e : j = k := by omega
    subst e
    simp only [fb_seek, hex, Bool.true_eq_false, if_false]
  | succ d ih =>
    intro j fuel hj hnone hf
    obtain ⟨f, rfl⟩ := Nat.exists_eq_succ_of_ne_zero (Nat.ne_of_gt (Nat.lt_of_le_of_lt (Nat.zero_le _) hf))
    have hnj : (nth atom j).exists_ = false := hnone j (Nat.le_refl j) (by omega)
    have e : next_atom j b n = j + 1 := by
      unfold next_atom; rw [if_neg (by omega)]
    simp only [fb_seek, hnj, if_true, e]
    exact ih (j + 1) f (by omega) (fun t h1 h2 => hnone t (by omega) h2) (by omega)

/-- The search started at `j` with no existing atom from `j` to the end of the
segment goes on from `b`. -/
theorem fb_seek_none {K : Type} [Zero K] (atom : List (Atom K)) (b n : Nat) :
    ∀ (d j fuel : Nat), j + (d + 1) = n →
      (∀ t, j ≤ t → t < n → (nth atom t).exists_ = false) → d + 1 ≤ fuel →
      fb_seek atom b n fuel j = fb_seek atom b n (fuel - (d + 1)) b := by
  intro d
  induction d with
  | zero =>
    intro j fuel hj hnone hf
    obtain ⟨f, rfl⟩ := Nat.exists_eq_succ_of_ne_zero (Nat.ne_of_gt (Nat.lt_of_lt_of_le (Nat.zero_lt_one) hf))
    have hnj : (nth atom j).exists_ = false := hnone j (Nat.le_refl j) (by omega)
    have e : next_atom j b n = b := by
      unfold next_atom; rw [if_pos (by omega)]
    simp only [fb_seek, hnj, if_true, e]
    rfl
  | succ d ih =>
    intro j fuel hj hnone hf
    obtain ⟨f, rfl⟩ := Nat.exists_eq_succ_of_ne_zero (Nat.ne_of_gt (Nat.lt_of_lt_of_le (Nat.succ_pos _) hf))
    have hnj : (nth atom j).exists_ = false := hnone j (Nat.le_refl j) (by omega)
    have e : next_atom j b n = j + 1 := by
      unfold next_atom; rw [if_neg (by omega)]
    simp only [fb_seek, hnj, if_true, e]
    rw [ih (j + 1) f (by omega) (fun t h1 h2 => hnone t (by omega) h2) (by omega)]
    congr 1
    omega

/-- The head of a filtered index range is the first index that passes. -/
theorem filter_range'_head (p : Nat → Bool) :
    ∀ (d j k : Nat) (r : List Nat), (List.range' j d).filter p = k :: r →
      j ≤ k ∧ k < j + d ∧ p k = true ∧ ∀ t, j ≤ t → t < k → p t = false := by
  intro d
  induction d with
  | zero => intro j k r h; simp at h
  | succ d ih =>
    intro j k r h
    rw [List.range'_succ, List.filter_cons] at h
    by_cases hp : p j = true
    · rw [if_pos hp] at h
      have e : j = k := (List.cons.inj h).1
      subst e
      exact ⟨Nat.le_refl _, by omega, hp, fun t h1 h2 => by omega⟩
    · rw [if_neg hp] at h
      obtain ⟨h1, h2, h3, h4⟩ := ih (j + 1) k r h
      refine ⟨by omega, by omega, h3, fun t ht1 ht2 => ?_⟩
      rcases Nat.eq_or_lt_of_le ht1 with e | e
      · subst e; simpa using hp
      · exact h4 t e ht2
theorem fb_link_skip {K : Type} [Zero K] (MAX_ATOMS p : Nat) (atom : List (Atom K))
    (b n : Nat) (st : List Bond × Nat) (i : Nat) (h : (nth atom i).exists_ = false) :
    fb_link MAX_ATOMS p atom b n (some st) i = some st := by
  simp only [fb_link, Option.some_bind, h, Bool.false_eq_true, if_false]

theorem fb_link_push {K : Type} [Zero K] (MAX_ATOMS p : Nat) (atom : List (Atom K))
    (b n : Nat) (bonds : List Bond) (i j : Nat) (h : (nth atom i).exists_ = true)
    (hs : fb_seek atom b n n (next_atom i b n) = some j)
    (hcap : bonds.length + 1 < MAX_ATOMS) :
    fb_link MAX_ATOMS p atom b n (some (bonds, bonds.length)) i =
      some (bonds ++ [path_bond p i j], (bonds ++ [path_bond p i j]).length) := by
  simp only [fb_link, Option.some_bind, h, if_true, hs, Option.map_some', push_at_end,
    bump_lt _ _ hcap, List.length_append, List.length_singleton]

/-- The loop of lines 1670-1695 over the atoms `j .. n - 1` of the segment, when
`k0` is the first existing atom of the segment: every existing atom gets a bond
to the existing atom that follows it, the last one a bond to `k0`. -/
theorem fb_link_fold {K : Type} [Zero K] (MAX_ATOMS p : Nat) (atom : List (Atom K))
    (b n k0 : Nat) (hk0b : b ≤ k0) (hk0n : k0 < n) (hk0 : (nth atom k0).exists_ = true)
    (hk0f : ∀ t, b ≤ t → t < k0 → (nth atom t).exists_ = false) :
    ∀ (d j : Nat) (bonds : List Bond), j + d = n → b ≤ j →
      bonds.length + ((List.range' j d).filter (fun i => (nth atom i).exists_)).length
        < MAX_ATOMS →
      (List.range' j d).foldl (fb_link MAX_ATOMS p atom b n) (some (bonds, bonds.length)) =
        some (bonds ++ List.zipWith (path_bond p)
            ((List.range' j d).filter (fun i => (nth atom i).exists_))
            (((List.range' j d).filter (fun i => (nth atom i).exists_)).tail ++ [k0]),
          bonds.length +
            ((List.range' j d).filter (fun i => (nth atom i).exists_)).length) := by
  intro d
  induction d with
  | zero => intro j bonds _ _ _; simp
  | succ d ih =>
    intro j bonds hj hbj hcap
    rw [List.range'_succ] at hcap ⊢
    rw [List.foldl_cons]
    by_cases hex : (nth atom j).exists_ = true
    · rw [List.filter_cons, if_pos hex] at hcap ⊢
      have hseek : fb_seek atom b n n (next_atom j b n) =
          some ((((List.range' (j + 1) d).filter (fun i => (nth atom i).exists_)) ++ [k0]).headD 0)
          := by
        match hF : (List.range' (j + 1) d).filter (fun i => (nth atom i).exists_) with
        | k :: r =>
          obtain ⟨h1, h2, h3, h4⟩ := filter_range'_head (fun i => (nth atom i).exists_)
            d (j + 1) k r hF
          have e : next_atom j b n = j + 1 := by
            unfold next_atom; rw [if_neg (by omega)]
          rw [e]
          exact fb_seek_found atom b n k (by omega) h3 (k - (j + 1)) (j + 1) n (by omega) h4
            (by omega)
        | [] =>
          have hnone : ∀ t, j + 1 ≤ t → t < n → (nth atom t).exists_ = false := by
            intro t h1 h2
            have hm : t ∈ List.range' (j + 1) d := by
              rw [List.mem_range'_1]; omega
            have := (List.filter_eq_nil_iff.mp hF) t hm
            simpa using this
          have hk0j : k0 ≤ j := by
            by_contra hc
            have := hk0f j hbj (by omega)
            rw [this] at hex
            exact absurd hex (by decide)
          have hfromb : ∀ fuel, k0 - b < fuel → fb_seek atom b n fuel b = some k0 := by
            intro fuel hf
            exact fb_seek_found atom b n k0 hk0n hk0 (k0 - b) b fuel (by omega)
              (fun t h1 h2 => hk0f t h1 h2) hf
          show fb_seek atom b n n (next_atom j b n) = some k0
          by_cases hd : d = 0
          · have e : next_atom j b n = b := by
              unfold next_atom; rw [if_pos (by omega)]
            rw [e]
            exact hfromb n (by omega)
          · have e : next_atom j b n = j + 1 := by
              unfold next_atom; rw [if_neg (by omega)]
            obtain ⟨d2, rfl⟩ := Nat.exists_eq_succ_of_ne_zero hd
            rw [e, fb_seek_none atom b n d2 (j + 1) n (by omega) hnone (by omega)]
            exact hfromb _ (by omega)
      have hcap2 : bonds.length +
          (((List.range' (j + 1) d).filter (fun i => (nth atom i).exists_)).length + 1)
          < MAX_ATOMS := by
        rw [List.length_cons] at hcap; exact hcap
      rw [fb_link_push MAX_ATOMS p atom b n bonds j _ hex hseek (by omega)]
      rw [ih (j + 1) _ (by omega) (by omega)
        (by rw [List.length_append, List.length_singleton]; omega)]
      refine congrArg some (Prod.ext ?_ ?_)
      · show (bonds ++ [_]) ++ _ = bonds ++ _
        rw [List.append_assoc, List.tail_cons]
        congr 1
        match (List.range' (j + 1) d).filter (fun i => (nth atom i).exists_) with
        | k :: r => rfl
        | [] => rfl
      · show (bonds ++ [_]).length + _ = bonds.length + _
        rw [List.length_append, List.length_singleton, List.length_cons]
        omega
    · have hf : (nth atom j).exists_ = false := by simpa using hex
      rw [List.filter_cons, if_neg hex] at hcap ⊢
      rw [fb_link_skip MAX_ATOMS p atom b n _ j hf]
      exact ih (j + 1) bonds (by omega) (by omega) hcap
/-- C17. When `n_bond` is the size of the bond vector and the capacity ceiling
is not reached, `find_bonds` returns: the decimation ends with an atom vector
`st.1`, and the bond vector grows by exactly one existing bond of order 1 per
kept atom of the segment `[b_atom, n_atom)`, in path order, the bond of a kept
atom ending at the kept atom that follows it cyclically (`rotate 1`; at itself
when it is the only one).  The returned `n_bond` has grown by their number. -/
theorem find_bonds_cycle {K : Type} [LinearOrderedField K] (sqrt : K → K)
    (V_DISPLACEMENT DIR_CHANGE : K) (MAX_ATOMS : Nat) (atom : List (Atom K)) (bond : List Bond)
    (b_atom n_atom n_bond p : Nat) (hnb : n_bond = bond.length)
    (hcap : ∀ st, fb_decimate sqrt V_DISPLACEMENT DIR_CHANGE atom b_atom n_atom = some st →
      n_bond + (kept_atoms st.1 b_atom n_atom).length < MAX_ATOMS) :
    ∃ st, fb_decimate sqrt V_DISPLACEMENT DIR_CHANGE atom b_atom n_atom = some st ∧
      find_bonds sqrt V_DISPLACEMENT DIR_CHANGE MAX_ATOMS atom bond b_atom n_atom n_bond p =
        some (st.1,
          bond ++ List.zipWith (path_bond p) (kept_atoms st.1 b_atom n_atom)
            ((kept_atoms st.1 b_atom n_atom).rotate 1),
          n_bond + (kept_atoms st.1 b_atom n_atom).length) := by
  obtain ⟨st, hst⟩ := fb_decimate_returns sqrt V_DISPLACEMENT DIR_CHANGE atom b_atom n_atom
  have hc := hcap st hst
  refine ⟨st, hst, ?_⟩
  subst hnb
  unfold find_bonds
  rw [hst, Option.some_bind]
  unfold kept_atoms at hc ⊢
  match hF : (List.range' b_atom (n_atom - b_atom)).filter (fun i => (nth st.1 i).exists_) with
  | k0 :: r =>
    obtain ⟨h1, h2, h3, h4⟩ := filter_range'_head (fun i => (nth st.1 i).exists_)
      (n_atom - b_atom) b_atom k0 r hF
    have hfold := fb_link_fold MAX_ATOMS p st.1 b_atom n_atom k0 h1 (by omega) h3 h4
      (n_atom - b_atom) b_atom bond (by omega) (Nat.le_refl _) hc
    rw [hfold, hF]
    simp only [Option.map_some', List.tail_cons, List.rotate_cons_succ, List.rotate_zero]
  | [] =>
    have hnone : ∀ t, t < n_atom - b_atom → (nth st.1 (b_atom + t)).exists_ = false := by
      intro t ht
      have hm : b_atom + t ∈ List.range' b_atom (n_atom - b_atom) := by
        rw [List.mem_range'_1]; omega
      have := (List.filter_eq_nil_iff.mp hF) (b_atom + t) hm
      simpa using this
    have hfold : (List.range' b_atom (n_atom - b_atom)).foldl
        (fb_link MAX_ATOMS p st.1 b_atom n_atom) (some (bond, bond.length)) =
        some (bond, bond.length) :=
      foldl_range'_inv (fun _ s => s = some (bond, bond.length))
        (fb_link MAX_ATOMS p st.1 b_atom n_atom) b_atom (n_atom - b_atom)
        (some (bond, bond.length)) rfl
        (fun t s ht hs => by
          rw [hs]
          exact fb_link_skip MAX_ATOMS p st.1 b_atom n_atom _ _ (hnone t ht))
    rw [hfold]
    simp

/-- Witness for C17: on `corner_path` the points 1, 3 and 5 are kept and the new
bonds are 1-3, 3-5 and 5-1. -/
theorem find_bonds_cycle_witness :
    (find_bonds qsqrt (1 / 2) 2 10000 corner_path [] 0 6 0 7).map (fun r => (r.2.1, r.2.2)) =
      some ([path_bond 7 1 3, path_bond 7 3 5, path_bond 7 5 1], 3) ∧
    ∃ st, fb_decimate qsqrt (1 / 2) 2 corner_path 0 6 = some st ∧
      find_bonds qsqrt (1 / 2) 2 10000 corner_path [] 0 6 0 7 =
        some (st.1,
          [] ++ List.zipWith (path_bond 7) (kept_atoms st.1 0 6)
            ((kept_atoms st.1 0 6).rotate 1),
          0 + (kept_atoms st.1 0 6).length) :=
  ⟨by decide!,
    find_bonds_cycle qsqrt (1 / 2) 2 10000 corner_path [] 0 6 0 7 rfl
      (fun st h => by
        have e : st = (fb_decimate qsqrt (1 / 2) 2 corner_path 0 6).getD ([], 0) := by
          rw [h]; rfl
        rw [e]
        decide!)⟩

theorem copy_hash_spec (l : List Bond) (f i : Nat) (hi : i < l.length) :
    (copy_hash l f i).length = l.length ∧
    (∀ k, k ≠ i → nth (copy_hash l f i) k = nth l k) ∧
    nth (copy_hash l f i) i = { nth l i with hash := (nth l i).hash || (nth l f).hash } := by
  unfold copy_hash
  by_cases h : (nth l f).hash = true
  · rw [if_pos h, h, Bool.or_true]
    exact ⟨length_modify _ _ _, fun k hk => nth_modify_ne _ _ _ _ (fun e => hk e.symm),
      nth_modify_eq _ _ _ hi⟩
  · rw [if_neg h]
    have h2 : (nth l f).hash = false := by simpa using h
    rw [h2, Bool.or_false]
    exact ⟨rfl, fun _ _ => rfl, rfl⟩

theorem copy_wedge_spec (l : List Bond) (f i : Nat) (hi : i < l.length) :
    (copy_wedge l f i).length = l.length ∧
    (∀ k, k ≠ i → nth (copy_wedge l f i) k = nth l k) ∧
    nth (copy_wedge l f i) i = { nth l i with wedge := (nth l i).wedge || (nth l f).wedge } := by
  unfold copy_wedge
  by_cases h : (nth l f).wedge = true
  · rw [if_pos h, h, Bool.or_true]
    exact ⟨length_modify _ _ _, fun k hk => nth_modify_ne _ _ _ _ (fun e => hk e.symm),
      nth_modify_eq _ _ _ hi⟩
  · rw [if_neg h]
    have h2 : (nth l f).wedge = false := by simpa using h
    rw [h2, Bool.or_false]
    exact ⟨rfl, fun _ _ => rfl, rfl⟩

theorem copy_arom_spec (l : List Bond) (f i : Nat) (hi : i < l.length) :
    (copy_arom l f i).length = l.length ∧
    (∀ k, k ≠ i → nth (copy_arom l f i) k = nth l k) ∧
    nth (copy_arom l f i) i = { nth l i with arom := (nth l i).arom || (nth l f).arom } := by
  unfold copy_arom
  by_cases h : (nth l f).arom = true
  · rw [if_pos h, h, Bool.or_true]
    exact ⟨length_modify _ _ _, fun k hk => nth_modify_ne _ _ _ _ (fun e => hk e.symm),
      nth_modify_eq _ _ _ hi⟩
  · rw [if_neg h]
    have h2 : (nth l f).arom = false := by simpa using h
    rw [h2, Bool.or_false]
    exact ⟨rfl, fun _ _ => rfl, rfl⟩

/-- The inheritance statements touch bond `i` only. -/
theorem fl_inherit_spec {K : Type} [LinearOrderedField K] (bond : List Bond) (i f : Nat)
    (lf li : K) (hi : i < bond.length) (hif : f ≠ i) :
    (∀ k, k ≠ i → nth (fl_inherit bond i f lf li) k = nth bond k) ∧
    nth (fl_inherit bond i f lf li) i =
      { nth bond i with
        type := if lf > li then (nth bond f).type else (nth bond i).type
        arom := (nth bond i).arom || (nth bond f).arom
        hash := (nth bond i).hash || (nth bond f).hash
        wedge := (nth bond i).wedge || (nth bond f).wedge } := by
  have h0 : (if lf > li then set_type bond i (nth bond f).type else bond).length = bond.length ∧
      (∀ k, k ≠ i → nth (if lf > li then set_type bond i (nth bond f).type else bond) k
        = nth bond k) ∧
      nth (if lf > li then set_type bond i (nth bond f).type else bond) i =
        { nth bond i with type := if lf > li then (nth bond f).type else (nth bond i).type } := by
    by_cases h : lf > li
    · rw [if_pos h, if_pos h]
      exact ⟨length_modify _ _ _, fun k hk => nth_modify_ne _ _ _ _ (fun e => hk e.symm),
        nth_modify_eq _ _ _ hi⟩
    · rw [if_neg h, if_neg h]
      exact ⟨rfl, fun _ _ => rfl, rfl⟩
  obtain ⟨l0, k0, i0⟩ := h0
  obtain ⟨l1, k1, i1⟩ := copy_arom_spec _ f i (l0.symm ▸ hi)
  obtain ⟨l2, k2, i2⟩ := copy_hash_spec _ f i ((l1.trans l0).symm ▸ hi)
  obtain ⟨_, k3, i3⟩ := copy_wedge_spec _ f i ((l2.trans (l1.trans l0)).symm ▸ hi)
  unfold fl_inherit
  constructor
  · intro k hk
    rw [k3 k hk, k2 k hk, k1 k hk, k0 k hk]
  · simp only [i3, i2, i1, i0, k2 f hif, k1 f hif, k0 f hif]

theorem fl_ends_spec (c : FlCase) (l : List Bond) (i f : Nat) (hi : i < l.length) :
    (fl_ends c l i f).length = l.length ∧
    (∀ k, k ≠ i → nth (fl_ends c l i f) k = nth l k) ∧
    (nth (fl_ends c l i f) i).type = (nth l i).type ∧
    (nth (fl_ends c l i f) i).exists_ = (nth l i).exists_ ∧
    (nth (fl_ends c l i f) i).hash = (nth l i).hash ∧
    (nth (fl_ends c l i f) i).wedge = (nth l i).wedge ∧
    (nth (fl_ends c l i f) i).arom = (nth l i).arom := by
  have ha : ∀ (m : List Bond) (v : Nat), i < m.length →
      (set_a m i v).length = m.length ∧ (∀ k, k ≠ i → nth (set_a m i v) k = nth m k) ∧
      nth (set_a m i v) i = { nth m i with a := v } := fun m v hm =>
    ⟨length_modify _ _ _, fun k hk => nth_modify_ne _ _ _ _ (fun e => hk e.symm),
      nth_modify_eq _ _ _ hm⟩
  have hb : ∀ (m : List Bond) (v : Nat), i < m.length →
      (set_b m i v).length = m.length ∧ (∀ k, k ≠ i → nth (set_b m i v) k = nth m k) ∧
      nth (set_b m i v) i = { nth m i with b := v } := fun m v hm =>
    ⟨length_modify _ _ _, fun k hk => nth_modify_ne _ _ _ _ (fun e => hk e.symm),
      nth_modify_eq _ _ _ hm⟩
  have hab : ∀ u v : Nat,
      (set_b (set_a l i u) i v).length = l.length ∧
      (∀ k, k ≠ i → nth (set_b (set_a l i u) i v) k = nth l k) ∧
      nth (set_b (set_a l i u) i v) i = { nth l i with a := u, b := v } := by
    intro u v
    obtain ⟨l1, k1, i1⟩ := ha l u hi
    obtain ⟨l2, k2, i2⟩ := hb (set_a l i u) v (l1.symm ▸ hi)
    exact ⟨l2.trans l1, fun k hk => (k2 k hk).trans (k1 k hk), by rw [i2, i1]⟩
  have hba : ∀ u v : Nat,
      (set_a (set_b l i u) i v).length = l.length ∧
      (∀ k, k ≠ i → nth (set_a (set_b l i u) i v) k = nth l k) ∧
      nth (set_a (set_b l i u) i v) i = { nth l i with b := u, a := v } := by
    intro u v
    obtain ⟨l1, k1, i1⟩ := hb l u hi
    obtain ⟨l2, k2, i2⟩ := ha (set_b l i u) v (l1.symm ▸ hi)
    exact ⟨l2.trans l1, fun k hk => (k2 k hk).trans (k1 k hk), by rw [i2, i1]⟩
  cases c
  · obtain ⟨l1, k1, i1⟩ := ha l (nth l f).a hi
    exact ⟨l1, k1, by simp only [fl_ends, i1, and_self]⟩
  · unfold fl_ends
    by_cases h : (nth l f).hash = true ∨ (nth l f).wedge = true
    · obtain ⟨l1, k1, i1⟩ := hab (nth l i).b (nth l f).b
      simp only [if_pos h]
      exact ⟨l1, k1, by simp only [i1, and_self]⟩
    · obtain ⟨l1, k1, i1⟩ := ha l (nth l f).b hi
      simp only [if_neg h]
      exact ⟨l1, k1, by simp only [i1, and_self]⟩
  · unfold fl_ends
    by_cases h : (nth l f).hash = true ∨ (nth l f).wedge = true
    · obtain ⟨l1, k1, i1⟩ := hba (nth l i).a (nth l f).a
      simp only [if_pos h]
      exact ⟨l1, k1, by simp only [i1, and_self]⟩
    · obtain ⟨l1, k1, i1⟩ := hb l (nth l f).a hi
      simp only [if_neg h]
      exact ⟨l1, k1, by simp only [i1, and_self]⟩
  · obtain ⟨l1, k1, i1⟩ := hb l (nth l f).b hi
    exact ⟨l1, k1, by simp only [fl_ends, i1, and_self]⟩

theorem nth_delete_bond_self (l : List Bond) (f : Nat) :
    nth (delete_bond l f) f = { nth l f with exists_ := false } := by
  unfold delete_bond
  by_cases h : f < l.length
  · exact nth_modify_eq _ _ _ h
  · rw [nth_modify_eq_of_le _ _ _ (Nat.le_of_not_lt h), nth_of_le _ _ (Nat.le_of_not_lt h)]
    rfl

theorem nth_delete_atom_self {K : Type} [Zero K] (l : List (Atom K)) (e : Nat) :
    (nth (delete_atom l e) e).exists_ = false := by
  unfold delete_atom
  by_cases h : e < l.length
  · rw [nth_modify_eq _ _ _ h]
  · rw [nth_modify_eq_of_le _ _ _ (Nat.le_of_not_lt h), nth_of_le _ _ (Nat.le_of_not_lt h)]
    rfl

/-- What one merge does to the bond vector. -/
theorem fl_merge_spec {K : Type} [LinearOrderedField K] (c : FlCase) (s : FlState K)
    (i f : Nat) (lf li : K) (hi : (nth s.bond i).exists_ = true) (hif : f ≠ i) :
    (nth (fl_merge c s i f lf li).atom (fl_gone c s.bond f)).exists_ = false ∧
    (nth (fl_merge c s i f lf li).bond f).exists_ = false ∧
    (nth (fl_merge c s i f lf li).bond i).exists_ = true ∧
    (nth (fl_merge c s i f lf li).bond i).type =
      (if lf > li then (nth s.bond f).type else (nth s.bond i).type) ∧
    (nth (fl_merge c s i f lf li).bond i).hash = ((nth s.bond i).hash || (nth s.bond f).hash) ∧
    (nth (fl_merge c s i f lf li).bond i).wedge =
      ((nth s.bond i).wedge || (nth s.bond f).wedge) ∧
    (nth (fl_merge c s i f lf li).bond i).arom = ((nth s.bond i).arom || (nth s.bond f).arom) ∧
    (∀ k, k ≠ i → k ≠ f → nth (fl_merge c s i f lf li).bond k = nth s.bond k) ∧
    (fl_merge c s i f lf li).found = true := by
  have hil : i < s.bond.length := exists_lt_length _ _ hi
  have hDl : (delete_bond s.bond f).length = s.bond.length := length_modify _ _ _
  have hDi : nth (delete_bond s.bond f) i = nth s.bond i := nth_modify_ne _ _ _ _ hif
  have hDf := nth_delete_bond_self s.bond f
  have hDk : ∀ k, k ≠ f → nth (delete_bond s.bond f) k = nth s.bond k :=
    fun k hk => nth_modify_ne _ _ _ _ (fun e => hk e.symm)
  obtain ⟨lE, kE, tE, eE, hE, wE, aE⟩ := fl_ends_spec c (delete_bond s.bond f) i f (hDl.symm ▸ hil)
  obtain ⟨kI, iI⟩ := fl_inherit_spec (fl_ends c (delete_bond s.bond f) i f) i f lf li
    ((lE.trans hDl).symm ▸ hil) hif
  have hg : fl_gone c (delete_bond s.bond f) f = fl_gone c s.bond f := by
    cases c <;> simp only [fl_gone, hDf]
  refine ⟨?_, ?_, ?_, ?_, ?_, ?_, ?_, ?_, rfl⟩
  · show (nth (delete_atom s.atom (fl_gone c (delete_bond s.bond f) f)) _).exists_ = false
    rw [hg]
    exact nth_delete_atom_self _ _
  · show (nth (fl_inherit _ i f lf li) f).exists_ = false
    rw [kI f hif, kE f hif, hDf]
  · show (nth (fl_inherit _ i f lf li) i).exists_ = true
    rw [iI]
    show (nth (fl_ends c (delete_bond s.bond f) i f) i).exists_ = true
    rw [eE, hDi, hi]
  · show (nth (fl_inherit _ i f lf li) i).type = _
    rw [iI]
    show (if lf > li then (nth (fl_ends c (delete_bond s.bond f) i f) f).type
      else (nth (fl_ends c (delete_bond s.bond f) i f) i).type) = _
    rw [kE f hif, tE, hDi, hDf]
  · show (nth (fl_inherit _ i f lf li) i).hash = _
    rw [iI]
    show ((nth (fl_ends c (delete_bond s.bond f) i f) i).hash ||
      (nth (fl_ends c (delete_bond s.bond f) i f) f).hash) = _
    rw [kE f hif, hE, hDi, hDf]
  · show (nth (fl_inherit _ i f lf li) i).wedge = _
    rw [iI]
    show ((nth (fl_ends c (delete_bond s.bond f) i f) i).wedge ||
      (nth (fl_ends c (delete_bond s.bond f) i f) f).wedge) = _
    rw [kE f hif, wE, hDi, hDf]
  · show (nth (fl_inherit _ i f lf li) i).arom = _
    rw [iI]
    show ((nth (fl_ends c (delete_bond s.bond f) i f) i).arom ||
      (nth (fl_ends c (delete_bond s.bond f) i f) f).arom) = _
    rw [kE f hif, aE, hDi, hDf]
  · intro k hki hkf
    show nth (fl_inherit _ i f lf li) k = _
    rw [kI k hki, kE k hki, hDk k hkf]

/-- The neighbour found by the loop over `j`, when there is one. -/
theorem fl_count_spec (bond : List Bond) (n_bond i e : Nat) :
    ((fl_count bond n_bond i e).1 = 0 ∧ (fl_count bond n_bond i e).2 = i) ∨
    (0 < (fl_count bond n_bond i e).1 ∧ (fl_count bond n_bond i e).2 ≠ i ∧
      (fl_count bond n_bond i e).2 < n_bond ∧
      (nth bond (fl_count bond n_bond i e).2).exists_ = true ∧
      (nth bond (fl_count bond n_bond i e).2).type < 3 ∧
      (e = (nth bond (fl_count bond n_bond i e).2).a ∨
        e = (nth bond (fl_count bond n_bond i e).2).b)) := by
  unfold fl_count
  refine foldl_range_inv
    (fun m (nf : Nat × Nat) => (nf.1 = 0 ∧ nf.2 = i) ∨
      (0 < nf.1 ∧ nf.2 ≠ i ∧ nf.2 < m ∧ (nth bond nf.2).exists_ = true ∧
        (nth bond nf.2).type < 3 ∧ (e = (nth bond nf.2).a ∨ e = (nth bond nf.2).b)))
    _ n_bond (0, i) (Or.inl ⟨rfl, rfl⟩) ?_
  intro j nf _ hP
  by_cases hc : j ≠ i ∧ (nth bond j).exists_ = true ∧ (nth bond j).type < 3 ∧
      (e = (nth bond j).a ∨ e = (nth bond j).b)
  · simp only [if_pos hc]
    exact Or.inr ⟨Nat.succ_pos _, hc.1, Nat.lt_succ_self j, hc.2.1, hc.2.2.1, hc.2.2.2⟩
  · simp only [if_neg hc]
    rcases hP with h | ⟨h1, h2, h3, h4⟩
    · exact Or.inl h
    · exact Or.inr ⟨h1, h2, Nat.lt_succ_of_lt h3, h4⟩

/-- What the code does at the end `a` of bond `i`. -/
theorem fl_side_a_spec {K : Type} [LinearOrderedField K] (sqrt : K → K) (n_bond : Nat)
    (maxh : K) (s : FlState K) (i : Nat) (li : K) (hi : (nth s.bond i).exists_ = true) :
    fl_side_a sqrt n_bond maxh s i li = s ∨
    FlMerged sqrt n_bond s (fl_side_a sqrt n_bond maxh s i li) i (nth s.bond i).a li := by
  unfold fl_side_a
  by_cases hl : (nth s.atom (nth s.bond i).a).label = " "
  · rw [if_pos hl]
    by_cases hn : (fl_count s.bond n_bond i (nth s.bond i).a).1 = 1
    · simp only [if_pos hn]
      rcases fl_count_spec s.bond n_bond i (nth s.bond i).a with h0 | ⟨_, hfi, hfn, hfe, hft, hfs⟩
      · rw [h0.1] at hn
        exact absurd hn (by decide)
      · by_cases hc : (nth s.bond i).a = (nth s.bond (fl_count s.bond n_bond i (nth s.bond i).a).2).b
        · rw [if_pos hc]
          split_ifs with hg
          · right
            obtain ⟨m1, m2, m3, m4, m5, m6, m7, m8, m9⟩ := fl_merge_spec FlCase.a_fb s i
              (fl_count s.bond n_bond i (nth s.bond i).a).2
              (bond_length sqrt s.bond (fl_count s.bond n_bond i (nth s.bond i).a).2 s.atom) li
              hi hfi
            refine ⟨_, hfi, hfn, hfe, hft, hfs, hl, ?_, m2, m3, m4, m5, m6, m7, m8, m9⟩
            have hg2 : fl_gone FlCase.a_fb s.bond (fl_count s.bond n_bond i (nth s.bond i).a).2
                = (nth s.bond i).a := hc.symm
            rw [hg2] at m1
            exact m1
          · exact Or.inl rfl
        · rw [if_neg hc]
          split_ifs with hg
          · right
            obtain ⟨m1, m2, m3, m4, m5, m6, m7, m8, m9⟩ := fl_merge_spec FlCase.a_fa s i
              (fl_count s.bond n_bond i (nth s.bond i).a).2
              (bond_length sqrt s.bond (fl_count s.bond n_bond i (nth s.bond i).a).2 s.atom) li
              hi hfi
            refine ⟨_, hfi, hfn, hfe, hft, hfs, hl, ?_, m2, m3, m4, m5, m6, m7, m8, m9⟩
            have hg2 : fl_gone FlCase.a_fa s.bond (fl_count s.bond n_bond i (nth s.bond i).a).2
                = (nth s.bond i).a := by
              rcases hfs with h | h
              · exact h.symm
              · exact absurd h hc
            rw [hg2] at m1
            exact m1
          · exact Or.inl rfl
    · simp only [if_neg hn]
      exact Or.inl trivial
  · rw [if_neg hl]
    exact Or.inl rfl

/-- What the code does at the end `b` of bond `i`. -/
theorem fl_side_b_spec {K : Type} [LinearOrderedField K] (sqrt : K → K) (n_bond : Nat)
    (maxh : K) (s : FlState K) (i : Nat) (li : K) (hi : (nth s.bond i).exists_ = true) :
    fl_side_b sqrt n_bond maxh s i li = s ∨
    FlMerged sqrt n_bond s (fl_side_b sqrt n_bond maxh s i li) i (nth s.bond i).b li := by
  unfold fl_side_b
  by_cases hl : (nth s.atom (nth s.bond i).b).label = " "
  · rw [if_pos hl]
    by_cases hn : (fl_count s.bond n_bond i (nth s.bond i).b).1 = 1
    · simp only [if_pos hn]
      rcases fl_count_spec s.bond n_bond i (nth s.bond i).b with h0 | ⟨_, hfi, hfn, hfe, hft, hfs⟩
      · rw [h0.1] at hn
        exact absurd hn (by decide)
      · by_cases hc : (nth s.bond i).b = (nth s.bond (fl_count s.bond n_bond i (nth s.bond i).b).2).b
        · rw [if_pos hc]
          split_ifs with hg
          · right
            obtain ⟨m1, m2, m3, m4, m5, m6, m7, m8, m9⟩ := fl_merge_spec FlCase.b_fb s i
              (fl_count s.bond n_bond i (nth s.bond i).b).2
              (bond_length sqrt s.bond (fl_count s.bond n_bond i (nth s.bond i).b).2 s.atom) li
              hi hfi
            refine ⟨_, hfi, hfn, hfe, hft, hfs, hl, ?_, m2, m3, m4, m5, m6, m7, m8, m9⟩
            have hg2 : fl_gone FlCase.b_fb s.bond (fl_count s.bond n_bond i (nth s.bond i).b).2
                = (nth s.bond i).b := hc.symm
            rw [hg2] at m1
            exact m1
          · exact Or.inl rfl
        · rw [if_neg hc]
          split_ifs with hg
          · right
            obtain ⟨m1, m2, m3, m4, m5, m6, m7, m8, m9⟩ := fl_merge_spec FlCase.b_fa s i
              (fl_count s.bond n_bond i (nth s.bond i).b).2
              (bond_length sqrt s.bond (fl_count s.bond n_bond i (nth s.bond i).b).2 s.atom) li
              hi hfi
            refine ⟨_, hfi, hfn, hfe, hft, hfs, hl, ?_, m2, m3, m4, m5, m6, m7, m8, m9⟩
            have hg2 : fl_gone FlCase.b_fa s.bond (fl_count s.bond n_bond i (nth s.bond i).b).2
                = (nth s.bond i).b := by
              rcases hfs with h | h
              · exact h.symm
              · exact absurd h hc
            rw [hg2] at m1
            exact m1
          · exact Or.inl rfl
    · simp only [if_neg hn]
      exact Or.inl trivial
  · rw [if_neg hl]
    exact Or.inl rfl

/-- Either end leaves bond `i` in existence. -/
theorem fl_side_a_exists {K : Type} [LinearOrderedField K] (sqrt : K → K) (n_bond : Nat)
    (maxh : K) (s : FlState K) (i : Nat) (li : K) (hi : (nth s.bond i).exists_ = true) :
    (nth (fl_side_a sqrt n_bond maxh s i li).bond i).exists_ = true := by
  rcases fl_side_a_spec sqrt n_bond maxh s i li hi with h | ⟨f, h⟩
  · rw [h]; exact hi
  · exact h.2.2.2.2.2.2.2.2.1

/-! ## C18: `flatten_bonds` -/

/-- C18 (as amended): in the turn of an existing bond `i` of order below 3,
`flatten_bonds` works on end `a` and then on end `b`, each time with the length
`li` that bond `i` had at the start of the turn. At either end the state is left
as it was, or bond `i` is merged with the one other bond `f` at the unlabeled end
atom: `f` and that atom are deleted, and the surviving bond `i` has the order of
`f` when `f` is longer than `li` and its own order otherwise, and has each of the
flags hash, wedge and arom exactly when one of the two bonds had it. -/
theorem flatten_bonds_merge_longer {K : Type} [LinearOrderedField K] (sqrt : K → K)
    (n_bond : Nat) (maxh : K) (s : FlState K) (i : Nat)
    (hi : (nth s.bond i).exists_ = true) (ht : (nth s.bond i).type < 3) :
    fl_body sqrt n_bond maxh s i =
      fl_side_b sqrt n_bond maxh
        (fl_side_a sqrt n_bond maxh s i (bond_length sqrt s.bond i s.atom)) i
        (bond_length sqrt s.bond i s.atom) ∧
    (fl_side_a sqrt n_bond maxh s i (bond_length sqrt s.bond i s.atom) = s ∨
      FlMerged sqrt n_bond s (fl_side_a sqrt n_bond maxh s i (bond_length sqrt s.bond i s.atom))
        i (nth s.bond i).a (bond_length sqrt s.bond i s.atom)) ∧
    (fl_body sqrt n_bond maxh s i =
        fl_side_a sqrt n_bond maxh s i (bond_length sqrt s.bond i s.atom) ∨
      FlMerged sqrt n_bond (fl_side_a sqrt n_bond maxh s i (bond_length sqrt s.bond i s.atom))
        (fl_body sqrt n_bond maxh s i) i
        (nth (fl_side_a sqrt n_bond maxh s i (bond_length sqrt s.bond i s.atom)).bond i).b
        (bond_length sqrt s.bond i s.atom)) := by
  have hb : fl_body sqrt n_bond maxh s i =
      fl_side_b sqrt n_bond maxh
        (fl_side_a sqrt n_bond maxh s i (bond_length sqrt s.bond i s.atom)) i
        (bond_length sqrt s.bond i s.atom) := by
    unfold fl_body
    rw [if_pos ⟨hi, ht⟩]
  refine ⟨hb, fl_side_a_spec sqrt n_bond maxh s i _ hi, ?_⟩
  rw [hb]
  exact fl_side_b_spec sqrt n_bond maxh _ i _ (fl_side_a_exists sqrt n_bond maxh s i _ hi)

/-- The amended statement at the chain of a short double bond and a long single
bond, in the turn of bond 0. -/
theorem flatten_bonds_merge_longer_witness :
    (nth (FlState.mk chain_atoms chain_bonds false).bond 0).exists_ = true ∧
    (nth (FlState.mk chain_atoms chain_bonds false).bond 0).type < 3 ∧
    (fl_body qsqrt 2 3 ⟨chain_atoms, chain_bonds, false⟩ 0 =
      fl_side_b qsqrt 2 3
        (fl_side_a qsqrt 2 3 ⟨chain_atoms, chain_bonds, false⟩ 0
          (bond_length qsqrt chain_bonds 0 chain_atoms)) 0
        (bond_length qsqrt chain_bonds 0 chain_atoms) ∧
    (fl_side_a qsqrt 2 3 ⟨chain_atoms, chain_bonds, false⟩ 0
        (bond_length qsqrt chain_bonds 0 chain_atoms) = ⟨chain_atoms, chain_bonds, false⟩ ∨
      FlMerged qsqrt 2 ⟨chain_atoms, chain_bonds, false⟩
        (fl_side_a qsqrt 2 3 ⟨chain_atoms, chain_bonds, false⟩ 0
          (bond_length qsqrt chain_bonds 0 chain_atoms))
        0 (nth chain_bonds 0).a (bond_length qsqrt chain_bonds 0 chain_atoms)) ∧
    (fl_body qsqrt 2 3 ⟨chain_atoms, chain_bonds, false⟩ 0 =
        fl_side_a qsqrt 2 3 ⟨chain_atoms, chain_bonds, false⟩ 0
          (bond_length qsqrt chain_bonds 0 chain_atoms) ∨
      FlMerged qsqrt 2
        (fl_side_a qsqrt 2 3 ⟨chain_atoms, chain_bonds, false⟩ 0
          (bond_length qsqrt chain_bonds 0 chain_atoms))
        (fl_body qsqrt 2 3 ⟨chain_atoms, chain_bonds, false⟩ 0) 0
        (nth (fl_side_a qsqrt 2 3 ⟨chain_atoms, chain_bonds, false⟩ 0
          (bond_length qsqrt chain_bonds 0 chain_atoms)).bond 0).b
        (bond_length qsqrt chain_bonds 0 chain_atoms))) :=
  ⟨by decide, by decide,
    flatten_bonds_merge_longer qsqrt 2 3 ⟨chain_atoms, chain_bonds, false⟩ 0 (by decide)
      (by decide)⟩

/-- C18 (as stated) fails: a double bond of length 4 and a single bond of length
16 lie on one line and share the unlabeled atom 1. `flatten_bonds` merges them
into bond 0 from atom 0 to atom 2, deleting bond 1 and atom 1, and the surviving
bond has order 1, the order of the longer bond, not the maximum 2 of the two
orders. -/
theorem flatten_bonds_max_order_counterexample :
    ∃ r, flatten_bonds qsqrt 2 3 2 chain_bonds chain_atoms = some r ∧
      (nth r.1 0).exists_ = true ∧ (nth r.1 1).exists_ = false ∧
      (nth r.2 1).exists_ = false ∧
      (nth r.1 0).a = 0 ∧ (nth r.1 0).b = 2 ∧
      (nth r.1 0).type = 1 ∧
      max (nth chain_bonds 0).type (nth chain_bonds 1).type = 2 := by
  decide!

theorem same_refl (l : List Bond) : SameBonds l l :=
  ⟨rfl, fun _ => ⟨rfl, rfl, rfl, rfl, Or.inl ⟨rfl, rfl⟩⟩⟩

theorem same_trans {l m r : List Bond} (h1 : SameBonds l m) (h2 : SameBonds m r) :
    SameBonds l r := by
  refine ⟨h2.1.trans h1.1, fun k => ?_⟩
  obtain ⟨e1, t1, w1, s1, p1⟩ := h1.2 k
  obtain ⟨e2, t2, w2, s2, p2⟩ := h2.2 k
  refine ⟨e2.trans e1, t2.trans t1, w2.trans w1, s2.trans s1, ?_⟩
  rcases p1 with ⟨a1, b1⟩ | ⟨a1, b1⟩ <;> rcases p2 with ⟨a2, b2⟩ | ⟨a2, b2⟩
  · exact Or.inl ⟨a2.trans a1, b2.trans b1⟩
  · exact Or.inr ⟨a2.trans b1, b2.trans a1⟩
  · exact Or.inr ⟨a2.trans a1, b2.trans b1⟩
  · exact Or.inl ⟨a2.trans b1, b2.trans a1⟩

/-- A write to bond `j` that keeps its existence, order, wedge and hash flags and
keeps or exchanges its ends. -/
theorem same_modify (l : List Bond) (j : Nat) (g : Bond → Bond)
    (hg : ∀ b : Bond, (g b).exists_ = b.exists_ ∧ (g b).type = b.type ∧
      (g b).wedge = b.wedge ∧ (g b).hash = b.hash ∧
      (((g b).a = b.a ∧ (g b).b = b.b) ∨ ((g b).a = b.b ∧ (g b).b = b.a))) :
    SameBonds l (modify l j g) := by
  refine ⟨length_modify _ _ _, fun k => ?_⟩
  rw [nth_modify]
  split_ifs with h
  · exact hg _
  · exact ⟨rfl, rfl, rfl, rfl, Or.inl ⟨rfl, rfl⟩⟩

theorem same_set_up (l : List Bond) (j : Nat) (v : Bool) : SameBonds l (set_up l j v) :=
  same_modify l j _ (fun _ => ⟨rfl, rfl, rfl, rfl, Or.inl ⟨rfl, rfl⟩⟩)

theorem same_set_down (l : List Bond) (j : Nat) (v : Bool) :
    SameBonds l (set_down l j v) :=
  same_modify l j _ (fun _ => ⟨rfl, rfl, rfl, rfl, Or.inl ⟨rfl, rfl⟩⟩)

theorem same_swap (l : List Bond) (j : Nat) : SameBonds l (bond_end_swap l j) :=
  same_modify l j _ (fun _ => ⟨rfl, rfl, rfl, rfl, Or.inr ⟨rfl, rfl⟩⟩)

theorem same_down_up {K : Type} [LinearOrderedField K] (l : List Bond) (j : Nat)
    (h t : K) : SameBonds l (fud_down_up l j h t) := by
  unfold fud_down_up
  split_ifs
  · exact same_set_down _ _ _
  · exact same_set_up _ _ _
  · exact same_refl _

theorem same_up_down {K : Type} [LinearOrderedField K] (l : List Bond) (j : Nat)
    (h t : K) : SameBonds l (fud_up_down l j h t) := by
  unfold fud_up_down
  split_ifs
  · exact same_set_up _ _ _
  · exact same_set_down _ _ _
  · exact same_refl _

theorem same_orient {K : Type} [LinearOrderedField K] (atom : List (Atom K))
    (l : List Bond) (i : Nat) : SameBonds l (fud_orient atom l i) := by
  have h1 : SameBonds l (if (nth atom (nth l i).a).x > (nth atom (nth l i).b).x then
      bond_end_swap l i else l) := by
    by_cases h : (nth atom (nth l i).a).x > (nth atom (nth l i).b).x
    · rw [if_pos h]
      exact same_swap _ _
    · rw [if_neg h]
      exact same_refl _
  have h2 : ∀ m : List Bond, SameBonds m
      (if (nth atom (nth m i).a).x = (nth atom (nth m i).b).x ∧
        (nth atom (nth m i).a).y > (nth atom (nth m i).b).y then bond_end_swap m i else m) := by
    intro m
    by_cases h : (nth atom (nth m i).a).x = (nth atom (nth m i).b).x ∧
        (nth atom (nth m i).a).y > (nth atom (nth m i).b).y
    · rw [if_pos h]
      exact same_swap _ _
    · rw [if_neg h]
      exact same_refl _
  exact same_trans h1 (h2 _)

theorem same_inner {K : Type} [LinearOrderedField K] (sqrt : K → K)
    (atom : List (Atom K)) (thickness : K) (i : Nat) (l : List Bond) (j : Nat) :
    SameBonds l (fud_inner sqrt atom thickness i l j) := by
  unfold fud_inner
  have h1 : SameBonds l (set_up (set_down l j false) j false) :=
    same_trans (same_set_down _ _ _) (same_set_up _ _ _)
  simp only []
  split_ifs
  · exact same_trans h1 (same_down_up _ _ _ _)
  · exact same_trans h1 (same_trans (same_swap _ _) (same_down_up _ _ _ _))
  · exact same_trans h1 (same_up_down _ _ _ _)
  · exact same_trans h1 (same_trans (same_swap _ _) (same_up_down _ _ _ _))
  · exact h1
  · exact same_refl _

theorem same_foldl {σ : Type} (f : List Bond → σ → List Bond)
    (hf : ∀ l x, SameBonds l (f l x)) (xs : List σ) (l : List Bond) :
    SameBonds l (xs.foldl f l) := by
  induction xs generalizing l with
  | nil => exact same_refl _
  | cons x xs ih => exact same_trans (hf l x) (ih _)

theorem same_body {K : Type} [LinearOrderedField K] (sqrt : K → K)
    (atom : List (Atom K)) (n_bond : Nat) (thickness : K) (l : List Bond) (i : Nat) :
    SameBonds l (fud_body sqrt atom n_bond thickness l i) := by
  unfold fud_body
  split_ifs
  · exact same_trans (same_orient atom l i)
      (same_foldl _ (same_inner sqrt atom thickness i) _ _)
  · exact same_refl _

theorem same_apart {l r : List Bond} (h : SameBonds l r) (i j : Nat) (ha : apart l i j) :
    apart r i j := by
  obtain ⟨_, _, _, _, pi⟩ := h.2 i
  obtain ⟨_, _, _, _, pj⟩ := h.2 j
  obtain ⟨a1, a2, a3, a4⟩ := ha
  unfold apart
  rcases pi with ⟨ia, ib⟩ | ⟨ia, ib⟩ <;> rcases pj with ⟨ja, jb⟩ | ⟨ja, jb⟩ <;>
    rw [ia, ib, ja, jb]
  · exact ⟨a1, a2, a3, a4⟩
  · exact ⟨a3, a4, a1, a2⟩
  · exact ⟨a2, a1, a4, a3⟩
  · exact ⟨a4, a3, a2, a1⟩

theorem same_plain_single {l r : List Bond} (h : SameBonds l r) (j : Nat)
    (hp : plain_single l j) : plain_single r j := by
  obtain ⟨e, t, w, s, _⟩ := h.2 j
  unfold plain_single
  rw [e, t, w, s]
  exact hp

/-- The turn of bond `k` in the loop over `j` writes to bond `k` only. -/
theorem fud_inner_other {K : Type} [LinearOrderedField K] (sqrt : K → K)
    (atom : List (Atom K)) (thickness : K) (i : Nat) (l : List Bond) (k m : Nat)
    (hm : k ≠ m) : nth (fud_inner sqrt atom thickness i l k) m = nth l m := by
  have hdu : ∀ (b : List Bond) (h : K), nth (fud_down_up b k h thickness) m = nth b m := by
    intro b h
    unfold fud_down_up set_down set_up
    split_ifs <;> first | exact nth_modify_ne _ _ _ _ hm | rfl
  have hud : ∀ (b : List Bond) (h : K), nth (fud_up_down b k h thickness) m = nth b m := by
    intro b h
    unfold fud_up_down set_down set_up
    split_ifs <;> first | exact nth_modify_ne _ _ _ _ hm | rfl
  have hsw : ∀ b : List Bond, nth (bond_end_swap b k) m = nth b m :=
    fun b => nth_modify_ne _ _ _ _ hm
  have h1 : nth (set_up (set_down l k false) k false) m = nth l m :=
    (nth_modify_ne _ _ _ _ hm).trans (nth_modify_ne _ _ _ _ hm)
  unfold fud_inner
  simp only []
  split_ifs
  · rw [hdu, h1]
  · rw [hdu, hsw, h1]
  · rw [hud, h1]
  · rw [hud, hsw, h1]
  · exact h1
  · rfl

/-- The turn of a plain single bond `j` that has no end in common with the
double bond `i` leaves it with neither flag. -/
theorem fud_inner_clears {K : Type} [LinearOrderedField K] (sqrt : K → K)
    (atom : List (Atom K)) (thickness : K) (i : Nat) (l : List Bond) (j : Nat)
    (hp : plain_single l j) (ha : apart l i j) :
    (nth (fud_inner sqrt atom thickness i l j) j).up = false ∧
    (nth (fud_inner sqrt atom thickness i l j) j).down = false := by
  have hjl : j < l.length := exists_lt_length _ _ hp.1
  have hji : j ≠ i := by
    intro e
    subst e
    exact ha.1 rfl
  have hl1 : j < (set_down l j false).length := by
    unfold set_down
    rw [length_modify]
    exact hjl
  have hj : nth (set_up (set_down l j false) j false) j =
      { nth l j with down := false, up := false } := by
    unfold set_up
    rw [nth_modify_eq _ _ _ hl1]
    unfold set_down
    rw [nth_modify_eq _ _ _ hjl]
  have hi : nth (set_up (set_down l j false) j false) i = nth l i :=
    (nth_modify_ne _ _ _ _ hji).trans (nth_modify_ne _ _ _ _ hji)
  obtain ⟨a1, a2, a3, a4⟩ := ha
  have hp2 : (nth l j).exists_ = true ∧ (nth l j).type = 1 ∧ (nth l j).wedge = false ∧
      (nth l j).hash = false := hp
  unfold fud_inner
  simp only [if_pos hp2, hj, hi, if_neg a3, if_neg a1, if_neg a2, if_neg a4, and_self]

/-- The turn of the double bond `i` leaves every plain single bond that has no
end in common with it with neither flag, whatever its flags were. -/
theorem fud_body_clears {K : Type} [LinearOrderedField K] (sqrt : K → K)
    (atom : List (Atom K)) (n_bond : Nat) (thickness : K) (l : List Bond) (i j : Nat)
    (hi : (nth l i).exists_ = true ∧ (nth l i).type = 2) (hj : j < n_bond)
    (hp : plain_single l j) (ha : apart l i j) :
    (nth (fud_body sqrt atom n_bond thickness l i) j).up = false ∧
    (nth (fud_body sqrt atom n_bond thickness l i) j).down = false := by
  unfold fud_body
  rw [if_pos hi]
  have hP := foldl_range_inv
    (fun m (s : List Bond) => SameBonds l s ∧
      (j < m → (nth s j).up = false ∧ (nth s j).down = false))
    (fud_inner sqrt atom thickness i) n_bond (fud_orient atom l i)
    ⟨same_orient atom l i, fun h => absurd h (Nat.not_lt_zero _)⟩
    (by
      intro k s _ hs
      refine ⟨same_trans hs.1 (same_inner sqrt atom thickness i s k), fun hk => ?_⟩
      by_cases hkj : k = j
      · subst hkj
        exact fud_inner_clears sqrt atom thickness i s k (same_plain_single hs.1 k hp)
          (same_apart hs.1 i k ha)
      · rw [fud_inner_other sqrt atom thickness i s k j hkj]
        exact hs.2 (by omega))
  exact hP.2 hj

/-- After `find_up_down_bonds`, a plain single bond that has no end in common
with the last existing double bond of the vector has neither flag. -/
theorem find_up_down_bonds_clears {K : Type} [LinearOrderedField K] (sqrt : K → K)
    (atom : List (Atom K)) (n_bond : Nat) (thickness : K) (bond : List Bond) (i j : Nat)
    (hin : i < n_bond) (hi : (nth bond i).exists_ = true ∧ (nth bond i).type = 2)
    (hlast : ∀ k, i < k → k < n_bond → ¬ ((nth bond k).exists_ = true ∧ (nth bond k).type = 2))
    (hj : j < n_bond) (hp : plain_single bond j) (ha : apart bond i j) :
    (nth (find_up_down_bonds sqrt bond n_bond atom thickness) j).up = false ∧
    (nth (find_up_down_bonds sqrt bond n_bond atom thickness) j).down = false := by
  unfold find_up_down_bonds
  have hP := foldl_range_inv
    (fun m (s : List Bond) => SameBonds bond s ∧
      (i < m → (nth s j).up = false ∧ (nth s j).down = false))
    (fud_body sqrt atom n_bond thickness) n_bond bond
    ⟨same_refl bond, fun h => absurd h (Nat.not_lt_zero _)⟩
    (by
      intro k s hk hs
      refine ⟨same_trans hs.1 (same_body sqrt atom n_bond thickness s k), fun hik => ?_⟩
      rcases Nat.lt_or_ge i k with hlt | hge
      · have hn : ¬ ((nth s k).exists_ = true ∧ (nth s k).type = 2) := by
          rw [(hs.1.2 k).1, (hs.1.2 k).2.1]
          exact hlast k hlt hk
        unfold fud_body
        rw [if_neg hn]
        exact hs.2 hlt
      · have hki : k = i := by omega
        subst hki
        have hi2 : (nth s k).exists_ = true ∧ (nth s k).type = 2 := by
          rw [(hs.1.2 k).1, (hs.1.2 k).2.1]
          exact hi
        exact fud_body_clears sqrt atom n_bond thickness s k j hi2 hj
          (same_plain_single hs.1 j hp) (same_apart hs.1 k j ha))
  exact hP.2 hin

/-! ## C19: `find_up_down_bonds` -/

/-- C19 does not hold of the code. In `updown_two` the plain single bond 1 ends
at the left end of the double bond 0, and its other end, atom 2, lies at offset
-5 from the axis of bond 0, more than the thickness 2. With the double bond 0
alone (`updown_one`) bond 1 ends with `up` set and `down` clear. With the second
double bond 3-4 behind it in the vector, bond 1 ends with neither flag: the turn
of each double bond first clears both flags of every plain single bond (lines
3544-3545), so only the flags given by the last double bond survive. In general,
over any atoms and bonds, a plain single bond that has no end in common with the
last existing double bond ends with neither flag. -/
theorem find_up_down_bonds_second_double_bond :
    (plain_single updown_two 1 ∧
      (nth updown_two 0).exists_ = true ∧ (nth updown_two 0).type = 2 ∧
      (nth updown_two 1).b = (nth updown_two 0).a ∧
      fud_h qsqrt updown_atoms updown_two 0 (nth updown_two 1).a = -5) ∧
    ((nth (find_up_down_bonds qsqrt updown_one 2 updown_atoms 2) 1).up = true ∧
      (nth (find_up_down_bonds qsqrt updown_one 2 updown_atoms 2) 1).down = false) ∧
    ((nth (find_up_down_bonds qsqrt updown_two 3 updown_atoms 2) 1).up = false ∧
      (nth (find_up_down_bonds qsqrt updown_two 3 updown_atoms 2) 1).down = false) ∧
    (∀ (atom : List (Atom ℚ)) (bond : List Bond) (n_bond : Nat) (thickness : ℚ) (i j : Nat),
      i < n_bond → (nth bond i).exists_ = true ∧ (nth bond i).type = 2 →
      (∀ k, i < k → k < n_bond → ¬ ((nth bond k).exists_ = true ∧ (nth bond k).type = 2)) →
      j < n_bond → plain_single bond j → apart bond i j →
      (nth (find_up_down_bonds qsqrt bond n_bond atom thickness) j).up = false ∧
      (nth (find_up_down_bonds qsqrt bond n_bond atom thickness) j).down = false) :=
  ⟨by decide!, by decide!, by decide!,
    fun atom bond n_bond thickness i j hin hi hlast hj hp ha =>
      find_up_down_bonds_clears qsqrt atom n_bond thickness bond i j hin hi hlast hj hp ha⟩

theorem total_boxes_confidence_from {K : Type} [LinearOrderedField K] (found : List (Accepted K))
    (n : Nat) (c : K) :
    found.foldl (fun s f => (s.1 + 1, s.2 + f.confidence)) (n, c) =
      (n + found.length, c + (found.map Accepted.confidence).sum) := by
  induction found generalizing n c with
  | nil => simp
  | cons f fs ih =>
    rw [List.foldl_cons, ih, List.length_cons, List.map_cons, List.sum_cons]
    congr 1
    · omega
    · ring

/-- The counters after the fragments of one resolution: their number and the sum
of their confidences. -/
theorem total_boxes_confidence_eq {K : Type} [LinearOrderedField K] (found : List (Accepted K)) :
    total_boxes_confidence found = (found.length, (found.map Accepted.confidence).sum) := by
  unfold total_boxes_confidence
  rw [total_boxes_confidence_from]
  simp

/-- The aggregate of a resolution that accepted a fragment is the mean. -/
theorem array_of_confidence_mean {K : Type} [LinearOrderedField K] (FLT_MAX : K)
    (accepted : List (List (Accepted K))) (i : Nat) (h : nth accepted i ≠ []) :
    array_of_confidence FLT_MAX accepted i =
      ((nth accepted i).map Accepted.confidence).sum / ((nth accepted i).length : K) := by
  unfold array_of_confidence
  rw [total_boxes_confidence_eq]
  have hpos : (nth accepted i).length > 0 := List.length_pos.mpr h
  rw [if_pos hpos]

/-- Invariant of the selection loop after the resolutions below `m`. -/
theorem select_inv {K : Type} [LinearOrderedField K] (FLT_MAX : K)
    (accepted : List (List (Accepted K))) (m : Nat) :
    (((List.range m).foldl (select_step FLT_MAX accepted) (-FLT_MAX, 0)) = (-FLT_MAX, 0) ∧
      ∀ j, j < m → ¬ (array_of_confidence FLT_MAX accepted j > -FLT_MAX ∧
        (nth accepted j).length > 0)) ∨
    (((List.range m).foldl (select_step FLT_MAX accepted) (-FLT_MAX, 0)).2 < m ∧
      (nth accepted ((List.range m).foldl (select_step FLT_MAX accepted) (-FLT_MAX, 0)).2).length
        > 0 ∧
      ((List.range m).foldl (select_step FLT_MAX accepted) (-FLT_MAX, 0)).1 =
        array_of_confidence FLT_MAX accepted
          ((List.range m).foldl (select_step FLT_MAX accepted) (-FLT_MAX, 0)).2 ∧
      -FLT_MAX < ((List.range m).foldl (select_step FLT_MAX accepted) (-FLT_MAX, 0)).1 ∧
      (∀ j, j < m → (nth accepted j).length > 0 → array_of_confidence FLT_MAX accepted j ≤
        ((List.range m).foldl (select_step FLT_MAX accepted) (-FLT_MAX, 0)).1) ∧
      (∀ j, j < ((List.range m).foldl (select_step FLT_MAX accepted) (-FLT_MAX, 0)).2 →
        (nth accepted j).length > 0 → array_of_confidence FLT_MAX accepted j <
        ((List.range m).foldl (select_step FLT_MAX accepted) (-FLT_MAX, 0)).1)) := by
  refine foldl_range_inv
    (fun m (s : K × Nat) =>
      (s = (-FLT_MAX, 0) ∧
        ∀ j, j < m → ¬ (array_of_confidence FLT_MAX accepted j > -FLT_MAX ∧
          (nth accepted j).length > 0)) ∨
      (s.2 < m ∧ (nth accepted s.2).length > 0 ∧ s.1 = array_of_confidence FLT_MAX accepted s.2 ∧
        -FLT_MAX < s.1 ∧
        (∀ j, j < m → (nth accepted j).length > 0 →
          array_of_confidence FLT_MAX accepted j ≤ s.1) ∧
        (∀ j, j < s.2 → (nth accepted j).length > 0 →
          array_of_confidence FLT_MAX accepted j < s.1)))
    (select_step FLT_MAX accepted) m (-FLT_MAX, 0)
    (Or.inl ⟨rfl, fun j hj => absurd hj (Nat.not_lt_zero _)⟩) ?_
  intro i s _ hs
  unfold select_step
  by_cases hc : array_of_confidence FLT_MAX accepted i > s.1 ∧ (nth accepted i).length > 0
  · rw [if_pos hc]
    right
    rcases hs with ⟨hs0, hnone⟩ | ⟨_, _, _, hgt, hle, _⟩
    · have hc1 : -FLT_MAX < array_of_confidence FLT_MAX accepted i := by
        have := hc.1
        rw [hs0] at this
        exact this
      have hbelow : ∀ j, j < i → (nth accepted j).length > 0 →
          array_of_confidence FLT_MAX accepted j < array_of_confidence FLT_MAX accepted i := by
        intro j hj hne
        have h1 : ¬ array_of_confidence FLT_MAX accepted j > -FLT_MAX :=
          fun h => hnone j hj ⟨h, hne⟩
        exact lt_of_le_of_lt (not_lt.mp h1) hc1
      refine ⟨Nat.lt_succ_self i, hc.2, rfl, hc1, ?_, hbelow⟩
      intro j hj hne
      rcases Nat.lt_succ_iff_lt_or_eq.mp hj with h | h
      · exact le_of_lt (hbelow j h hne)
      · rw [h]
    · have hbelow : ∀ j, j < i → (nth accepted j).length > 0 →
          array_of_confidence FLT_MAX accepted j < array_of_confidence FLT_MAX accepted i :=
        fun j hj hne => lt_of_le_of_lt (hle j hj hne) hc.1
      refine ⟨Nat.lt_succ_self i, hc.2, rfl, lt_trans hgt hc.1, ?_, hbelow⟩
      intro j hj hne
      rcases Nat.lt_succ_iff_lt_or_eq.mp hj with h | h
      · exact le_of_lt (hbelow j h hne)
      · rw [h]
  · rw [if_neg hc]
    rcases hs with ⟨hs0, hnone⟩ | ⟨h1, h2, h3, hgt, hle, hlow⟩
    · left
      refine ⟨hs0, fun j hj => ?_⟩
      rcases Nat.lt_succ_iff_lt_or_eq.mp hj with h | h
      · exact hnone j h
      · rw [h]
        rw [hs0] at hc
        exact hc
    · right
      refine ⟨Nat.lt_succ_of_lt h1, h2, h3, hgt, ?_, hlow⟩
      intro j hj hne
      rcases Nat.lt_succ_iff_lt_or_eq.mp hj with h | h
      · exact hle j h hne
      · rw [h]
        by_contra hcon
        exact hc ⟨not_le.mp hcon, h ▸ hne⟩

/-- The role of the initial value of `max_conf`: a resolution whose aggregate is
`-FLT_MAX` itself is passed over by the strict comparison of line 5136. -/
theorem select_resolution_sentinel :
    max_res flt_max [[], [⟨"CC", 20, -flt_max⟩]] = 0 ∧
    page_output flt_max [[], [⟨"CC", 20, -flt_max⟩]] = [] := by
  decide!

/-! ## C20: resolution selection -/

/-- C20: the aggregate confidence of a resolution that accepted fragments is the
sum of their confidences divided by their number. When the aggregates of such
resolutions lie above the initial value `-FLT_MAX` of `max_conf`: if some
resolution produced a structure, `max_res` is a resolution that produced one,
its aggregate is at least that of every resolution that produced one, and it is
the lowest such index (every lower one that produced a structure has a smaller
aggregate); if no resolution produced a structure, `max_res` is 0 and nothing is
appended for the page. -/
theorem select_resolution_best {K : Type} [LinearOrderedField K] (FLT_MAX : K)
    (accepted : List (List (Accepted K)))
    (hsent : ∀ i, i < accepted.length → nth accepted i ≠ [] →
      -FLT_MAX < ((nth accepted i).map Accepted.confidence).sum / ((nth accepted i).length : K)) :
    (∀ i, nth accepted i ≠ [] → array_of_confidence FLT_MAX accepted i =
      ((nth accepted i).map Accepted.confidence).sum / ((nth accepted i).length : K)) ∧
    ((∃ i, i < accepted.length ∧ nth accepted i ≠ []) →
      max_res FLT_MAX accepted < accepted.length ∧
      nth accepted (max_res FLT_MAX accepted) ≠ [] ∧
      (∀ j, j < accepted.length → nth accepted j ≠ [] →
        array_of_confidence FLT_MAX accepted j ≤
          array_of_confidence FLT_MAX accepted (max_res FLT_MAX accepted)) ∧
      (∀ j, j < max_res FLT_MAX accepted → nth accepted j ≠ [] →
        array_of_confidence FLT_MAX accepted j <
          array_of_confidence FLT_MAX accepted (max_res FLT_MAX accepted))) ∧
    ((∀ i, i < accepted.length → nth accepted i = []) →
      max_res FLT_MAX accepted = 0 ∧ page_output FLT_MAX accepted = []) := by
  refine ⟨fun i h => array_of_confidence_mean FLT_MAX accepted i h, ?_, ?_⟩
  · rintro ⟨i, hi, hne⟩
    unfold max_res select_resolution
    rcases select_inv FLT_MAX accepted accepted.length with ⟨_, hnone⟩ | ⟨h1, h2, h3, _, hle, hlow⟩
    · exfalso
      refine hnone i hi ⟨?_, List.length_pos.mpr hne⟩
      rw [array_of_confidence_mean FLT_MAX accepted i hne]
      exact hsent i hi hne
    · refine ⟨h1, List.length_pos.mp h2, ?_, ?_⟩
      · intro j hj hjne
        rw [← h3]
        exact hle j hj (List.length_pos.mpr hjne)
      · intro j hj hjne
        rw [← h3]
        exact hlow j hj (List.length_pos.mpr hjne)
  · intro hall
    have h0 : max_res FLT_MAX accepted = 0 := by
      unfold max_res select_resolution
      rcases select_inv FLT_MAX accepted accepted.length with ⟨hs, _⟩ | ⟨h1, h2, _⟩
      · rw [hs]
      · exfalso
        rw [hall _ h1] at h2
        exact Nat.lt_irrefl 0 h2
    refine ⟨h0, ?_⟩
    unfold page_output
    rw [h0]
    by_cases hl : 0 < accepted.length
    · exact hall 0 hl
    · exact nth_of_le _ _ (Nat.le_of_not_lt hl)

/-- The statement C20 at `three_resolutions`: the second and third resolutions
both have aggregate 2, and the second, the lower index, is selected. -/
theorem select_resolution_best_witness :
    (∀ i, i < three_resolutions.length → nth three_resolutions i ≠ [] →
      -flt_max < ((nth three_resolutions i).map Accepted.confidence).sum /
        ((nth three_resolutions i).length : ℚ)) ∧
    (∃ i, i < three_resolutions.length ∧ nth three_resolutions i ≠ []) ∧
    max_res flt_max three_resolutions = 1 ∧
    array_of_confidence flt_max three_resolutions 1 = 2 ∧
    array_of_confidence flt_max three_resolutions 2 = 2 ∧
    max_res flt_max three_resolutions < three_resolutions.length ∧
    nth three_resolutions (max_res flt_max three_resolutions) ≠ [] ∧
    (∀ j, j < three_resolutions.length → nth three_resolutions j ≠ [] →
      array_of_confidence flt_max three_resolutions j ≤
        array_of_confidence flt_max three_resolutions (max_res flt_max three_resolutions)) ∧
    (∀ j, j < max_res flt_max three_resolutions → nth three_resolutions j ≠ [] →
      array_of_confidence flt_max three_resolutions j <
        array_of_confidence flt_max three_resolutions (max_res flt_max three_resolutions)) := by
  have hs : ∀ i, i < three_resolutions.length → nth three_resolutions i ≠ [] →
      -flt_max < ((nth three_resolutions i).map Accepted.confidence).sum /
        ((nth three_resolutions i).length : ℚ) := by
    intro i hi hne
    have hi3 : i < 3 := hi
    interval_cases i
    · exact absurd rfl hne
    · decide!
    · decide!
  have he : ∃ i, i < three_resolutions.length ∧ nth three_resolutions i ≠ [] :=
    ⟨1, by decide, by decide⟩
  exact ⟨hs, he, by decide!, by decide!, by decide!,
    (select_resolution_best flt_max three_resolutions hs).2.1 he⟩

/-- Loop-invariant rule for two nested `for` loops, the inner one over
`0 .. len l - 1`: `Inv l i s` reads "the loops are about to run the body at
`(l, i)` in the state `s`". -/
theorem nested_fold_inv {σ : Type} (rows : Nat) (len : Nat → Nat) (g : σ → Nat → Nat → σ)
    (Inv : Nat → Nat → σ → Prop) (s0 : σ) (h0 : Inv 0 0 s0)
    (hstep : ∀ l i s, l < rows → i < len l → Inv l i s → Inv l (i + 1) (g s l i))
    (hrow : ∀ l s, l < rows → Inv l (len l) s → Inv (l + 1) 0 s) :
    Inv rows 0 ((List.range rows).foldl
      (fun s l => (List.range (len l)).foldl (fun t i => g t l i) s) s0) := by
  refine foldl_range_inv (fun l s => Inv l 0 s) _ rows s0 h0 ?_
  intro l s hl hs
  refine hrow l _ hl ?_
  exact foldl_range_inv (fun i t => Inv l i t) (fun t i => g t l i) (len l) s hs
    (fun i t hi ht => hstep l i t hl hi ht)

/-- The position `(l2, i2)` comes before `(l, i)` in the order of the loops. -/
theorem before_step {l i l2 i2 : Nat} (h : l2 < l ∨ (l2 = l ∧ i2 < i + 1)) :
    (l2 < l ∨ (l2 = l ∧ i2 < i)) ∨ (l2 = l ∧ i2 = i) := by
  omega

theorem at2_mem {K : Type} [Zero K] (t : List (List K)) (l i : Nat) (hl : l < t.length)
    (hi : i < (nth t l).length) : at2 t l i ∈ t.flatten := by
  have h1 : nth t l ∈ t := by
    rw [nth_of_lt t l hl]
    exact List.getElem_mem hl
  refine List.mem_flatten.mpr ⟨nth t l, h1, ?_⟩
  unfold at2
  rw [List.getElem?_eq_getElem hi]
  exact List.getElem_mem hi

theorem countP_lt_of_mem {α : Type} (p q : α → Bool) (l : List α)
    (h : ∀ x, p x = true → q x = true) (a : α) (ha : a ∈ l) (hq : q a = true)
    (hp : p a = false) : l.countP p < l.countP q := by
  induction l with
  | nil => exact absurd ha (List.not_mem_nil a)
  | cons x xs ih =>
    have hle : xs.countP p ≤ xs.countP q := List.countP_mono_left (fun y _ hy => h y hy)
    rw [List.countP_cons, List.countP_cons]
    rcases List.mem_cons.mp ha with hax | hax
    · subst hax
      rw [hq, hp]
      simp only [if_true, Bool.false_eq_true, if_false]
      omega
    · have := ih hax
      by_cases hpx : p x = true
      · rw [hpx, h x hpx]
        simp only [if_true]
        omega
      · have hpx2 : p x = false := by simpa using hpx
        rw [hpx2]
        simp only [Bool.false_eq_true, if_false]
        split_ifs <;> omega

/-- The first loop finds the first entry of maximal confidence, if any entry
lies above `-FLT_MAX`. -/
theorem flb_first_spec {K : Type} [LinearOrderedField K] (FLT_MAX min0 max0 : K)
    (bonds confs : List (List K)) :
    ((flb_first FLT_MAX min0 max0 bonds confs).max_ind_conf = -FLT_MAX ∧
      ∀ l i, l < confs.length → i < (nth confs l).length → at2 confs l i ≤ -FLT_MAX) ∨
    (∃ lm im, lm < confs.length ∧ im < (nth confs lm).length ∧
      (flb_first FLT_MAX min0 max0 bonds confs).max_ind_conf = at2 confs lm im ∧
      (flb_first FLT_MAX min0 max0 bonds confs).min_bond = at2 bonds lm im ∧
      (flb_first FLT_MAX min0 max0 bonds confs).max_bond = at2 bonds lm im ∧
      ∀ l i, l < confs.length → i < (nth confs l).length →
        at2 confs l i ≤ at2 confs lm im) := by
  have h := nested_fold_inv confs.length (fun l => (nth confs l).length)
    (fun s l i => flb_best bonds confs s l i)
    (fun l i (s : Limits K) =>
      (s.max_ind_conf = -FLT_MAX ∧
        ∀ l2 i2, l2 < confs.length → i2 < (nth confs l2).length →
          (l2 < l ∨ (l2 = l ∧ i2 < i)) → at2 confs l2 i2 ≤ -FLT_MAX) ∨
      (∃ lm im, lm < confs.length ∧ im < (nth confs lm).length ∧
        s.max_ind_conf = at2 confs lm im ∧ s.min_bond = at2 bonds lm im ∧
        s.max_bond = at2 bonds lm im ∧
        ∀ l2 i2, l2 < confs.length → i2 < (nth confs l2).length →
          (l2 < l ∨ (l2 = l ∧ i2 < i)) → at2 confs l2 i2 ≤ at2 confs lm im))
    ⟨-FLT_MAX, min0, max0⟩
    (Or.inl ⟨rfl, fun l2 i2 _ _ h => by omega⟩)
    (by
      intro l i s hl hi hs
      by_cases hc : s.max_ind_conf < at2 confs l i
      · simp only [flb_best, if_pos hc]
        right
        refine ⟨l, i, hl, hi, rfl, rfl, rfl, ?_⟩
        intro l2 i2 hl2 hi2 hb
        rcases before_step hb with hb1 | ⟨e1, e2⟩
        · rcases hs with ⟨h1, h2⟩ | ⟨lm, im, _, _, h3, _, _, h4⟩
          · exact le_of_lt (lt_of_le_of_lt (h2 l2 i2 hl2 hi2 hb1) (h1 ▸ hc))
          · exact le_of_lt (lt_of_le_of_lt (h4 l2 i2 hl2 hi2 hb1) (h3 ▸ hc))
        · rw [e1, e2]
      · simp only [flb_best, if_neg hc]
        rcases hs with ⟨h1, h2⟩ | ⟨lm, im, hlm, him, h3, h5, h6, h4⟩
        · left
          refine ⟨h1, fun l2 i2 hl2 hi2 hb => ?_⟩
          rcases before_step hb with hb1 | ⟨e1, e2⟩
          · exact h2 l2 i2 hl2 hi2 hb1
          · rw [e1, e2, ← h1]
            exact not_lt.mp hc
        · right
          refine ⟨lm, im, hlm, him, h3, h5, h6, fun l2 i2 hl2 hi2 hb => ?_⟩
          rcases before_step hb with hb1 | ⟨e1, e2⟩
          · exact h4 l2 i2 hl2 hi2 hb1
          · rw [e1, e2, ← h3]
            exact not_lt.mp hc)
    (by
      intro l s _ hs
      rcases hs with ⟨h1, h2⟩ | ⟨lm, im, hlm, him, h3, h5, h6, h4⟩
      · left
        refine ⟨h1, fun l2 i2 hl2 hi2 hb => h2 l2 i2 hl2 hi2 ?_⟩
        rcases hb with hb | ⟨_, hb⟩
        · rcases Nat.lt_succ_iff_lt_or_eq.mp hb with h | h
          · exact Or.inl h
          · exact Or.inr ⟨h, h ▸ hi2⟩
        · exact absurd hb (Nat.not_lt_zero _)
      · right
        refine ⟨lm, im, hlm, him, h3, h5, h6, fun l2 i2 hl2 hi2 hb => h4 l2 i2 hl2 hi2 ?_⟩
        rcases hb with hb | ⟨_, hb⟩
        · rcases Nat.lt_succ_iff_lt_or_eq.mp hb with h | h
          · exact Or.inl h
          · exact Or.inr ⟨h, h ▸ hi2⟩
        · exact absurd hb (Nat.not_lt_zero _))
  rcases h with ⟨h1, h2⟩ | ⟨lm, im, hlm, him, h3, h5, h6, h4⟩
  · exact Or.inl ⟨h1, fun l i hl hi => h2 l i hl hi (Or.inl hl)⟩
  · exact Or.inr ⟨lm, im, hlm, him, h3, h5, h6, fun l i hl hi => h4 l i hl hi (Or.inl hl)⟩

theorem outside_mono {K : Type} [LinearOrderedField K] (bonds : List (List K))
    (mn mx mn2 mx2 : K) (h1 : mn2 ≤ mn) (h2 : mx ≤ mx2) :
    outside bonds mn2 mx2 ≤ outside bonds mn mx := by
  unfold outside
  have a : bonds.flatten.countP (fun b => decide (b > mx2)) ≤
      bonds.flatten.countP (fun b => decide (b > mx)) :=
    List.countP_mono_left (fun x _ hx => by
      simp only [decide_eq_true_eq] at hx ⊢
      exact lt_of_le_of_lt h2 hx)
  have b : bonds.flatten.countP (fun b => decide (b < mn2)) ≤
      bonds.flatten.countP (fun b => decide (b < mn)) :=
    List.countP_mono_left (fun x _ hx => by
      simp only [decide_eq_true_eq] at hx ⊢
      exact lt_of_lt_of_le hx h1)
  omega

theorem outside_lt_max {K : Type} [LinearOrderedField K] (bonds : List (List K))
    (mn mx b : K) (hb : b ∈ bonds.flatten) (h : mx < b) :
    outside bonds mn b < outside bonds mn mx := by
  unfold outside
  have a : bonds.flatten.countP (fun x => decide (x > b)) <
      bonds.flatten.countP (fun x => decide (x > mx)) :=
    countP_lt_of_mem _ _ _ (fun x hx => by
      simp only [decide_eq_true_eq] at hx ⊢
      exact lt_trans h hx) b hb (by simpa using h) (by simp)
  omega

theorem outside_lt_min {K : Type} [LinearOrderedField K] (bonds : List (List K))
    (mn mx b : K) (hb : b ∈ bonds.flatten) (h : b < mn) :
    outside bonds b mx < outside bonds mn mx := by
  unfold outside
  have a : bonds.flatten.countP (fun x => decide (x < b)) <
      bonds.flatten.countP (fun x => decide (x < mn)) :=
    countP_lt_of_mem _ _ _ (fun x hx => by
      simp only [decide_eq_true_eq] at hx ⊢
      exact lt_trans hx h) b hb (by simpa using h) (by simp)
  omega

theorem outside_le_size {K : Type} [LinearOrderedField K] (bonds : List (List K))
    (mn mx : K) : outside bonds mn mx ≤ 2 * table_size bonds := by
  unfold outside table_size
  have a := List.countP_le_length (fun b : K => decide (b > mx)) (l := bonds.flatten)
  have b := List.countP_le_length (fun b : K => decide (b < mn)) (l := bonds.flatten)
  rw [List.length_flatten] at a b
  omega

/-- One body of the widening loops: the limits only widen, a change sets the
flag and lowers the measure, and without a change the entry fails both tests. -/
theorem flb_widen_spec {K : Type} [LinearOrderedField K] (bonds confs : List (List K))
    (mc : K) (s : Widen K) (l i : Nat) (hb : at2 bonds l i ∈ bonds.flatten) :
    (flb_widen bonds confs mc s l i).min_bond ≤ s.min_bond ∧
    s.max_bond ≤ (flb_widen bonds confs mc s l i).max_bond ∧
    ((flb_widen bonds confs mc s l i).flag = false →
      s.flag = false ∧ (flb_widen bonds confs mc s l i).min_bond = s.min_bond ∧
      (flb_widen bonds confs mc s l i).max_bond = s.max_bond ∧
      ¬ (at2 bonds l i > s.max_bond ∧
        (at2 bonds l i - s.max_bond < 5 ∨ at2 confs l i > mc - 1 / 10)) ∧
      ¬ (at2 bonds l i < s.min_bond ∧
        (s.min_bond - at2 bonds l i < 5 ∨ at2 confs l i > mc - 1 / 10))) ∧
    ((flb_widen bonds confs mc s l i).flag = true →
      s.flag = false →
      outside bonds (flb_widen bonds confs mc s l i).min_bond
        (flb_widen bonds confs mc s l i).max_bond < outside bonds s.min_bond s.max_bond) ∧
    (outside bonds (flb_widen bonds confs mc s l i).min_bond
        (flb_widen bonds confs mc s l i).max_bond ≤ outside bonds s.min_bond s.max_bond) := by
  unfold flb_widen
  by_cases c1 : at2 bonds l i > s.max_bond ∧
      (at2 bonds l i - s.max_bond < 5 ∨ at2 confs l i > mc - 1 / 10)
  · have hm := outside_lt_max bonds s.min_bond s.max_bond _ hb c1.1
    by_cases c2 : at2 bonds l i < s.min_bond ∧
        (s.min_bond - at2 bonds l i < 5 ∨ at2 confs l i > mc - 1 / 10)
    · have hm2 := outside_lt_min bonds s.min_bond (at2 bonds l i) _ hb c2.1
      simp only [if_pos c1, if_pos c2]
      refine ⟨le_of_lt c2.1, le_of_lt c1.1, fun h => by simp at h, fun _ _ => by omega, by omega⟩
    · simp only [if_pos c1, if_neg c2]
      refine ⟨le_refl _, le_of_lt c1.1, fun h => by simp at h, fun _ _ => hm, le_of_lt hm⟩
  · by_cases c2 : at2 bonds l i < s.min_bond ∧
        (s.min_bond - at2 bonds l i < 5 ∨ at2 confs l i > mc - 1 / 10)
    · have hm2 := outside_lt_min bonds s.min_bond s.max_bond _ hb c2.1
      simp only [if_neg c1, if_pos c2]
      refine ⟨le_of_lt c2.1, le_refl _, fun h => by simp at h, fun _ _ => hm2, le_of_lt hm2⟩
    · simp only [if_neg c1, if_neg c2]
      refine ⟨le_refl _, le_refl _, fun h => ⟨h, trivial, trivial, c1, c2⟩, fun h h2 => ?_, le_refl _⟩
      rw [h2] at h
      exact absurd h (by decide)

/-- One round of the `while` loop. -/
theorem flb_pass_spec {K : Type} [LinearOrderedField K] (bonds confs : List (List K))
    (mc mn mx : K) :
    (flb_pass bonds confs mc mn mx).min_bond ≤ mn ∧
    mx ≤ (flb_pass bonds confs mc mn mx).max_bond ∧
    ((flb_pass bonds confs mc mn mx).flag = false →
      (flb_pass bonds confs mc mn mx).min_bond = mn ∧
      (flb_pass bonds confs mc mn mx).max_bond = mx ∧
      ∀ l i, l < bonds.length → i < (nth bonds l).length →
        ¬ (at2 bonds l i > mx ∧ (at2 bonds l i - mx < 5 ∨ at2 confs l i > mc - 1 / 10)) ∧
        ¬ (at2 bonds l i < mn ∧ (mn - at2 bonds l i < 5 ∨ at2 confs l i > mc - 1 / 10))) ∧
    ((flb_pass bonds confs mc mn mx).flag = true →
      outside bonds (flb_pass bonds confs mc mn mx).min_bond
        (flb_pass bonds confs mc mn mx).max_bond < outside bonds mn mx) := by
  have h := nested_fold_inv bonds.length (fun l => (nth bonds l).length)
    (fun s l i => flb_widen bonds confs mc s l i)
    (fun l i (s : Widen K) =>
      s.min_bond ≤ mn ∧ mx ≤ s.max_bond ∧
      outside bonds s.min_bond s.max_bond ≤ outside bonds mn mx ∧
      (s.flag = false → s.min_bond = mn ∧ s.max_bond = mx ∧
        ∀ l2 i2, l2 < bonds.length → i2 < (nth bonds l2).length →
          (l2 < l ∨ (l2 = l ∧ i2 < i)) →
          ¬ (at2 bonds l2 i2 > mx ∧
            (at2 bonds l2 i2 - mx < 5 ∨ at2 confs l2 i2 > mc - 1 / 10)) ∧
          ¬ (at2 bonds l2 i2 < mn ∧
            (mn - at2 bonds l2 i2 < 5 ∨ at2 confs l2 i2 > mc - 1 / 10))) ∧
      (s.flag = true → outside bonds s.min_bond s.max_bond < outside bonds mn mx))
    ⟨mn, mx, false⟩
    ⟨le_refl _, le_refl _, le_refl _,
      fun _ => ⟨rfl, rfl, fun l2 i2 _ _ h => by omega⟩, fun h => by simp at h⟩
    (by
      intro l i s hl hi hs
      obtain ⟨s1, s2, s3, s4, s5⟩ := hs
      obtain ⟨w1, w2, w3, w4, w5⟩ := flb_widen_spec bonds confs mc s l i (at2_mem bonds l i hl hi)
      refine ⟨le_trans w1 s1, le_trans s2 w2, le_trans w5 s3, ?_, ?_⟩
      · intro hf
        obtain ⟨f0, e1, e2, n1, n2⟩ := w3 hf
        obtain ⟨e3, e4, hall⟩ := s4 f0
        refine ⟨e1.trans e3, e2.trans e4, fun l2 i2 hl2 hi2 hb => ?_⟩
        rcases before_step hb with hb1 | ⟨q1, q2⟩
        · exact hall l2 i2 hl2 hi2 hb1
        · rw [q1, q2]
          rw [e4] at n1
          rw [e3] at n2
          exact ⟨n1, n2⟩
      · intro hf
        by_cases hsf : s.flag = true
        · exact lt_of_le_of_lt w5 (s5 hsf)
        · have hsf2 : s.flag = false := by simpa using hsf
          exact lt_of_lt_of_le (w4 hf hsf2) s3)
    (by
      intro l s _ hs
      obtain ⟨s1, s2, s3, s4, s5⟩ := hs
      refine ⟨s1, s2, s3, fun hf => ?_, s5⟩
      obtain ⟨e3, e4, hall⟩ := s4 hf
      refine ⟨e3, e4, fun l2 i2 hl2 hi2 hb => hall l2 i2 hl2 hi2 ?_⟩
      rcases hb with hb | ⟨_, hb⟩
      · rcases Nat.lt_succ_iff_lt_or_eq.mp hb with h | h
        · exact Or.inl h
        · exact Or.inr ⟨h, h ▸ hi2⟩
      · exact absurd hb (Nat.not_lt_zero _))
  obtain ⟨s1, s2, _, s4, s5⟩ := h
  refine ⟨s1, s2, fun hf => ?_, s5⟩
  obtain ⟨e3, e4, hall⟩ := s4 hf
  exact ⟨e3, e4, fun l i hl hi => hall l i hl hi (Or.inl hl)⟩

/-- The `while` loop ends within `m + 1` rounds when the measure is at most
`m`, at limits that only widened and at which no entry passes a widening test. -/
theorem flb_loop_spec {K : Type} [LinearOrderedField K] (bonds confs : List (List K))
    (mc : K) : ∀ (m : Nat) (mn mx : K), outside bonds mn mx ≤ m →
    ∃ mn2 mx2, mn2 ≤ mn ∧ mx ≤ mx2 ∧
      (∀ fuel, m < fuel → flb_loop bonds confs mc fuel mn mx = some (mn2 - 1, mx2 + 1)) ∧
      ∀ l i, l < bonds.length → i < (nth bonds l).length →
        ¬ (at2 bonds l i > mx2 ∧ (at2 bonds l i - mx2 < 5 ∨ at2 confs l i > mc - 1 / 10)) ∧
        ¬ (at2 bonds l i < mn2 ∧ (mn2 - at2 bonds l i < 5 ∨ at2 confs l i > mc - 1 / 10)) := by
  intro m
  induction m with
  | zero =>
    intro mn mx hm
    obtain ⟨p1, p2, p3, p4⟩ := flb_pass_spec bonds confs mc mn mx
    have hnf : ¬ (flb_pass bonds confs mc mn mx).flag = true := fun hf => by
      have := p4 hf
      omega
    have hf2 : (flb_pass bonds confs mc mn mx).flag = false := by simpa using hnf
    obtain ⟨e1, e2, hall⟩ := p3 hf2
    refine ⟨mn, mx, le_refl _, le_refl _, fun fuel hfuel => ?_, hall⟩
    obtain ⟨f, rfl⟩ := Nat.exists_eq_succ_of_ne_zero (Nat.ne_of_gt hfuel)
    simp only [flb_loop, if_neg hnf, e1, e2]
  | succ m ih =>
    intro mn mx hm
    obtain ⟨p1, p2, p3, p4⟩ := flb_pass_spec bonds confs mc mn mx
    by_cases hf : (flb_pass bonds confs mc mn mx).flag = true
    · have hlt := p4 hf
      obtain ⟨mn2, mx2, q1, q2, q3, q4⟩ := ih (flb_pass bonds confs mc mn mx).min_bond
        (flb_pass bonds confs mc mn mx).max_bond (by omega)
      refine ⟨mn2, mx2, le_trans q1 p1, le_trans p2 q2, fun fuel hfuel => ?_, q4⟩
      obtain ⟨f, rfl⟩ := Nat.exists_eq_succ_of_ne_zero
        (Nat.ne_of_gt (Nat.lt_of_le_of_lt (Nat.zero_le _) hfuel))
      simp only [flb_loop, if_pos hf]
      exact q3 f (Nat.lt_of_succ_lt_succ hfuel)
    · have hf2 : (flb_pass bonds confs mc mn mx).flag = false := by simpa using hf
      obtain ⟨e1, e2, hall⟩ := p3 hf2
      refine ⟨mn, mx, le_refl _, le_refl _, fun fuel hfuel => ?_, hall⟩
      obtain ⟨f, rfl⟩ := Nat.exists_eq_succ_of_ne_zero
        (Nat.ne_of_gt (Nat.lt_of_le_of_lt (Nat.zero_le _) hfuel))
      simp only [flb_loop, if_neg hf, e1, e2]

/-! ## C21: `find_limits_on_avg_bond` -/

/-- C21: for tables of the same shape with an entry of confidence above
`-FLT_MAX`, `find_limits_on_avg_bond` returns (within `2 * size + 1` rounds of
its `while` loop) limits such that, with `(lm, im)` an entry of maximal
confidence: an entry that fails the output test has confidence at most the
maximum minus 0.1 and a bond length at least 5 away from the bond length of
every entry that passes; every entry of maximal confidence passes. -/
theorem find_limits_on_avg_bond_spec {K : Type} [LinearOrderedField K] (FLT_MAX min0 max0 : K)
    (bonds confs : List (List K))
    (hshape : confs.length = bonds.length ∧ ∀ l, (nth confs l).length = (nth bonds l).length)
    (hsent : ∃ l i, l < confs.length ∧ i < (nth confs l).length ∧ -FLT_MAX < at2 confs l i) :
    ∃ r, (∀ fuel, 2 * table_size bonds < fuel →
        find_limits_on_avg_bond fuel FLT_MAX min0 max0 bonds confs = some r) ∧
      ∃ lm im, lm < bonds.length ∧ im < (nth bonds lm).length ∧
        (∀ l i, l < bonds.length → i < (nth bonds l).length →
          at2 confs l i ≤ at2 confs lm im) ∧
        (∀ l i, l < bonds.length → i < (nth bonds l).length →
          ¬ in_limits r (at2 bonds l i) →
          at2 confs l i ≤ at2 confs lm im - 1 / 10 ∧
          ∀ l2 i2, l2 < bonds.length → i2 < (nth bonds l2).length →
            in_limits r (at2 bonds l2 i2) → 5 ≤ |at2 bonds l i - at2 bonds l2 i2|) ∧
        (∀ l i, l < bonds.length → i < (nth bonds l).length →
          at2 confs l i = at2 confs lm im → in_limits r (at2 bonds l i)) := by
  obtain ⟨hrows, hlen⟩ := hshape
  rcases flb_first_spec FLT_MAX min0 max0 bonds confs with ⟨_, hnone⟩ | ⟨lm, im, hlm, him, h3, h5, h6, hmax⟩
  · exfalso
    obtain ⟨l, i, hl, hi, hgt⟩ := hsent
    exact absurd (hnone l i hl hi) (not_le.mpr hgt)
  obtain ⟨mn2, mx2, q1, q2, q3, q4⟩ := flb_loop_spec bonds confs (at2 confs lm im)
    (2 * table_size bonds) (at2 bonds lm im) (at2 bonds lm im) (outside_le_size bonds _ _)
  have hfail : ∀ l i, l < bonds.length → i < (nth bonds l).length →
      ¬ in_limits (mn2 - 1, mx2 + 1) (at2 bonds l i) →
      at2 confs l i ≤ at2 confs lm im - 1 / 10 ∧
      ∀ l2 i2, l2 < bonds.length → i2 < (nth bonds l2).length →
        in_limits (mn2 - 1, mx2 + 1) (at2 bonds l2 i2) →
        5 ≤ |at2 bonds l i - at2 bonds l2 i2| := by
    intro l i hl hi hout
    obtain ⟨n1, n2⟩ := q4 l i hl hi
    have hcases : at2 bonds l i ≤ mn2 - 1 ∨ mx2 + 1 ≤ at2 bonds l i := by
      by_contra hcon
      push_neg at hcon
      exact hout ⟨hcon.1, hcon.2⟩
    rcases hcases with hlow | hhigh
    · have hb : at2 bonds l i < mn2 := by linarith
      have hn : ¬ (mn2 - at2 bonds l i < 5 ∨ at2 confs l i > at2 confs lm im - 1 / 10) :=
        fun h => n2 ⟨hb, h⟩
      push_neg at hn
      refine ⟨hn.2, fun l2 i2 hl2 hi2 hin => ?_⟩
      obtain ⟨_, m2⟩ := q4 l2 i2 hl2 hi2
      have hge : mn2 ≤ at2 bonds l2 i2 := by
        by_contra hcon
        have hlt : at2 bonds l2 i2 < mn2 := not_le.mp hcon
        have hn2 : ¬ (mn2 - at2 bonds l2 i2 < 5) := fun h => m2 ⟨hlt, Or.inl h⟩
        have h1 : at2 bonds l2 i2 > mn2 - 1 := hin.1
        apply hn2
        linarith
      have h5 : 5 ≤ at2 bonds l2 i2 - at2 bonds l i := by linarith [hn.1]
      rw [abs_sub_comm]
      exact le_trans h5 (le_abs_self _)
    · have hb : at2 bonds l i > mx2 := by linarith
      have hn : ¬ (at2 bonds l i - mx2 < 5 ∨ at2 confs l i > at2 confs lm im - 1 / 10) :=
        fun h => n1 ⟨hb, h⟩
      push_neg at hn
      refine ⟨hn.2, fun l2 i2 hl2 hi2 hin => ?_⟩
      obtain ⟨m1, _⟩ := q4 l2 i2 hl2 hi2
      have hle : at2 bonds l2 i2 ≤ mx2 := by
        by_contra hcon
        have hgt : at2 bonds l2 i2 > mx2 := not_le.mp hcon
        have hn2 : ¬ (at2 bonds l2 i2 - mx2 < 5) := fun h => m1 ⟨hgt, Or.inl h⟩
        have h1 : at2 bonds l2 i2 < mx2 + 1 := hin.2
        apply hn2
        linarith
      have h5 : 5 ≤ at2 bonds l i - at2 bonds l2 i2 := by linarith [hn.1]
      exact le_trans h5 (le_abs_self _)
  refine ⟨(mn2 - 1, mx2 + 1), fun fuel hfuel => ?_, lm, im, hrows ▸ hlm, (hlen lm) ▸ him,
    fun l i hl hi => hmax l i (hrows ▸ hl) ((hlen l).symm ▸ hi), hfail, ?_⟩
  · unfold find_limits_on_avg_bond
    rw [h3, h5, h6]
    exact q3 fuel hfuel
  · intro l i hl hi heq
    by_contra hout
    have := (hfail l i hl hi hout).1
    rw [heq] at this
    linarith

/-- The statement C21 at `page_bonds` and `page_confs`: the limits are 19 and 28,
so the outlier of length 40 fails the output test and the cluster passes. -/
theorem find_limits_on_avg_bond_spec_witness :
    (page_confs.length = page_bonds.length ∧
      ∀ l, (nth page_confs l).length = (nth page_bonds l).length) ∧
    (∃ l i, l < page_confs.length ∧ i < (nth page_confs l).length ∧
      -flt_max < at2 page_confs l i) ∧
    find_limits_on_avg_bond 9 flt_max (-flt_max) flt_max page_bonds page_confs =
      some (19, 28) ∧
    ∃ r, (∀ fuel, 2 * table_size page_bonds < fuel →
        find_limits_on_avg_bond fuel flt_max (-flt_max) flt_max page_bonds page_confs = some r) ∧
      ∃ lm im, lm < page_bonds.length ∧ im < (nth page_bonds lm).length ∧
        (∀ l i, l < page_bonds.length → i < (nth page_bonds l).length →
          at2 page_confs l i ≤ at2 page_confs lm im) ∧
        (∀ l i, l < page_bonds.length → i < (nth page_bonds l).length →
          ¬ in_limits r (at2 page_bonds l i) →
          at2 page_confs l i ≤ at2 page_confs lm im - 1 / 10 ∧
          ∀ l2 i2, l2 < page_bonds.length → i2 < (nth page_bonds l2).length →
            in_limits r (at2 page_bonds l2 i2) →
            5 ≤ |at2 page_bonds l i - at2 page_bonds l2 i2|) ∧
        (∀ l i, l < page_bonds.length → i < (nth page_bonds l).length →
          at2 page_confs l i = at2 page_confs lm im → in_limits r (at2 page_bonds l i)) := by
  have hs : page_confs.length = page_bonds.length ∧
      ∀ l, (nth page_confs l).length = (nth page_bonds l).length := by
    refine ⟨rfl, fun l => ?_⟩
    rcases l with _ | _ | l
    · rfl
    · rfl
    · rfl
  have hsent : ∃ l i, l < page_confs.length ∧ i < (nth page_confs l).length ∧
      -flt_max < at2 page_confs l i := ⟨0, 0, by decide, by decide, by decide!⟩
  exact ⟨hs, hsent, by decide!,
    find_limits_on_avg_bond_spec flt_max (-flt_max) flt_max page_bonds page_confs hs hsent⟩

/-- The search loop returns the first element of least cost, unless no cost lies
below the initial value of `d`. -/
theorem closest_fold_spec {K α : Type} [LinearOrderedField K] [Inhabited α] (cost : α → K)
    (B : K) (v : List α) :
    (closest_fold cost B v = (B, 0) ∧ ∀ j, j < v.length → B ≤ cost (nth v j)) ∨
    ((closest_fold cost B v).2 < v.length ∧
      (∀ j, j < v.length → cost (nth v (closest_fold cost B v).2) ≤ cost (nth v j)) ∧
      ∀ j, j < (closest_fold cost B v).2 →
        cost (nth v (closest_fold cost B v).2) < cost (nth v j)) := by
  have h := foldl_range_inv
    (fun m (s : K × Nat) =>
      (s = (B, 0) ∧ ∀ j, j < m → B ≤ cost (nth v j)) ∨
      (s.2 < m ∧ s.1 = cost (nth v s.2) ∧ (∀ j, j < m → s.1 ≤ cost (nth v j)) ∧
        ∀ j, j < s.2 → s.1 < cost (nth v j)))
    (fun s i => if cost (nth v i) < s.1 then (cost (nth v i), i) else s) v.length (B, 0)
    (Or.inl ⟨rfl, fun j hj => absurd hj (Nat.not_lt_zero _)⟩)
    (by
      intro i s _ hs
      by_cases hc : cost (nth v i) < s.1
      · simp only [if_pos hc]
        right
        refine ⟨Nat.lt_succ_self i, trivial, fun j hj => ?_, fun j hj => ?_⟩
        · rcases Nat.lt_succ_iff_lt_or_eq.mp hj with h | h
          · rcases hs with ⟨e, hall⟩ | ⟨_, _, hall, _⟩
            · rw [e] at hc
              exact le_of_lt (lt_of_lt_of_le hc (hall j h))
            · exact le_of_lt (lt_of_lt_of_le hc (hall j h))
          · rw [h]
        · rcases hs with ⟨e, hall⟩ | ⟨_, _, hall, _⟩
          · rw [e] at hc
            exact lt_of_lt_of_le hc (hall j hj)
          · exact lt_of_lt_of_le hc (hall j hj)
      · simp only [if_neg hc]
        rcases hs with ⟨e, hall⟩ | ⟨h1, h2, hall, hlow⟩
        · left
          refine ⟨e, fun j hj => ?_⟩
          rcases Nat.lt_succ_iff_lt_or_eq.mp hj with h | h
          · exact hall j h
          · rw [h]
            rw [e] at hc
            exact not_lt.mp hc
        · right
          refine ⟨Nat.lt_succ_of_lt h1, h2, fun j hj => ?_, hlow⟩
          rcases Nat.lt_succ_iff_lt_or_eq.mp hj with h | h
          · exact hall j h
          · rw [h]
            exact not_lt.mp hc)
  rcases h with h | ⟨h1, h2, h3, h4⟩
  · exact Or.inl h
  · right
    refine ⟨h1, ?_, ?_⟩
    · intro j hj
      have := h3 j hj
      rw [h2] at this
      exact this
    · intro j hj
      have := h4 j hj
      rw [h2] at this
      exact this

theorem nth_cons_eraseIdx_perm {α : Type} [Inhabited α] (v : List α) (c : Nat)
    (hc : c < v.length) : (nth v c :: v.eraseIdx c).Perm v := by
  induction v generalizing c with
  | nil => exact absurd hc (Nat.not_lt_zero _)
  | cons a v ih =>
    cases c with
    | zero => simp [nth]
    | succ c =>
      have hc2 : c < v.length := Nat.lt_of_succ_lt_succ hc
      have e : nth (a :: v) (c + 1) = nth v c := by simp [nth]
      rw [e, List.eraseIdx_cons_succ]
      exact (List.Perm.swap a (nth v c) _).trans ((ih c hc2).cons a)

theorem nth_mem_of_lt {α : Type} [Inhabited α] (v : List α) (c : Nat) (hc : c < v.length) :
    nth v c ∈ v := by
  rw [nth_of_lt v c hc]
  exact List.getElem_mem hc

/-- The walk returns, for every fuel from the length of `v` on, a permutation
of `v` in the order of a nearest-first walk, when every cost met lies below the
initial value of `d`. -/
theorem walk_loop_spec {K α : Type} [LinearOrderedField K] [Inhabited α]
    (cost : Point K → α → K) (next : α → Point K) (B : K) :
    ∀ (k : Nat) (v : List α) (p : Point K) (out : List α), v.length = k →
      (∀ a, a ∈ v → cost p a < B ∧ ∀ b, b ∈ v → cost (next b) a < B) →
      ∃ r, (∀ fuel, k ≤ fuel → walk_loop cost next B fuel p v out = some (out ++ r)) ∧
        r.Perm v ∧ NearestWalk cost next p v r := by
  intro k
  induction k with
  | zero =>
    intro v p out hk _
    have hv : v = [] := List.length_eq_zero.mp hk
    subst hv
    refine ⟨[], fun fuel _ => ?_, List.Perm.refl _, NearestWalk.done p⟩
    cases fuel <;> simp [walk_loop]
  | succ k ih =>
    intro v p out hk hfar
    cases v with
    | nil => simp at hk
    | cons a v =>
      have hlen : v.length = k := by simpa using hk
      rcases closest_fold_spec (cost p) B (a :: v) with ⟨_, hall⟩ | ⟨hc, hmin, hfirst⟩
      · exfalso
        have h0 := hall 0 (by simp)
        have h1 := (hfar (nth (a :: v) 0) (nth_mem_of_lt _ 0 (by simp))).1
        exact absurd h0 (not_le.mpr h1)
      · have hx := nth_mem_of_lt (a :: v) _ hc
        have hel : ((a :: v).eraseIdx (closest_fold (cost p) B (a :: v)).2).length = k := by
          rw [List.length_eraseIdx_of_lt hc]
          simpa using hlen
        obtain ⟨r, hr1, hr2, hr3⟩ := ih ((a :: v).eraseIdx (closest_fold (cost p) B (a :: v)).2)
          (next (nth (a :: v) (closest_fold (cost p) B (a :: v)).2))
          (out ++ [nth (a :: v) (closest_fold (cost p) B (a :: v)).2]) hel
          (fun x hxm => ⟨(hfar x (List.mem_of_mem_eraseIdx hxm)).2 _ hx,
            fun b hb => (hfar x (List.mem_of_mem_eraseIdx hxm)).2 b
              (List.mem_of_mem_eraseIdx hb)⟩)
        refine ⟨nth (a :: v) (closest_fold (cost p) B (a :: v)).2 :: r, fun fuel hfuel => ?_,
          (hr2.cons _).trans (nth_cons_eraseIdx_perm _ _ hc),
          NearestWalk.step p (a :: v) r _ hc hmin hfirst hr3⟩
        obtain ⟨f, rfl⟩ := Nat.exists_eq_succ_of_ne_zero
          (Nat.ne_of_gt (Nat.lt_of_lt_of_le (Nat.succ_pos k) hfuel))
        rw [walk_loop, hr1 f (Nat.le_of_succ_le_succ hfuel), List.append_assoc]
        rfl

/-! ## C22: `linear_arrow_sort` -/

/-- C22: when every distance from the origin or from the head of an arrow to the
tail of an arrow lies below `FLT_MAX`, `linear_arrow_sort` returns, for every
fuel from the number of arrows on, a permutation of the arrows in which the first
arrow has its tail nearest to the origin and every later arrow is, among the
arrows not yet placed, the earliest one whose tail is nearest to the head of the
arrow placed before it. -/
theorem linear_arrow_sort_nearest_chain {K : Type} [LinearOrderedField K] (sqrt : K → K)
    (FLT_MAX : K) (arrows : List (Arrow K))
    (hfar : ∀ a, a ∈ arrows → distance sqrt 0 0 a.tail.x a.tail.y < FLT_MAX ∧
      ∀ b, b ∈ arrows → distance sqrt b.head.x b.head.y a.tail.x a.tail.y < FLT_MAX) :
    ∃ r, (∀ fuel, arrows.length ≤ fuel →
        linear_arrow_sort sqrt FLT_MAX fuel arrows = some r) ∧
      r.Perm arrows ∧
      NearestWalk (fun start a => distance sqrt start.x start.y a.tail.x a.tail.y)
        (fun a => a.head) ⟨0, 0⟩ arrows r := by
  obtain ⟨r, h1, h2, h3⟩ := walk_loop_spec
    (fun (start : Point K) (a : Arrow K) => distance sqrt start.x start.y a.tail.x a.tail.y)
    (fun a => a.head) FLT_MAX arrows.length arrows ⟨0, 0⟩ [] rfl hfar
  refine ⟨r, fun fuel hfuel => ?_, h2, h3⟩
  unfold linear_arrow_sort
  rw [h1 fuel hfuel, List.nil_append]

/-- The statement C22 at `three_arrows`: the order is c, b, a. -/
theorem linear_arrow_sort_nearest_chain_witness :
    (∀ a, a ∈ three_arrows → distance qsqrt 0 0 a.tail.x a.tail.y < flt_max ∧
      ∀ b, b ∈ three_arrows → distance qsqrt b.head.x b.head.y a.tail.x a.tail.y < flt_max) ∧
    (linear_arrow_sort qsqrt flt_max 3 three_arrows).map (fun r => r.map (fun a => a.agent)) =
      some ["c", "b", "a"] ∧
    ∃ r, (∀ fuel, three_arrows.length ≤ fuel →
        linear_arrow_sort qsqrt flt_max fuel three_arrows = some r) ∧
      r.Perm three_arrows ∧
      NearestWalk (fun start a => distance qsqrt start.x start.y a.tail.x a.tail.y)
        (fun a => a.head) ⟨0, 0⟩ three_arrows r := by
  have hfar : ∀ a, a ∈ three_arrows → distance qsqrt 0 0 a.tail.x a.tail.y < flt_max ∧
      ∀ b, b ∈ three_arrows →
        distance qsqrt b.head.x b.head.y a.tail.x a.tail.y < flt_max := by
    decide!
  exact ⟨hfar, by decide!, linear_arrow_sort_nearest_chain qsqrt flt_max three_arrows hfar⟩
theorem nth_set_self {α : Type} [Inhabited α] (v : List α) (n : Nat) (x : α)
    (h : n < v.length) : nth (v.set n x) n = x := by
  simp [nth, List.getElem?_set_self h]

/-- The walk over one bucket. -/
theorem sbfa_walk_spec {K : Type} [LinearOrderedField K] (sqrt : K → K) (half : K → K)
    (FLT_MAX : K) (page_of_boxes : List (Box K)) (p : Point K) (bucket : List Nat)
    (hfar : ∀ jj, jj ∈ bucket →
      distance_from_box sqrt half p (nth page_of_boxes jj) < FLT_MAX ∧
      ∀ kk, kk ∈ bucket → distance_from_box sqrt half
        (box_centre half (nth page_of_boxes kk)) (nth page_of_boxes jj) < FLT_MAX) :
    ∃ r, (∀ fuel, bucket.length ≤ fuel →
        sbfa_walk sqrt half FLT_MAX page_of_boxes fuel p bucket = some r) ∧
      r.Perm bucket ∧
      NearestWalk (fun q jj => distance_from_box sqrt half q (nth page_of_boxes jj))
        (fun jj => box_centre half (nth page_of_boxes jj)) p bucket r := by
  obtain ⟨r, h1, h2, h3⟩ := walk_loop_spec
    (fun (q : Point K) (jj : Nat) => distance_from_box sqrt half q (nth page_of_boxes jj))
    (fun jj => box_centre half (nth page_of_boxes jj)) FLT_MAX bucket.length bucket p [] rfl hfar
  refine ⟨r, fun fuel hfuel => ?_, h2, h3⟩
  unfold sbfa_walk
  rw [h1 fuel hfuel, List.nil_append]

/-! ## C23: `sort_boxes_from_arrows` -/

/-- C23: for non-empty arrows and boxes and `arrows.size() + 1` buckets, when
every distance met lies below `FLT_MAX`, `sort_boxes_from_arrows` returns with
enough fuel the buckets each replaced by a permutation of itself: bucket `i >= 1`
in the order of the nearest-first walk over box centres that starts at the head
of arrow `i - 1`, bucket 0 in the reverse of the walk that starts at the tail of
arrow 0. -/
theorem sort_boxes_from_arrows_walks {K : Type} [LinearOrderedField K] (sqrt : K → K)
    (half : K → K) (FLT_MAX : K) (arrows : List (Arrow K)) (before : List (List Nat))
    (page_of_boxes : List (Box K)) (fuel : Nat)
    (ha : arrows ≠ []) (hb : page_of_boxes ≠ []) (hlen : before.length = arrows.length + 1)
    (hfuel : ∀ i, i < before.length → (nth before i).length ≤ fuel)
    (hfar : ∀ i, i < before.length → ∀ jj, jj ∈ nth before i →
      distance_from_box sqrt half (if i = 0 then (nth arrows 0).tail else (nth arrows (i - 1)).head)
        (nth page_of_boxes jj) < FLT_MAX ∧
      ∀ kk, kk ∈ nth before i → distance_from_box sqrt half
        (box_centre half (nth page_of_boxes kk)) (nth page_of_boxes jj) < FLT_MAX) :
    ∃ r, sort_boxes_from_arrows sqrt half FLT_MAX fuel arrows before page_of_boxes = some r ∧
      r.length = before.length ∧
      (∀ i, i < before.length → (nth r i).Perm (nth before i)) ∧
      NearestWalk (fun q jj => distance_from_box sqrt half q (nth page_of_boxes jj))
        (fun jj => box_centre half (nth page_of_boxes jj)) (nth arrows 0).tail (nth before 0)
        (nth r 0).reverse ∧
      ∀ i, 1 ≤ i → i < before.length →
        NearestWalk (fun q jj => distance_from_box sqrt half q (nth page_of_boxes jj))
          (fun jj => box_centre half (nth page_of_boxes jj)) (nth arrows (i - 1)).head
          (nth before i) (nth r i) := by
  have hn0 : 0 < before.length := by omega
  have hguard : ¬ (before.isEmpty = true ∨ arrows.isEmpty = true ∨
      page_of_boxes.isEmpty = true) := by
    rintro (h | h | h)
    · rw [List.isEmpty_iff] at h
      rw [h] at hn0
      exact Nat.lt_irrefl 0 hn0
    · exact ha (List.isEmpty_iff.mp h)
    · exact hb (List.isEmpty_iff.mp h)
  unfold sort_boxes_from_arrows
  rw [if_neg hguard]
  obtain ⟨r0, w1, w2, w3⟩ := sbfa_walk_spec sqrt half FLT_MAX page_of_boxes (nth arrows 0).tail
    (nth before 0) (fun jj hjj => by
      have := hfar 0 hn0 jj hjj
      rwa [if_pos rfl] at this)
  have hP := foldl_range'_inv
    (fun t (st : Option (List (List Nat))) => ∃ bf, st = some bf ∧ bf.length = before.length ∧
      (∀ i, t + 1 ≤ i → nth bf i = nth before i) ∧
      (nth bf 0).Perm (nth before 0) ∧
      NearestWalk (fun q jj => distance_from_box sqrt half q (nth page_of_boxes jj))
        (fun jj => box_centre half (nth page_of_boxes jj)) (nth arrows 0).tail (nth before 0)
        (nth bf 0).reverse ∧
      ∀ i, 1 ≤ i → i < t + 1 → (nth bf i).Perm (nth before i) ∧
        NearestWalk (fun q jj => distance_from_box sqrt half q (nth page_of_boxes jj))
          (fun jj => box_centre half (nth page_of_boxes jj)) (nth arrows (i - 1)).head
          (nth before i) (nth bf i))
    (sbfa_bucket sqrt half FLT_MAX arrows page_of_boxes fuel) 1 (before.length - 1)
    ((sbfa_walk sqrt half FLT_MAX page_of_boxes fuel (nth arrows 0).tail (nth before 0)).map
      (fun t => before.set 0 t.reverse))
    (by
      refine ⟨before.set 0 r0.reverse, ?_, by simp, fun i hi => ?_, ?_, ?_, fun i h1 h2 => ?_⟩
      · rw [w1 fuel (hfuel 0 hn0)]
        rfl
      · exact nth_set_ne _ _ _ _ (by omega)
      · rw [nth_set_self _ _ _ hn0]
        exact (List.reverse_perm r0).trans w2
      · rw [nth_set_self _ _ _ hn0, List.reverse_reverse]
        exact w3
      · omega)
    (by
      intro t st ht hst
      obtain ⟨bf, e, hl, hkeep, p0, q0, hdone⟩ := hst
      have hi : 1 + t < before.length := by omega
      obtain ⟨r, v1, v2, v3⟩ := sbfa_walk_spec sqrt half FLT_MAX page_of_boxes
        (nth arrows (1 + t - 1)).head (nth before (1 + t)) (fun jj hjj => by
          have := hfar (1 + t) hi jj hjj
          rwa [if_neg (by omega)] at this)
      have hbk : nth bf (1 + t) = nth before (1 + t) := hkeep (1 + t) (by omega)
      refine ⟨bf.set (1 + t) r, ?_, by simpa using hl, fun i hi2 => ?_, ?_, ?_, fun i h1 h2 => ?_⟩
      · rw [e]
        simp only [sbfa_bucket, Option.some_bind, hbk]
        rw [v1 fuel (hfuel (1 + t) hi)]
        rfl
      · rw [nth_set_ne _ _ _ _ (by omega)]
        exact hkeep i (by omega)
      · rw [nth_set_ne _ _ _ _ (by omega)]
        exact p0
      · rw [nth_set_ne _ _ _ _ (by omega)]
        exact q0
      · by_cases hit : i = 1 + t
        · subst hit
          rw [nth_set_self _ _ _ (by omega)]
          exact ⟨v2, v3⟩
        · rw [nth_set_ne _ _ _ _ (fun h => hit h.symm)]
          exact hdone i h1 (by omega))
  obtain ⟨bf, e, hl, _, p0, q0, hdone⟩ := hP
  refine ⟨bf, e, hl, fun i hi => ?_, q0, fun i h1 h2 => (hdone i h1 (by omega)).2⟩
  rcases Nat.eq_zero_or_pos i with h | h
  · rw [h]
    exact p0
  · exact (hdone i h (by omega)).1

/-- The statement C23 at one arrow, the buckets `two_buckets` and `four_boxes`:
bucket 0 ends with the box nearest to the tail, bucket 1 starts with the box
nearest to the head. -/
theorem sort_boxes_from_arrows_walks_witness :
    sort_boxes_from_arrows qsqrt qhalf flt_max 2 one_arrow two_buckets four_boxes =
      some [[0, 1], [2, 3]] ∧
    ∃ r, sort_boxes_from_arrows qsqrt qhalf flt_max 2 one_arrow two_buckets four_boxes = some r ∧
      r.length = two_buckets.length ∧
      (∀ i, i < two_buckets.length → (nth r i).Perm (nth two_buckets i)) ∧
      NearestWalk (fun q jj => distance_from_box qsqrt qhalf q (nth four_boxes jj))
        (fun jj => box_centre qhalf (nth four_boxes jj)) (nth one_arrow 0).tail
        (nth two_buckets 0) (nth r 0).reverse ∧
      ∀ i, 1 ≤ i → i < two_buckets.length →
        NearestWalk (fun q jj => distance_from_box qsqrt qhalf q (nth four_boxes jj))
          (fun jj => box_centre qhalf (nth four_boxes jj)) (nth one_arrow (i - 1)).head
          (nth two_buckets i) (nth r i) := by
  refine ⟨by decide!, sort_boxes_from_arrows_walks qsqrt qhalf flt_max one_arrow two_buckets
    four_boxes 2 (by decide) (by decide) rfl ?_ ?_⟩
  · intro i hi
    have hi2 : i < 2 := hi
    interval_cases i <;> decide
  · intro i hi
    have hi2 : i < 2 := hi
    interval_cases i <;> decide!

theorem checked_div_none {K : Type} [LinearOrderedField K] (a b : K) :
    checked_div a b = none ↔ b = 0 := by
  unfold checked_div
  by_cases h : b = 0
  · simp [h]
  · simp [h]

theorem checked_div_some {K : Type} [LinearOrderedField K] (a b : K) (h : b ≠ 0) :
    checked_div a b = some (a / b) := by
  unfold checked_div
  rw [if_neg h]

/-! ## C24: the divisions of the geometric kernel -/

/-- C24 (as amended): no division of the geometric kernel is guarded.
`distance_from_bond_y`, `distance_from_bond_x_a` and `distance_from_bond_x_b`
divide by zero exactly when the length `distance(x0, y0, x1, y1)` of the segment
is zero, `angle4` exactly when the product of its two lengths is zero, and
`extend_dashed_bond` exactly when the distance of its two atoms is zero or
`n = 1`; in every other case no division by zero occurs and the value is the one
of the unchecked function. -/
theorem kernel_divisions_unguarded {K : Type} [LinearOrderedField K] (sqrt : K → K) :
    (∀ x0 y0 x1 y1 x y : K,
      (distance_from_bond_y_checked sqrt x0 y0 x1 y1 x y = none ↔
        distance sqrt x0 y0 x1 y1 = 0) ∧
      (distance sqrt x0 y0 x1 y1 ≠ 0 → distance_from_bond_y_checked sqrt x0 y0 x1 y1 x y =
        some (distance_from_bond_y sqrt x0 y0 x1 y1 x y))) ∧
    (∀ x0 y0 x1 y1 x y : K,
      (distance_from_bond_x_a_checked sqrt x0 y0 x1 y1 x y = none ↔
        distance sqrt x0 y0 x1 y1 = 0) ∧
      (distance sqrt x0 y0 x1 y1 ≠ 0 → distance_from_bond_x_a_checked sqrt x0 y0 x1 y1 x y =
        some (distance_from_bond_x_a sqrt x0 y0 x1 y1 x y))) ∧
    (∀ x0 y0 x1 y1 x y : K,
      (distance_from_bond_x_b_checked sqrt x0 y0 x1 y1 x y = none ↔
        distance sqrt x0 y0 x1 y1 = 0) ∧
      (distance sqrt x0 y0 x1 y1 ≠ 0 → distance_from_bond_x_b_checked sqrt x0 y0 x1 y1 x y =
        some (distance_from_bond_x_b sqrt x0 y0 x1 y1 x y))) ∧
    (∀ x1 y1 x2 y2 x3 y3 x4 y4 : K,
      (angle4_checked sqrt x1 y1 x2 y2 x3 y3 x4 y4 = none ↔
        distance sqrt x1 y1 x2 y2 * distance sqrt x4 y4 x3 y3 = 0) ∧
      (distance sqrt x1 y1 x2 y2 * distance sqrt x4 y4 x3 y3 ≠ 0 →
        angle4_checked sqrt x1 y1 x2 y2 x3 y3 x4 y4 =
          some (angle4 sqrt x1 y1 x2 y2 x3 y3 x4 y4))) ∧
    (∀ (a b : Nat) (n : Int) (atom : List (Atom K)),
      (extend_dashed_bond_checked sqrt a b n atom = none ↔
        distance sqrt (nth atom a).x (nth atom a).y (nth atom b).x (nth atom b).y = 0 ∨ n = 1) ∧
      (distance sqrt (nth atom a).x (nth atom a).y (nth atom b).x (nth atom b).y ≠ 0 → n ≠ 1 →
        extend_dashed_bond_checked sqrt a b n atom = some (extend_dashed_bond sqrt a b n atom))) := by
  refine ⟨?_, ?_, ?_, ?_, ?_⟩
  · intro x0 y0 x1 y1 x y
    by_cases h : distance sqrt x0 y0 x1 y1 = 0
    · simp [distance_from_bond_y_checked, checked_div, h]
    · simp [distance_from_bond_y_checked, distance_from_bond_y, checked_div, h]
  · intro x0 y0 x1 y1 x y
    by_cases h : distance sqrt x0 y0 x1 y1 = 0
    · simp [distance_from_bond_x_a_checked, checked_div, h]
    · simp [distance_from_bond_x_a_checked, distance_from_bond_x_a, checked_div, h]
  · intro x0 y0 x1 y1 x y
    by_cases h : distance sqrt x0 y0 x1 y1 = 0
    · simp [distance_from_bond_x_b_checked, checked_div, h]
    · simp [distance_from_bond_x_b_checked, distance_from_bond_x_b, checked_div, h]
  · intro x1 y1 x2 y2 x3 y3 x4 y4
    by_cases h : distance sqrt x1 y1 x2 y2 * distance sqrt x4 y4 x3 y3 = 0
    · simp [angle4_checked, checked_div, h]
    · simp [angle4_checked, angle4, checked_div, h]
  · intro a b n atom
    have hn : ((n - 1 : Int) : K) = 0 ↔ n = 1 := by
      rw [Int.cast_eq_zero, sub_eq_zero]
    by_cases h : distance sqrt (nth atom a).x (nth atom a).y (nth atom b).x (nth atom b).y = 0
    · simp [extend_dashed_bond_checked, checked_div, h]
    · by_cases h1 : n = 1
      · have h0 : ((n - 1 : Int) : K) = 0 := hn.mpr h1
        simp [extend_dashed_bond_checked, checked_div, h, h0, h1]
      · have h0 : ¬ ((n - 1 : Int) : K) = 0 := fun e => h1 (hn.mp e)
        simp only [extend_dashed_bond_checked, checked_div, if_neg h, if_neg h0, h, h1, or_self,
          iff_false, ne_eq, not_false_eq_true, true_implies]
        refine ⟨by simp, ?_⟩
        simp only [bind, Option.bind, pure, extend_dashed_bond]
        simp

/-- C24 (as stated) fails: on the zero-length segment from (0,0) to (0,0) each
of the three offsets and `angle4` divides by zero, and `extend_dashed_bond`
divides by zero when its two atoms coincide and also when `n = 1`. -/
theorem kernel_division_by_zero_counterexample :
    distance_from_bond_y_checked qsqrt 0 0 0 0 1 1 = none ∧
    distance_from_bond_x_a_checked qsqrt 0 0 0 0 1 1 = none ∧
    distance_from_bond_x_b_checked qsqrt 0 0 0 0 1 1 = none ∧
    angle4_checked qsqrt 0 0 0 0 1 1 2 2 = none ∧
    extend_dashed_bond_checked qsqrt 0 1 3 [mkAtom 2 2, mkAtom 2 2] = none ∧
    extend_dashed_bond_checked qsqrt 0 1 1 [mkAtom 0 0, mkAtom 3 4] = none := by
  decide!

/-- One pass over the pool reads the bond vector at the bonds of the pool only. -/
theorem scan_congr (b1 b2 : List Bond) (pool : List Nat)
    (h : ∀ p, p ∈ pool → nth b1 p = nth b2 p) :
    ∀ frag, scan b1 frag pool = scan b2 frag pool := by
  induction pool with
  | nil => intro frag; rfl
  | cons p rest ih =>
    intro frag
    have hp := h p (List.mem_cons_self p rest)
    have hr : ∀ frag2, scan b1 frag2 rest = scan b2 frag2 rest :=
      ih (fun q hq => h q (List.mem_cons_of_mem p hq))
    simp only [scan, hp, hr]

theorem grow_congr (b1 b2 : List Bond) : ∀ (fuel : Nat) (frag pool : List Nat),
    (∀ p, p ∈ pool → nth b1 p = nth b2 p) → grow b1 fuel frag pool = grow b2 fuel frag pool := by
  intro fuel
  induction fuel with
  | zero => intro frag pool _; rfl
  | succ n ih =>
    intro frag pool h
    have hs := scan_congr b1 b2 pool h frag
    simp only [grow, hs]
    by_cases hf : (scan b2 frag pool).2.2 = true
    · rw [if_pos hf, if_pos hf]
      exact ih _ _ (fun p hp => h p ((scan_spec b2 pool frag).1.subset hp))
    · rw [if_neg hf, if_neg hf]

theorem frag_loop_congr (b1 b2 : List Bond) : ∀ (fuel : Nat) (pool : List Nat)
    (frags : List (List Nat)), (∀ p, p ∈ pool → nth b1 p = nth b2 p) →
    frag_loop b1 fuel pool frags = frag_loop b2 fuel pool frags := by
  intro fuel
  induction fuel with
  | zero => intro pool frags _; rfl
  | succ n ih =>
    intro pool frags h
    simp only [frag_loop]
    cases hl : pool.getLast? with
    | none => rfl
    | some p =>
      have hpm : p ∈ pool := List.mem_of_getLast?_eq_some hl
      have hd : ∀ q, q ∈ pool.dropLast → nth b1 q = nth b2 q :=
        fun q hq => h q (List.dropLast_subset pool hq)
      simp only [h p hpm]
      rw [grow_congr b1 b2 pool.length _ pool.dropLast hd]
      cases hg : grow b2 pool.length [(nth b2 p).a, (nth b2 p).b] pool.dropLast with
      | none => rfl
      | some r =>
        simp only []
        have hlt : pool.dropLast.length < pool.length := by
          rw [List.length_dropLast]
          have : 0 < pool.length := List.length_pos_of_mem hpm
          omega
        obtain ⟨F, P, e, hsub, _⟩ := grow_spec b2 pool.length
          [(nth b2 p).a, (nth b2 p).b] pool.dropLast hlt
        rw [hg] at e
        have er : r.2 = P := by
          have := Option.some.inj e
          rw [this]
        exact ih _ _ (fun q hq => hd q (hsub.subset (er ▸ hq)))

/-- Slots without a bond behind the bonds of a vector are not seen by
`find_fragments`. -/
theorem find_fragments_padded {K : Type} [Zero K] (bond : List Bond) (k : Nat)
    (atom : List (Atom K)) :
    find_fragments (bond ++ List.replicate k default) (bond.length + k) atom =
      find_fragments bond bond.length atom := by
  have hlow : ∀ i, i < bond.length → nth (bond ++ List.replicate k default) i = nth bond i := by
    intro i hi
    simp [nth, List.getElem?_append_left hi]
  have hhigh : ∀ i, bond.length ≤ i →
      (nth (bond ++ List.replicate k default) i).exists_ = false := by
    intro i hi
    by_cases h : i < (bond ++ List.replicate k default).length
    · rw [nth_of_lt _ _ h, List.getElem_append_right hi, List.getElem_replicate]
      rfl
    · rw [nth_of_le _ _ (Nat.le_of_not_lt h)]
      rfl
  have hpool : (List.range (bond.length + k)).filter
      (fun i => surviving (bond ++ List.replicate k default) atom i) =
      (List.range bond.length).filter (fun i => surviving bond atom i) := by
    rw [List.range_add, List.filter_append]
    have h2 : ((List.range k).map (fun x => bond.length + x)).filter
        (fun i => surviving (bond ++ List.replicate k default) atom i) = [] := by
      rw [List.filter_eq_nil_iff]
      intro i hi
      obtain ⟨x, _, hx⟩ := List.mem_map.mp hi
      have hge : bond.length ≤ i := by omega
      simp [surviving, hhigh i hge]
    rw [h2, List.append_nil]
    apply List.filter_congr
    intro i hi
    have hlt : i < bond.length := List.mem_range.mp hi
    simp [surviving, hlow i hlt]
  unfold find_fragments
  rw [hpool]
  exact frag_loop_congr _ _ _ _ _ (fun p hp => hlow p ((mem_pool_iff bond bond.length atom p).mp hp).1)

/-- The atoms and the growth of `n_bond` in `reconnect_fragments` do not depend
on the bond vector handed in. -/
theorem rf_pair_count {K : Type} [LinearOrderedField K] (sqrt : K → K) (FLT_MAX avg : K)
    (frags : List (List Nat)) (i : Nat) (s : RfState K) (j : Nat) :
    (rf_pair sqrt FLT_MAX avg frags i s j).atom =
      (rf_pair sqrt FLT_MAX avg frags i ⟨[], s.atom, 0⟩ j).atom ∧
    (rf_pair sqrt FLT_MAX avg frags i s j).n_bond =
      s.n_bond + (rf_pair sqrt FLT_MAX avg frags i ⟨[], s.atom, 0⟩ j).n_bond := by
  by_cases c0 : (nth frags j).length > 2
  · by_cases c1 : (rf_nearest sqrt FLT_MAX s.atom (nth frags i) (nth frags j)).l < 11 / 10 * avg ∧
        (rf_nearest sqrt FLT_MAX s.atom (nth frags i) (nth frags j)).l > avg / 3
    · by_cases c2 : (rf_nearest sqrt FLT_MAX s.atom (nth frags i) (nth frags j)).l < avg / 3
      · simp only [rf_pair, if_pos c0, if_pos c1, if_pos c2]
        exact ⟨trivial, by simp⟩
      · simp only [rf_pair, if_pos c0, if_pos c1, if_neg c2]
        exact ⟨trivial, by simp⟩
    · by_cases c2 : (rf_nearest sqrt FLT_MAX s.atom (nth frags i) (nth frags j)).l < avg / 3
      · simp only [rf_pair, if_pos c0, if_neg c1, if_pos c2]
        exact ⟨trivial, by simp⟩
      · simp only [rf_pair, if_pos c0, if_neg c1, if_neg c2]
        exact ⟨trivial, by simp⟩
  · simp only [rf_pair, if_neg c0]
    exact ⟨trivial, by simp⟩

theorem rf_fold_count {K σ : Type} (f : RfState K → σ → RfState K)
    (hf : ∀ s x, (f s x).atom = (f ⟨[], s.atom, 0⟩ x).atom ∧
      (f s x).n_bond = s.n_bond + (f ⟨[], s.atom, 0⟩ x).n_bond) (xs : List σ) :
    ∀ s : RfState K, (xs.foldl f s).atom = (xs.foldl f ⟨[], s.atom, 0⟩).atom ∧
      (xs.foldl f s).n_bond = s.n_bond + (xs.foldl f ⟨[], s.atom, 0⟩).n_bond := by
  induction xs with
  | nil => intro s; simp
  | cons x xs ih =>
    intro s
    obtain ⟨a1, n1⟩ := hf s x
    obtain ⟨a2, n2⟩ := ih (f s x)
    obtain ⟨a3, n3⟩ := ih (f ⟨[], s.atom, 0⟩ x)
    simp only [List.foldl_cons]
    rw [a2, n2, a3, n3, a1, n1]
    exact ⟨rfl, by omega⟩

theorem rf_outer_count {K : Type} [LinearOrderedField K] (sqrt : K → K) (FLT_MAX avg : K)
    (frags : List (List Nat)) (s : RfState K) (i : Nat) :
    (rf_outer sqrt FLT_MAX avg frags s i).atom =
      (rf_outer sqrt FLT_MAX avg frags ⟨[], s.atom, 0⟩ i).atom ∧
    (rf_outer sqrt FLT_MAX avg frags s i).n_bond =
      s.n_bond + (rf_outer sqrt FLT_MAX avg frags ⟨[], s.atom, 0⟩ i).n_bond := by
  unfold rf_outer
  split_ifs
  · exact rf_fold_count _ (rf_pair_count sqrt FLT_MAX avg frags i) _ s
  · simp

theorem rf_key1 : ((List.range 2).foldl
      (rf_outer qsqrt flt_max 10 [[4, 5, 3], [1, 2, 0]])
      ⟨[], two_chains_atoms, 0⟩).n_bond = 1 := by decide!

theorem rf_key2 (bond : List Bond) (n : Nat) :
    ((List.range 2).foldl (rf_outer qsqrt flt_max 10 [[4, 5, 3], [1, 2, 0]])
      ⟨bond, two_chains_atoms, n⟩).n_bond = n + 1 := by
  have hc := (rf_fold_count (rf_outer qsqrt flt_max 10 [[4, 5, 3], [1, 2, 0]])
    (rf_outer_count qsqrt flt_max 10 [[4, 5, 3], [1, 2, 0]])
    (List.range 2) ⟨bond, two_chains_atoms, n⟩).2
  rw [hc]
  exact congrArg (fun t => n + t) rf_key1

theorem rf_key (bond : List Bond) (n : Nat)
    (hf : find_fragments bond n two_chains_atoms = some [[4, 5, 3], [1, 2, 0]]) :
    (reconnect_fragments qsqrt flt_max bond n two_chains_atoms 10).map (fun r => r.n_bond) =
      some (n + 1) := by
  have h2 := rf_key2 bond n
  have h3 : (List.range ([[4, 5, 3], [1, 2, 0]] : List (List Nat)).length) = List.range 2 := rfl
  have h4 : ([[4, 5, 3], [1, 2, 0]] : List (List Nat)).length ≤ 3 := by decide
  simp only [reconnect_fragments, hf, Option.map_some', if_pos h4, h3, h2]

/-- At any ceiling `MAX_ATOMS >= 5`: the bond vector of the two chains filled up
with empty slots to `n_bond = MAX_ATOMS - 1` comes back with
`n_bond = MAX_ATOMS`. -/
theorem reconnect_fragments_at_ceiling (MAX_ATOMS : Nat) (h : 5 ≤ MAX_ATOMS) :
    (reconnect_fragments qsqrt flt_max
      (two_chains_bonds ++ List.replicate (MAX_ATOMS - 5) default) (MAX_ATOMS - 1)
      two_chains_atoms 10).map (fun r => r.n_bond) = some MAX_ATOMS := by
  have hfr : find_fragments two_chains_bonds two_chains_bonds.length two_chains_atoms =
      some [[4, 5, 3], [1, 2, 0]] := by decide!
  have hp := find_fragments_padded two_chains_bonds (MAX_ATOMS - 5) two_chains_atoms
  rw [hfr] at hp
  have hn : two_chains_bonds.length + (MAX_ATOMS - 5) = MAX_ATOMS - 1 := by
    show 4 + (MAX_ATOMS - 5) = MAX_ATOMS - 1
    omega
  rw [hn] at hp
  have := rf_key _ _ hp
  rw [this]
  congr 1
  omega

/-! ## C25: the capacity of the bond vector -/

/-- C25 does not hold of `reconnect_fragments`: called on the two chains with
`n_bond = 4` it appends the bond between the atoms 2 and 3 and returns
`n_bond = 5`, and at any ceiling `MAX_ATOMS >= 5` the same bonds filled up with
empty slots to `n_bond = MAX_ATOMS - 1` come back with `n_bond = MAX_ATOMS`: the
function has no test against `MAX_ATOMS`. The statements
`n_bond++; if (n_bond >= MAX_ATOMS) n_bond--` of `find_bonds`,
`double_triple_bonds` and `fix_one_sided_bonds` keep a count below the ceiling
below it. -/
theorem reconnect_fragments_exceeds_capacity :
    (reconnect_fragments qsqrt flt_max two_chains_bonds 4 two_chains_atoms 10).map
      (fun r => (r.n_bond, (nth r.bond 4).exists_, (nth r.bond 4).a, (nth r.bond 4).b)) =
      some (5, true, 3, 2) ∧
    (∀ MAX_ATOMS, 5 ≤ MAX_ATOMS → MAX_ATOMS - 1 < MAX_ATOMS ∧
      (reconnect_fragments qsqrt flt_max
        (two_chains_bonds ++ List.replicate (MAX_ATOMS - 5) default) (MAX_ATOMS - 1)
        two_chains_atoms 10).map (fun r => r.n_bond) = some MAX_ATOMS) ∧
    (∀ MAX_ATOMS n : Nat, n < MAX_ATOMS → bump MAX_ATOMS n < MAX_ATOMS) := by
  refine ⟨by decide!, fun M h => ⟨by omega, reconnect_fragments_at_ceiling M h⟩, fun M n h => ?_⟩
  unfold bump
  split_ifs <;> omega

/-! ## C30: `comp_fragments` and `comp_boxes` -/

/-- C30 (as amended): on boxes with `y1 <= y2` the comparators `comp_boxes` and
`comp_fragments` are irreflexive and asymmetric. -/
theorem comparators_irreflexive_asymmetric {K : Type} [LinearOrder K] :
    (∀ a : Box K, a.y1 ≤ a.y2 → comp_boxes a a = false) ∧
    (∀ a b : Box K, a.y1 ≤ a.y2 → b.y1 ≤ b.y2 → comp_boxes a b = true →
      comp_boxes b a = false) ∧
    (∀ a : Fragment K, a.y1 ≤ a.y2 → comp_fragments a a = false) ∧
    (∀ a b : Fragment K, a.y1 ≤ a.y2 → b.y1 ≤ b.y2 → comp_fragments a b = true →
      comp_fragments b a = false) := by
  refine ⟨?_, ?_, ?_, ?_⟩
  · intro a ha
    unfold comp_boxes
    rw [if_neg (not_lt.mpr ha), if_neg (not_lt.mpr ha), if_neg (lt_irrefl _),
      if_neg (lt_irrefl _)]
  · intro a b ha hb h
    unfold comp_boxes at h ⊢
    by_cases c1 : a.y2 < b.y1
    · have n1 : ¬ b.y2 < a.y1 := not_lt.mpr (le_trans ha (le_trans (le_of_lt c1) hb))
      have p2 : b.y1 > a.y2 := c1
      rw [if_neg n1, if_pos p2]
    · rw [if_neg c1] at h
      by_cases c2 : a.y1 > b.y2
      · rw [if_pos c2] at h
        exact absurd h (by decide)
      · rw [if_neg c2] at h
        by_cases c3 : a.x1 > b.x1
        · rw [if_pos c3] at h
          exact absurd h (by decide)
        · rw [if_neg c3] at h
          by_cases c4 : a.x1 < b.x1
          · have n1 : ¬ b.y2 < a.y1 := c2
            have n2 : ¬ b.y1 > a.y2 := c1
            have p3 : b.x1 > a.x1 := c4
            rw [if_neg n1, if_neg n2, if_pos p3]
          · rw [if_neg c4] at h
            exact absurd h (by decide)
  · intro a ha
    unfold comp_fragments
    rw [if_neg (not_lt.mpr ha), if_neg (not_lt.mpr ha), if_neg (lt_irrefl _),
      if_neg (lt_irrefl _)]
  · intro a b ha hb h
    unfold comp_fragments at h ⊢
    by_cases c1 : a.y2 < b.y1
    · have n1 : ¬ b.y2 < a.y1 := not_lt.mpr (le_trans ha (le_trans (le_of_lt c1) hb))
      have p2 : b.y1 > a.y2 := c1
      rw [if_neg n1, if_pos p2]
    · rw [if_neg c1] at h
      by_cases c2 : a.y1 > b.y2
      · rw [if_pos c2] at h
        exact absurd h (by decide)
      · rw [if_neg c2] at h
        by_cases c3 : a.x1 > b.x1
        · rw [if_pos c3] at h
          exact absurd h (by decide)
        · rw [if_neg c3] at h
          by_cases c4 : a.x1 < b.x1
          · have n1 : ¬ b.y2 < a.y1 := c2
            have n2 : ¬ b.y1 > a.y2 := c1
            have p3 : b.x1 > a.x1 := c4
            rw [if_neg n1, if_neg n2, if_pos p3]
          · rw [if_neg c4] at h
            exact absurd h (by decide)

/-- C30 (as stated) fails: neither comparator is transitive. The tall box `a`
(rows 0 to 100, left edge 0) precedes `b` (rows 0 to 10, left edge 5), which
precedes `c` (rows 20 to 30, left edge -5), but `a` does not precede `c`. Nor is
incomparability transitive: `d` (rows 0 to 30, left edge 5) is incomparable with
`b` and with `e` (rows 20 to 30, left edge 5), while `b` precedes `e`. -/
theorem comparators_not_transitive_counterexample :
    (comp_boxes (⟨0, 0, 1, 100⟩ : Box Int) ⟨5, 0, 6, 10⟩ = true ∧
      comp_boxes (⟨5, 0, 6, 10⟩ : Box Int) ⟨-5, 20, 6, 30⟩ = true ∧
      comp_boxes (⟨0, 0, 1, 100⟩ : Box Int) ⟨-5, 20, 6, 30⟩ = false) ∧
    (comp_fragments (⟨0, 0, 1, 100, []⟩ : Fragment Int) ⟨5, 0, 6, 10, []⟩ = true ∧
      comp_fragments (⟨5, 0, 6, 10, []⟩ : Fragment Int) ⟨-5, 20, 6, 30, []⟩ = true ∧
      comp_fragments (⟨0, 0, 1, 100, []⟩ : Fragment Int) ⟨-5, 20, 6, 30, []⟩ = false) ∧
    (comp_boxes (⟨5, 0, 6, 30⟩ : Box Int) ⟨5, 0, 6, 10⟩ = false ∧
      comp_boxes (⟨5, 0, 6, 10⟩ : Box Int) ⟨5, 0, 6, 30⟩ = false ∧
      comp_boxes (⟨5, 0, 6, 30⟩ : Box Int) ⟨5, 20, 6, 30⟩ = false ∧
      comp_boxes (⟨5, 20, 6, 30⟩ : Box Int) ⟨5, 0, 6, 30⟩ = false ∧
      comp_boxes (⟨5, 0, 6, 10⟩ : Box Int) ⟨5, 20, 6, 30⟩ = true) := by
  decide

/-! ## C27: `collapse_atoms` and the ends of bonds -/

/-- C27 does not hold of the code. Atom 0 is at (0,0), atoms 1 and 2 at (2.9,1)
and (2.9,-1) are joined by bond 0, and `dist = 3`. In the first round atom 1
takes in atom 2 and moves to (2.9,0), and bond 0 becomes the loop 1-1. In the
second round atom 0 takes in atom 1: of the loop only end `a` is moved to atom 0
(`if (bond[k].a == j) ... else if (bond[k].b == j) ...`), so bond 0 still exists
with end `b` at atom 1, which does not exist any more. -/
theorem collapse_atoms_dangling_end :
    (nth collapse_loop_bonds 0).exists_ = true ∧
    (nth collapse_loop_bonds 0).a ≠ (nth collapse_loop_bonds 0).b ∧
    (nth collapse_loop_atoms (nth collapse_loop_bonds 0).a).exists_ = true ∧
    (nth collapse_loop_atoms (nth collapse_loop_bonds 0).b).exists_ = true ∧
    (collapse_atoms qsqrt 4 collapse_loop_atoms collapse_loop_bonds 3 1 3).map
      (fun r => ((nth r.2 0).exists_, (nth r.2 0).a, (nth r.2 0).b,
        (nth r.1 0).exists_, (nth r.1 1).exists_, (nth r.1 2).exists_)) =
      some (true, 0, 1, true, false, false) ∧
    (ca_pass qsqrt 3 1 3 collapse_loop_atoms collapse_loop_bonds).bond.map
      (fun b => (b.a, b.b)) = [(1, 1)] := by
  decide!

theorem same_but_xy_refl {K : Type} (a : Atom K) : same_but_xy a a :=
  ⟨rfl, rfl, rfl, rfl, rfl, rfl, rfl, rfl⟩

theorem same_but_xy_trans {K : Type} {a b c : Atom K} (h1 : same_but_xy a b)
    (h2 : same_but_xy b c) : same_but_xy a c := by
  obtain ⟨a1, a2, a3, a4, a5, a6, a7, a8⟩ := h1
  obtain ⟨b1, b2, b3, b4, b5, b6, b7, b8⟩ := h2
  exact ⟨a1.trans b1, a2.trans b2, a3.trans b3, a4.trans b4, a5.trans b5, a6.trans b6,
    a7.trans b7, a8.trans b8⟩

theorem same_but_xy_set_x {K : Type} [Zero K] (atom : List (Atom K)) (i : Nat) (v : K)
    (k : Nat) : same_but_xy (nth (set_x atom i v) k) (nth atom k) := by
  rw [nth_set_x]
  split_ifs
  · exact ⟨rfl, rfl, rfl, rfl, rfl, rfl, rfl, rfl⟩
  · exact same_but_xy_refl _

theorem same_but_xy_set_y {K : Type} [Zero K] (atom : List (Atom K)) (i : Nat) (v : K)
    (k : Nat) : same_but_xy (nth (set_y atom i v) k) (nth atom k) := by
  rw [nth_set_y]
  split_ifs
  · exact ⟨rfl, rfl, rfl, rfl, rfl, rfl, rfl, rfl⟩
  · exact same_but_xy_refl _

/-- The four assignments that pull the atoms `p` and `q` together. -/
theorem pull_together_spec {K : Type} [LinearOrderedField K] (atom : List (Atom K))
    (p q : Nat) :
    (pull_together atom p q).length = atom.length ∧
    (∀ k, same_but_xy (nth (pull_together atom p q) k) (nth atom k)) ∧
    (∀ k, k ≠ p → k ≠ q → nth (pull_together atom p q) k = nth atom k) ∧
    (p < atom.length → q < atom.length →
      (nth (pull_together atom p q) p).x = ((nth atom p).x + (nth atom q).x) / 2 ∧
      (nth (pull_together atom p q) p).y = ((nth atom p).y + (nth atom q).y) / 2 ∧
      (nth (pull_together atom p q) q).x =
        (((nth atom p).x + (nth atom q).x) / 2 + (nth atom q).x) / 2 ∧
      (nth (pull_together atom p q) q).y =
        (((nth atom p).y + (nth atom q).y) / 2 + (nth atom q).y) / 2) := by
  refine ⟨?_, ?_, ?_, ?_⟩
  · simp only [pull_together, length_set_x, length_set_y]
  · intro k
    simp only [pull_together]
    exact same_but_xy_trans (same_but_xy_set_y _ _ _ _)
      (same_but_xy_trans (same_but_xy_set_x _ _ _ _)
        (same_but_xy_trans (same_but_xy_set_y _ _ _ _) (same_but_xy_set_x _ _ _ _)))
  · intro k hp hq
    have np : ¬ (p = k ∧ p < atom.length) := fun h => hp h.1.symm
    simp only [pull_together, nth_set_x, nth_set_y, length_set_x, length_set_y]
    have hp2 : p ≠ k := fun h => hp h.symm
    have hq2 : q ≠ k := fun h => hq h.symm
    simp [hp2, hq2]
  · intro hp hq
    by_cases hpq : p = q
    · subst hpq
      simp only [pull_together, nth_set_x, nth_set_y, length_set_x, length_set_y]
      simp [hp]
    · have hqp : q ≠ p := fun h => hpq h.symm
      simp only [pull_together, nth_set_x, nth_set_y, length_set_x, length_set_y]
      simp [hp, hq, hpq, hqp]

theorem cb_before_succ {K : Type} [LinearOrderedField K] (sqrt : K → K) (atom : List (Atom K))
    (bond : List Bond) (dist : K) (m : Nat) :
    cb_before sqrt atom bond dist (m + 1) =
      cb_body sqrt bond dist (cb_before sqrt atom bond dist m) m := by
  unfold cb_before
  rw [List.range_succ, List.foldl_append]
  rfl

/-- The turn of a bond that is not short, or does not touch atom `p`, leaves
atom `p` alone. -/
theorem cb_body_other {K : Type} [LinearOrderedField K] (sqrt : K → K) (bond : List Bond)
    (dist : K) (atom : List (Atom K)) (k p : Nat)
    (h : ((nth bond k).exists_ = true ∧ bond_length sqrt bond k atom < dist) →
      ¬ touches bond k p) :
    nth (cb_body sqrt bond dist atom k) p = nth atom p := by
  unfold cb_body
  by_cases hc : (nth bond k).exists_ = true ∧ bond_length sqrt bond k atom < dist
  · rw [if_pos hc]
    have ht := h hc
    unfold touches at ht
    push_neg at ht
    exact (pull_together_spec atom _ _).2.2.1 p ht.1 ht.2
  · rw [if_neg hc]

theorem cb_body_frame {K : Type} [LinearOrderedField K] (sqrt : K → K) (bond : List Bond)
    (dist : K) (atom : List (Atom K)) (k : Nat) :
    (cb_body sqrt bond dist atom k).length = atom.length ∧
    ∀ p, same_but_xy (nth (cb_body sqrt bond dist atom k) p) (nth atom p) := by
  unfold cb_body
  split_ifs
  · exact ⟨(pull_together_spec atom _ _).1, (pull_together_spec atom _ _).2.1⟩
  · exact ⟨rfl, fun p => same_but_xy_refl _⟩

theorem cb_before_frame {K : Type} [LinearOrderedField K] (sqrt : K → K) (atom : List (Atom K))
    (bond : List Bond) (dist : K) (m : Nat) :
    (cb_before sqrt atom bond dist m).length = atom.length ∧
    ∀ p, same_but_xy (nth (cb_before sqrt atom bond dist m) p) (nth atom p) := by
  induction m with
  | zero => exact ⟨rfl, fun p => same_but_xy_refl _⟩
  | succ m ih =>
    rw [cb_before_succ]
    obtain ⟨l1, f1⟩ := cb_body_frame sqrt bond dist (cb_before sqrt atom bond dist m) m
    exact ⟨l1.trans ih.1, fun p => same_but_xy_trans (f1 p) (ih.2 p)⟩

/-- Between the turns `lo` and `hi` an atom that no short bond of these turns
touches stays as it is. -/
theorem cb_untouched {K : Type} [LinearOrderedField K] (sqrt : K → K) (atom : List (Atom K))
    (bond : List Bond) (dist : K) (lo p : Nat) : ∀ hi, lo ≤ hi →
    (∀ k, lo ≤ k → k < hi → cb_short sqrt atom bond dist k → ¬ touches bond k p) →
    nth (cb_before sqrt atom bond dist hi) p = nth (cb_before sqrt atom bond dist lo) p := by
  intro hi
  induction hi with
  | zero =>
    intro h _
    have : lo = 0 := Nat.le_zero.mp h
    rw [this]
  | succ m ih =>
    intro h hall
    rcases Nat.lt_or_ge lo (m + 1) with hlt | hge
    · rw [cb_before_succ, cb_body_other sqrt bond dist _ m p
        (fun hc => hall m (Nat.le_of_lt_succ hlt) (Nat.lt_succ_self m) hc)]
      exact ih (Nat.le_of_lt_succ hlt)
        (fun k h1 h2 hk => hall k h1 (Nat.lt_succ_of_lt h2) hk)
    · have : lo = m + 1 := Nat.le_antisymm h hge
      rw [this]

/-! ## C28: `collapse_bonds` -/

/-- C28 (as amended): `collapse_bonds` returns the atoms with every field but
the coordinates as before (the bond vector is `const`). A bond is found short
when it exists and is shorter than `dist` at the time its turn in the loop
comes, on the atoms as earlier turns have left them. An atom that is not an end
of a bond found short is not moved; and a bond `i` found short whose ends are
ends of no other bond found short is shorter than `dist` in the input and has
its end `a` at the midpoint of its old ends and its end `b` at the midpoint of
the new `a` and the old `b`, so the square of its length is one sixteenth of
what it was, and its length one quarter for a square root that takes a quarter
there. -/
theorem collapse_bonds_quarter {K : Type} [LinearOrderedField K] (sqrt : K → K)
    (atom : List (Atom K)) (bond : List Bond) (n_bond : Nat) (dist : K) :
    (collapse_bonds sqrt atom bond n_bond dist).length = atom.length ∧
    (∀ p, same_but_xy (nth (collapse_bonds sqrt atom bond n_bond dist) p) (nth atom p)) ∧
    (∀ p, (∀ i, i < n_bond → cb_short sqrt atom bond dist i → ¬ touches bond i p) →
      nth (collapse_bonds sqrt atom bond n_bond dist) p = nth atom p) ∧
    (∀ i, i < n_bond → cb_short sqrt atom bond dist i →
      (nth bond i).a < atom.length → (nth bond i).b < atom.length →
      (∀ k, k < n_bond → k ≠ i → cb_short sqrt atom bond dist k →
        ¬ touches bond k (nth bond i).a ∧ ¬ touches bond k (nth bond i).b) →
      bond_length sqrt bond i atom < dist ∧
      (nth (collapse_bonds sqrt atom bond n_bond dist) (nth bond i).a).x =
        ((nth atom (nth bond i).a).x + (nth atom (nth bond i).b).x) / 2 ∧
      (nth (collapse_bonds sqrt atom bond n_bond dist) (nth bond i).a).y =
        ((nth atom (nth bond i).a).y + (nth atom (nth bond i).b).y) / 2 ∧
      (nth (collapse_bonds sqrt atom bond n_bond dist) (nth bond i).b).x =
        ((nth (collapse_bonds sqrt atom bond n_bond dist) (nth bond i).a).x +
          (nth atom (nth bond i).b).x) / 2 ∧
      (nth (collapse_bonds sqrt atom bond n_bond dist) (nth bond i).b).y =
        ((nth (collapse_bonds sqrt atom bond n_bond dist) (nth bond i).a).y +
          (nth atom (nth bond i).b).y) / 2 ∧
      bond_length_sq bond i (collapse_bonds sqrt atom bond n_bond dist) =
        bond_length_sq bond i atom / 16 ∧
      (sqrt (bond_length_sq bond i atom / 16) = sqrt (bond_length_sq bond i atom) / 4 →
        bond_length sqrt bond i (collapse_bonds sqrt atom bond n_bond dist) =
          bond_length sqrt bond i atom / 4)) := by
  have hr : collapse_bonds sqrt atom bond n_bond dist = cb_before sqrt atom bond dist n_bond :=
    rfl
  refine ⟨?_, ?_, ?_, ?_⟩
  · rw [hr]
    exact (cb_before_frame sqrt atom bond dist n_bond).1
  · rw [hr]
    exact (cb_before_frame sqrt atom bond dist n_bond).2
  · intro p hall
    rw [hr]
    exact cb_untouched sqrt atom bond dist 0 p n_bond (Nat.zero_le _)
      (fun k _ hk hs => hall k hk hs)
  · intro i hi hs ha hb hiso
    have ea : nth (cb_before sqrt atom bond dist i) (nth bond i).a = nth atom (nth bond i).a :=
      cb_untouched sqrt atom bond dist 0 _ i (Nat.zero_le _)
        (fun k _ hk hsk => (hiso k (by omega) (by omega) hsk).1)
    have eb : nth (cb_before sqrt atom bond dist i) (nth bond i).b = nth atom (nth bond i).b :=
      cb_untouched sqrt atom bond dist 0 _ i (Nat.zero_le _)
        (fun k _ hk hsk => (hiso k (by omega) (by omega) hsk).2)
    have hshort : bond_length sqrt bond i atom < dist := by
      have := hs.2
      unfold bond_length at this ⊢
      rw [ea, eb] at this
      exact this
    have hlen := (cb_before_frame sqrt atom bond dist i).1
    have hstep : cb_before sqrt atom bond dist (i + 1) =
        pull_together (cb_before sqrt atom bond dist i) (nth bond i).a (nth bond i).b := by
      rw [cb_before_succ]
      unfold cb_body
      exact if_pos hs
    obtain ⟨p1, p2, p3, p4⟩ := (pull_together_spec (cb_before sqrt atom bond dist i)
      (nth bond i).a (nth bond i).b).2.2.2 (hlen.symm ▸ ha) (hlen.symm ▸ hb)
    rw [ea, eb, ← hstep] at p1 p2 p3 p4
    have fa : nth (collapse_bonds sqrt atom bond n_bond dist) (nth bond i).a =
        nth (cb_before sqrt atom bond dist (i + 1)) (nth bond i).a :=
      cb_untouched sqrt atom bond dist (i + 1) _ n_bond (by omega)
        (fun k h1 h2 hsk => (hiso k h2 (by omega) hsk).1)
    have fb : nth (collapse_bonds sqrt atom bond n_bond dist) (nth bond i).b =
        nth (cb_before sqrt atom bond dist (i + 1)) (nth bond i).b :=
      cb_untouched sqrt atom bond dist (i + 1) _ n_bond (by omega)
        (fun k h1 h2 hsk => (hiso k h2 (by omega) hsk).2)
    rw [← fa] at p1 p2
    rw [← fb] at p3 p4
    have hsq : bond_length_sq bond i (collapse_bonds sqrt atom bond n_bond dist) =
        bond_length_sq bond i atom / 16 := by
      unfold bond_length_sq
      rw [p1, p2, p3, p4]
      ring
    refine ⟨hshort, p1, p2, ?_, ?_, hsq, ?_⟩
    · rw [p3, p1]
    · rw [p4, p2]
    · intro hq
      have e1 : ∀ at2 : List (Atom K), bond_length sqrt bond i at2 =
          sqrt (bond_length_sq bond i at2) := fun _ => rfl
      rw [e1, e1, hsq, hq]

/-- The statement C28 at a short bond apart from a long one: the short bond from
(0,0) to (4,0) ends from (2,0) to (3,0), a quarter of its length. -/
theorem collapse_bonds_quarter_witness :
    (collapse_bonds qsqrt short_long_atoms short_long_bonds 2 5).map (fun a => (a.x, a.y)) =
      [(2, 0), (3, 0), (10, 0), (30, 0)] ∧
    bond_length qsqrt short_long_bonds 0
        (collapse_bonds qsqrt short_long_atoms short_long_bonds 2 5) =
      bond_length qsqrt short_long_bonds 0 short_long_atoms / 4 := by
  refine ⟨by decide!, ?_⟩
  have h := (collapse_bonds_quarter qsqrt short_long_atoms short_long_bonds 2 5).2.2.2 0
    (by decide) (by decide!) (by decide) (by decide)
    (by
      intro k hk hne hs
      have hk1 : k = 1 := by omega
      subst hk1
      exact absurd hs (by decide!))
  exact h.2.2.2.2.2.2 (by decide!)

/-- C28 (counterexample): bond 0 of `drift_atoms` has length 4 and bond 1 has
length 5.9, so with `dist = 5` only bond 0 is shorter than `dist`, and it shares
no atom with another such bond. The turn of bond 0 moves atom 1 to `(13, 10)`;
bond 1 then measures 4.9 and is pulled together as well: atom 2, an end of
bond 1 only, is moved from `(8.1, 10)` to `(9.325, 10)`, and bond 0 ends with
length 1.45 and not 1, a quarter of 4. -/
theorem collapse_bonds_input_length_counterexample :
    bond_length qsqrt drift_bonds 0 drift_atoms = 4 ∧
    bond_length qsqrt drift_bonds 1 drift_atoms = 59 / 10 ∧
    ¬ bond_length qsqrt drift_bonds 1 drift_atoms < 5 ∧
    ¬ touches drift_bonds 0 2 ∧
    (nth drift_atoms 2).x = 81 / 10 ∧
    (nth (collapse_bonds qsqrt drift_atoms drift_bonds 2 5) 2).x = 373 / 40 ∧
    bond_length qsqrt drift_bonds 0 (collapse_bonds qsqrt drift_atoms drift_bonds 2 5) =
      29 / 20 ∧
    bond_length qsqrt drift_bonds 0 drift_atoms / 4 = 1 := by
  refine ⟨by decide!, by decide!, by decide!, by decide, by decide!, by decide!, by decide!,
    by decide!⟩

/-- The ends of bond `i` after the rewiring of a merge: the far end of `f` and
the end of `i` that is kept, in one order or the other. -/
theorem fl_ends_ab (c : FlCase) (l : List Bond) (i f : Nat) (hi : i < l.length) :
    ((nth (fl_ends c l i f) i).a = fl_far c l f ∧ (nth (fl_ends c l i f) i).b = fl_keep c l i) ∨
    ((nth (fl_ends c l i f) i).a = fl_keep c l i ∧ (nth (fl_ends c l i f) i).b = fl_far c l f) := by
  have e1 : ∀ (m : List Bond) (g : Bond → Bond), i < m.length →
      nth (modify m i g) i = g (nth m i) := fun m g hm => nth_modify_eq _ _ _ hm
  have e2 : ∀ (g : Bond → Bond), i < (modify l i g).length := fun g => by
    rw [length_modify]; exact hi
  cases c
  · left
    simp only [fl_ends, fl_far, fl_keep, set_a, e1 _ _ hi, and_self]
  · by_cases h : (nth l f).hash = true ∨ (nth l f).wedge = true
    · right
      simp only [fl_ends, if_pos h, fl_far, fl_keep, set_a, set_b, e1 _ _ (e2 _), e1 _ _ hi,
        and_self]
    · left
      simp only [fl_ends, if_neg h, fl_far, fl_keep, set_a, e1 _ _ hi, and_self]
  · by_cases h : (nth l f).hash = true ∨ (nth l f).wedge = true
    · left
      simp only [fl_ends, if_pos h, fl_far, fl_keep, set_a, set_b, e1 _ _ (e2 _), e1 _ _ hi,
        and_self]
    · right
      simp only [fl_ends, if_neg h, fl_far, fl_keep, set_b, e1 _ _ hi, and_self]
  · right
    simp only [fl_ends, fl_far, fl_keep, set_b, e1 _ _ hi, and_self]

/-- The ends of bond `i` after a merge. -/
theorem fl_merge_ab {K : Type} [LinearOrderedField K] (c : FlCase) (s : FlState K)
    (i f : Nat) (lf li : K) (hi : (nth s.bond i).exists_ = true) (hif : f ≠ i) :
    ((nth (fl_merge c s i f lf li).bond i).a = fl_far c s.bond f ∧
      (nth (fl_merge c s i f lf li).bond i).b = fl_keep c s.bond i) ∨
    ((nth (fl_merge c s i f lf li).bond i).a = fl_keep c s.bond i ∧
      (nth (fl_merge c s i f lf li).bond i).b = fl_far c s.bond f) := by
  have hil : i < s.bond.length := exists_lt_length _ _ hi
  have hDl : (delete_bond s.bond f).length = s.bond.length := length_modify _ _ _
  have hDi : nth (delete_bond s.bond f) i = nth s.bond i := nth_modify_ne _ _ _ _ hif
  have hDf := nth_delete_bond_self s.bond f
  obtain ⟨lE, _⟩ := fl_ends_spec c (delete_bond s.bond f) i f (hDl.symm ▸ hil)
  obtain ⟨_, iI⟩ := fl_inherit_spec (fl_ends c (delete_bond s.bond f) i f) i f lf li
    ((lE.trans hDl).symm ▸ hil) hif
  have hfar : fl_far c (delete_bond s.bond f) f = fl_far c s.bond f := by
    cases c <;> simp only [fl_far, hDf]
  have hkeep : fl_keep c (delete_bond s.bond f) i = fl_keep c s.bond i := by
    cases c <;> simp only [fl_keep, hDi]
  have h := fl_ends_ab c (delete_bond s.bond f) i f (hDl.symm ▸ hil)
  rw [hfar, hkeep] at h
  have ea : (nth (fl_merge c s i f lf li).bond i).a =
      (nth (fl_ends c (delete_bond s.bond f) i f) i).a := by
    show (nth (fl_inherit _ i f lf li) i).a = _
    rw [iI]
  have eb : (nth (fl_merge c s i f lf li).bond i).b =
      (nth (fl_ends c (delete_bond s.bond f) i f) i).b := by
    show (nth (fl_inherit _ i f lf li) i).b = _
    rw [iI]
  rw [ea, eb]
  exact h

/-- For a square root that is never negative the far end of a bond is not behind
its near end. -/
theorem dfbxa_far_nonneg {K : Type} [LinearOrderedField K] (sqrt : K → K)
    (hs : ∀ v, 0 ≤ sqrt v) (x0 y0 x1 y1 : K) :
    ¬ distance_from_bond_x_a sqrt x0 y0 x1 y1 x1 y1 < 0 := by
  unfold distance_from_bond_x_a
  have hd : 0 ≤ distance sqrt x0 y0 x1 y1 := hs _
  have e : (x1 - x0) * ((x1 - x0) / distance sqrt x0 y0 x1 y1) -
      (y1 - y0) * (-(y1 - y0) / distance sqrt x0 y0 x1 y1) =
      ((x1 - x0) * (x1 - x0) + (y1 - y0) * (y1 - y0)) / distance sqrt x0 y0 x1 y1 := by
    ring
  rw [e]
  exact not_lt.mpr (div_nonneg (add_nonneg (mul_self_nonneg _) (mul_self_nonneg _)) hd)

/-- For a square root that is never negative the near end of a bond is not
beyond its far end. -/
theorem dfbxb_near_nonpos {K : Type} [LinearOrderedField K] (sqrt : K → K)
    (hs : ∀ v, 0 ≤ sqrt v) (x0 y0 x1 y1 : K) :
    ¬ 0 < distance_from_bond_x_b sqrt x0 y0 x1 y1 x0 y0 := by
  unfold distance_from_bond_x_b
  have hd : 0 ≤ distance sqrt x0 y0 x1 y1 := hs _
  have e : (x0 - x0) * ((x1 - x0) / distance sqrt x0 y0 x1 y1) -
      (y0 - y0) * (-(y1 - y0) / distance sqrt x0 y0 x1 y1) - distance sqrt x0 y0 x1 y1 =
      -distance sqrt x0 y0 x1 y1 := by
    ring
  rw [e]
  exact not_lt.mpr (neg_nonpos.mpr hd)

/-- With a count of one, the bond found is the only other bond of order below 3
at the atom. -/
theorem fl_count_unique (bond : List Bond) (n_bond i e : Nat)
    (h1 : (fl_count bond n_bond i e).1 = 1) :
    ∀ j, j < n_bond → j ≠ i → (nth bond j).exists_ = true → (nth bond j).type < 3 →
      (e = (nth bond j).a ∨ e = (nth bond j).b) → j = (fl_count bond n_bond i e).2 := by
  have h := foldl_range_inv
    (fun m (nf : Nat × Nat) =>
      (∀ j, j < m → j ≠ i ∧ (nth bond j).exists_ = true ∧ (nth bond j).type < 3 ∧
        (e = (nth bond j).a ∨ e = (nth bond j).b) → 1 ≤ nf.1) ∧
      (nf.1 ≤ 1 → ∀ j, j < m → j ≠ i ∧ (nth bond j).exists_ = true ∧ (nth bond j).type < 3 ∧
        (e = (nth bond j).a ∨ e = (nth bond j).b) → j = nf.2))
    (fun (nf : Nat × Nat) j =>
      if j ≠ i ∧ (nth bond j).exists_ = true ∧ (nth bond j).type < 3 ∧
          (e = (nth bond j).a ∨ e = (nth bond j).b) then (nf.1 + 1, j)
      else nf)
    n_bond (0, i)
    ⟨fun j hj _ => absurd hj (Nat.not_lt_zero _), fun _ j hj _ => absurd hj (Nat.not_lt_zero _)⟩
    (by
      intro m nf _ hP
      obtain ⟨p1, p2⟩ := hP
      by_cases hc : m ≠ i ∧ (nth bond m).exists_ = true ∧ (nth bond m).type < 3 ∧
          (e = (nth bond m).a ∨ e = (nth bond m).b)
      · simp only [if_pos hc]
        refine ⟨fun j _ _ => Nat.le_add_left 1 nf.1, fun hle j hj hq => ?_⟩
        rcases Nat.lt_succ_iff_lt_or_eq.mp hj with h | h
        · have := p1 j h hq
          omega
        · exact h
      · simp only [if_neg hc]
        refine ⟨fun j hj hq => ?_, fun hle j hj hq => ?_⟩
        · rcases Nat.lt_succ_iff_lt_or_eq.mp hj with h | h
          · exact p1 j h hq
          · exact absurd (h ▸ hq) hc
        · rcases Nat.lt_succ_iff_lt_or_eq.mp hj with h | h
          · exact p2 hle j h hq
          · exact absurd (h ▸ hq) hc)
  intro j hj hji he ht hs
  exact h.2 (Nat.le_of_eq h1) j hj ⟨hji, he, ht, hs⟩
theorem fl_keeps_refl {K : Type} [Zero K] (n_bond : Nat) (s : FlState K) :
    FlKeeps n_bond s s :=
  ⟨fun h => h, fun _ h => h, fun _ h => h, fun _ _ => rfl, Or.inl ⟨rfl, rfl⟩⟩

theorem fl_keeps_trans {K : Type} [Zero K] (n_bond : Nat) (s r t : FlState K)
    (h1 : FlKeeps n_bond s r) (h2 : FlKeeps n_bond r t) : FlKeeps n_bond s t := by
  obtain ⟨a1, b1, c1, d1, e1⟩ := h1
  obtain ⟨a2, b2, c2, d2, e2⟩ := h2
  refine ⟨fun h => a2 (a1 h), fun k h => b1 k (b2 k h), fun k h => c1 k (c2 k h), ?_, ?_⟩
  · intro k hk
    have hr := d1 k hk
    rw [d2 k (by rw [hr]; exact hk), hr]
  · rcases e1 with ⟨f1, l1⟩ | ⟨f1, l1⟩
    · rcases e2 with ⟨f2, l2⟩ | ⟨f2, l2⟩
      · exact Or.inl ⟨f2.trans f1, l2.trans l1⟩
      · exact Or.inr ⟨f2, l1 ▸ l2⟩
    · rcases e2 with ⟨f2, l2⟩ | ⟨f2, l2⟩
      · exact Or.inr ⟨f2.trans f1, l2 ▸ l1⟩
      · exact Or.inr ⟨f2, lt_trans l2 l1⟩

/-- The two ends of bond `f` in a merge are its far end and the deleted atom. -/
theorem fl_far_gone (c : FlCase) (l : List Bond) (f : Nat) :
    (fl_far c l f = (nth l f).a ∧ fl_gone c l f = (nth l f).b) ∨
    (fl_far c l f = (nth l f).b ∧ fl_gone c l f = (nth l f).a) := by
  cases c
  · exact Or.inl ⟨rfl, rfl⟩
  · exact Or.inr ⟨rfl, rfl⟩
  · exact Or.inl ⟨rfl, rfl⟩
  · exact Or.inr ⟨rfl, rfl⟩

/-- The two ends of bond `i` in a merge are the end it keeps and the shared atom. -/
theorem fl_keep_near (c : FlCase) (l : List Bond) (i : Nat) :
    (fl_keep c l i = (nth l i).a ∧ fl_near c l i = (nth l i).b) ∨
    (fl_keep c l i = (nth l i).b ∧ fl_near c l i = (nth l i).a) := by
  cases c
  · exact Or.inr ⟨rfl, rfl⟩
  · exact Or.inr ⟨rfl, rfl⟩
  · exact Or.inl ⟨rfl, rfl⟩
  · exact Or.inl ⟨rfl, rfl⟩

/-- A merge of the only other bond of order below 3 at the shared atom keeps
the ends of all existing bonds of order below 3. -/
theorem fl_merge_keeps {K : Type} [LinearOrderedField K] (n_bond : Nat) (c : FlCase)
    (s : FlState K) (i f : Nat) (lf li : K)
    (hi : (nth s.bond i).exists_ = true) (hti : (nth s.bond i).type < 3)
    (hif : f ≠ i) (hfn : f < n_bond) (hfe : (nth s.bond f).exists_ = true)
    (hft : (nth s.bond f).type < 3)
    (hshare : fl_gone c s.bond f = fl_near c s.bond i)
    (huniq : ∀ j, j < n_bond → j ≠ i → (nth s.bond j).exists_ = true → (nth s.bond j).type < 3 →
      (fl_gone c s.bond f = (nth s.bond j).a ∨ fl_gone c s.bond f = (nth s.bond j).b) → j = f)
    (hgeo : fl_far c s.bond f ≠ fl_keep c s.bond i) :
    FlKeeps n_bond s (fl_merge c s i f lf li) := by
  obtain ⟨_, m2, m3, _, _, _, _, m8, m9⟩ := fl_merge_spec c s i f lf li hi hif
  have hDf := nth_delete_bond_self s.bond f
  have hg : fl_gone c (delete_bond s.bond f) f = fl_gone c s.bond f := by
    cases c <;> simp only [fl_gone, hDf]
  have hat : (fl_merge c s i f lf li).atom = delete_atom s.atom (fl_gone c s.bond f) := by
    show delete_atom s.atom (fl_gone c (delete_bond s.bond f) f) = _
    rw [hg]
  obtain ⟨_, dk⟩ := exists_delete_atom s.atom (fl_gone c s.bond f)
  have hbe : ∀ k, (nth (fl_merge c s i f lf li).bond k).exists_ = true →
      (nth s.bond k).exists_ = true := by
    intro k hk
    by_cases hki : k = i
    · rw [hki]; exact hi
    · by_cases hkf : k = f
      · rw [hkf, m2] at hk
        exact absurd hk (by decide)
      · rw [m8 k hki hkf] at hk
        exact hk
  refine ⟨?_, hbe, ?_, ?_, Or.inr ⟨m9, ?_⟩⟩
  · intro L k hk he ht
    rw [hat]
    by_cases hki : k = i
    · subst hki
      obtain ⟨fa, fb, fab⟩ := L f hfn hfe hft
      have hfar : (nth s.atom (fl_far c s.bond f)).exists_ = true ∧
          fl_far c s.bond f ≠ fl_gone c s.bond f := by
        rcases fl_far_gone c s.bond f with ⟨h1, h2⟩ | ⟨h1, h2⟩
        · rw [h1, h2]; exact ⟨fa, fab⟩
        · rw [h1, h2]; exact ⟨fb, Ne.symm fab⟩
      have hkeep : (nth s.atom (fl_keep c s.bond k)).exists_ = true ∧
          fl_keep c s.bond k ≠ fl_gone c s.bond f := by
        obtain ⟨ia, ib, iab⟩ := L k hk hi hti
        rw [hshare]
        rcases fl_keep_near c s.bond k with ⟨h1, h2⟩ | ⟨h1, h2⟩
        · rw [h1, h2]; exact ⟨ia, iab⟩
        · rw [h1, h2]; exact ⟨ib, Ne.symm iab⟩
      rcases fl_merge_ab c s k f lf li hi hif with ⟨ea, eb⟩ | ⟨ea, eb⟩
      · rw [ea, eb, dk _ hfar.2, dk _ hkeep.2]
        exact ⟨hfar.1, hkeep.1, hgeo⟩
      · rw [ea, eb, dk _ hfar.2, dk _ hkeep.2]
        exact ⟨hkeep.1, hfar.1, Ne.symm hgeo⟩
    · by_cases hkf : k = f
      · rw [hkf, m2] at he
        exact absurd he (by decide)
      · rw [m8 k hki hkf] at he ht ⊢
        obtain ⟨ka, kb, kab⟩ := L k hk he ht
        have na : (nth s.bond k).a ≠ fl_gone c s.bond f := fun e =>
          hkf (huniq k hk hki he ht (Or.inl e.symm))
        have nb : (nth s.bond k).b ≠ fl_gone c s.bond f := fun e =>
          hkf (huniq k hk hki he ht (Or.inr e.symm))
        rw [dk _ na, dk _ nb]
        exact ⟨ka, kb, kab⟩
  · intro k hk
    rw [hat] at hk
    by_cases hkg : k = fl_gone c s.bond f
    · rw [hkg, (exists_delete_atom s.atom (fl_gone c s.bond f)).1] at hk
      exact absurd hk (by decide)
    · rw [dk k hkg] at hk
      exact hk
  · intro k hk
    have hki : k ≠ i := fun e => hk (e ▸ hti)
    have hkf : k ≠ f := fun e => hk (e ▸ hft)
    exact m8 k hki hkf
  · unfold live_bonds
    exact countP_range_lt _ _ hbe f hfe m2 n_bond hfn

/-- The end `a` of bond `i` keeps the ends of the bonds of order below 3. -/
theorem fl_side_a_keeps {K : Type} [LinearOrderedField K] (sqrt : K → K)
    (hs : ∀ v, 0 ≤ sqrt v) (n_bond : Nat) (maxh : K) (s : FlState K) (i : Nat) (li : K)
    (hi : (nth s.bond i).exists_ = true) (hti : (nth s.bond i).type < 3) :
    FlKeeps n_bond s (fl_side_a sqrt n_bond maxh s i li) := by
  unfold fl_side_a
  by_cases hl : (nth s.atom (nth s.bond i).a).label = " "
  · rw [if_pos hl]
    by_cases hn : (fl_count s.bond n_bond i (nth s.bond i).a).1 = 1
    · simp only [if_pos hn]
      have hu := fl_count_unique s.bond n_bond i (nth s.bond i).a hn
      rcases fl_count_spec s.bond n_bond i (nth s.bond i).a with h0 | ⟨_, hfi, hfn, hfe, hft, hfs⟩
      · rw [h0.1] at hn
        exact absurd hn (by decide)
      · by_cases hc : (nth s.bond i).a = (nth s.bond (fl_count s.bond n_bond i (nth s.bond i).a).2).b
        · rw [if_pos hc]
          split_ifs with hg
          · have hsh : fl_gone FlCase.a_fb s.bond (fl_count s.bond n_bond i (nth s.bond i).a).2 =
                fl_near FlCase.a_fb s.bond i := hc.symm
            refine fl_merge_keeps n_bond FlCase.a_fb s i _ _ li hi hti hfi hfn hfe hft hsh ?_ ?_
            · intro j hj hji he ht hor
              rw [hsh] at hor
              exact hu j hj hji he ht hor
            · intro e
              have e2 : (nth s.bond (fl_count s.bond n_bond i (nth s.bond i).a).2).a =
                  (nth s.bond i).b := e
              have := hg.2
              unfold fl_d_a at this
              rw [e2] at this
              exact dfbxa_far_nonneg sqrt hs _ _ _ _ this
          · exact fl_keeps_refl _ _
        · rw [if_neg hc]
          have hfa : (nth s.bond i).a = (nth s.bond (fl_count s.bond n_bond i (nth s.bond i).a).2).a := by
            rcases hfs with h | h
            · exact h
            · exact absurd h hc
          split_ifs with hg
          · have hsh : fl_gone FlCase.a_fa s.bond (fl_count s.bond n_bond i (nth s.bond i).a).2 =
                fl_near FlCase.a_fa s.bond i := hfa.symm
            refine fl_merge_keeps n_bond FlCase.a_fa s i _ _ li hi hti hfi hfn hfe hft hsh ?_ ?_
            · intro j hj hji he ht hor
              rw [hsh] at hor
              exact hu j hj hji he ht hor
            · intro e
              have e2 : (nth s.bond (fl_count s.bond n_bond i (nth s.bond i).a).2).b =
                  (nth s.bond i).b := e
              have := hg.2
              unfold fl_d_a at this
              rw [e2] at this
              exact dfbxa_far_nonneg sqrt hs _ _ _ _ this
          · exact fl_keeps_refl _ _
    · simp only [if_neg hn]
      exact fl_keeps_refl _ _
  · rw [if_neg hl]
    exact fl_keeps_refl _ _

/-- The end `b` of bond `i` keeps the ends of the bonds of order below 3. -/
theorem fl_side_b_keeps {K : Type} [LinearOrderedField K] (sqrt : K → K)
    (hs : ∀ v, 0 ≤ sqrt v) (n_bond : Nat) (maxh : K) (s : FlState K) (i : Nat) (li : K)
    (hi : (nth s.bond i).exists_ = true) (hti : (nth s.bond i).type < 3) :
    FlKeeps n_bond s (fl_side_b sqrt n_bond maxh s i li) := by
  unfold fl_side_b
  by_cases hl : (nth s.atom (nth s.bond i).b).label = " "
  · rw [if_pos hl]
    by_cases hn : (fl_count s.bond n_bond i (nth s.bond i).b).1 = 1
    · simp only [if_pos hn]
      have hu := fl_count_unique s.bond n_bond i (nth s.bond i).b hn
      rcases fl_count_spec s.bond n_bond i (nth s.bond i).b with h0 | ⟨_, hfi, hfn, hfe, hft, hfs⟩
      · rw [h0.1] at hn
        exact absurd hn (by decide)
      · by_cases hc : (nth s.bond i).b = (nth s.bond (fl_count s.bond n_bond i (nth s.bond i).b).2).b
        · rw [if_pos hc]
          split_ifs with hg
          · have hsh : fl_gone FlCase.b_fb s.bond (fl_count s.bond n_bond i (nth s.bond i).b).2 =
                fl_near FlCase.b_fb s.bond i := hc.symm
            refine fl_merge_keeps n_bond FlCase.b_fb s i _ _ li hi hti hfi hfn hfe hft hsh ?_ ?_
            · intro j hj hji he ht hor
              rw [hsh] at hor
              exact hu j hj hji he ht hor
            · intro e
              have e2 : (nth s.bond (fl_count s.bond n_bond i (nth s.bond i).b).2).a =
                  (nth s.bond i).a := e
              have := hg.2
              unfold fl_d_b at this
              rw [e2] at this
              exact dfbxb_near_nonpos sqrt hs _ _ _ _ this
          · exact fl_keeps_refl _ _
        · rw [if_neg hc]
          have hfa : (nth s.bond i).b = (nth s.bond (fl_count s.bond n_bond i (nth s.bond i).b).2).a := by
            rcases hfs with h | h
            · exact h
            · exact absurd h hc
          split_ifs with hg
          · have hsh : fl_gone FlCase.b_fa s.bond (fl_count s.bond n_bond i (nth s.bond i).b).2 =
                fl_near FlCase.b_fa s.bond i := hfa.symm
            refine fl_merge_keeps n_bond FlCase.b_fa s i _ _ li hi hti hfi hfn hfe hft hsh ?_ ?_
            · intro j hj hji he ht hor
              rw [hsh] at hor
              exact hu j hj hji he ht hor
            · intro e
              have e2 : (nth s.bond (fl_count s.bond n_bond i (nth s.bond i).b).2).b =
                  (nth s.bond i).a := e
              have := hg.2
              unfold fl_d_b at this
              rw [e2] at this
              exact dfbxb_near_nonpos sqrt hs _ _ _ _ this
          · exact fl_keeps_refl _ _
    · simp only [if_neg hn]
      exact fl_keeps_refl _ _
  · rw [if_neg hl]
    exact fl_keeps_refl _ _
/-- The end `a` leaves bond `i` with an order below 3. -/
theorem fl_side_a_type {K : Type} [LinearOrderedField K] (sqrt : K → K) (n_bond : Nat)
    (maxh : K) (s : FlState K) (i : Nat) (li : K) (hi : (nth s.bond i).exists_ = true)
    (hti : (nth s.bond i).type < 3) :
    (nth (fl_side_a sqrt n_bond maxh s i li).bond i).type < 3 := by
  rcases fl_side_a_spec sqrt n_bond maxh s i li hi with h | ⟨f, _, _, _, hft, _, _, _, _, _, ht, _⟩
  · rw [h]; exact hti
  · rw [ht]
    split_ifs
    · exact hft
    · exact hti

/-- The turn of a bond keeps the ends of the bonds of order below 3. -/
theorem fl_body_keeps {K : Type} [LinearOrderedField K] (sqrt : K → K)
    (hs : ∀ v, 0 ≤ sqrt v) (n_bond : Nat) (maxh : K) (s : FlState K) (i : Nat) :
    FlKeeps n_bond s (fl_body sqrt n_bond maxh s i) := by
  unfold fl_body
  by_cases hc : (nth s.bond i).exists_ = true ∧ (nth s.bond i).type < 3
  · rw [if_pos hc]
    exact fl_keeps_trans n_bond _ _ _
      (fl_side_a_keeps sqrt hs n_bond maxh s i _ hc.1 hc.2)
      (fl_side_b_keeps sqrt hs n_bond maxh _ i _
        (fl_side_a_exists sqrt n_bond maxh s i _ hc.1)
        (fl_side_a_type sqrt n_bond maxh s i _ hc.1 hc.2))
  · rw [if_neg hc]
    exact fl_keeps_refl _ _

/-- A round of the `while` loop keeps the ends of the bonds of order below 3. -/
theorem fl_pass_keeps {K : Type} [LinearOrderedField K] (sqrt : K → K)
    (hs : ∀ v, 0 ≤ sqrt v) (n_bond : Nat) (maxh : K) (atom : List (Atom K))
    (bond : List Bond) :
    FlKeeps n_bond ⟨atom, bond, false⟩ (fl_pass sqrt n_bond maxh atom bond) := by
  unfold fl_pass
  exact foldl_range_inv (fun _ st => FlKeeps n_bond ⟨atom, bond, false⟩ st)
    (fl_body sqrt n_bond maxh) n_bond ⟨atom, bond, false⟩ (fl_keeps_refl _ _)
    (fun i st _ h => fl_keeps_trans n_bond _ _ _ h (fl_body_keeps sqrt hs n_bond maxh st i))

/-- The `while` loop of `flatten_bonds` ends within one round more than there are
existing bonds, and keeps the ends of the bonds of order below 3. -/
theorem fl_loop_keeps {K : Type} [LinearOrderedField K] (sqrt : K → K)
    (hs : ∀ v, 0 ≤ sqrt v) (n_bond : Nat) (maxh : K) :
    ∀ (m : Nat) (bond : List Bond) (atom : List (Atom K)), live_bonds bond n_bond ≤ m →
      ∃ r : List Bond × List (Atom K),
        (∀ fuel, m < fuel → flatten_bonds sqrt n_bond maxh fuel bond atom = some r) ∧
        (LowEnds n_bond atom bond → LowEnds n_bond r.2 r.1) ∧
        (∀ k, (nth r.1 k).exists_ = true → (nth bond k).exists_ = true) ∧
        (∀ k, (nth r.2 k).exists_ = true → (nth atom k).exists_ = true) ∧
        (∀ k, ¬ (nth bond k).type < 3 → nth r.1 k = nth bond k) := by
  intro m
  induction m with
  | zero =>
    intro bond atom hm
    obtain ⟨a, b, c, d, e⟩ := fl_pass_keeps sqrt hs n_bond maxh atom bond
    have hf : ¬ (fl_pass sqrt n_bond maxh atom bond).found = true := by
      rcases e with ⟨f1, _⟩ | ⟨_, l1⟩
      · rw [f1]; exact Bool.false_ne_true
      · have : live_bonds (fl_pass sqrt n_bond maxh atom bond).bond n_bond <
            live_bonds bond n_bond := l1
        omega
    refine ⟨((fl_pass sqrt n_bond maxh atom bond).bond, (fl_pass sqrt n_bond maxh atom bond).atom),
      ?_, a, b, c, d⟩
    intro fuel hfu
    obtain ⟨g, rfl⟩ : ∃ g, fuel = g + 1 := ⟨fuel - 1, by omega⟩
    unfold flatten_bonds
    rw [if_neg hf]
  | succ m ih =>
    intro bond atom hm
    obtain ⟨a, b, c, d, e⟩ := fl_pass_keeps sqrt hs n_bond maxh atom bond
    by_cases hf : (fl_pass sqrt n_bond maxh atom bond).found = true
    · have hl : live_bonds (fl_pass sqrt n_bond maxh atom bond).bond n_bond ≤ m := by
        rcases e with ⟨f1, _⟩ | ⟨_, l1⟩
        · rw [f1] at hf
          exact absurd hf Bool.false_ne_true
        · have : live_bonds (fl_pass sqrt n_bond maxh atom bond).bond n_bond <
              live_bonds bond n_bond := l1
          omega
      obtain ⟨r, r1, r2, r3, r4, r5⟩ := ih (fl_pass sqrt n_bond maxh atom bond).bond
        (fl_pass sqrt n_bond maxh atom bond).atom hl
      refine ⟨r, ?_, fun h => r2 (a h), fun k h => b k (r3 k h), fun k h => c k (r4 k h), ?_⟩
      · intro fuel hfu
        obtain ⟨g, rfl⟩ : ∃ g, fuel = g + 1 := ⟨fuel - 1, by omega⟩
        unfold flatten_bonds
        rw [if_pos hf]
        exact r1 g (by omega)
      · intro k hk
        have hr := d k hk
        rw [r5 k (by rw [hr]; exact hk), hr]
    · refine ⟨((fl_pass sqrt n_bond maxh atom bond).bond,
        (fl_pass sqrt n_bond maxh atom bond).atom), ?_, a, b, c, d⟩
      intro fuel hfu
      obtain ⟨g, rfl⟩ : ∃ g, fuel = g + 1 := ⟨fuel - 1, by omega⟩
      unfold flatten_bonds
      rw [if_neg hf]

theorem live_bonds_le (bond : List Bond) (n_bond : Nat) : live_bonds bond n_bond ≤ n_bond := by
  unfold live_bonds
  exact (List.countP_le_length _).trans (by rw [List.length_range])

theorem qsqrt_nonneg (v : ℚ) : 0 ≤ qsqrt v :=
  div_nonneg (Nat.cast_nonneg _) (Nat.cast_nonneg _)

/-! ## C26: `flatten_bonds` and the ends of the bonds -/

/-- C26 (as amended): for a square root that is never negative and every
atom/bond state in which every existing bond of order below 3 has two distinct
ends at existing atoms, `flatten_bonds` returns within `n_bond + 1` rounds, and
afterwards every existing bond of order below 3 still has two distinct ends at
existing atoms; it brings no deleted bond or atom back and leaves every bond of
order 3 or more exactly as it was, whatever has happened to the atoms at its
ends. -/
theorem flatten_bonds_low_order_ends {K : Type} [LinearOrderedField K] (sqrt : K → K)
    (hs : ∀ v, 0 ≤ sqrt v) (n_bond : Nat) (maxh : K) (bond : List Bond)
    (atom : List (Atom K)) (h : LowEnds n_bond atom bond) :
    ∃ r : List Bond × List (Atom K),
      (∀ fuel, n_bond < fuel → flatten_bonds sqrt n_bond maxh fuel bond atom = some r) ∧
      LowEnds n_bond r.2 r.1 ∧
      (∀ k, (nth r.1 k).exists_ = true → (nth bond k).exists_ = true) ∧
      (∀ k, (nth r.2 k).exists_ = true → (nth atom k).exists_ = true) ∧
      (∀ k, ¬ (nth bond k).type < 3 → nth r.1 k = nth bond k) := by
  obtain ⟨r, r1, r2, r3, r4, r5⟩ :=
    fl_loop_keeps sqrt hs n_bond maxh n_bond bond atom (live_bonds_le bond n_bond)
  exact ⟨r, r1, r2 h, r3, r4, r5⟩

/-- The amended statement at the chain of a short double bond and a long single
bond. -/
theorem flatten_bonds_low_order_ends_witness :
    (∀ v, 0 ≤ qsqrt v) ∧ LowEnds 2 chain_atoms chain_bonds ∧
    ∃ r : List Bond × List (Atom ℚ),
      (∀ fuel, 2 < fuel → flatten_bonds qsqrt 2 5 fuel chain_bonds chain_atoms = some r) ∧
      LowEnds 2 r.2 r.1 ∧
      (∀ k, (nth r.1 k).exists_ = true → (nth chain_bonds k).exists_ = true) ∧
      (∀ k, (nth r.2 k).exists_ = true → (nth chain_atoms k).exists_ = true) ∧
      (∀ k, ¬ (nth chain_bonds k).type < 3 → nth r.1 k = nth chain_bonds k) :=
  have hl : LowEnds 2 chain_atoms chain_bonds := by
    intro k hk _ _
    interval_cases k <;> decide
  ⟨qsqrt_nonneg, hl, flatten_bonds_low_order_ends qsqrt qsqrt_nonneg 2 5 chain_bonds chain_atoms hl⟩

/-- C26 (counterexample): two single bonds 0-1 and 1-2 in a line and a triple
bond 1-3, every bond with two distinct existing ends. `flatten_bonds` merges the
single bonds and deletes atom 1; the triple bond still exists afterwards and its
end 1 does not. -/
theorem flatten_bonds_triple_bond_counterexample :
    (∀ k, k < 3 → (nth triple_bonds k).exists_ = true ∧
      (nth triple_atoms (nth triple_bonds k).a).exists_ = true ∧
      (nth triple_atoms (nth triple_bonds k).b).exists_ = true ∧
      (nth triple_bonds k).a ≠ (nth triple_bonds k).b) ∧
    (flatten_bonds qsqrt 3 3 5 triple_bonds triple_atoms).map
        (fun r => ((nth r.1 2).exists_, (nth r.1 2).a, (nth r.1 2).type, (nth r.2 1).exists_)) =
      some (true, 1, 3, false) := by
  refine ⟨fun k hk => by interval_cases k <;> decide, ?_⟩
  decide!

/-- `terminal_bond` says that no other existing bond touches the atom. -/
theorem terminal_bond_iff (a b : Nat) (bond : List Bond) (n_bond : Nat) :
    terminal_bond a b bond n_bond = true ↔
      ∀ l, l < n_bond →
        ¬ (l ≠ b ∧ (nth bond l).exists_ = true ∧ ((nth bond l).a = a ∨ (nth bond l).b = a)) := by
  unfold terminal_bond
  refine foldl_range_inv
    (fun m (t : Bool) => t = true ↔ ∀ l, l < m →
      ¬ (l ≠ b ∧ (nth bond l).exists_ = true ∧ ((nth bond l).a = a ∨ (nth bond l).b = a)))
    _ n_bond true ⟨fun _ l hl => absurd hl (Nat.not_lt_zero l), fun _ => rfl⟩ ?_
  intro m t _ hP
  by_cases hc : m ≠ b ∧ (nth bond m).exists_ = true ∧ ((nth bond m).a = a ∨ (nth bond m).b = a)
  · simp only [if_pos hc]
    exact ⟨fun h => absurd h Bool.false_ne_true, fun h => absurd hc (h m (Nat.lt_succ_self m))⟩
  · simp only [if_neg hc]
    constructor
    · intro ht l hl
      rcases Nat.lt_succ_iff_lt_or_eq.mp hl with h | h
      · exact hP.mp ht l h
      · rw [h]; exact hc
    · intro h
      exact hP.mpr (fun l hl => h l (Nat.lt_succ_of_lt hl))

theorem terminal_bond_false (a b : Nat) (bond : List Bond) (n_bond : Nat) (l : Nat)
    (hl : l < n_bond) (hlb : l ≠ b) (he : (nth bond l).exists_ = true)
    (ht : (nth bond l).a = a ∨ (nth bond l).b = a) :
    terminal_bond a b bond n_bond = false := by
  cases h : terminal_bond a b bond n_bond
  · rfl
  · exact absurd ⟨hlb, he, ht⟩ ((terminal_bond_iff a b bond n_bond).mp h l hl)

/-- The answer of `terminal_bond(a, b, ...)` does not depend on bond `b`. -/
theorem terminal_bond_congr (a b : Nat) (bond bond2 : List Bond) (n_bond : Nat)
    (h : ∀ l, l ≠ b → nth bond2 l = nth bond l) :
    terminal_bond a b bond2 n_bond = terminal_bond a b bond n_bond := by
  rw [Bool.eq_iff_iff, terminal_bond_iff, terminal_bond_iff]
  constructor
  · intro h1 l hl hc
    exact h1 l hl ⟨hc.1, by rw [h l hc.1]; exact hc.2.1, by rw [h l hc.1]; exact hc.2.2⟩
  · intro h1 l hl hc
    exact h1 l hl ⟨hc.1, by rw [← h l hc.1]; exact hc.2.1, by rw [← h l hc.1]; exact hc.2.2⟩

theorem countP_le_of_mem {α : Type} (p q : α → Bool) (l : List α)
    (h : ∀ x, x ∈ l → p x = true → q x = true) : l.countP p ≤ l.countP q :=
  List.countP_mono_left h

theorem countP_lt_of_mem_of_mem {α : Type} (p q : α → Bool) (l : List α)
    (h : ∀ x, x ∈ l → p x = true → q x = true) (a : α) (ha : a ∈ l) (hq : q a = true)
    (hp : p a = false) : l.countP p < l.countP q := by
  induction l with
  | nil => exact absurd ha (List.not_mem_nil a)
  | cons x xs ih =>
    have hle : xs.countP p ≤ xs.countP q :=
      List.countP_mono_left (fun y hy hpy => h y (List.mem_cons_of_mem x hy) hpy)
    rw [List.countP_cons, List.countP_cons]
    rcases List.mem_cons.mp ha with hax | hax
    · subst hax
      rw [hq, hp]
      simp only [if_true, Bool.false_eq_true, if_false]
      omega
    · have := ih (fun y hy hpy => h y (List.mem_cons_of_mem x hy) hpy) hax
      have hx : (if p x = true then 1 else 0) ≤ (if q x = true then 1 else 0) := by
        by_cases hpx : p x = true
        · rw [if_pos hpx, if_pos (h x (List.mem_cons_self x xs) hpx)]
        · rw [if_neg hpx]
          exact Nat.zero_le _
      omega

theorem et_endpoint_false (bond : List Bond) (j : Nat) :
    et_endpoint false bond j = (nth bond j).a := by
  simp [et_endpoint]

theorem et_endpoint_true (bond : List Bond) (j : Nat) :
    et_endpoint true bond j = (nth bond j).b := by
  simp [et_endpoint]

/-- Moving a terminal end of bond `j` to an atom `l` of another existing bond
makes that end non-terminal, makes no end of an existing bond terminal, and
lowers the number of terminal ends. -/
theorem retarget_terminal (bond bond2 : List Bond) (n_bond j l : Nat) (at_b : Bool)
    (hk : ∀ k, k ≠ j → nth bond2 k = nth bond k)
    (he : (nth bond2 j).exists_ = (nth bond j).exists_)
    (hnew : et_endpoint at_b bond2 j = l)
    (hold : et_endpoint (!at_b) bond2 j = et_endpoint (!at_b) bond j)
    (hj : j < n_bond) (hje : (nth bond j).exists_ = true)
    (hterm : terminal_bond (et_endpoint at_b bond j) j bond n_bond = true)
    (hl : ∃ i, i < n_bond ∧ i ≠ j ∧ (nth bond i).exists_ = true ∧
      ((nth bond i).a = l ∨ (nth bond i).b = l)) :
    terminal_bond (et_endpoint at_b bond2 j) j bond2 n_bond = false ∧
    (∀ (sd : Bool) (k : Nat), k < n_bond → (nth bond k).exists_ = true →
      terminal_bond (et_endpoint sd bond2 k) k bond2 n_bond = true →
      terminal_bond (et_endpoint sd bond k) k bond n_bond = true) ∧
    terminal_ends bond2 n_bond < terminal_ends bond n_bond := by
  obtain ⟨i, hin, hij, hie, hit⟩ := hl
  have hA : terminal_bond (et_endpoint at_b bond2 j) j bond2 n_bond = false := by
    rw [hnew]
    exact terminal_bond_false l j bond2 n_bond i hin hij (by rw [hk i hij]; exact hie)
      (by rw [hk i hij]; exact hit)
  have hends : ∀ (sd : Bool) (k : Nat), (nth bond k).a = et_endpoint sd bond k ∨
      (nth bond k).b = et_endpoint sd bond k := by
    intro sd k
    cases sd
    · exact Or.inl (et_endpoint_false bond k).symm
    · exact Or.inr (et_endpoint_true bond k).symm
  have hB : ∀ (sd : Bool) (k : Nat), k < n_bond → (nth bond k).exists_ = true →
      terminal_bond (et_endpoint sd bond2 k) k bond2 n_bond = true →
      terminal_bond (et_endpoint sd bond k) k bond n_bond = true := by
    intro sd k hkn hke h
    by_cases hkj : k = j
    · subst hkj
      by_cases hsd : sd = at_b
      · rw [hsd, hA] at h
        exact absurd h Bool.false_ne_true
      · have hsd2 : sd = !at_b := by
          cases sd <;> cases at_b <;> simp at hsd ⊢
        rw [hsd2, hold, terminal_bond_congr _ k bond bond2 n_bond hk] at h
        rw [hsd2]
        exact h
    · have e1 : et_endpoint sd bond2 k = et_endpoint sd bond k := by
        unfold et_endpoint
        rw [hk k hkj]
      rw [e1] at h
      rw [terminal_bond_iff] at h ⊢
      intro m hm hc
      by_cases hmj : m = j
      · subst hmj
        have hside : ∀ sd2 : Bool, et_endpoint sd2 bond m = et_endpoint sd bond k →
            sd2 = (!at_b) := by
          intro sd2 h2
          by_contra hne
          have h3 : sd2 = at_b := by
            cases sd2 <;> cases at_b <;> simp at hne ⊢
          rw [h3] at h2
          rw [h2] at hterm
          exact (terminal_bond_iff _ m bond n_bond).mp hterm k hkn ⟨hkj, hke, hends sd k⟩
        have htouch : (nth bond2 m).a = et_endpoint sd bond k ∨
            (nth bond2 m).b = et_endpoint sd bond k := by
          rcases hc.2.2 with h2 | h2
          · have h3 : et_endpoint false bond m = et_endpoint sd bond k := by
              rw [et_endpoint_false]; exact h2
            have h4 := hside false h3
            have h5 : at_b = true := by
              cases at_b
              · simp at h4
              · rfl
            rw [h5] at hold
            simp only [Bool.not_true] at hold
            rw [et_endpoint_false, et_endpoint_false] at hold
            exact Or.inl (hold.trans h2)
          · have h3 : et_endpoint true bond m = et_endpoint sd bond k := by
              rw [et_endpoint_true]; exact h2
            have h4 := hside true h3
            have h5 : at_b = false := by
              cases at_b
              · rfl
              · simp at h4
            rw [h5] at hold
            simp only [Bool.not_false] at hold
            rw [et_endpoint_true, et_endpoint_true] at hold
            exact Or.inr (hold.trans h2)
        exact h m hm ⟨hc.1, by rw [he]; exact hje, htouch⟩
      · exact h m hm ⟨hc.1, by rw [hk m hmj]; exact hc.2.1, by rw [hk m hmj]; exact hc.2.2⟩
  refine ⟨hA, hB, ?_⟩
  have hex : ∀ k, (nth bond2 k).exists_ = (nth bond k).exists_ := by
    intro k
    by_cases hkj : k = j
    · rw [hkj]; exact he
    · rw [hk k hkj]
  have hmono : ∀ (sd : Bool) (k : Nat), k ∈ List.range n_bond →
      ((nth bond2 k).exists_ && terminal_bond (et_endpoint sd bond2 k) k bond2 n_bond) = true →
      ((nth bond k).exists_ && terminal_bond (et_endpoint sd bond k) k bond n_bond) = true := by
    intro sd k hkm h
    rw [Bool.and_eq_true] at h ⊢
    rw [hex k] at h
    exact ⟨h.1, hB sd k (List.mem_range.mp hkm) h.1 h.2⟩
  have hle : ∀ sd : Bool,
      (List.range n_bond).countP
          (fun k => (nth bond2 k).exists_ && terminal_bond (et_endpoint sd bond2 k) k bond2 n_bond) ≤
        (List.range n_bond).countP
          (fun k => (nth bond k).exists_ && terminal_bond (et_endpoint sd bond k) k bond n_bond) :=
    fun sd => countP_le_of_mem _ _ _ (hmono sd)
  have hlt : (List.range n_bond).countP
          (fun k => (nth bond2 k).exists_ &&
            terminal_bond (et_endpoint at_b bond2 k) k bond2 n_bond) <
        (List.range n_bond).countP
          (fun k => (nth bond k).exists_ && terminal_bond (et_endpoint at_b bond k) k bond n_bond) :=
    countP_lt_of_mem_of_mem _ _ _ (hmono at_b) j (List.mem_range.mpr hj)
      (by simp only [hje, hterm, Bool.and_self])
      (by simp only [hA, Bool.and_false])
  have hte : ∀ b2 : List Bond, terminal_ends b2 n_bond =
      (List.range n_bond).countP
          (fun k => (nth b2 k).exists_ && terminal_bond (et_endpoint false b2 k) k b2 n_bond) +
        (List.range n_bond).countP
          (fun k => (nth b2 k).exists_ && terminal_bond (et_endpoint true b2 k) k b2 n_bond) := by
    intro b2
    simp only [terminal_ends, et_endpoint_false, et_endpoint_true]
  rw [hte bond2, hte bond]
  cases at_b
  · have := hle true
    omega
  · have := hle false
    omega
/-- A candidate end is taken or the search state is left as it is. -/
theorem et_candidate_cases {K : Type} [LinearOrderedField K] (sqrt : K → K) (at_b : Bool)
    (avg : K) (c : EtCtx K) (y_dist y_dist1 h1 : K) (atom : List (Atom K)) (bond : List Bond)
    (j : Nat) (s : EtSearch K) (q : Nat) :
    et_candidate sqrt at_b avg c y_dist y_dist1 h1 atom bond j s q = s ∨
    ((et_candidate sqrt at_b avg c y_dist y_dist1 h1 atom bond j s q).found = true ∧
      (et_candidate sqrt at_b avg c y_dist y_dist1 h1 atom bond j s q).l = (q : Int) ∧
      q ≠ (nth bond j).a ∧ q ≠ (nth bond j).b) := by
  have key : ∀ (C : Prop) [Decidable C] (A : EtSearch K), A.found = true → A.l = (q : Int) →
      ((if C then A else s) = s ∨
        ((if C then A else s).found = true ∧ (if C then A else s).l = (q : Int))) := by
    intro C _ A a1 a2
    by_cases hC : C
    · rw [if_pos hC]; exact Or.inr ⟨a1, a2⟩
    · rw [if_neg hC]; exact Or.inl rfl
  unfold et_candidate
  by_cases hq : q ≠ (nth bond j).a ∧ q ≠ (nth bond j).b
  · rw [if_pos hq]
    exact (key _ _ rfl rfl).imp id (fun h => ⟨h.1, h.2, hq.1, hq.2⟩)
  · rw [if_neg hq]
    exact Or.inl rfl

/-- What a search has found: an end, other than the ends of bond `j`, of
another existing bond, and only when the end of bond `j` is terminal. -/
theorem et_search_spec {K : Type} [LinearOrderedField K] (sqrt : K → K) (at_b : Bool)
    (FLT_MAX avg maxh max_dist_double_bond : K) (c : EtCtx K) (atom : List (Atom K))
    (bond : List Bond) (n_bond j : Nat)
    (hf : (et_search sqrt at_b FLT_MAX avg maxh max_dist_double_bond c atom bond n_bond j).found
      = true) :
    (if at_b = true then c.not_corner_b else c.not_corner_a) = true ∧
    ∃ q : Nat,
      (et_search sqrt at_b FLT_MAX avg maxh max_dist_double_bond c atom bond n_bond j).l
        = (q : Int) ∧
      q ≠ (nth bond j).a ∧ q ≠ (nth bond j).b ∧
      ∃ i, i < n_bond ∧ i ≠ j ∧ (nth bond i).exists_ = true ∧
        ((nth bond i).a = q ∨ (nth bond i).b = q) := by
  have h := foldl_range_inv
    (fun m (st : EtSearch K) => st.found = true →
      (if at_b = true then c.not_corner_b else c.not_corner_a) = true ∧
      ∃ q : Nat, st.l = (q : Int) ∧ q ≠ (nth bond j).a ∧ q ≠ (nth bond j).b ∧
        ∃ i, i < m ∧ i ≠ j ∧ (nth bond i).exists_ = true ∧
          ((nth bond i).a = q ∨ (nth bond i).b = q))
    (et_scan sqrt at_b avg maxh max_dist_double_bond c atom bond j) n_bond ⟨false, -1, FLT_MAX⟩
    (fun h0 => absurd h0 Bool.false_ne_true)
    (by
      intro i st _ hP
      have hkeep : st.found = true →
          (if at_b = true then c.not_corner_b else c.not_corner_a) = true ∧
          ∃ q : Nat, st.l = (q : Int) ∧ q ≠ (nth bond j).a ∧ q ≠ (nth bond j).b ∧
            ∃ i2, i2 < i + 1 ∧ i2 ≠ j ∧ (nth bond i2).exists_ = true ∧
              ((nth bond i2).a = q ∨ (nth bond i2).b = q) := by
        intro h1
        obtain ⟨a1, q, a2, a3, a4, i2, a5, a6⟩ := hP h1
        exact ⟨a1, q, a2, a3, a4, i2, Nat.lt_succ_of_lt a5, a6⟩
      unfold et_scan
      by_cases he : (nth bond i).exists_ = true ∧ i ≠ j
      · rw [if_pos he]
        by_cases hcn : (if at_b = true then c.not_corner_b else c.not_corner_a) = true
        · rw [if_pos hcn]
          intro hfound
          rcases et_candidate_cases sqrt at_b avg c
              (et_y_dist maxh max_dist_double_bond (nth bond j))
              (et_y_dist maxh max_dist_double_bond (nth bond i))
              |distance_from_bond_y sqrt (nth atom (nth bond i).a).x (nth atom (nth bond i).a).y
                (nth atom (nth bond i).b).x (nth atom (nth bond i).b).y
                (if at_b = true then c.xb else c.xa) (if at_b = true then c.yb else c.ya)|
              atom bond j
              (et_candidate sqrt at_b avg c
                (et_y_dist maxh max_dist_double_bond (nth bond j))
                (et_y_dist maxh max_dist_double_bond (nth bond i))
                |distance_from_bond_y sqrt (nth atom (nth bond i).a).x
                  (nth atom (nth bond i).a).y
                  (nth atom (nth bond i).b).x (nth atom (nth bond i).b).y
                  (if at_b = true then c.xb else c.xa) (if at_b = true then c.yb else c.ya)|
                atom bond j st (nth bond i).a)
              (nth bond i).b with h2 | ⟨_, h2, h3, h4⟩
          · rw [h2] at hfound ⊢
            rcases et_candidate_cases sqrt at_b avg c
                (et_y_dist maxh max_dist_double_bond (nth bond j))
                (et_y_dist maxh max_dist_double_bond (nth bond i))
                |distance_from_bond_y sqrt (nth atom (nth bond i).a).x
                  (nth atom (nth bond i).a).y
                  (nth atom (nth bond i).b).x (nth atom (nth bond i).b).y
                  (if at_b = true then c.xb else c.xa) (if at_b = true then c.yb else c.ya)|
                atom bond j st (nth bond i).a with h5 | ⟨_, h5, h6, h7⟩
            · rw [h5] at hfound ⊢
              exact hkeep hfound
            · exact ⟨hcn, (nth bond i).a, h5, h6, h7, i, Nat.lt_succ_self i, he.2, he.1,
                Or.inl rfl⟩
          · exact ⟨hcn, (nth bond i).b, h2, h3, h4, i, Nat.lt_succ_self i, he.2, he.1,
              Or.inr rfl⟩
        · rw [if_neg hcn]
          exact hkeep
      · rw [if_neg he]
        exact hkeep)
  exact h hf

theorem et_keeps_refl {K : Type} [Zero K] (n_bond : Nat) (s : EtState K) :
    EtKeeps n_bond s s :=
  ⟨fun _ => rfl, fun _ => rfl, fun _ => rfl, Nat.le_refl _, Or.inl ⟨rfl, rfl⟩⟩

theorem et_keeps_trans {K : Type} [Zero K] (n_bond : Nat) (s r t : EtState K)
    (h1 : EtKeeps n_bond s r) (h2 : EtKeeps n_bond r t) : EtKeeps n_bond s t := by
  obtain ⟨a1, b1, c1, d1, e1⟩ := h1
  obtain ⟨a2, b2, c2, d2, e2⟩ := h2
  refine ⟨fun k => (a2 k).trans (a1 k), fun k => (b2 k).trans (b1 k),
    fun k => (c2 k).trans (c1 k), le_trans d2 d1, ?_⟩
  rcases e1 with ⟨f1, l1⟩ | ⟨f1, l1⟩
  · rcases e2 with ⟨f2, l2⟩ | ⟨f2, l2⟩
    · exact Or.inl ⟨f2.trans f1, l2.trans l1⟩
    · exact Or.inr ⟨f2, l1 ▸ l2⟩
  · rcases e2 with ⟨f2, l2⟩ | ⟨f2, l2⟩
    · exact Or.inr ⟨f2.trans f1, l2 ▸ l1⟩
    · exact Or.inr ⟨f2, lt_trans l1 l2⟩

/-- The bond vector after a retargeting. -/
theorem et_retarget_bond {K : Type} [LinearOrderedField K] (at_b : Bool) (s : EtState K)
    (j l : Nat) (hje : (nth s.bond j).exists_ = true) :
    (∀ k, k ≠ j → nth (et_retarget at_b s j l).bond k = nth s.bond k) ∧
    (nth (et_retarget at_b s j l).bond j).exists_ = (nth s.bond j).exists_ ∧
    (nth (et_retarget at_b s j l).bond j).type = (nth s.bond j).type ∧
    et_endpoint at_b (et_retarget at_b s j l).bond j = l ∧
    et_endpoint (!at_b) (et_retarget at_b s j l).bond j = et_endpoint (!at_b) s.bond j := by
  have hjl : j < s.bond.length := exists_lt_length _ _ hje
  cases at_b
  · have hb : (et_retarget false s j l).bond = set_a s.bond j l := by
      simp [et_retarget]
    rw [hb]
    unfold set_a
    refine ⟨fun k hk => nth_modify_ne _ _ _ _ (Ne.symm hk), ?_, ?_, ?_, ?_⟩
    · rw [nth_modify_eq _ _ _ hjl]
    · rw [nth_modify_eq _ _ _ hjl]
    · rw [et_endpoint_false, nth_modify_eq _ _ _ hjl]
    · simp only [Bool.not_false, et_endpoint_true]
      rw [nth_modify_eq _ _ _ hjl]
  · have hb : (et_retarget true s j l).bond = set_b s.bond j l := by
      simp [et_retarget]
    rw [hb]
    unfold set_b
    refine ⟨fun k hk => nth_modify_ne _ _ _ _ (Ne.symm hk), ?_, ?_, ?_, ?_⟩
    · rw [nth_modify_eq _ _ _ hjl]
    · rw [nth_modify_eq _ _ _ hjl]
    · rw [et_endpoint_true, nth_modify_eq _ _ _ hjl]
    · simp only [Bool.not_true, et_endpoint_false]
      rw [nth_modify_eq _ _ _ hjl]

/-- A search at an end of bond `j` and what follows it: nothing, or the
retargeting of a terminal end. -/
theorem et_end_spec {K : Type} [LinearOrderedField K] (sqrt : K → K) (at_b : Bool)
    (FLT_MAX avg maxh max_dist_double_bond : K) (n_bond : Nat) (c : EtCtx K) (s : EtState K)
    (j : Nat) (hj : j < n_bond) (hje : (nth s.bond j).exists_ = true)
    (hc : (if at_b = true then c.not_corner_b else c.not_corner_a) =
      terminal_bond (et_endpoint at_b s.bond j) j s.bond n_bond) :
    EtKeeps n_bond s (et_end sqrt at_b FLT_MAX avg maxh max_dist_double_bond n_bond c s j) ∧
    (et_end sqrt at_b FLT_MAX avg maxh max_dist_double_bond n_bond c s j = s ∨
      (EtRetargeted n_bond at_b s
          (et_end sqrt at_b FLT_MAX avg maxh max_dist_double_bond n_bond c s j) j ∧
        (∀ k, k ≠ j →
          nth (et_end sqrt at_b FLT_MAX avg maxh max_dist_double_bond n_bond c s j).bond k =
            nth s.bond k) ∧
        et_endpoint (!at_b)
            (et_end sqrt at_b FLT_MAX avg maxh max_dist_double_bond n_bond c s j).bond j =
          et_endpoint (!at_b) s.bond j)) := by
  unfold et_end
  by_cases hf : (et_search sqrt at_b FLT_MAX avg maxh max_dist_double_bond c s.atom s.bond
      n_bond j).found = true
  · rw [if_pos hf]
    obtain ⟨hcn, q, hq, _, _, hi⟩ := et_search_spec sqrt at_b FLT_MAX avg maxh
      max_dist_double_bond c s.atom s.bond n_bond j hf
    have hl : (et_search sqrt at_b FLT_MAX avg maxh max_dist_double_bond c s.atom s.bond
        n_bond j).l.toNat = q := by
      rw [hq]; exact Int.toNat_ofNat q
    rw [hl]
    have hterm : terminal_bond (et_endpoint at_b s.bond j) j s.bond n_bond = true := by
      rw [← hc]; exact hcn
    obtain ⟨b1, b2, b3, b4, b5⟩ := et_retarget_bond at_b s j q hje
    obtain ⟨t1, t2, t3⟩ := retarget_terminal s.bond (et_retarget at_b s j q).bond n_bond j q at_b
      b1 b2 b4 b5 hj hje hterm hi
    have hr : (et_retarget at_b s j q).retargets = s.retargets + 1 := rfl
    have hfi : (et_retarget at_b s j q).found_intersection = true := rfl
    refine ⟨⟨?_, ?_, ?_, ?_, Or.inr ⟨hfi, by rw [hr]; exact Nat.lt_succ_self _⟩⟩,
      Or.inr ⟨⟨hterm, t1, t2, hr, hfi⟩, b1, b5⟩⟩
    · intro k
      by_cases hkj : k = j
      · rw [hkj]; exact b2
      · rw [b1 k hkj]
    · intro k
      by_cases hkj : k = j
      · rw [hkj]; exact b3
      · rw [b1 k hkj]
    · intro k
      show (nth (set_y (set_x s.atom q _) q _) k).exists_ = _
      rw [exists_set_y, exists_set_x]
    · rw [hr]
      omega
  · rw [if_neg hf]
    exact ⟨et_keeps_refl _ _, Or.inl rfl⟩
/-- The turn of bond `j`: at each end nothing happens or a terminal end is
retargeted. -/
theorem et_body_spec {K : Type} [LinearOrderedField K] (sqrt : K → K)
    (FLT_MAX avg maxh max_dist_double_bond : K) (n_bond : Nat) (s : EtState K) (j : Nat)
    (hj : j < n_bond) :
    EtKeeps n_bond s (et_body sqrt FLT_MAX avg maxh max_dist_double_bond n_bond s j) ∧
    ((nth s.bond j).exists_ = true →
      (et_end sqrt false FLT_MAX avg maxh max_dist_double_bond n_bond
            (et_ctx sqrt s.atom s.bond n_bond j) s j = s ∨
        EtRetargeted n_bond false s
          (et_end sqrt false FLT_MAX avg maxh max_dist_double_bond n_bond
            (et_ctx sqrt s.atom s.bond n_bond j) s j) j) ∧
      (et_body sqrt FLT_MAX avg maxh max_dist_double_bond n_bond s j =
          et_end sqrt false FLT_MAX avg maxh max_dist_double_bond n_bond
            (et_ctx sqrt s.atom s.bond n_bond j) s j ∨
        EtRetargeted n_bond true
          (et_end sqrt false FLT_MAX avg maxh max_dist_double_bond n_bond
            (et_ctx sqrt s.atom s.bond n_bond j) s j)
          (et_body sqrt FLT_MAX avg maxh max_dist_double_bond n_bond s j) j)) := by
  by_cases hje : (nth s.bond j).exists_ = true
  · have hb : et_body sqrt FLT_MAX avg maxh max_dist_double_bond n_bond s j =
        et_end sqrt true FLT_MAX avg maxh max_dist_double_bond n_bond
          (et_ctx sqrt s.atom s.bond n_bond j)
          (et_end sqrt false FLT_MAX avg maxh max_dist_double_bond n_bond
            (et_ctx sqrt s.atom s.bond n_bond j) s j) j := by
      unfold et_body
      rw [if_pos hje]
    have hca : (if false = true then (et_ctx sqrt s.atom s.bond n_bond j).not_corner_b
        else (et_ctx sqrt s.atom s.bond n_bond j).not_corner_a) =
        terminal_bond (et_endpoint false s.bond j) j s.bond n_bond := by
      rw [et_endpoint_false]
      rfl
    obtain ⟨k1, c1⟩ := et_end_spec sqrt false FLT_MAX avg maxh max_dist_double_bond n_bond
      (et_ctx sqrt s.atom s.bond n_bond j) s j hj hje hca
    have hje1 : (nth (et_end sqrt false FLT_MAX avg maxh max_dist_double_bond n_bond
        (et_ctx sqrt s.atom s.bond n_bond j) s j).bond j).exists_ = true := by
      rw [k1.1 j]; exact hje
    have hcb : (if true = true then (et_ctx sqrt s.atom s.bond n_bond j).not_corner_b
        else (et_ctx sqrt s.atom s.bond n_bond j).not_corner_a) =
        terminal_bond (et_endpoint true
          (et_end sqrt false FLT_MAX avg maxh max_dist_double_bond n_bond
            (et_ctx sqrt s.atom s.bond n_bond j) s j).bond j) j
          (et_end sqrt false FLT_MAX avg maxh max_dist_double_bond n_bond
            (et_ctx sqrt s.atom s.bond n_bond j) s j).bond n_bond := by
      have h0 : (if true = true then (et_ctx sqrt s.atom s.bond n_bond j).not_corner_b
          else (et_ctx sqrt s.atom s.bond n_bond j).not_corner_a) =
          terminal_bond (et_endpoint true s.bond j) j s.bond n_bond := by
        rw [et_endpoint_true]
        rfl
      rw [h0]
      rcases c1 with h | ⟨_, b1, b5⟩
      · rw [h]
      · have b6 : et_endpoint true
            (et_end sqrt false FLT_MAX avg maxh max_dist_double_bond n_bond
              (et_ctx sqrt s.atom s.bond n_bond j) s j).bond j = et_endpoint true s.bond j := b5
        rw [b6]
        exact (terminal_bond_congr _ j s.bond _ n_bond b1).symm
    obtain ⟨k2, c2⟩ := et_end_spec sqrt true FLT_MAX avg maxh max_dist_double_bond n_bond
      (et_ctx sqrt s.atom s.bond n_bond j) _ j hj hje1 hcb
    rw [hb]
    refine ⟨et_keeps_trans n_bond _ _ _ k1 k2, fun _ => ⟨?_, ?_⟩⟩
    · rcases c1 with h | ⟨h, _⟩
      · exact Or.inl h
      · exact Or.inr h
    · rcases c2 with h | ⟨h, _⟩
      · exact Or.inl h
      · exact Or.inr h
  · refine ⟨?_, fun h => absurd h hje⟩
    unfold et_body
    rw [if_neg hje]
    exact et_keeps_refl _ _

/-- A round of the `while` loop. -/
theorem et_pass_keeps {K : Type} [LinearOrderedField K] (sqrt : K → K)
    (FLT_MAX avg maxh max_dist_double_bond : K) (n_bond : Nat) (s : EtState K) :
    EtKeeps n_bond ⟨s.atom, s.bond, false, s.retargets⟩
      (et_pass sqrt FLT_MAX avg maxh max_dist_double_bond n_bond s) := by
  unfold et_pass
  exact foldl_range_inv
    (fun _ st => EtKeeps n_bond ⟨s.atom, s.bond, false, s.retargets⟩ st)
    (et_body sqrt FLT_MAX avg maxh max_dist_double_bond n_bond) n_bond
    ⟨s.atom, s.bond, false, s.retargets⟩ (et_keeps_refl _ _)
    (fun i st hi h => et_keeps_trans n_bond _ _ _ h
      (et_body_spec sqrt FLT_MAX avg maxh max_dist_double_bond n_bond st i hi).1)

/-- The `while` loop ends within one round more than there are terminal ends. -/
theorem et_loop_spec {K : Type} [LinearOrderedField K] (sqrt : K → K)
    (FLT_MAX avg maxh max_dist_double_bond : K) (n_bond : Nat) :
    ∀ (m : Nat) (s : EtState K), terminal_ends s.bond n_bond ≤ m →
      ∃ r : EtState K,
        (∀ fuel, m < fuel →
          et_loop sqrt FLT_MAX avg maxh max_dist_double_bond n_bond fuel s = some r) ∧
        (∀ k, (nth r.bond k).exists_ = (nth s.bond k).exists_) ∧
        (∀ k, (nth r.bond k).type = (nth s.bond k).type) ∧
        (∀ k, (nth r.atom k).exists_ = (nth s.atom k).exists_) ∧
        terminal_ends r.bond n_bond + r.retargets ≤ terminal_ends s.bond n_bond + s.retargets := by
  intro m
  induction m with
  | zero =>
    intro s hm
    obtain ⟨a, b, c, d, e⟩ := et_pass_keeps sqrt FLT_MAX avg maxh max_dist_double_bond n_bond s
    have hf : ¬ (et_pass sqrt FLT_MAX avg maxh max_dist_double_bond n_bond s).found_intersection
        = true := by
      rcases e with ⟨f1, _⟩ | ⟨_, l1⟩
      · rw [f1]; exact Bool.false_ne_true
      · have h1 : s.retargets <
            (et_pass sqrt FLT_MAX avg maxh max_dist_double_bond n_bond s).retargets := l1
        have h2 : terminal_ends (et_pass sqrt FLT_MAX avg maxh max_dist_double_bond n_bond s).bond
            n_bond + (et_pass sqrt FLT_MAX avg maxh max_dist_double_bond n_bond s).retargets ≤
            terminal_ends s.bond n_bond + s.retargets := d
        omega
    refine ⟨et_pass sqrt FLT_MAX avg maxh max_dist_double_bond n_bond s, ?_, a, b, c, d⟩
    intro fuel hfu
    obtain ⟨g, rfl⟩ : ∃ g, fuel = g + 1 := ⟨fuel - 1, by omega⟩
    unfold et_loop
    rw [if_neg hf]
  | succ m ih =>
    intro s hm
    obtain ⟨a, b, c, d, e⟩ := et_pass_keeps sqrt FLT_MAX avg maxh max_dist_double_bond n_bond s
    have h2 : terminal_ends (et_pass sqrt FLT_MAX avg maxh max_dist_double_bond n_bond s).bond
        n_bond + (et_pass sqrt FLT_MAX avg maxh max_dist_double_bond n_bond s).retargets ≤
        terminal_ends s.bond n_bond + s.retargets := d
    by_cases hf : (et_pass sqrt FLT_MAX avg maxh max_dist_double_bond n_bond s).found_intersection
        = true
    · have hl : terminal_ends (et_pass sqrt FLT_MAX avg maxh max_dist_double_bond n_bond s).bond
          n_bond ≤ m := by
        rcases e with ⟨f1, _⟩ | ⟨_, l1⟩
        · rw [f1] at hf
          exact absurd hf Bool.false_ne_true
        · have h1 : s.retargets <
              (et_pass sqrt FLT_MAX avg maxh max_dist_double_bond n_bond s).retargets := l1
          omega
      obtain ⟨r, r1, r2, r3, r4, r5⟩ :=
        ih (et_pass sqrt FLT_MAX avg maxh max_dist_double_bond n_bond s) hl
      refine ⟨r, ?_, fun k => (r2 k).trans (a k), fun k => (r3 k).trans (b k),
        fun k => (r4 k).trans (c k), le_trans r5 h2⟩
      intro fuel hfu
      obtain ⟨g, rfl⟩ : ∃ g, fuel = g + 1 := ⟨fuel - 1, by omega⟩
      unfold et_loop
      rw [if_pos hf]
      exact r1 g (by omega)
    · refine ⟨et_pass sqrt FLT_MAX avg maxh max_dist_double_bond n_bond s, ?_, a, b, c, d⟩
      intro fuel hfu
      obtain ⟨g, rfl⟩ : ∃ g, fuel = g + 1 := ⟨fuel - 1, by omega⟩
      unfold et_loop
      rw [if_neg hf]

theorem terminal_ends_le (bond : List Bond) (n_bond : Nat) :
    terminal_ends bond n_bond ≤ 2 * n_bond := by
  unfold terminal_ends
  have h1 := List.countP_le_length
    (fun k => (nth bond k).exists_ && terminal_bond (nth bond k).a k bond n_bond)
    (l := List.range n_bond)
  have h2 := List.countP_le_length
    (fun k => (nth bond k).exists_ && terminal_bond (nth bond k).b k bond n_bond)
    (l := List.range n_bond)
  rw [List.length_range] at h1 h2
  omega

/-! ## C29: `extend_terminal_bond_to_bonds` terminates -/

/-- C29: in the turn of an existing bond `j`, at end `a` and then at end `b`,
`extend_terminal_bond_to_bonds` leaves the state as it is or retargets the end:
the end was terminal (its atom touched by no other existing bond), it is not
terminal afterwards, and no end of an existing bond that was not terminal has
become terminal. Hence on every atom/bond state the function returns within
`2 * n_bond + 1` rounds of its `while` loop, having made at most `2 * n_bond`
retargetings (at most as many as the number of terminal ends has gone down), and
it changes no `exists` flag of a bond or an atom and no bond order. -/
theorem extend_terminal_bond_to_bonds_terminates {K : Type} [LinearOrderedField K]
    (sqrt : K → K) (FLT_MAX avg maxh max_dist_double_bond : K) (n_bond : Nat) :
    (∀ (s : EtState K) (j : Nat), j < n_bond → (nth s.bond j).exists_ = true →
      (et_end sqrt false FLT_MAX avg maxh max_dist_double_bond n_bond
            (et_ctx sqrt s.atom s.bond n_bond j) s j = s ∨
        EtRetargeted n_bond false s
          (et_end sqrt false FLT_MAX avg maxh max_dist_double_bond n_bond
            (et_ctx sqrt s.atom s.bond n_bond j) s j) j) ∧
      (et_body sqrt FLT_MAX avg maxh max_dist_double_bond n_bond s j =
          et_end sqrt false FLT_MAX avg maxh max_dist_double_bond n_bond
            (et_ctx sqrt s.atom s.bond n_bond j) s j ∨
        EtRetargeted n_bond true
          (et_end sqrt false FLT_MAX avg maxh max_dist_double_bond n_bond
            (et_ctx sqrt s.atom s.bond n_bond j) s j)
          (et_body sqrt FLT_MAX avg maxh max_dist_double_bond n_bond s j) j)) ∧
    ∀ (atom : List (Atom K)) (bond : List Bond),
      ∃ r : EtState K,
        (∀ fuel, 2 * n_bond < fuel →
          extend_terminal_bond_to_bonds sqrt FLT_MAX fuel atom bond n_bond avg maxh
            max_dist_double_bond = some r) ∧
        r.retargets ≤ 2 * n_bond ∧
        terminal_ends r.bond n_bond + r.retargets ≤ terminal_ends bond n_bond ∧
        (∀ k, (nth r.bond k).exists_ = (nth bond k).exists_) ∧
        (∀ k, (nth r.bond k).type = (nth bond k).type) ∧
        (∀ k, (nth r.atom k).exists_ = (nth atom k).exists_) := by
  refine ⟨fun s j hj hje =>
    (et_body_spec sqrt FLT_MAX avg maxh max_dist_double_bond n_bond s j hj).2 hje, ?_⟩
  intro atom bond
  obtain ⟨r, r1, r2, r3, r4, r5⟩ := et_loop_spec sqrt FLT_MAX avg maxh max_dist_double_bond
    n_bond (2 * n_bond) ⟨atom, bond, true, 0⟩ (terminal_ends_le bond n_bond)
  have h5 : terminal_ends r.bond n_bond + r.retargets ≤ terminal_ends bond n_bond := r5
  have h6 := terminal_ends_le bond n_bond
  exact ⟨r, r1, by omega, h5, r2, r3, r4⟩

end Osra
